import Mathlib

/-!
idril: pairing heap (libidril/pairing_heap.hpp)

A shallow embedding of the pointer-based pairing heap.  Nodes live in an
explicit memory (addresses are natural numbers, `none` is the null pointer);
every member function of the C++ class becomes a function that threads the
memory and the heap record (`root_`, `size_`) through.  Loops are unrolled by
structural recursion on a fuel argument; dereferencing a null or unallocated
pointer, which is undefined behaviour in the source, is reported as
`Fault.bad_access`.

The definitions come in two groups.  The first is the embedding of the source,
one definition per C++ function or loop, under the source's names.  The second
is the abstract view: the tree drawn by the `left_` / `right_` links, the
predicates that tie such a tree to the memory, and list-level counterparts of
the algorithms.  The theorems first relate every function of the embedding to
its list-level counterpart, in weakest-precondition form (`wp`) and for both
merge strategies, and then derive the properties of the data structure.

`size_` is an `unsigned long long` counter of live nodes.  Every live node
occupies its own storage, so the counter cannot wrap before the address space
is exhausted; it is modelled as a natural number.

In `second_pass` the source declares the loop variable as
`auto* const parent` and then assigns to it; the embedding reads it as the
ordinary mutable loop variable the loop needs.

`operator=` calls `swap(*this, other)` from inside the class, where the name
`swap` finds the one-argument member function; the embedding reads the call as
the exchange the free function `swap(lhs, rhs)` performs, `lhs.swap(rhs)`.
The by-value parameter is destroyed when `operator=` returns, so `clear`
(`*this = PairingHeap()`) runs the destructor on the previous contents.

The copy constructor passes `other` itself to `deep_copy`, which takes a node
pointer; the embedding reads the argument as `other.root_`.

idril: binary search tree (libidril/bst.hpp)

The map `Bst` lives in the same memory model.  A `BstNode` has the members
`data_`, `parent_`, `left_` and `right_` of a `PairingNode`, with `data_` the
pair of key and mapped value, so the node type of the heap is reused at the
type of pairs.  The `BstNode**` that `find_spot` returns points to the `left_`
or to the `right_` member of a node and is modelled by `SonRef`.  The pointer
to a mapped value that `lookup` returns is identified with the address of the
node that holds the value.  `size_` is modelled as a natural number; `--size_`
is reached only after a node of the map was extracted.

`find_node` spells the members `pos->left` and `pos->right`; the embedding
reads them as `left_` and `right_`.  The copy constructor of `Bst` is left
unimplemented in the source and has no counterpart here.
-/

namespace idril

/-- Ways in which a call can fail to return normally. -/
inductive Fault where
  | out_of_range
  | bad_access
  | out_of_fuel
  deriving DecidableEq, Repr

/-- A nullable node pointer (`node_t*`). -/
abbrev Ptr := Option Nat

/-- The struct `PairingNode`. -/
structure PairingNode (T : Type) where
  data_ : T
  parent_ : Ptr
  left_ : Ptr
  right_ : Ptr
  deriving DecidableEq, Repr

/-- The free store: the allocated cells and the next address the allocator hands out. -/
structure Memory (T : Type) where
  cell : Nat → Option (PairingNode T)
  brk : Nat

/-- The data members `root_` and `size_` of `PairingHeap`. -/
structure PairingHeap where
  root_ : Ptr
  size_ : Nat
  deriving DecidableEq, Repr

/-- The selectable merge strategies that have an implementation. -/
inductive MergeMode where
  | TwoPass
  | FifoQueue
  deriving DecidableEq, Repr

variable {T : Type}

variable {K V : Type}

/-- Read through a pointer: `*p`. -/
def Memory.deref (m : Memory T) (p : Ptr) : Except Fault (PairingNode T) :=
  match p with
  | none => Except.error Fault.bad_access
  | some a =>
    match m.cell a with
    | none => Except.error Fault.bad_access
    | some n => Except.ok n

/-- Overwrite the cell at an address. -/
def Memory.put (m : Memory T) (a : Nat) (n : Option (PairingNode T)) : Memory T :=
  { cell := fun b => if b = a then n else m.cell b, brk := m.brk }

/-- Write through a pointer after applying `f` to the pointee. -/
def Memory.modify (m : Memory T) (p : Ptr) (f : PairingNode T → PairingNode T) :
    Except Fault (Memory T) :=
  match p with
  | none => Except.error Fault.bad_access
  | some a =>
    match m.cell a with
    | none => Except.error Fault.bad_access
    | some n => Except.ok (m.put a (some (f n)))

/-- The assignment `p->parent_ = q`. -/
def Memory.set_parent (m : Memory T) (p q : Ptr) : Except Fault (Memory T) :=
  m.modify p (fun n => { n with parent_ := q })

/-- The assignment `p->left_ = q`. -/
def Memory.set_left (m : Memory T) (p q : Ptr) : Except Fault (Memory T) :=
  m.modify p (fun n => { n with left_ := q })

/-- The assignment `p->right_ = q`. -/
def Memory.set_right (m : Memory T) (p q : Ptr) : Except Fault (Memory T) :=
  m.modify p (fun n => { n with right_ := q })

/-- Assignment through the reference returned by `get_handle_data`. -/
def Memory.set_data (m : Memory T) (p : Ptr) (v : T) : Except Fault (Memory T) :=
  m.modify p (fun n => { n with data_ := v })

/-- The memory in which nothing is allocated. -/
def Memory.init : Memory T := { cell := fun _ => none, brk := 0 }

/-- `new_node`: allocate a cell and construct a singleton node in it. -/
def new_node (m : Memory T) (v : T) : Memory T × Ptr :=
  ({ cell := fun b => if b = m.brk then some ⟨v, none, none, none⟩ else m.cell b,
     brk := m.brk + 1 }, some m.brk)

/-- `delete_node`: destroy and deallocate when the pointer is not null. -/
def delete_node (m : Memory T) (node : Ptr) : Except Fault (Memory T) :=
  match node with
  | none => Except.ok m
  | some a =>
    match m.cell a with
    | none => Except.error Fault.bad_access
    | some _ => Except.ok (m.put a none)

/-- `details::AlwaysTrueCmp`. -/
def AlwaysTrueCmp (_ _ : T) : Bool := true

/-- `PairingHeap::pair`. -/
def pair (cmp : T → T → Bool) (m : Memory T) (lhs rhs : Ptr) :
    Except Fault (Memory T × Ptr) := do
  let l ← m.deref lhs
  let r ← m.deref rhs
  let areOrdered := cmp l.data_ r.data_
  let parent := if areOrdered then lhs else rhs
  let son := if areOrdered then rhs else lhs
  let oldLeftSon := (← m.deref parent).left_
  let m ← m.set_parent son parent
  let m ← m.set_right son oldLeftSon
  let m ← m.set_left parent son
  let m ← (match oldLeftSon with
    | some o => m.set_parent (some o) son
    | none => pure m : Except Fault (Memory T))
  pure (m, parent)

/-- The `for (;;)` loop of `PairingHeap::first_pass`, entered with `prev` and `next`. -/
def first_pass_loop (cmp : T → T → Bool) :
    Nat → Memory T → Ptr → Ptr → Except Fault (Memory T × Ptr)
  | 0, _, _, _ => Except.error Fault.out_of_fuel
  | fuel + 1, m, prev, next =>
    match next with
    | none => pure (m, prev)
    | some f => do
      let first : Ptr := some f
      let second := (← m.deref first).right_
      let (m, paired, next) ←
        (match second with
        | some s => do
          let next := (← m.deref (some s)).right_
          let m ← m.set_right first none
          let m ← m.set_parent first none
          let m ← m.set_right (some s) none
          let m ← m.set_parent (some s) none
          let (m, paired) ← pair cmp m first (some s)
          pure (m, paired, next)
        | none => pure (m, first, none) : Except Fault (Memory T × Ptr × Ptr))
      let m ← (match prev with
        | some p => do
          let m ← m.set_right (some p) paired
          m.set_parent paired (some p)
        | none => pure m : Except Fault (Memory T))
      match next with
      | some n => do
        let m ← m.set_parent (some n) none
        first_pass_loop cmp fuel m paired (some n)
      | none => pure (m, paired)

/-- `PairingHeap::first_pass`. -/
def first_pass (cmp : T → T → Bool) (fuel : Nat) (m : Memory T) (first : Ptr) :
    Except Fault (Memory T × Ptr) := do
  let _ ← m.deref first
  first_pass_loop cmp fuel m none first

/-- The `while (parent)` loop of `PairingHeap::second_pass`. -/
def second_pass_loop (cmp : T → T → Bool) :
    Nat → Memory T → Ptr → Ptr → Except Fault (Memory T × Ptr)
  | 0, _, _, _ => Except.error Fault.out_of_fuel
  | fuel + 1, m, last, parent =>
    match parent with
    | none => pure (m, last)
    | some p => do
      let next := (← m.deref (some p)).parent_
      let m ← m.set_right (some p) none
      let m ← m.set_parent (some p) none
      let (m, last) ← pair cmp m last (some p)
      second_pass_loop cmp fuel m last next

/-- `PairingHeap::second_pass`. -/
def second_pass (cmp : T → T → Bool) (fuel : Nat) (m : Memory T) (last : Ptr) :
    Except Fault (Memory T × Ptr) := do
  let parent := (← m.deref last).parent_
  let m ← m.set_parent last none
  second_pass_loop cmp fuel m last parent

/-- The queue-building `while (first)` loop of `merge(node_t*, FifoQueue)`. -/
def fifo_build_loop :
    Nat → Memory T → Ptr → Ptr → Except Fault (Memory T × Ptr)
  | 0, _, _, _ => Except.error Fault.out_of_fuel
  | fuel + 1, m, head, first =>
    match first with
    | none => pure (m, head)
    | some f => do
      let next := (← m.deref (some f)).right_
      let m ← m.set_right (some f) none
      let m ← m.set_parent (some f) head
      fifo_build_loop fuel m (some f) next

/-- The `while (head && head->parent_)` loop of `merge(node_t*, FifoQueue)`. -/
def fifo_merge_loop (cmp : T → T → Bool) :
    Nat → Memory T → Ptr → Ptr → Except Fault (Memory T × Ptr)
  | 0, _, _, _ => Except.error Fault.out_of_fuel
  | fuel + 1, m, head, last =>
    match head with
    | none => pure (m, last)
    | some hd => do
      let hp := (← m.deref (some hd)).parent_
      match hp with
      | none => pure (m, last)
      | some r => do
        let lhs : Ptr := some hd
        let rhs : Ptr := some r
        let head := (← m.deref rhs).parent_
        let m ← m.set_parent lhs none
        let m ← m.set_parent rhs none
        let (m, w) ← pair cmp m lhs rhs
        let m ← m.set_parent last w
        let last := (← m.deref last).parent_
        fifo_merge_loop cmp fuel m head last

/-- `PairingHeap::merge(node_t*, merge_mode::FifoQueue)`. -/
def merge_fifo (cmp : T → T → Bool) (fuel : Nat) (m : Memory T) (first : Ptr) :
    Except Fault (Memory T × Ptr) := do
  let head := first
  let last := first
  let first := (← m.deref first).right_
  let m ← m.set_parent head none
  let m ← m.set_right head none
  let (m, head) ← fifo_build_loop fuel m head first
  fifo_merge_loop cmp fuel m head last

/-- `PairingHeap::merge(node_t*, merge_mode::TwoPass)`. -/
def merge_two_pass (cmp : T → T → Bool) (fuel : Nat) (m : Memory T) (first : Ptr) :
    Except Fault (Memory T × Ptr) := do
  let (m, last) ← first_pass cmp fuel m first
  second_pass cmp fuel m last

/-- `PairingHeap::merge(node_t*)`: dispatch on the merge mode. -/
def merge (cmp : T → T → Bool) (mode : MergeMode) (fuel : Nat) (m : Memory T) (first : Ptr) :
    Except Fault (Memory T × Ptr) :=
  match mode with
  | MergeMode.TwoPass => merge_two_pass cmp fuel m first
  | MergeMode.FifoQueue => merge_fifo cmp fuel m first

/-- The default constructor: `root_(nullptr), size_(0)`. -/
def PairingHeap.mk_empty : PairingHeap := { root_ := none, size_ := 0 }

/-- `PairingHeap::size`. -/
def PairingHeap.size (h : PairingHeap) : Nat := h.size_

/-- `PairingHeap::empty`. -/
def PairingHeap.empty (h : PairingHeap) : Bool := 0 == h.size

/-- `PairingHeap::empty_check`. -/
def empty_check (h : PairingHeap) : Except Fault Unit :=
  if h.empty then Except.error Fault.out_of_range else Except.ok ()

/-- `PairingHeap::find_min`. -/
def find_min (m : Memory T) (h : PairingHeap) : Except Fault T := do
  empty_check h
  pure (← m.deref h.root_).data_

/-- `PairingHeap::insert_impl`. -/
def insert_impl (cmp : T → T → Bool) (m : Memory T) (h : PairingHeap) (node : Ptr) :
    Except Fault (Memory T × PairingHeap × Ptr) := do
  let (m, root) ← (if h.empty then pure (m, node) else pair cmp m h.root_ node :
    Except Fault (Memory T × Ptr))
  pure (m, { root_ := root, size_ := h.size_ + 1 }, node)

/-- `PairingHeap::insert`: the result carries the handle of the new node. -/
def insert (cmp : T → T → Bool) (m : Memory T) (h : PairingHeap) (v : T) :
    Except Fault (Memory T × PairingHeap × Ptr) :=
  insert_impl cmp (new_node m v).1 h (new_node m v).2

/-- `PairingHeap::delete_min`. -/
def delete_min (cmp : T → T → Bool) (mode : MergeMode) (fuel : Nat) (m : Memory T)
    (h : PairingHeap) : Except Fault (Memory T × PairingHeap) := do
  empty_check h
  let oldRoot := h.root_
  let (m, root) ← (if 1 == h.size then pure (m, none) else do
    let m ← m.set_parent (← m.deref h.root_).left_ none
    merge cmp mode fuel m (← m.deref h.root_).left_ : Except Fault (Memory T × Ptr))
  let m ← delete_node m oldRoot
  pure (m, { root_ := root, size_ := h.size_ - 1 })

/-- `PairingHeap::dec_key_impl<Cmp>`. -/
def dec_key_impl (cmp : T → T → Bool) (m : Memory T) (h : PairingHeap) (node : Ptr) :
    Except Fault (Memory T × PairingHeap) :=
  if node = h.root_ then pure (m, h) else do
    let n ← m.deref node
    let isLeft ← (match n.parent_ with
      | none => pure false
      | some p => do
        let pn ← m.deref (some p)
        pure (decide (node = pn.left_)) : Except Fault Bool)
    let m ← (if isLeft then m.set_left n.parent_ n.right_
      else m.set_right n.parent_ n.right_ : Except Fault (Memory T))
    let n ← m.deref node
    let m ← (match n.right_ with
      | some r => m.set_parent (some r) n.parent_
      | none => pure m : Except Fault (Memory T))
    let m ← m.set_parent node none
    let m ← m.set_right node none
    let (m, root) ← pair cmp m node h.root_
    pure (m, { root_ := root, size_ := h.size_ })

/-- `PairingHeap::decrease_key(handle_type)`. -/
def decrease_key (cmp : T → T → Bool) (m : Memory T) (h : PairingHeap) (handle : Ptr) :
    Except Fault (Memory T × PairingHeap) :=
  dec_key_impl cmp m h handle

/-- `PairingHeap::erase_impl`. -/
def erase_impl (cmp : T → T → Bool) (mode : MergeMode) (fuel : Nat) (m : Memory T)
    (h : PairingHeap) (node : Ptr) : Except Fault (Memory T × PairingHeap) := do
  let (m, h) ← dec_key_impl AlwaysTrueCmp m h node
  delete_min cmp mode fuel m h

/-- `PairingHeap::erase(handle_type)`. -/
def erase (cmp : T → T → Bool) (mode : MergeMode) (fuel : Nat) (m : Memory T)
    (h : PairingHeap) (handle : Ptr) : Except Fault (Memory T × PairingHeap) :=
  erase_impl cmp mode fuel m h handle

/-- `PairingHeap::get_handle_data`. -/
def get_handle_data (m : Memory T) (handle : Ptr) : Except Fault T := do
  pure (← m.deref handle).data_

/-- `PairingHeap::meld`, applied to a heap that was moved into the by-value
parameter; the result is the memory and the receiving heap. -/
def meld (cmp : T → T → Bool) (m : Memory T) (this other : PairingHeap) :
    Except Fault (Memory T × PairingHeap) :=
  if this.root_.isNone && other.root_.isNone then pure (m, this) else do
    let otherRoot := other.root_
    let (m, root) ← (if this.root_.isSome && otherRoot.isSome then pair cmp m this.root_ otherRoot
      else if this.root_.isNone then pure (m, otherRoot)
      else pure (m, this.root_) : Except Fault (Memory T × Ptr))
    pure (m, { root_ := root, size_ := this.size_ + other.size_ })

/-- Insert the elements of a list one by one, front first. -/
def insert_all (cmp : T → T → Bool) :
    List T → Memory T → PairingHeap → Except Fault (Memory T × PairingHeap)
  | [], m, h => pure (m, h)
  | x :: xs, m, h => do
    let (m, h, _) ← insert cmp m h x
    insert_all cmp xs m h

/-- Run `n` rounds of `find_min` followed by `delete_min`, collecting the minima. -/
def drain (cmp : T → T → Bool) (mode : MergeMode) (fuel : Nat) :
    Nat → Memory T → PairingHeap → Except Fault (List T × Memory T × PairingHeap)
  | 0, m, h => pure ([], m, h)
  | n + 1, m, h => do
    let v ← find_min m h
    let (m, h) ← delete_min cmp mode fuel m h
    let (vs, m, h) ← drain cmp mode fuel n m h
    pure (v :: vs, m, h)

/-- Insert a list into a fresh heap and take everything out again. -/
def heap_sort (cmp : T → T → Bool) (mode : MergeMode) (fuel : Nat) (xs : List T) :
    Except Fault (List T × Memory T × PairingHeap) := do
  let (m, h) ← insert_all cmp xs Memory.init PairingHeap.mk_empty
  drain cmp mode fuel xs.length m h

/-! ## Abstract view of the node graph

A heap is described by the tree its `left_` (first child) and `right_` (next
sibling) links draw, each node carrying its address and its value.  The
predicates below tie such a tree to the memory; the functions prefixed with
`f` are the list-level counterparts of the pointer algorithms. -/

/-- A binary (first child, next sibling) tree of addressed nodes. -/
inductive Tree (T : Type) where
  | nil : Tree T
  | node (a : Nat) (v : T) (l r : Tree T) : Tree T

/-- A tree root together with its child list. -/
structure Root (T : Type) where
  a : Nat
  v : T
  kids : Tree T

/-- The pointer to the top node of a tree. -/
def Tree.ptr : Tree T → Ptr
  | Tree.nil => none
  | Tree.node a _ _ _ => some a

/-- The addresses of the nodes of a tree. -/
def Tree.addrs : Tree T → List Nat
  | Tree.nil => []
  | Tree.node a _ l r => a :: (l.addrs ++ r.addrs)

/-- The values stored in a tree. -/
def Tree.vals : Tree T → List T
  | Tree.nil => []
  | Tree.node _ v l r => v :: (l.vals ++ r.vals)

/-- The memory holds the tree `t`, whose top node has `par` in its `parent_` field. -/
def Repr (m : Memory T) : Ptr → Tree T → Prop
  | _, Tree.nil => True
  | par, Tree.node a v l r =>
    m.cell a = some ⟨v, par, l.ptr, r.ptr⟩ ∧ Repr m (some a) l ∧ Repr m (some a) r

/-- The addresses of a root and its descendants. -/
def Root.addrs (x : Root T) : List Nat := x.a :: x.kids.addrs

/-- The values of a root and its descendants. -/
def Root.vals (x : Root T) : List T := x.v :: x.kids.vals

/-- The memory holds the root `x` with the given `parent_` and `right_` fields. -/
def Owns (m : Memory T) (x : Root T) (par rt : Ptr) : Prop :=
  m.cell x.a = some ⟨x.v, par, x.kids.ptr, rt⟩ ∧ Repr m (some x.a) x.kids

/-- List-level `pair`: the loser becomes the first child of the winner. -/
def fpair (cmp : T → T → Bool) (x y : Root T) : Root T :=
  if cmp x.v y.v then ⟨x.a, x.v, Tree.node y.a y.v y.kids x.kids⟩
  else ⟨y.a, y.v, Tree.node x.a x.v x.kids y.kids⟩

/-- The call returns normally with a result satisfying `Q`. -/
def wp {α : Type} (x : Except Fault α) (Q : α → Prop) : Prop :=
  ∃ a, x = Except.ok a ∧ Q a

/-- The sibling list of a tree: its top node, the top node's right sibling, and so on. -/
def Tree.spine : Tree T → List (Root T)
  | Tree.nil => []
  | Tree.node a v l r => ⟨a, v, l⟩ :: r.spine

/-- The tree whose sibling list is the given list of roots. -/
def unspine : List (Root T) → Tree T
  | [] => Tree.nil
  | x :: xs => Tree.node x.a x.v x.kids (unspine xs)

/-- The pointer to the first root of a list. -/
def hptr : List (Root T) → Ptr
  | [] => none
  | x :: _ => some x.a

/-- All addresses of a list of roots. -/
def laddrs : List (Root T) → List Nat
  | [] => []
  | x :: xs => x.addrs ++ laddrs xs

/-- A scratch chain: each root points to the next one through `parent_`. -/
def Chain (m : Memory T) : List (Root T) → Prop
  | [] => True
  | w :: ws => (∃ rt, Owns m w (hptr ws) rt) ∧ Chain m ws

/-- A scratch chain whose first root has a null `right_`. -/
def Chain0 (m : Memory T) : List (Root T) → Prop
  | [] => True
  | w :: ws => Owns m w (hptr ws) none ∧ Chain m ws

/-- List-level first pass: pair adjacent roots from the left. -/
def ffirst (cmp : T → T → Bool) : List (Root T) → List (Root T)
  | [] => []
  | [x] => [x]
  | x :: y :: rest => fpair cmp x y :: ffirst cmp rest

/-- List-level two-pass merge of a sibling list. -/
def ftwo_pass (cmp : T → T → Bool) (rest : List (Root T)) : Option (Root T) :=
  match (ffirst cmp rest).reverse with
  | [] => none
  | w :: ws => some (ws.foldl (fpair cmp) w)

/-- List-level queue loop of the FIFO merge: remove the two front trees, append their
pairing at the back, until one tree is left. -/
def ffifo_loop (cmp : T → T → Bool) : Nat → List (Root T) → Option (Root T)
  | 0, _ => none
  | _ + 1, [] => none
  | _ + 1, [x] => some x
  | fuel + 1, x :: y :: rest => ffifo_loop cmp fuel (rest ++ [fpair cmp x y])

/-- List-level FIFO merge of a sibling list: the queue the source builds through the
`parent_` links has the last sibling at its front. -/
def ffifo (cmp : T → T → Bool) (l : List (Root T)) : Option (Root T) :=
  ffifo_loop cmp l.length l.reverse

/-- List-level `merge`. -/
def fmerge (cmp : T → T → Bool) (mode : MergeMode) (l : List (Root T)) : Option (Root T) :=
  match mode with
  | MergeMode.TwoPass => ftwo_pass cmp l
  | MergeMode.FifoQueue => ffifo cmp l

/-- The pointer to the first root of a list, or `e` when the list is empty. -/
def nptr (xs : List (Root T)) (e : Ptr) : Ptr :=
  match xs with
  | [] => e
  | y :: _ => some y.a

/-- A queue segment: each root has a null `right_` and points to the next root of the
queue through `parent_`; the last one points to `e`. -/
def QSeg (m : Memory T) : List (Root T) → Ptr → Prop
  | [], _ => True
  | x :: xs, e => Owns m x (nptr xs e) none ∧ QSeg m xs e

/-- The heap record `h` and the memory hold the abstract heap `s`; `par` is the
`parent_` field of the root node. -/
def InvP (m : Memory T) (h : PairingHeap) (s : Option (Root T)) (par : Ptr) : Prop :=
  match s with
  | none => h.root_ = none ∧ h.size_ = 0
  | some x => h.root_ = some x.a ∧ h.size_ = x.addrs.length ∧ Owns m x par none ∧
      x.addrs.Nodup ∧ ∀ b ∈ x.addrs, b < m.brk

/-- The addresses of an abstract heap. -/
def haddrs (s : Option (Root T)) : List Nat :=
  match s with
  | none => []
  | some x => x.addrs

/-- The values of an abstract heap. -/
def hvals (s : Option (Root T)) : List T :=
  match s with
  | none => []
  | some x => x.vals

/-- List-level `insert_impl` of a fresh node at address `a`. -/
def finsert (cmp : T → T → Bool) (s : Option (Root T)) (a : Nat) (v : T) : Option (Root T) :=
  match s with
  | none => some ⟨a, v, Tree.nil⟩
  | some x => some (fpair cmp x ⟨a, v, Tree.nil⟩)

/-- List-level `delete_min`. -/
def fdelete_min (cmp : T → T → Bool) (mode : MergeMode) (s : Option (Root T)) :
    Option (Root T) :=
  match s with
  | none => none
  | some x => fmerge cmp mode x.kids.spine

/-- The comparator is a strict weak ordering (the C++ named requirement *Compare*). -/
structure StrictWeakOrder (cmp : T → T → Bool) : Prop where
  irrefl : ∀ a, cmp a a = false
  trans : ∀ a b c, cmp a b = true → cmp b c = true → cmp a c = true
  incomp_trans : ∀ a b c, cmp a b = false → cmp b a = false → cmp b c = false →
    cmp c b = false → cmp a c = false ∧ cmp c a = false

/-- Every node of the sibling list `t` and below is not better than `b`, and
inside `t` no child is better than its parent. -/
def Below (cmp : T → T → Bool) (b : T) : Tree T → Prop
  | Tree.nil => True
  | Tree.node _ v l r => cmp v b = false ∧ Below cmp v l ∧ Below cmp b r

/-- Heap order of a tree: no child has strictly higher priority than its parent. -/
def Ordered (cmp : T → T → Bool) (x : Root T) : Prop := Below cmp x.v x.kids

/-- Heap order of an abstract heap. -/
def hOrdered (cmp : T → T → Bool) (s : Option (Root T)) : Prop :=
  match s with
  | none => True
  | some x => Ordered cmp x

/-- All values of a list of roots. -/
def lvals : List (Root T) → List T
  | [] => []
  | x :: xs => x.vals ++ lvals xs

/-- List-level `insert_all`, the first fresh address being `b`. -/
def finsert_all (cmp : T → T → Bool) : List T → Option (Root T) → Nat → Option (Root T)
  | [], s, _ => s
  | v :: vs, s, b => finsert_all cmp vs (finsert cmp s b v) (b + 1)

/-- List-level `meld`. -/
def fmeld (cmp : T → T → Bool) (s1 s2 : Option (Root T)) : Option (Root T) :=
  match s1, s2 with
  | none, s => s
  | some x, none => some x
  | some x, some y => some (fpair cmp x y)

/-- Remove the node at address `a`, together with its child list, from a sibling list. -/
def Tree.extract (a : Nat) : Tree T → Option (Root T × Tree T)
  | Tree.nil => none
  | Tree.node b v l r =>
    if b = a then some (⟨b, v, l⟩, r)
    else
      match l.extract a with
      | some (n, l') => some (n, Tree.node b v l' r)
      | none =>
        match r.extract a with
        | some (n, r') => some (n, Tree.node b v l r')
        | none => none

/-- The unlinking part of `dec_key_impl`: everything between the root test and `pair`. -/
def dec_key_splice (m : Memory T) (node : Ptr) : Except Fault (Memory T) := do
  let n ← m.deref node
  let isLeft ← (match n.parent_ with
    | none => pure false
    | some p => do
      let pn ← m.deref (some p)
      pure (decide (node = pn.left_)) : Except Fault Bool)
  let m ← (if isLeft then m.set_left n.parent_ n.right_
    else m.set_right n.parent_ n.right_ : Except Fault (Memory T))
  let n ← m.deref node
  let m ← (match n.right_ with
    | some r => m.set_parent (some r) n.parent_
    | none => pure m : Except Fault (Memory T))
  let m ← m.set_parent node none
  m.set_right node none

/-- Overwrite the value of the node at address `a`. -/
def Tree.assign (a : Nat) (w : T) : Tree T → Tree T
  | Tree.nil => Tree.nil
  | Tree.node b v l r => Tree.node b (if b = a then w else v) (l.assign a w) (r.assign a w)

/-- Overwrite the value of the node at address `a` of a rooted tree. -/
def Root.assign (a : Nat) (w : T) (x : Root T) : Root T :=
  ⟨x.a, if x.a = a then w else x.v, x.kids.assign a w⟩

/-- The caller lowers a value through the reference `get_handle_data` returns and then
calls `decrease_key` with the same handle. -/
def lower_key (cmp : T → T → Bool) (m : Memory T) (h : PairingHeap) (handle : Ptr) (v : T) :
    Except Fault (Memory T × PairingHeap) := do
  let m ← m.set_data handle v
  decrease_key cmp m h handle

/-- List-level `lower_key`. -/
def flower (cmp : T → T → Bool) (x : Root T) (a : Nat) (w : T) : Root T :=
  if a = x.a then ⟨x.a, w, x.kids⟩
  else
    match x.kids.extract a with
    | some (n, kids') => fpair cmp ⟨n.a, w, n.kids⟩ ⟨x.a, x.v, kids'⟩
    | none => x

/-- List-level `erase`. -/
def ferase (cmp : T → T → Bool) (mode : MergeMode) (x : Root T) (a : Nat) :
    Option (Root T) :=
  if a = x.a then fdelete_min cmp mode (some x)
  else
    match x.kids.extract a with
    | some (n, kids') => fmerge cmp mode (⟨x.a, x.v, kids'⟩ :: n.kids.spine)
    | none => some x

/-- The node at address `b` can be reached from pointer `p` through `left_` and `right_`
links. -/
inductive Reaches (m : Memory T) : Ptr → Nat → Prop where
  | here (a : Nat) (n : PairingNode T) : m.cell a = some n → Reaches m (some a) a
  | left (a : Nat) (n : PairingNode T) (b : Nat) :
      m.cell a = some n → Reaches m n.left_ b → Reaches m (some a) b
  | right (a : Nat) (n : PairingNode T) (b : Nat) :
      m.cell a = some n → Reaches m n.right_ b → Reaches m (some a) b

/-- The node at address `c` lies on the `right_` chain that starts at pointer `p`. -/
inductive SibOf (m : Memory T) : Ptr → Nat → Prop where
  | head (a : Nat) (n : PairingNode T) : m.cell a = some n → SibOf m (some a) a
  | next (a : Nat) (n : PairingNode T) (c : Nat) :
      m.cell a = some n → SibOf m n.right_ c → SibOf m (some a) c

/-- Node `c` is a child of node `p` in the multiway tree: it lies on the sibling chain
that starts at the first child of `p`. -/
def ChildOf (m : Memory T) (p c : Nat) : Prop :=
  ∃ np, m.cell p = some np ∧ SibOf m np.left_ c

/-- A program state: the free store and the heap objects (variables) of the program,
numbered; every variable starts out as an empty heap. -/
structure World (T : Type) where
  mem : Memory T
  heap : Nat → PairingHeap

/-- The calls a client can make on the heap variables. -/
inductive Op (T : Type) where
  | insert (i : Nat) (v : T)
  | delete_min (i : Nat)
  | meld (i j : Nat)
  | lower_key (i : Nat) (a : Nat) (v : T)
  | erase (i : Nat) (a : Nat)

/-- Replace heap variable `i`. -/
def World.set (w : World T) (m : Memory T) (i : Nat) (h : PairingHeap) : World T :=
  { mem := m, heap := fun k => if k = i then h else w.heap k }

/-- The state in which nothing is allocated and every heap variable is empty. -/
def World.init : World T := { mem := Memory.init, heap := fun _ => PairingHeap.mk_empty }

/-- Run one call.  `meld i j` is `heap i . meld(std::move(heap j))`: the move constructor
leaves variable `j` empty before the body of `meld` runs. -/
def World.step (cmp : T → T → Bool) (mode : MergeMode) (fuel : Nat) (w : World T) :
    Op T → Except Fault (World T)
  | Op.insert i v => do
    let (m, h, _) ← insert cmp w.mem (w.heap i) v
    pure (w.set m i h)
  | Op.delete_min i => do
    let (m, h) ← delete_min cmp mode fuel w.mem (w.heap i)
    pure (w.set m i h)
  | Op.meld i j => do
    let other := w.heap j
    let w1 := w.set w.mem j PairingHeap.mk_empty
    let (m, h) ← meld cmp w1.mem (w1.heap i) other
    pure (w1.set m i h)
  | Op.lower_key i a v => do
    let (m, h) ← lower_key cmp w.mem (w.heap i) (some a) v
    pure (w.set m i h)
  | Op.erase i a => do
    let (m, h) ← erase cmp mode fuel w.mem (w.heap i) (some a)
    pure (w.set m i h)

/-- The documented preconditions of the calls: a handle refers to a node of the heap it
is used with, and `decrease_key` is called after the value was lowered or left equal
(the old value does not have strictly higher priority than the new one). -/
def World.allowed (cmp : T → T → Bool) (w : World T) : Op T → Prop
  | Op.insert _ _ => True
  | Op.delete_min _ => True
  | Op.meld _ _ => True
  | Op.lower_key i a v => Reaches w.mem (w.heap i).root_ a ∧
      ∃ n, w.mem.cell a = some n ∧ cmp n.data_ v = false
  | Op.erase i a => Reaches w.mem (w.heap i).root_ a

/-- The states a client can reach from the initial state by allowed calls that return.
The loops of a call get at least as much fuel as there are allocated addresses. -/
inductive Reachable (cmp : T → T → Bool) (mode : MergeMode) : World T → Prop where
  | init : Reachable cmp mode World.init
  | step (w w' : World T) (op : Op T) (fuel : Nat) : Reachable cmp mode w →
      w.allowed cmp op → w.mem.brk ≤ fuel → w.step cmp mode fuel op = Except.ok w' →
      Reachable cmp mode w'

/-- The invariant of reachable states: every heap variable holds a well-formed,
heap-ordered tree, different variables own disjoint sets of nodes, and with the two-pass
merge every root has a null `parent_`. -/
def WInv (cmp : T → T → Bool) (mode : MergeMode) (w : World T) : Prop :=
  ∃ (ts : Nat → Option (Root T)) (ps : Nat → Ptr),
    (∀ i, InvP w.mem (w.heap i) (ts i) (ps i)) ∧
    (∀ i j, i ≠ j → (haddrs (ts i)).Disjoint (haddrs (ts j))) ∧
    (∀ i, hOrdered cmp (ts i)) ∧ (mode = MergeMode.TwoPass → ∀ i, ps i = none)

/-- The call does not throw `std::out_of_range`. -/
def NoRange {α : Type} (x : Except Fault α) : Prop := x ≠ Except.error Fault.out_of_range

/-- A call of `insert` or of `delete_min` on one heap. -/
inductive Call (T : Type) where
  | insert (v : T)
  | delete_min

/-- Run a sequence of `insert` / `delete_min` calls on a heap. -/
def run_calls (cmp : T → T → Bool) (mode : MergeMode) (fuel : Nat) :
    List (Call T) → Memory T → PairingHeap → Except Fault (Memory T × PairingHeap)
  | [], m, h => pure (m, h)
  | Call.insert v :: cs, m, h => do
    let (m, h, _) ← insert cmp m h v
    run_calls cmp mode fuel cs m h
  | Call.delete_min :: cs, m, h => do
    let (m, h) ← delete_min cmp mode fuel m h
    run_calls cmp mode fuel cs m h

/-- The number of `insert` calls in a sequence. -/
def count_insert : List (Call T) → Nat
  | [] => 0
  | Call.insert _ :: cs => count_insert cs + 1
  | Call.delete_min :: cs => count_insert cs

/-- The number of `delete_min` calls in a sequence. -/
def count_delete : List (Call T) → Nat
  | [] => 0
  | Call.insert _ :: cs => count_delete cs
  | Call.delete_min :: cs => count_delete cs + 1

/-- No `delete_min` of the sequence is applied to an empty heap, when the heap holds `n`
elements at the start: each `delete_min` is preceded by more inserts (counting the `n`
initial elements) than delete-mins. -/
def never_underflows : Nat → List (Call T) → Prop
  | _, [] => True
  | n, Call.insert _ :: cs => never_underflows (n + 1) cs
  | n, Call.delete_min :: cs => 0 < n ∧ never_underflows (n - 1) cs

/-- The loop `while (node->left_ || node->right_) node = node->left_ ? node->left_ :
node->right_` of the destructor. -/
def destroy_descend : Nat → Memory T → Ptr → Except Fault Ptr
  | 0, _, _ => Except.error Fault.out_of_fuel
  | fuel + 1, m, node => do
    let n ← m.deref node
    if n.left_.isSome || n.right_.isSome then
      destroy_descend fuel m (if n.left_.isSome then n.left_ else n.right_)
    else pure node

/-- The loop `while (node)` of the destructor; `inner` is the fuel of the nested loop. -/
def destroy_loop (inner : Nat) : Nat → Memory T → Ptr → Except Fault (Memory T)
  | 0, _, _ => Except.error Fault.out_of_fuel
  | fuel + 1, m, node =>
    match node with
    | none => pure m
    | some a => do
      let n ← m.deref (some a)
      let next ← (match n.parent_ with
        | none => pure none
        | some p => do
          let pn ← m.deref (some p)
          pure (if pn.right_ ≠ some a then pn.right_ else none) : Except Fault Ptr)
      let (node, next) ← (if next.isSome then do
          let node ← destroy_descend inner m (some a)
          pure (node, next)
        else do
          let n ← m.deref (some a)
          pure (some a, n.parent_) : Except Fault (Ptr × Ptr))
      let m ← delete_node m node
      destroy_loop inner fuel m next

/-- `PairingHeap::~PairingHeap`. -/
def destroy (fuel : Nat) (m : Memory T) (h : PairingHeap) :
    Except Fault (Memory T × PairingHeap) := do
  let node ← (match h.root_ with
    | some a => destroy_descend fuel m (some a)
    | none => pure none : Except Fault Ptr)
  let m ← destroy_loop fuel fuel m node
  pure (m, { root_ := none, size_ := 0 })

/-- `PairingHeap::swap`: exchange `root_` and `size_`; the result is the pair
(this, other) after the call. -/
def PairingHeap.swap (this other : PairingHeap) : PairingHeap × PairingHeap :=
  ({ root_ := other.root_, size_ := other.size_ }, { root_ := this.root_, size_ := this.size_ })

/-- `PairingHeap::operator=`: swap with the by-value parameter, whose destructor then
runs on what the heap held before. -/
def assign_from (fuel : Nat) (m : Memory T) (this other : PairingHeap) :
    Except Fault (Memory T × PairingHeap) := do
  let (this, other) := this.swap other
  let (m, _) ← destroy fuel m other
  pure (m, this)

/-- `PairingHeap::clear`: `*this = PairingHeap()`. -/
def clear (fuel : Nat) (m : Memory T) (this : PairingHeap) :
    Except Fault (Memory T × PairingHeap) :=
  assign_from fuel m this PairingHeap.mk_empty

/-- `root_` and `size_` agree: `size()` is the number of nodes reachable from `root_`
through `left_` and `right_`, `root_` is null exactly when `size()` is 0, and `empty()`
is true exactly when `size()` is 0. -/
def Consistent (m : Memory T) (h : PairingHeap) : Prop :=
  (∃ S : List Nat, S.Nodup ∧ (∀ b, Reaches m h.root_ b ↔ b ∈ S) ∧ h.size = S.length) ∧
  (h.root_ = none ↔ h.size = 0) ∧ (h.empty = true ↔ h.size = 0)

/-- Heap order in the glossary form, on the node graph: no node of the heap has a child
with strictly higher priority. -/
def HeapOrder (cmp : T → T → Bool) (m : Memory T) (h : PairingHeap) : Prop :=
  ∀ p c np nc, Reaches m h.root_ p → ChildOf m p c → m.cell p = some np →
    m.cell c = some nc → cmp nc.data_ np.data_ = false

/-- The heap is well formed: the nodes reachable from `root_` form a tree without sharing
whose links are mutually consistent, `size_` counts them, and all of them are allocated. -/
def WellFormed (m : Memory T) (h : PairingHeap) : Prop :=
  ∃ s par, InvP m h s par

/-- The default comparator `details::less` on the natural numbers. -/
def less (l r : Nat) : Bool := decide (l < r)

/-- The values a run returned, if it returned. -/
def returned {α β : Type} (r : Except Fault (α × β)) : Option α :=
  match r with
  | Except.ok x => some x.1
  | Except.error _ => none

/-- The state a step returned; the initial state if it did not return. -/
def World.get (r : Except Fault (World T)) : World T :=
  match r with
  | Except.ok w => w
  | Except.error _ => World.init

/-- The state after `insert(1)` on heap variable 0. -/
def one_world : World Nat :=
  World.get (World.init.step less MergeMode.TwoPass 0 (Op.insert 0 1))

/-- The state after `insert(1); insert(1)` on heap variable 0. -/
def twin_world : World Nat :=
  World.get (one_world.step less MergeMode.TwoPass 1 (Op.insert 0 1))

/-- The list `vs` holds the values stored in the heap: the values of the nodes reachable
from `root_`, each node counted once. -/
def Stored (m : Memory T) (h : PairingHeap) (vs : List T) : Prop :=
  ∃ S : List Nat, S.Nodup ∧ (∀ b, Reaches m h.root_ b ↔ b ∈ S) ∧
    S.map (fun b => (m.cell b).map PairingNode.data_) = vs.map some

/-- The nodes of a tree, each as the pair of its address and its value. -/
def Tree.pairs : Tree T → List (Nat × T)
  | Tree.nil => []
  | Tree.node a v l r => (a, v) :: (l.pairs ++ r.pairs)

/-- The nodes of a rooted tree, each as the pair of its address and its value. -/
def Root.pairs (x : Root T) : List (Nat × T) := (x.a, x.v) :: x.kids.pairs

/-- The nodes of a list of rooted trees. -/
def lpairs : List (Root T) → List (Nat × T)
  | [] => []
  | x :: xs => x.pairs ++ lpairs xs

/-- The nodes of an abstract heap. -/
def hpairs (s : Option (Root T)) : List (Nat × T) :=
  match s with
  | none => []
  | some x => x.pairs

/-- The state after `insert(1)` on heap variable 0 and `insert(2)` on heap variable 1. -/
def duo_world : World Nat :=
  World.get (one_world.step less MergeMode.TwoPass 1 (Op.insert 1 2))

/-- The class `PairingTreeIterator`: its data member `current_`. -/
structure PairingTreeIterator where
  current_ : Ptr
  deriving DecidableEq

/-- The loop `while (current_->left_) current_ = current_->left_` of the iterator. -/
def descend_left : Nat → Memory T → Ptr → Except Fault Ptr
  | 0, _, _ => Except.error Fault.out_of_fuel
  | fuel + 1, m, current => do
    let n ← m.deref current
    match n.left_ with
    | some l => descend_left fuel m (some l)
    | none => pure current

/-- The loop `while (current_->parent_ && current_->parent_->right_ == current_)
current_ = current_->parent_` of `operator++`. -/
def climb_right : Nat → Memory T → Ptr → Except Fault Ptr
  | 0, _, _ => Except.error Fault.out_of_fuel
  | fuel + 1, m, current => do
    let n ← m.deref current
    match n.parent_ with
    | some p => do
      let pn ← m.deref (some p)
      if pn.right_ = current then climb_right fuel m (some p) else pure current
    | none => pure current

/-- `PairingTreeIterator::PairingTreeIterator(node_t* root)`. -/
def PairingTreeIterator.ctor (fuel : Nat) (m : Memory T) (root : Ptr) :
    Except Fault PairingTreeIterator :=
  match root with
  | some r => do
    let c ← descend_left fuel m (some r)
    pure ⟨c⟩
  | none => pure ⟨none⟩

/-- `PairingTreeIterator::operator++()`. -/
def PairingTreeIterator.increment (fuel : Nat) (m : Memory T) (it : PairingTreeIterator) :
    Except Fault PairingTreeIterator := do
  let n ← m.deref it.current_
  match n.right_ with
  | some r => do
    let c ← descend_left fuel m (some r)
    pure ⟨c⟩
  | none => do
    let c ← climb_right fuel m it.current_
    pure ⟨(← m.deref c).parent_⟩

/-- `PairingHeap::begin`: `iterator(root_)`. -/
def PairingHeap.begin (fuel : Nat) (m : Memory T) (h : PairingHeap) :
    Except Fault PairingTreeIterator :=
  PairingTreeIterator.ctor fuel m h.root_

/-- `PairingHeap::end`: `iterator()`, whose `current_` is null. -/
def PairingHeap.end_ : PairingTreeIterator := ⟨none⟩

/-- Apply `operator++` `k` times, recording the position before each increment; the
result is the list of recorded positions and the final iterator. -/
def iter_walk (fuel : Nat) (m : Memory T) :
    Nat → PairingTreeIterator → Except Fault (List Ptr × PairingTreeIterator)
  | 0, it => pure ([], it)
  | k + 1, it => do
    let it' ← it.increment fuel m
    let (ps, e) ← iter_walk fuel m k it'
    pure (it.current_ :: ps, e)

/-- The nodes of a binary (first child, next sibling) tree in symmetric order: the
`left_` subtree, the node, the `right_` subtree. -/
def Tree.inorder : Tree T → List Nat
  | Tree.nil => []
  | Tree.node a _ l r => l.inorder ++ a :: r.inorder

/-- The number of nodes on the `right_` chain that starts at the top node. -/
def Tree.rlen : Tree T → Nat
  | Tree.nil => 0
  | Tree.node _ _ _ r => r.rlen + 1

/-- The `else` branch of `operator++` as a function of the current position. -/
def climb_out (fuel : Nat) (m : Memory T) (current : Ptr) : Except Fault Ptr := do
  let c ← climb_right fuel m current
  pure (← m.deref c).parent_

/-- The position `operator++` moves to from the node at address `a`. -/
def next_pos (fuel : Nat) (m : Memory T) (a : Nat) : Except Fault Ptr := do
  let it ← PairingTreeIterator.increment fuel m ⟨some a⟩
  pure it.current_

/-- Along the list, `nx` maps every address to the next one, and the last one to `e`. -/
def Linked (nx : Nat → Except Fault Ptr) : List Nat → Except Fault Ptr → Prop
  | [], _ => True
  | [a], e => nx a = e
  | a :: b :: rest, e => nx a = Except.ok (some b) ∧ Linked nx (b :: rest) e

/-- The node at address `c` is reached from pointer `p` through `left_` links only. -/
inductive LeftChain (m : Memory T) : Ptr → Nat → Prop where
  | here (a : Nat) (n : PairingNode T) : m.cell a = some n → LeftChain m (some a) a
  | step (a : Nat) (n : PairingNode T) (c : Nat) :
      m.cell a = some n → LeftChain m n.left_ c → LeftChain m (some a) c

/-- `PairingHeap::copy_node`: a new node that holds a copy of the value of `node`. -/
def copy_node (m : Memory T) (node : Ptr) : Except Fault (Memory T × Ptr) := do
  let n ← m.deref node
  pure (new_node m n.data_)

/-- The `while (srcNode)` loop of `PairingHeap::deep_copy`. -/
def deep_copy_loop : Nat → Memory T → Ptr → Ptr → Except Fault (Memory T)
  | 0, _, _, _ => Except.error Fault.out_of_fuel
  | fuel + 1, m, srcNode, newNode =>
    match srcNode with
    | none => pure m
    | some s => do
      let goLeft ← (if (← m.deref (some s)).left_.isSome
        then do pure (← m.deref newNode).left_.isNone
        else pure false : Except Fault Bool)
      if goLeft then do
        let (m, c) ← copy_node m (← m.deref (some s)).left_
        let m ← m.set_left newNode c
        let srcNode := (← m.deref (some s)).left_
        let newNode := (← m.deref newNode).left_
        deep_copy_loop fuel m srcNode newNode
      else do
        let goRight ← (if (← m.deref (some s)).right_.isSome
          then do pure (← m.deref newNode).right_.isNone
          else pure false : Except Fault Bool)
        if goRight then do
          let (m, c) ← copy_node m (← m.deref (some s)).right_
          let m ← m.set_right newNode c
          let srcNode := (← m.deref (some s)).right_
          let newNode := (← m.deref newNode).right_
          deep_copy_loop fuel m srcNode newNode
        else do
          let srcNode := (← m.deref (some s)).parent_
          let newNode := (← m.deref newNode).parent_
          deep_copy_loop fuel m srcNode newNode

/-- `PairingHeap::deep_copy`. -/
def deep_copy (fuel : Nat) (m : Memory T) (srcNode : Ptr) : Except Fault (Memory T × Ptr) :=
  match srcNode with
  | none => pure (m, none)
  | some s => do
    let (m, newRoot) ← copy_node m (some s)
    let m ← deep_copy_loop fuel m (some s) newRoot
    pure (m, newRoot)

/-- The copy constructor: `root_(deep_copy(other.root_)), size_(other.size_)`. -/
def PairingHeap.copy_ctor (fuel : Nat) (m : Memory T) (other : PairingHeap) :
    Except Fault (Memory T × PairingHeap) := do
  let (m, root) ← deep_copy fuel m other.root_
  pure (m, { root_ := root, size_ := other.size_ })

/-- The memory and heap a run returned; the empty heap if it did not return. -/
def returned_heap (r : Except Fault (Memory T × PairingHeap)) : Memory T × PairingHeap :=
  match r with
  | Except.ok x => x
  | Except.error _ => (Memory.init, PairingHeap.mk_empty)

/-- The heap after `insert` of 0, 2, 3, 4, 1, 5 and one `delete_min` (two-pass merge). -/
def tangle : Memory Nat × PairingHeap :=
  returned_heap (run_calls less MergeMode.TwoPass 6
    [Call.insert 0, Call.insert 2, Call.insert 3, Call.insert 4, Call.insert 1, Call.insert 5,
      Call.delete_min] Memory.init PairingHeap.mk_empty)

/-- The links after `pair` made node `l` the first child of node `w`: `w.left_` is `l`,
`l.parent_` is `w`, `l.right_` is the previous first child of `w`, whose `parent_` is now
`l`; nothing else changed, in these three nodes or elsewhere. -/
def Paired (m m' : Memory T) (w l : Nat) : Prop :=
  ∃ nw nl, m.cell w = some nw ∧ m.cell l = some nl ∧
    m'.cell w = some { nw with left_ := some l } ∧
    m'.cell l = some { nl with parent_ := some w, right_ := nw.left_ } ∧
    (∀ o, nw.left_ = some o →
      ∃ no, m.cell o = some no ∧ m'.cell o = some { no with parent_ := some l }) ∧
    ∀ b, b ≠ w → b ≠ l → nw.left_ ≠ some b → m'.cell b = m.cell b

/-- The state after `insert(1); insert(1)` on heap variable 0 and `insert(5)` on heap
variable 1. -/
def trio_world : World Nat :=
  World.get (twin_world.step less MergeMode.TwoPass 2 (Op.insert 1 5))

/-- Reference first pass, in the words of the specification: pair the trees two by two
from the left; an odd trailing tree stays unpaired as the last result. -/
def pair_adjacent (cmp : T → T → Bool) : List (Root T) → List (Root T)
  | x :: y :: rest => fpair cmp x y :: pair_adjacent cmp rest
  | [x] => [x]
  | [] => []

/-- Reference second pass, in the words of the specification: the accumulator starts as
the last tree and is paired with each earlier tree, taken right to left. -/
def fold_from_right (cmp : T → T → Bool) : List (Root T) → Option (Root T)
  | [] => none
  | w :: ws =>
    match fold_from_right cmp ws with
    | none => some w
    | some acc => some (fpair cmp acc w)

/-- Reference two-pass merge of the forest `t1, ..., tk`. -/
def two_pass_reference (cmp : T → T → Bool) (ts : List (Root T)) : Option (Root T) :=
  fold_from_right cmp (pair_adjacent cmp ts)

/-- Reference queue merge, in the words of the specification: remove the two front trees
`x` then `y`, append `pair(x, y)` at the back, stop when one tree remains. -/
def fifo_reference (cmp : T → T → Bool) : List (Root T) → Option (Root T)
  | [] => none
  | [x] => some x
  | x :: y :: rest => fifo_reference cmp (rest ++ [fpair cmp x y])
termination_by q => q.length
decreasing_by simp

/-- The statement `root_->left_->parent_ = nullptr` of `delete_min`, which precedes the
call `merge(root_->left_)`: the result is the memory and the argument handed to `merge`. -/
def detach_children (m : Memory T) (h : PairingHeap) : Except Fault (Memory T × Ptr) := do
  let m ← m.set_parent (← m.deref h.root_).left_ none
  pure (m, (← m.deref h.root_).left_)

/-- The memory a run returned; the empty memory if it did not return. -/
def returned_mem {α : Type} (r : Except Fault (Memory T × α)) : Memory T :=
  match r with
  | Except.ok x => x.1
  | Except.error _ => Memory.init

/-- The heap after `insert` of 0, 3, 2, 1: the root (value 0) with the children of the
values 1, 2, 3 at the addresses 3, 2, 1. -/
def quad : Memory Nat × PairingHeap :=
  returned_heap (run_calls less MergeMode.TwoPass 0
    [Call.insert 0, Call.insert 3, Call.insert 2, Call.insert 1] Memory.init
    PairingHeap.mk_empty)

/-- The forest `delete_min` hands to `merge` on the heap `quad`: the single nodes with
the values 1, 2, 3 at the addresses 3, 2, 1. -/
def forest3 : Memory Nat := returned_mem (detach_children quad.1 quad.2)

/-- The heap after `insert` of 1, 3, 2: the root (value 1) with the children of the
values 2, 3 at the addresses 2, 1. -/
def triple : Memory Nat × PairingHeap :=
  returned_heap (run_calls less MergeMode.FifoQueue 0
    [Call.insert 1, Call.insert 3, Call.insert 2] Memory.init PairingHeap.mk_empty)

/-- The forest `delete_min` hands to `merge` on the heap `triple`: the single nodes with
the values 2, 3 at the addresses 2, 1. -/
def forest2 : Memory Nat := returned_mem (detach_children triple.1 triple.2)

/-- What a client sees of a heap: the result of `find_min` and of `size`. -/
def observe (m : Memory T) (h : PairingHeap) : Except Fault T × Nat :=
  (find_min m h, h.size)

/-- Run a sequence of `insert` / `delete_min` calls on a heap and record what the client
sees after every call. -/
def run_observed (cmp : T → T → Bool) (mode : MergeMode) (fuel : Nat) :
    List (Call T) → Memory T → PairingHeap → Except Fault (List (Except Fault T × Nat))
  | [], _, _ => pure []
  | Call.insert v :: cs, m, h => do
    let (m, h, _) ← insert cmp m h v
    let obs ← run_observed cmp mode fuel cs m h
    pure (observe m h :: obs)
  | Call.delete_min :: cs, m, h => do
    let (m, h) ← delete_min cmp mode fuel m h
    let obs ← run_observed cmp mode fuel cs m h
    pure (observe m h :: obs)

/-- The addresses on the `right_` chain that starts at the top node of a tree. -/
def Tree.sibs : Tree T → List Nat
  | Tree.nil => []
  | Tree.node a _ _ r => a :: r.sibs

/-- The child list of node `b` in a forest: the `right_` chain that starts at its `left_`
(empty when `b` is not in the forest). -/
def Tree.children (b : Nat) : Tree T → List Nat
  | Tree.nil => []
  | Tree.node a _ l r => if a = b then l.sibs else l.children b ++ r.children b

/-- The child list of node `b` in a rooted tree. -/
def Root.children (b : Nat) (x : Root T) : List Nat :=
  if x.a = b then x.kids.sibs else x.kids.children b

/-- The heap after `insert` of 0, 1, 2, 3, 4, 5 and one `delete_min` (two-pass merge):
the root 1 with the children 4 and 2, node 4 with the child 5, node 2 with the child 3
(addresses and values coincide). -/
def leaky : Memory Nat × PairingHeap :=
  returned_heap (run_calls less MergeMode.TwoPass 6
    [Call.insert 0, Call.insert 1, Call.insert 2, Call.insert 3, Call.insert 4, Call.insert 5,
      Call.delete_min] Memory.init PairingHeap.mk_empty)

/-- The struct `Bst::BstNode`: `data_` is the pair of the key and the mapped value, and
the link members `parent_`, `left_`, `right_` are those of `PairingNode`. -/
abbrev BstNode (K V : Type) := PairingNode (K × V)

/-- The data members `root_` and `size_` of `Bst`. -/
structure Bst where
  root_ : Ptr
  size_ : Nat
  deriving DecidableEq

/-- The enumeration `Bst::Ordering`. -/
inductive Bst.Ordering where
  | LT
  | EQ
  | GT
  deriving DecidableEq

/-- A non-null `BstNode**`: the address of the `left_` member or of the `right_` member
of a node. -/
inductive SonRef where
  | left_of (node : Ptr)
  | right_of (node : Ptr)
  deriving DecidableEq

/-- The struct `Bst::FindSpotResult`; `none` in `son_` is the null `BstNode**`. -/
structure FindSpotResult where
  parent_ : Ptr
  son_ : Option SonRef
  deriving DecidableEq

/-- The class `Bst::BstIterator`: its data member `current_`. -/
structure BstIterator where
  current_ : Ptr
  deriving DecidableEq

/-- Read through a `BstNode**`: `*sonp`. -/
def SonRef.read (m : Memory (K × V)) : SonRef → Except Fault Ptr
  | SonRef.left_of p => do pure (← m.deref p).left_
  | SonRef.right_of p => do pure (← m.deref p).right_

/-- Write through a `BstNode**`: `*sonp = node`. -/
def SonRef.write (m : Memory (K × V)) : SonRef → Ptr → Except Fault (Memory (K × V))
  | SonRef.left_of p, node => m.set_left p node
  | SonRef.right_of p, node => m.set_right p node

/-- The default constructor `Bst()`: `root_(nullptr), size_(0)`. -/
def Bst.mk_empty : Bst := { root_ := none, size_ := 0 }

/-- `Bst::size`. -/
def Bst.size (b : Bst) : Nat := b.size_

/-- `Bst::empty`. -/
def Bst.empty (b : Bst) : Bool := 0 == b.size

/-- `Bst::delete_node`: destroy and deallocate the node. -/
def Bst.delete_node (m : Memory (K × V)) (p : Ptr) : Except Fault (Memory (K × V)) := do
  let _ ← m.deref p
  idril.delete_node m p

/-- `Bst::node_key`. -/
def node_key (m : Memory (K × V)) (node : Ptr) : Except Fault K := do
  pure (← m.deref node).data_.1

/-- `Bst::node_data`. -/
def node_data (m : Memory (K × V)) (node : Ptr) : Except Fault V := do
  pure (← m.deref node).data_.2

/-- `Bst::node_degree`. -/
def node_degree (m : Memory (K × V)) (node : Ptr) : Except Fault Nat := do
  let d := 0
  let d := d + (if (← m.deref node).left_.isSome then 1 else 0)
  let d := d + (if (← m.deref node).right_.isSome then 1 else 0)
  pure d

/-- `Bst::has_left_son`. -/
def has_left_son (m : Memory (K × V)) (n : Ptr) : Except Fault Bool := do
  pure (← m.deref n).left_.isSome

/-- `Bst::has_right_son`. -/
def has_right_son (m : Memory (K × V)) (n : Ptr) : Except Fault Bool := do
  pure (← m.deref n).right_.isSome

/-- `Bst::is_left_son`: `n->parent_ && n == n->parent_->left_`. -/
def is_left_son (m : Memory (K × V)) (n : Ptr) : Except Fault Bool := do
  match (← m.deref n).parent_ with
  | none => pure false
  | some p => do pure (decide (n = (← m.deref (some p)).left_))

/-- `Bst::is_right_son`: `n->parent_ && n == n->parent_->right_`. -/
def is_right_son (m : Memory (K × V)) (n : Ptr) : Except Fault Bool := do
  match (← m.deref n).parent_ with
  | none => pure false
  | some p => do pure (decide (n = (← m.deref (some p)).right_))

/-- `Bst::leftmost`: `while (has_left_son(root)) root = root->left_`. -/
def Bst.leftmost : Nat → Memory (K × V) → Ptr → Except Fault Ptr
  | 0, _, _ => Except.error Fault.out_of_fuel
  | fuel + 1, m, root => do
    if (← has_left_son m root) then Bst.leftmost fuel m (← m.deref root).left_
    else pure root

/-- The loop `while (is_right_son(node)) node = node->parent_` of `next_in_order`. -/
def climb_while_right : Nat → Memory (K × V) → Ptr → Except Fault Ptr
  | 0, _, _ => Except.error Fault.out_of_fuel
  | fuel + 1, m, node => do
    if (← is_right_son m node) then climb_while_right fuel m (← m.deref node).parent_
    else pure node

/-- `Bst::next_in_order`. -/
def Bst.next_in_order (fuel : Nat) (m : Memory (K × V)) (node : Ptr) : Except Fault Ptr := do
  if (← has_right_son m node) then Bst.leftmost fuel m (← m.deref node).right_
  else do
    let node ← climb_while_right fuel m node
    pure (← m.deref node).parent_

/-- `Bst::compare`. -/
def Bst.compare (cmp : K → K → Bool) (m : Memory (K × V)) (key : K) (node : Ptr) :
    Except Fault Bst.Ordering := do
  if cmp key (← node_key m node) then pure Bst.Ordering.LT
  else if cmp (← node_key m node) key then pure Bst.Ordering.GT
  else pure Bst.Ordering.EQ

/-- The loop `while (pos != nullptr)` of `Bst::find_node`; the members the source spells
`pos->left` and `pos->right` are read as `left_` and `right_`. -/
def find_node_loop (cmp : K → K → Bool) : Nat → Memory (K × V) → K → Ptr → Except Fault Ptr
  | 0, _, _, _ => Except.error Fault.out_of_fuel
  | fuel + 1, m, key, pos =>
    match pos with
    | none => pure none
    | some p => do
      let ord ← Bst.compare cmp m key (some p)
      match ord with
      | Bst.Ordering.EQ => pure (some p)
      | Bst.Ordering.LT => find_node_loop cmp fuel m key (← m.deref (some p)).left_
      | Bst.Ordering.GT => find_node_loop cmp fuel m key (← m.deref (some p)).right_

/-- `Bst::find_node`. -/
def Bst.find_node (cmp : K → K → Bool) (fuel : Nat) (m : Memory (K × V)) (b : Bst) (key : K) :
    Except Fault Ptr :=
  find_node_loop cmp fuel m key b.root_

/-- The `do ... while (*sonp != nullptr)` loop of `Bst::find_spot`. -/
def find_spot_loop (cmp : K → K → Bool) :
    Nat → Memory (K × V) → K → Ptr → Except Fault FindSpotResult
  | 0, _, _, _ => Except.error Fault.out_of_fuel
  | fuel + 1, m, key, parent => do
    let ord ← Bst.compare cmp m key parent
    match ord with
    | Bst.Ordering.EQ => pure ⟨parent, none⟩
    | Bst.Ordering.LT => do
      let sonp := SonRef.left_of parent
      match (← sonp.read m) with
      | some s => find_spot_loop cmp fuel m key (some s)
      | none => pure ⟨parent, some sonp⟩
    | Bst.Ordering.GT => do
      let sonp := SonRef.right_of parent
      match (← sonp.read m) with
      | some s => find_spot_loop cmp fuel m key (some s)
      | none => pure ⟨parent, some sonp⟩

/-- `Bst::find_spot`. -/
def Bst.find_spot (cmp : K → K → Bool) (fuel : Nat) (m : Memory (K × V)) (b : Bst) (key : K) :
    Except Fault FindSpotResult :=
  find_spot_loop cmp fuel m key b.root_

/-- `BstIterator::BstIterator(BstNode* root)`: `current_(leftmost(root))`. -/
def BstIterator.ctor (fuel : Nat) (m : Memory (K × V)) (root : Ptr) :
    Except Fault BstIterator := do
  pure ⟨← Bst.leftmost fuel m root⟩

/-- The default constructor `BstIterator()`, whose `current_` is null. -/
def BstIterator.default_ctor : BstIterator := ⟨none⟩

/-- `BstIterator::operator*`. -/
def BstIterator.star (m : Memory (K × V)) (it : BstIterator) : Except Fault (K × V) := do
  pure (← m.deref it.current_).data_

/-- `BstIterator::operator++`. -/
def BstIterator.increment (fuel : Nat) (m : Memory (K × V)) (it : BstIterator) :
    Except Fault BstIterator := do
  pure ⟨← Bst.next_in_order fuel m it.current_⟩

/-- `Bst::begin`: `iterator(root_)`. -/
def Bst.begin (fuel : Nat) (m : Memory (K × V)) (b : Bst) : Except Fault BstIterator :=
  BstIterator.ctor fuel m b.root_

/-- `Bst::end`: `iterator()`. -/
def Bst.end_ : BstIterator := BstIterator.default_ctor

/-- `Bst::try_insert`: `k` is the key searched for and `kv` the pair the new node is
constructed from; the result carries the `std::pair<iterator, bool>`. -/
def Bst.try_insert (cmp : K → K → Bool) (fuel : Nat) (m : Memory (K × V)) (b : Bst) (k : K)
    (kv : K × V) : Except Fault (Memory (K × V) × Bst × BstIterator × Bool) :=
  if b.empty then do
    let (m, p) := new_node m kv
    let b : Bst := { root_ := p, size_ := b.size_ + 1 }
    pure (m, b, ← BstIterator.ctor fuel m b.root_, true)
  else do
    let r ← Bst.find_spot cmp fuel m b k
    match r.son_ with
    | none => pure (m, b, ← BstIterator.ctor fuel m r.parent_, false)
    | some sonp => do
      let (m, node) := new_node m kv
      let m ← m.set_parent node r.parent_
      let m ← sonp.write m node
      let b : Bst := { root_ := b.root_, size_ := b.size_ + 1 }
      pure (m, b, ← BstIterator.ctor fuel m node, true)

/-- `Bst::insert(value_type const&)`. -/
def Bst.insert (cmp : K → K → Bool) (fuel : Nat) (m : Memory (K × V)) (b : Bst) (v : K × V) :
    Except Fault (Memory (K × V) × Bst × BstIterator × Bool) :=
  Bst.try_insert cmp fuel m b v.1 v

/-- `Bst::try_emplace`: the node is constructed from the key and the mapped value built
from the arguments. -/
def Bst.try_emplace (cmp : K → K → Bool) (fuel : Nat) (m : Memory (K × V)) (b : Bst) (k : K)
    (v : V) : Except Fault (Memory (K × V) × Bst × BstIterator × Bool) :=
  Bst.try_insert cmp fuel m b k (k, v)

/-- `Bst::emplace`: the node is constructed first and deleted again when its key is
already stored. -/
def Bst.emplace (cmp : K → K → Bool) (fuel : Nat) (m : Memory (K × V)) (b : Bst)
    (kv : K × V) : Except Fault (Memory (K × V) × Bst × BstIterator × Bool) :=
  if b.empty then do
    let (m, p) := new_node m kv
    let b : Bst := { root_ := p, size_ := b.size_ + 1 }
    pure (m, b, ← BstIterator.ctor fuel m b.root_, true)
  else do
    let (m, node) := new_node m kv
    let r ← Bst.find_spot cmp fuel m b (← node_key m node)
    match r.son_ with
    | none => do
      let m ← Bst.delete_node m node
      pure (m, b, ← BstIterator.ctor fuel m r.parent_, false)
    | some sonp => do
      let m ← m.set_parent node r.parent_
      let m ← sonp.write m node
      let b : Bst := { root_ := b.root_, size_ := b.size_ + 1 }
      pure (m, b, ← BstIterator.ctor fuel m node, true)

/-- `Bst::find`: `iterator(find_node(k))`. -/
def Bst.find (cmp : K → K → Bool) (fuel : Nat) (m : Memory (K × V)) (b : Bst) (k : K) :
    Except Fault BstIterator := do
  BstIterator.ctor fuel m (← Bst.find_node cmp fuel m b k)

/-- `Bst::lookup`: the result is null or the address of the mapped value of a node, which
is identified with the address of the node. -/
def Bst.lookup (cmp : K → K → Bool) (fuel : Nat) (m : Memory (K × V)) (b : Bst) (k : K) :
    Except Fault Ptr := do
  let node ← Bst.find_node cmp fuel m b k
  pure (if node.isSome then node else none)

/-- The statement `if (is_left_son(node)) node->parent_->left_ = x; else if
(is_right_son(node)) node->parent_->right_ = x; else root_ = x;`, which closes each of
the three cases of `Bst::extract_node`. -/
def replace_in_parent (m : Memory (K × V)) (b : Bst) (node x : Ptr) :
    Except Fault (Memory (K × V) × Bst) := do
  if (← is_left_son m node) then do
    let m ← m.set_left (← m.deref node).parent_ x
    pure (m, b)
  else if (← is_right_son m node) then do
    let m ← m.set_right (← m.deref node).parent_ x
    pure (m, b)
  else pure (m, { root_ := x, size_ := b.size_ })

/-- `Bst::extract_node`; the fuel bounds the recursion and the loop of `leftmost`. -/
def Bst.extract_node : Nat → Memory (K × V) → Bst → Ptr → Except Fault (Memory (K × V) × Bst)
  | 0, _, _, _ => Except.error Fault.out_of_fuel
  | fuel + 1, m, b, node => do
    let d ← node_degree m node
    match d with
    | 0 => replace_in_parent m b node none
    | 1 => do
      let n ← m.deref node
      let son := if n.left_.isSome then n.left_ else n.right_
      let (m, b) ← replace_in_parent m b node son
      let m ← m.set_parent son (← m.deref node).parent_
      pure (m, b)
    | _ => do
      let next ← Bst.leftmost fuel m (← m.deref node).right_
      let (m, b) ← Bst.extract_node fuel m b next
      let m ← m.set_parent next (← m.deref node).parent_
      let m ← m.set_left next (← m.deref node).left_
      let m ← m.set_right next (← m.deref node).right_
      let n ← m.deref node
      let m ← (if n.left_.isSome then m.set_parent n.left_ next
        else pure m : Except Fault (Memory (K × V)))
      let n ← m.deref node
      let m ← (if n.right_.isSome then m.set_parent n.right_ next
        else pure m : Except Fault (Memory (K × V)))
      replace_in_parent m b node next

/-- `Bst::erase_node`: the result carries the returned `BstNode*`. -/
def Bst.erase_node (fuel : Nat) (m : Memory (K × V)) (b : Bst) (node : Ptr) :
    Except Fault (Memory (K × V) × Bst × Ptr) := do
  let n ← Bst.next_in_order fuel m node
  let (m, b) ← Bst.extract_node fuel m b node
  let m ← Bst.delete_node m node
  pure (m, { root_ := b.root_, size_ := b.size_ - 1 }, n)

/-- `Bst::erase(Key const&)`: the result carries the returned count. -/
def Bst.erase (cmp : K → K → Bool) (fuel : Nat) (m : Memory (K × V)) (b : Bst) (k : K) :
    Except Fault (Memory (K × V) × Bst × Nat) := do
  let node ← Bst.find_node cmp fuel m b k
  match node with
  | none => pure (m, b, 0)
  | some a => do
    let (m, b, _) ← Bst.erase_node fuel m b (some a)
    pure (m, b, 1)

/-- `Bst::erase(iterator)`: `erase_node(it.current_)`, converted to an iterator. -/
def Bst.erase_at (fuel : Nat) (m : Memory (K × V)) (b : Bst) (it : BstIterator) :
    Except Fault (Memory (K × V) × Bst × BstIterator) := do
  let (m, b, n) ← Bst.erase_node fuel m b it.current_
  pure (m, b, ← BstIterator.ctor fuel m n)

/-- The keys stored in a binary tree of key/value nodes. -/
def Tree.keys (t : Tree (K × V)) : List K := t.pairs.map (fun p => p.2.1)

/-- The keys of a binary tree in symmetric order. -/
def Tree.inkeys : Tree (K × V) → List K
  | Tree.nil => []
  | Tree.node _ kv l r => l.inkeys ++ kv.1 :: r.inkeys

/-- Search-tree order: the left subtree of every node holds only keys that compare less
than the node's key, the right subtree only keys that compare greater. -/
def BstOrdered (cmp : K → K → Bool) : Tree (K × V) → Prop
  | Tree.nil => True
  | Tree.node _ kv l r => (∀ x ∈ l.keys, cmp x kv.1 = true) ∧
      (∀ x ∈ r.keys, cmp kv.1 x = true) ∧ BstOrdered cmp l ∧ BstOrdered cmp r

/-- Two keys are equivalent: neither compares less than the other. -/
def KeyEquiv (cmp : K → K → Bool) (a b : K) : Prop := cmp a b = false ∧ cmp b a = false

/-- Tree-level `find_node`: the address of the node the search for `key` ends at. -/
def Tree.bfind (cmp : K → K → Bool) (key : K) : Tree (K × V) → Option Nat
  | Tree.nil => none
  | Tree.node a kv l r =>
    if cmp key kv.1 then l.bfind cmp key
    else if cmp kv.1 key then r.bfind cmp key
    else some a

/-- Tree-level `find_spot` on a non-empty tree. -/
def Tree.fspot (cmp : K → K → Bool) (key : K) : Tree (K × V) → FindSpotResult
  | Tree.nil => ⟨none, none⟩
  | Tree.node a kv l r =>
    if cmp key kv.1 then
      match l.ptr with
      | some _ => l.fspot cmp key
      | none => ⟨some a, some (SonRef.left_of (some a))⟩
    else if cmp kv.1 key then
      match r.ptr with
      | some _ => r.fspot cmp key
      | none => ⟨some a, some (SonRef.right_of (some a))⟩
    else ⟨some a, none⟩

/-- Tree-level `try_insert`: a new node at address `a` holding `kv` is hung where the
search for `key` falls off the tree; nothing changes when the search finds a node. -/
def Tree.binsert (cmp : K → K → Bool) (key : K) (a : Nat) (kv : K × V) :
    Tree (K × V) → Tree (K × V)
  | Tree.nil => Tree.node a kv Tree.nil Tree.nil
  | Tree.node b w l r =>
    if cmp key w.1 then Tree.node b w (l.binsert cmp key a kv) r
    else if cmp w.1 key then Tree.node b w l (r.binsert cmp key a kv)
    else Tree.node b w l r

/-- Detach the leftmost node of a tree: its address, its contents and the rest. -/
def Tree.pop_left : Tree T → Option (Nat × T × Tree T)
  | Tree.nil => none
  | Tree.node a v l r =>
    match l.pop_left with
    | none => some (a, v, r)
    | some (c, w, l') => some (c, w, Tree.node a v l' r)

/-- Tree-level `extract_node` at the top of a subtree with the subtrees `l` and `r`:
nothing, the only son, or the leftmost node of `r` in place of the extracted node. -/
def Tree.join (l r : Tree T) : Tree T :=
  match l.ptr, r.pop_left with
  | none, _ => r
  | some _, none => l
  | some _, some (c, w, r') => Tree.node c w l r'

/-- Tree-level `extract_node` of the node at address `a`. -/
def Tree.remove (a : Nat) : Tree T → Tree T
  | Tree.nil => Tree.nil
  | Tree.node b v l r =>
    if b = a then Tree.join l r else Tree.node b v (l.remove a) (r.remove a)

/-- The memory and the record `b` hold the binary tree `t`: the root has a null
`parent_`, the nodes are distinct and allocated, and `size_` counts them. -/
def BInv (m : Memory (K × V)) (b : Bst) (t : Tree (K × V)) : Prop :=
  b.root_ = t.ptr ∧ b.size_ = t.addrs.length ∧ Repr m none t ∧ t.addrs.Nodup ∧
    ∀ a ∈ t.addrs, a < m.brk

/-- The map is well formed: its nodes form a binary tree in search-tree order. -/
def BstWF (cmp : K → K → Bool) (m : Memory (K × V)) (b : Bst) : Prop :=
  ∃ t, BInv m b t ∧ BstOrdered cmp t

/-- A key equivalent to `k` is stored in the map. -/
def Bst.stores (cmp : K → K → Bool) (m : Memory (K × V)) (b : Bst) (k : K) : Prop :=
  ∃ a n, Reaches m b.root_ a ∧ m.cell a = some n ∧ KeyEquiv cmp n.data_.1 k

/-- Where the node at address `a` hangs: at `root_` when `par` is null, otherwise in the
`left_` member (`left` true) or in the `right_` member of the node `par`. -/
def Hang (m : Memory (K × V)) (b : Bst) (a : Nat) (par : Ptr) (left : Bool) : Prop :=
  match par with
  | none => b.root_ = some a
  | some p => ∃ np, m.cell p = some np ∧
      (if left then np.left_ = some a else np.right_ = some a ∧ np.left_ ≠ some a)

/-- The state `(m', b')` differs from `(m, b)` in that the pointer `x` is stored where
the node with parent `par` hung. -/
def Rehung (m m' : Memory (K × V)) (b b' : Bst) (par : Ptr) (left : Bool) (x : Ptr) : Prop :=
  b' = (if par = none then ⟨x, b.size_⟩ else b) ∧ m'.brk = m.brk ∧
  (∀ c, par ≠ some c → m'.cell c = m.cell c) ∧
  ∀ p np, par = some p → m.cell p = some np →
    m'.cell p = some (if left then { np with left_ := x } else { np with right_ := x })

/-- A call that changes a map: `insert`, `try_emplace`, `emplace`, `erase` by key, or
`erase` at the iterator positioned on the node at address `node`. -/
inductive BstCall (K V : Type) where
  | insert (v : K × V)
  | try_emplace (k : K) (v : V)
  | emplace (v : K × V)
  | erase (k : K)
  | erase_at (node : Nat)

/-- The effect of one call on the memory and on the map. -/
def Bst.step (cmp : K → K → Bool) (fuel : Nat) (m : Memory (K × V)) (b : Bst) :
    BstCall K V → Except Fault (Memory (K × V) × Bst)
  | BstCall.insert v => do
    let (m, b, _, _) ← Bst.insert cmp fuel m b v
    pure (m, b)
  | BstCall.try_emplace k v => do
    let (m, b, _, _) ← Bst.try_emplace cmp fuel m b k v
    pure (m, b)
  | BstCall.emplace v => do
    let (m, b, _, _) ← Bst.emplace cmp fuel m b v
    pure (m, b)
  | BstCall.erase k => do
    let (m, b, _) ← Bst.erase cmp fuel m b k
    pure (m, b)
  | BstCall.erase_at a => do
    let (m, b, _) ← Bst.erase_at fuel m b ⟨some a⟩
    pure (m, b)

/-- The precondition of a call: an iterator passed to `erase` is positioned on a node of
the map. -/
def BstCall.allowed (m : Memory (K × V)) (b : Bst) : BstCall K V → Prop
  | BstCall.erase_at a => Reaches m b.root_ a
  | _ => True

/-- The maps built from the empty map by allowed calls that return. The loops of a call
get more fuel than there are allocated addresses. -/
inductive BstReachable (cmp : K → K → Bool) : Memory (K × V) → Bst → Prop where
  | init : BstReachable cmp Memory.init Bst.mk_empty
  | step (m m' : Memory (K × V)) (b b' : Bst) (c : BstCall K V) (fuel : Nat) :
      BstReachable cmp m b → c.allowed m b → m.brk < fuel →
      Bst.step cmp fuel m b c = Except.ok (m', b') → BstReachable cmp m' b'

/-- The memory and map a call returned; the empty map if it did not return. -/
def returned_bst (r : Except Fault (Memory (K × V) × Bst)) : Memory (K × V) × Bst :=
  match r with
  | Except.ok x => x
  | Except.error _ => (Memory.init, Bst.mk_empty)

/-- The map after `insert((2, 20))`. -/
def one_bst : Memory (Nat × Nat) × Bst :=
  returned_bst (Bst.step less 1 Memory.init Bst.mk_empty (BstCall.insert (2, 20)))

/-- The map after `insert((2, 20)); insert((1, 10))`. -/
def two_bst : Memory (Nat × Nat) × Bst :=
  returned_bst (Bst.step less 2 one_bst.1 one_bst.2 (BstCall.insert (1, 10)))

/-- The map after `insert((2, 20)); insert((1, 10)); insert((3, 30))`. -/
def sample_bst : Memory (Nat × Nat) × Bst :=
  returned_bst (Bst.step less 3 two_bst.1 two_bst.2 (BstCall.insert (3, 30)))

/-- The nodes of a binary tree in symmetric order, each as the pair of its address and
its contents. -/
def Tree.inpairs : Tree T → List (Nat × T)
  | Tree.nil => []
  | Tree.node a v l r => l.inpairs ++ (a, v) :: r.inpairs

/-- Step `k` times with `next_in_order`, recording each position with the key read there
by `node_key` before the step; the result is the record and the final position. -/
def Bst.walk (fuel : Nat) (m : Memory (K × V)) :
    Nat → Ptr → Except Fault (List (Ptr × K) × Ptr)
  | 0, p => pure ([], p)
  | k + 1, p => do
    let key ← node_key m p
    let n ← Bst.next_in_order fuel m p
    let (vs, e) ← Bst.walk fuel m k n
    pure ((p, key) :: vs, e)

/-- How a call ends for its caller. The call returned a value, or it threw
`std::out_of_range`; in both cases the caller finds the memory and the data members as the
statements executed before left them. A fault of the embedding (undefined behaviour or
exhausted fuel) leaves nothing to observe. -/
inductive Outcome (T α : Type) where
  | returned (a : α) (m : Memory T) (h : PairingHeap)
  | thrown (m : Memory T) (h : PairingHeap)
  | undefined (f : Fault)

/-- Sequencing of two statements: an exception or a fault of the first ends the call, as
no member function of the class has a handler. -/
def Outcome.and_then {α β : Type} (x : Outcome T α)
    (f : α → Memory T → PairingHeap → Outcome T β) : Outcome T β :=
  match x with
  | Outcome.returned a m h => f a m h
  | Outcome.thrown m h => Outcome.thrown m h
  | Outcome.undefined e => Outcome.undefined e

/-- Statements without a `throw`: they complete with a value and a state, or the embedding
faults. -/
def Outcome.of_steps {α : Type} (r : Except Fault (α × Memory T × PairingHeap)) :
    Outcome T α :=
  match r with
  | Except.ok (a, m, h) => Outcome.returned a m h
  | Except.error f => Outcome.undefined f

/-- `PairingHeap::empty_check` with the state it leaves: a `const` member function whose
only statement is `if (this->empty()) throw std::out_of_range("Heap is empty!")`. -/
def empty_check_observed (m : Memory T) (h : PairingHeap) : Outcome T Unit :=
  if h.empty then Outcome.thrown m h else Outcome.returned () m h

/-- The statements of `PairingHeap::delete_min` that follow `this->empty_check()`. -/
def delete_min_rest (cmp : T → T → Bool) (mode : MergeMode) (fuel : Nat) (m : Memory T)
    (h : PairingHeap) : Except Fault (Memory T × PairingHeap) := do
  let oldRoot := h.root_
  let (m, root) ← (if 1 == h.size then pure (m, none) else do
    let m ← m.set_parent (← m.deref h.root_).left_ none
    merge cmp mode fuel m (← m.deref h.root_).left_ : Except Fault (Memory T × Ptr))
  let m ← delete_node m oldRoot
  pure (m, { root_ := root, size_ := h.size_ - 1 })

/-- `PairingHeap::delete_min` with the state the call leaves. -/
def delete_min_observed (cmp : T → T → Bool) (mode : MergeMode) (fuel : Nat) (m : Memory T)
    (h : PairingHeap) : Outcome T Unit :=
  (empty_check_observed m h).and_then fun _ m h =>
    Outcome.of_steps (do
      let (m, h) ← delete_min_rest cmp mode fuel m h
      pure ((), m, h))

/-- `PairingHeap::find_min` with the state the call leaves. -/
def find_min_observed (m : Memory T) (h : PairingHeap) : Outcome T T :=
  (empty_check_observed m h).and_then fun _ m h =>
    Outcome.of_steps (do
      pure ((← m.deref h.root_).data_, m, h))

/-! ## Theorems -/

@[simp] theorem bind_ok {α β : Type} (a : α) (f : α → Except Fault β) :
    (Except.ok a >>= f) = f a := rfl
@[simp] theorem bind_error {α β : Type} (e : Fault) (f : α → Except Fault β) :
    ((Except.error e : Except Fault α) >>= f) = Except.error e := rfl
@[simp] theorem pure_eq_ok {α : Type} (a : α) : (pure a : Except Fault α) = Except.ok a := rfl

@[simp] theorem wp_ok {α : Type} (a : α) (Q : α → Prop) : wp (Except.ok a) Q ↔ Q a := by
  simp [wp]

@[simp] theorem wp_error {α : Type} (e : Fault) (Q : α → Prop) :
    wp (Except.error e) Q ↔ False := by
  simp [wp]

@[simp] theorem wp_bind {α β : Type} (x : Except Fault α) (f : α → Except Fault β)
    (Q : β → Prop) : wp (x >>= f) Q ↔ wp x (fun a => wp (f a) Q) := by
  cases x <;> simp [wp]

theorem wp_mono {α : Type} {x : Except Fault α} {P Q : α → Prop} (h : wp x P)
    (hPQ : ∀ a, P a → Q a) : wp x Q := by
  obtain ⟨a, e, p⟩ := h
  exact ⟨a, e, hPQ a p⟩

theorem deref_some {m : Memory T} {a : Nat} {n : PairingNode T} (h : m.cell a = some n) :
    m.deref (some a) = Except.ok n := by
  simp [Memory.deref, h]

theorem modify_some {m : Memory T} {a : Nat} {n : PairingNode T} (h : m.cell a = some n)
    (f : PairingNode T → PairingNode T) :
    m.modify (some a) f = Except.ok (m.put a (some (f n))) := by
  simp [Memory.modify, h]

@[simp] theorem put_cell (m : Memory T) (a b : Nat) (x : Option (PairingNode T)) :
    (m.put a x).cell b = if b = a then x else m.cell b := rfl
@[simp] theorem put_brk (m : Memory T) (a : Nat) (x : Option (PairingNode T)) :
    (m.put a x).brk = m.brk := rfl

theorem Repr_congr {m m' : Memory T} : ∀ (t : Tree T) (par : Ptr),
    (∀ b ∈ t.addrs, m'.cell b = m.cell b) → Repr m par t → Repr m' par t
  | .nil, _, _, _ => trivial
  | .node a v l r, par, h, ⟨hc, hl, hr⟩ => by
    refine ⟨?_, Repr_congr l _ ?_ hl, Repr_congr r _ ?_ hr⟩
    · rw [h a (by simp [Tree.addrs])]; exact hc
    · intro b hb; exact h b (by simp [Tree.addrs, hb])
    · intro b hb; exact h b (by simp [Tree.addrs, hb])


theorem Repr.reparent {m : Memory T} {a : Nat} {n : PairingNode T} (q : Ptr) :
    ∀ (t : Tree T) (par : Ptr), t.ptr = some a → m.cell a = some n → t.addrs.Nodup →
      Repr m par t → Repr (m.put a (some { n with parent_ := q })) q t
  | .nil, _, h, _, _, _ => by simp [Tree.ptr] at h
  | .node b v l r, par, h, hn, hd, ⟨hc, hl, hr⟩ => by
    simp only [Tree.ptr, Option.some.injEq] at h
    subst h
    simp only [Tree.addrs, List.nodup_cons, List.mem_append, not_or, List.nodup_append] at hd
    rw [hc] at hn
    cases hn
    refine ⟨by simp, Repr_congr l _ ?_ hl, Repr_congr r _ ?_ hr⟩
    · intro c hc'
      have : c ≠ b := fun e => hd.1.1 (e ▸ hc')
      simp [this]
    · intro c hc'
      have : c ≠ b := fun e => hd.1.2 (e ▸ hc')
      simp [this]


theorem Repr_put {m : Memory T} {a : Nat} {x : Option (PairingNode T)} {t : Tree T}
    {par : Ptr} (ha : a ∉ t.addrs) (h : Repr m par t) : Repr (m.put a x) par t := by
  refine Repr_congr t par ?_ h
  intro b hb
  have : b ≠ a := fun e => ha (e ▸ hb)
  simp [this]

theorem wp_pair_core (m : Memory T) (w l : Root T) (pw rw pl rl : Ptr)
    (hw : Owns m w pw rw) (hl : Owns m l pl rl) (hd : (w.addrs ++ l.addrs).Nodup)
    (Q : Memory T × Ptr → Prop)
    (hQ : ∀ m', Owns m' ⟨w.a, w.v, Tree.node l.a l.v l.kids w.kids⟩ pw rw → m'.brk = m.brk →
      (∀ b, b ∉ w.addrs → b ∉ l.addrs → m'.cell b = m.cell b) → Q (m', some w.a)) :
    wp (do
        let m ← m.set_parent (some l.a) (some w.a)
        let m ← m.set_right (some l.a) w.kids.ptr
        let m ← m.set_left (some w.a) (some l.a)
        let m ← (match w.kids.ptr with
          | some o => m.set_parent (some o) (some l.a)
          | none => pure m : Except Fault (Memory T))
        pure (m, (some w.a : Ptr))) Q := by
  obtain ⟨hwc, hwk⟩ := hw
  obtain ⟨hlc, hlk⟩ := hl
  obtain ⟨wa, wv, wk⟩ := w
  obtain ⟨la, lv, lk⟩ := l
  simp only at hwc hlc hwk hlk hQ ⊢
  cases wk with
  | nil =>
    simp only [Root.addrs, Tree.addrs, List.nodup_append, List.nodup_cons, List.mem_cons,
      List.cons_append, List.mem_append, not_or, List.disjoint_cons_left,
      List.disjoint_cons_right, List.not_mem_nil, List.nil_append] at hd
    have hne : wa ≠ la := by tauto
    simp only [Tree.ptr] at hwc ⊢
    simp [Memory.set_parent, Memory.set_right, Memory.set_left, Memory.modify, hlc, hwc, hne]
    apply hQ
    · refine ⟨?_, ?_, ?_, trivial⟩
      · simp [Tree.ptr]
      · simp [hne.symm, Tree.ptr]
      · refine Repr_put ?_ (Repr_put ?_ (Repr_put ?_ hlk)) <;> tauto
    · rfl
    · intro b h1 h2
      simp only [Root.addrs, Tree.addrs, List.mem_cons, not_or, List.not_mem_nil,
        not_false_eq_true, and_true] at h1 h2
      simp [h1, h2.1]
  | node o vo lo ro =>
    obtain ⟨hoc, hol, hor⟩ := hwk
    simp only [Root.addrs, Tree.addrs, List.nodup_append, List.nodup_cons, List.mem_cons,
      List.cons_append, List.mem_append, not_or, List.disjoint_cons_left,
      List.disjoint_cons_right, List.disjoint_append_left, List.disjoint_append_right] at hd
    have hne : wa ≠ la := by tauto
    have how : o ≠ wa := by intro e; subst e; tauto
    have hol' : o ≠ la := by intro e; subst e; tauto
    simp only [Tree.ptr] at hwc ⊢
    simp [Memory.set_parent, Memory.set_right, Memory.set_left, Memory.modify, hlc, hwc, hne,
      hoc, how, hol']
    apply hQ
    · refine ⟨?_, ?_, ?_, by simp, ?_, ?_⟩
      · simp [Tree.ptr, how.symm]
      · simp [hne.symm, hol'.symm, Tree.ptr]
      · refine Repr_put ?_ (Repr_put ?_ (Repr_put ?_ (Repr_put ?_ hlk))) <;> tauto
      · refine Repr_put ?_ (Repr_put ?_ (Repr_put ?_ (Repr_put ?_ hol))) <;> tauto
      · refine Repr_put ?_ (Repr_put ?_ (Repr_put ?_ (Repr_put ?_ hor))) <;> tauto
    · rfl
    · intro b h1 h2
      simp only [Root.addrs, Tree.addrs, List.mem_cons, List.mem_append, not_or] at h1 h2
      simp [h1.1, h2.1, h1.2.1]

theorem wp_pair (cmp : T → T → Bool) (m : Memory T) (x y : Root T) (px rx py ry : Ptr)
    (hx : Owns m x px rx) (hy : Owns m y py ry) (hd : (x.addrs ++ y.addrs).Nodup)
    (Q : Memory T × Ptr → Prop)
    (hQ : ∀ m', Owns m' (fpair cmp x y) (if cmp x.v y.v then px else py)
        (if cmp x.v y.v then rx else ry) → m'.brk = m.brk →
      (∀ b, b ∉ x.addrs → b ∉ y.addrs → m'.cell b = m.cell b) →
      Q (m', some (fpair cmp x y).a)) :
    wp (pair cmp m (some x.a) (some y.a)) Q := by
  have hxc := hx.1
  have hyc := hy.1
  by_cases hc : cmp x.v y.v = true
  · simp only [pair, deref_some hxc, deref_some hyc, bind_ok, hc, if_true]
    simp only [fpair, hc, if_true] at hQ
    exact wp_pair_core m x y px rx py ry hx hy hd Q hQ
  · simp only [Bool.not_eq_true] at hc
    simp only [pair, deref_some hxc, deref_some hyc, bind_ok, hc, Bool.false_eq_true, if_false]
    simp only [fpair, hc, Bool.false_eq_true, if_false] at hQ
    refine wp_pair_core m y x py ry px rx hy hx ?_ Q ?_
    · have := hd
      rw [List.nodup_append_comm]; exact hd
    · intro m' h1 h2 h3
      exact hQ m' h1 h2 (fun b hb1 hb2 => h3 b hb2 hb1)

@[simp] theorem hptr_nil : hptr ([] : List (Root T)) = none := rfl
@[simp] theorem hptr_cons (x : Root T) (xs : List (Root T)) : hptr (x :: xs) = some x.a := rfl
@[simp] theorem ptr_nil : (Tree.nil : Tree T).ptr = none := rfl
@[simp] theorem ptr_node (a : Nat) (v : T) (l r : Tree T) : (Tree.node a v l r).ptr = some a :=
  rfl
@[simp] theorem unspine_nil : unspine ([] : List (Root T)) = Tree.nil := rfl
@[simp] theorem unspine_cons (x : Root T) (xs : List (Root T)) :
    unspine (x :: xs) = Tree.node x.a x.v x.kids (unspine xs) := rfl
@[simp] theorem laddrs_nil : laddrs ([] : List (Root T)) = [] := rfl
@[simp] theorem laddrs_cons (x : Root T) (xs : List (Root T)) :
    laddrs (x :: xs) = x.addrs ++ laddrs xs := rfl
@[simp] theorem addrs_nil : (Tree.nil : Tree T).addrs = [] := rfl
@[simp] theorem addrs_node (a : Nat) (v : T) (l r : Tree T) :
    (Tree.node a v l r).addrs = a :: (l.addrs ++ r.addrs) := rfl
theorem Repr_node (m : Memory T) (par : Ptr) (a : Nat) (v : T) (l r : Tree T) :
    Repr m par (Tree.node a v l r) ↔
      m.cell a = some ⟨v, par, l.ptr, r.ptr⟩ ∧ Repr m (some a) l ∧ Repr m (some a) r :=
  Iff.rfl
@[simp] theorem ffirst_nil (cmp : T → T → Bool) : ffirst cmp [] = [] := rfl
@[simp] theorem ffirst_one (cmp : T → T → Bool) (x : Root T) : ffirst cmp [x] = [x] := rfl
@[simp] theorem ffirst_two (cmp : T → T → Bool) (x y : Root T) (r : List (Root T)) :
    ffirst cmp (x :: y :: r) = fpair cmp x y :: ffirst cmp r := rfl

@[simp] theorem put_put_same (m : Memory T) (a : Nat) (x y : Option (PairingNode T)) :
    (m.put a x).put a y = m.put a y := by
  simp only [Memory.put, Memory.mk.injEq, and_true]
  funext b
  by_cases h : b = a <;> simp [h]

theorem fpair_a (cmp : T → T → Bool) (x y : Root T) :
    (fpair cmp x y).a = x.a ∨ (fpair cmp x y).a = y.a := by
  unfold fpair
  split <;> simp

theorem fpair_addrs_perm (cmp : T → T → Bool) (x y : Root T) :
    (fpair cmp x y).addrs.Perm (x.addrs ++ y.addrs) := by
  unfold fpair
  split
  · simp only [Root.addrs, addrs_node, List.cons_append]
    refine List.Perm.cons _ ?_
    have h1 : (y.a :: (y.kids.addrs ++ x.kids.addrs)).Perm (x.kids.addrs ++ y.a :: y.kids.addrs) := by
      rw [← List.cons_append]
      exact List.perm_append_comm
    exact h1
  · simp only [Root.addrs, addrs_node, List.cons_append]
    have h1 : (y.a :: x.a :: (x.kids.addrs ++ y.kids.addrs)).Perm
        (x.a :: y.a :: (x.kids.addrs ++ y.kids.addrs)) := List.Perm.swap _ _ _
    refine h1.trans (List.Perm.cons _ ?_)
    exact List.perm_middle.symm

theorem mem_fpair_addrs (cmp : T → T → Bool) (x y : Root T) (b : Nat) :
    b ∈ (fpair cmp x y).addrs ↔ b ∈ x.addrs ∨ b ∈ y.addrs := by
  rw [(fpair_addrs_perm cmp x y).mem_iff, List.mem_append]

theorem unspine_ptr (xs : List (Root T)) : (unspine xs).ptr = hptr xs := by
  cases xs <;> rfl

theorem unspine_addrs (xs : List (Root T)) : (unspine xs).addrs = laddrs xs := by
  induction xs with
  | nil => rfl
  | cons x xs ih => simp [unspine, Tree.addrs, laddrs, Root.addrs, ih]

theorem Owns_congr {m m' : Memory T} {x : Root T} {p r : Ptr}
    (h : ∀ b ∈ x.addrs, m'.cell b = m.cell b) (hx : Owns m x p r) : Owns m' x p r := by
  refine ⟨?_, Repr_congr _ _ (fun b hb => h b (by simp [Root.addrs, hb])) hx.2⟩
  rw [h x.a (by simp [Root.addrs])]; exact hx.1

theorem Owns_put {m : Memory T} {a : Nat} {n : Option (PairingNode T)} {x : Root T}
    {p r : Ptr} (ha : a ∉ x.addrs) (hx : Owns m x p r) : Owns (m.put a n) x p r := by
  refine Owns_congr ?_ hx
  intro b hb
  have : b ≠ a := fun e => ha (e ▸ hb)
  simp [this]

theorem Owns.set {m : Memory T} {x : Root T} {p r : Ptr} (p' r' : Ptr)
    (ha : x.a ∉ x.kids.addrs) (hx : Owns m x p r) :
    Owns (m.put x.a (some ⟨x.v, p', x.kids.ptr, r'⟩)) x p' r' :=
  ⟨by simp, Repr_put ha hx.2⟩

theorem Chain_congr {m m' : Memory T} : ∀ (ws : List (Root T)),
    (∀ b ∈ laddrs ws, m'.cell b = m.cell b) → Chain m ws → Chain m' ws
  | [], _, _ => trivial
  | w :: ws, h, ⟨⟨rt, hw⟩, hws⟩ =>
    ⟨⟨rt, Owns_congr (fun b hb => h b (by simp [laddrs, hb])) hw⟩,
      Chain_congr ws (fun b hb => h b (by simp [laddrs, hb])) hws⟩

theorem Chain_put {m : Memory T} {a : Nat} {n : Option (PairingNode T)} {ws : List (Root T)}
    (ha : a ∉ laddrs ws) (h : Chain m ws) : Chain (m.put a n) ws := by
  refine Chain_congr ws ?_ h
  intro b hb
  have : b ≠ a := fun e => ha (e ▸ hb)
  simp [this]

theorem Repr_frame {m m' : Memory T} {S : List Nat} {t : Tree T} {par : Ptr}
    (hf : ∀ b, b ∉ S → m'.cell b = m.cell b) (hd : t.addrs.Disjoint S) (h : Repr m par t) :
    Repr m' par t :=
  Repr_congr t par (fun b hb => hf b (fun hS => hd hb hS)) h

theorem Owns_frame {m m' : Memory T} {S : List Nat} {x : Root T} {p r : Ptr}
    (hf : ∀ b, b ∉ S → m'.cell b = m.cell b) (hd : x.addrs.Disjoint S) (h : Owns m x p r) :
    Owns m' x p r :=
  Owns_congr (fun b hb => hf b (fun hS => hd hb hS)) h

theorem Chain_frame {m m' : Memory T} {S : List Nat} {ws : List (Root T)}
    (hf : ∀ b, b ∉ S → m'.cell b = m.cell b) (hd : (laddrs ws).Disjoint S) (h : Chain m ws) :
    Chain m' ws :=
  Chain_congr ws (fun b hb => hf b (fun hS => hd hb hS)) h

theorem Chain0.chain {m : Memory T} : ∀ {ws : List (Root T)}, Chain0 m ws → Chain m ws
  | [], _ => trivial
  | _ :: _, ⟨hw, hws⟩ => ⟨⟨none, hw⟩, hws⟩

/-- Writing a field of an owned root. -/
theorem wp_modify_owned {m : Memory T} {x : Root T} {p r : Ptr} (hx : Owns m x p r)
    (f : PairingNode T → PairingNode T) (Q : Memory T → Prop)
    (hQ : Q (m.put x.a (some (f ⟨x.v, p, x.kids.ptr, r⟩)))) :
    wp (m.modify (some x.a) f) Q := by
  simp [Memory.modify, hx.1, hQ]

theorem Chain0_frame {m m' : Memory T} {S : List Nat} {ws : List (Root T)}
    (hf : ∀ b, b ∉ S → m'.cell b = m.cell b) (hd : (laddrs ws).Disjoint S) (h : Chain0 m ws) :
    Chain0 m' ws := by
  cases ws with
  | nil => trivial
  | cons w ws =>
    simp only [laddrs_cons, List.disjoint_append_left] at hd
    exact ⟨Owns_frame hf hd.1 h.1, Chain_frame hf hd.2 h.2⟩

theorem put_frame (m : Memory T) (a : Nat) (n : Option (PairingNode T)) :
    ∀ b, b ∉ [a] → (m.put a n).cell b = m.cell b := by
  intro b hb
  simp only [List.mem_singleton] at hb
  simp [hb]

/-- The pairing branch of the first-pass loop body. -/
theorem wp_first_pass_pair (cmp : T → T → Bool) (m : Memory T) (x y : Root T)
    (px rx py ry : Ptr) (hx : Owns m x px rx) (hy : Owns m y py ry)
    (hd : (x.addrs ++ y.addrs).Nodup) (Q : Memory T × Ptr × Ptr → Prop)
    (hQ : ∀ m', Owns m' (fpair cmp x y) none none → m'.brk = m.brk →
      (∀ b, b ∉ x.addrs ++ y.addrs → m'.cell b = m.cell b) →
      Q (m', some (fpair cmp x y).a, ry)) :
    wp (do
        let next := (← m.deref (some y.a)).right_
        let m ← m.set_right (some x.a) none
        let m ← m.set_parent (some x.a) none
        let m ← m.set_right (some y.a) none
        let m ← m.set_parent (some y.a) none
        let (m, paired) ← pair cmp m (some x.a) (some y.a)
        pure (m, paired, next) : Except Fault (Memory T × Ptr × Ptr)) Q := by
  have hd1 := hd
  simp only [Root.addrs, List.nodup_append, List.nodup_cons, List.mem_cons, List.cons_append,
    List.mem_append, not_or, List.disjoint_cons_left, List.disjoint_cons_right] at hd1
  casesm* _ ∧ _
  have hne : x.a ≠ y.a := by assumption
  simp [deref_some hy.1, Memory.set_right, Memory.set_parent, Memory.modify, hx.1, hy.1, hne,
    hne.symm]
  have hOx : Owns ((m.put x.a (some ⟨x.v, none, x.kids.ptr, none⟩)).put y.a
      (some ⟨y.v, none, y.kids.ptr, none⟩)) x none none :=
    ⟨by simp [hne], Repr_put (by assumption) (Repr_put (by assumption) hx.2)⟩
  have hOy : Owns ((m.put x.a (some ⟨x.v, none, x.kids.ptr, none⟩)).put y.a
      (some ⟨y.v, none, y.kids.ptr, none⟩)) y none none :=
    ⟨by simp, Repr_put (by assumption) (Repr_put (by assumption) hy.2)⟩
  apply wp_pair cmp _ x y none none none none hOx hOy hd
  intro m1 hO1 hb1 hf1
  simp only [ite_self] at hO1
  refine hQ m1 hO1 hb1 ?_
  intro b hb
  simp only [List.mem_append, not_or, Root.addrs, List.mem_cons] at hb
  rw [hf1 b (by simp only [Root.addrs, List.mem_cons, not_or]; exact hb.1)
    (by simp only [Root.addrs, List.mem_cons, not_or]; exact hb.2)]
  simp [hb.1.1, hb.2.1]

/-- The step of the first-pass loop body that threads the new winner onto the chain. -/
theorem wp_first_pass_link (m : Memory T) (W : Root T) (ws : List (Root T))
    (hW : Owns m W none none) (hws : Chain0 m ws) (hd : (W.addrs ++ laddrs ws).Nodup)
    (Q : Memory T → Prop)
    (hQ : ∀ m', Chain0 m' (W :: ws) → m'.brk = m.brk →
      (∀ b, b ∉ W.addrs ++ laddrs ws → m'.cell b = m.cell b) → Q m') :
    wp (match hptr ws with
        | some p => do
          let m ← m.set_right (some p) (some W.a)
          m.set_parent (some W.a) (some p)
        | none => pure m : Except Fault (Memory T)) Q := by
  cases ws with
  | nil =>
    simp only [hptr_nil, pure_eq_ok, wp_ok]
    exact hQ m ⟨hW, trivial⟩ rfl (fun _ _ => rfl)
  | cons w ws =>
    obtain ⟨hw, hc⟩ := hws
    simp only [laddrs_cons, Root.addrs, List.nodup_append, List.nodup_cons,
      List.mem_cons, List.cons_append, List.mem_append, not_or, List.disjoint_cons_left,
      List.disjoint_cons_right, List.disjoint_append_left, List.disjoint_append_right] at hd
    casesm* _ ∧ _
    have hne : W.a ≠ w.a := by assumption
    simp [Memory.set_right, Memory.set_parent, Memory.modify, hw.1, hW.1, hne]
    apply hQ
    · refine ⟨⟨by simp, Repr_put ?_ (Repr_put ?_ hW.2)⟩,
        ⟨some W.a, by simp [hne.symm], Repr_put ?_ (Repr_put ?_ hw.2)⟩,
        Chain_put ?_ (Chain_put ?_ hc)⟩ <;> assumption
    · rfl
    · intro b hb
      simp only [laddrs_cons, Root.addrs, List.mem_append, List.mem_cons, not_or] at hb
      simp [hb.1.1, hb.2.1.1]

theorem Repr.clear_parent {m : Memory T} {par : Ptr} {x : Root T} {xs : List (Root T)}
    (h : Repr m par (unspine (x :: xs))) (hd : (laddrs (x :: xs)).Nodup) (Q : Memory T → Prop)
    (hQ : ∀ m', Repr m' none (unspine (x :: xs)) → m'.brk = m.brk →
      (∀ b, b ∉ [x.a] → m'.cell b = m.cell b) → Q m') :
    wp (m.set_parent (some x.a) none) Q := by
  have hc := h.1
  simp only [Memory.set_parent, Memory.modify, hc, wp_ok]
  refine hQ _ ?_ rfl (put_frame _ _ _)
  rw [← unspine_addrs] at hd
  exact Repr.reparent none (unspine (x :: xs)) par rfl hc hd h

theorem sep_first_pass {A X Y R W : List Nat} (hd : (A ++ (X ++ (Y ++ R))).Nodup)
    (hp : W.Perm (X ++ Y)) :
    (X ++ Y).Nodup ∧ A.Disjoint (X ++ Y) ∧ R.Disjoint (X ++ Y) ∧ (W ++ A).Nodup ∧
      R.Disjoint (W ++ A) ∧ ((W ++ A) ++ R).Nodup := by
  have hm : ∀ b, b ∈ W ↔ b ∈ X ∨ b ∈ Y := fun b => by rw [hp.mem_iff, List.mem_append]
  have hxy : (X ++ Y).Nodup := by
    have : (X ++ Y).Sublist (A ++ (X ++ (Y ++ R))) := by
      rw [← List.append_assoc X Y R]
      exact (List.sublist_append_left _ _).trans (List.sublist_append_right _ _)
    exact hd.sublist this
  have hW : W.Nodup := hp.nodup_iff.2 hxy
  simp only [List.nodup_append, List.disjoint_left, List.mem_append, not_or] at hd hxy ⊢
  simp only [hm]
  obtain ⟨hA, ⟨hX, ⟨hY, hR, hYR⟩, hXYR⟩, hAXYR⟩ := hd
  refine ⟨hxy, ?_, ?_, ⟨hW, hA, ?_⟩, ?_, ⟨hW, hA, ?_⟩, hR, ?_⟩
  · intro a ha; exact ⟨(hAXYR ha).1, (hAXYR ha).2.1⟩
  · intro a ha
    exact ⟨fun h => (hXYR h).2 ha, fun h => hYR h ha⟩
  · intro a ha h
    rcases ha with ha | ha
    · exact (hAXYR h).1 ha
    · exact (hAXYR h).2.1 ha
  · intro a ha
    refine ⟨fun h => ?_, fun h => (hAXYR h).2.2 ha⟩
    rcases h with h | h
    · exact (hXYR h).2 ha
    · exact hYR h ha
  · intro a ha h
    rcases ha with ha | ha
    · exact (hAXYR h).1 ha
    · exact (hAXYR h).2.1 ha
  · intro a ha
    rcases ha with (ha | ha) | ha
    · exact (hXYR ha).2
    · exact hYR ha
    · exact (hAXYR ha).2.2

theorem wp_first_pass_loop (cmp : T → T → Bool) : ∀ (fuel : Nat) (rest ws : List (Root T))
    (m : Memory T), rest.length < fuel →
    Repr m none (unspine rest) → Chain0 m ws → (laddrs ws ++ laddrs rest).Nodup →
    ∀ Q : Memory T × Ptr → Prop,
    (∀ m', Chain0 m' ((ffirst cmp rest).reverse ++ ws) → m'.brk = m.brk →
       (∀ b, b ∉ laddrs ws → b ∉ laddrs rest → m'.cell b = m.cell b) →
       Q (m', hptr ((ffirst cmp rest).reverse ++ ws))) →
    wp (first_pass_loop cmp fuel m (hptr ws) (hptr rest)) Q
  | 0, _, _, _, hf, _, _, _, _, _ => absurd hf (Nat.not_lt_zero _)
  | fuel + 1, [], ws, m, _, _, hws, _, Q, hQ => by
    simp only [first_pass_loop, hptr_nil, pure_eq_ok, wp_ok]
    exact hQ m hws rfl (fun _ _ _ => rfl)
  | fuel + 1, [x], ws, m, _, hr, hws, hd, Q, hQ => by
    obtain ⟨hxc, hxk, -⟩ := hr
    simp only [unspine_nil, ptr_nil] at hxc
    have hx : Owns m x none none := ⟨hxc, hxk⟩
    cases ws with
    | nil =>
      simp [first_pass_loop, deref_some hxc]
      exact hQ m ⟨hx, trivial⟩ rfl (fun _ _ _ => rfl)
    | cons w ws =>
      obtain ⟨hw, hc⟩ := hws
      have hd0 := hd
      simp only [laddrs_cons, laddrs_nil, Root.addrs, List.nodup_append, List.nodup_cons,
        List.mem_cons, List.cons_append, List.mem_append, not_or, List.disjoint_cons_left,
        List.disjoint_cons_right, List.disjoint_append_left, List.disjoint_append_right,
        List.append_nil, List.not_mem_nil, List.nodup_nil] at hd
      have hne : x.a ≠ w.a := by intro e; rw [e] at hd; tauto
      simp [first_pass_loop, deref_some hxc, Memory.set_right, Memory.set_parent,
        Memory.modify, hw.1, hxc, hne]
      apply hQ
      · refine ⟨⟨by simp, Repr_put ?_ (Repr_put ?_ hxk)⟩, ⟨some x.a, ?_, Repr_put ?_ (Repr_put ?_ hw.2)⟩,
          Chain_put ?_ (Chain_put ?_ hc)⟩
        · tauto
        · tauto
        · simp [hne.symm]
        · tauto
        · tauto
        · tauto
        · tauto
      · rfl
      · intro b h1 h2
        simp only [laddrs_cons, laddrs_nil, Root.addrs, List.mem_cons, List.mem_append, not_or,
          List.append_nil] at h1 h2
        simp [h1.1.1, h2.1]
  | fuel + 1, x :: y :: rest, ws, m, hf, hr, hws, hd, Q, hQ => by
    obtain ⟨hxc, hxk, hyc, hyk, hrest⟩ := hr
    simp only [unspine_cons, ptr_node] at hxc
    have hx : Owns m x none (some y.a) := ⟨hxc, hxk⟩
    have hy : Owns m y (some x.a) (unspine rest).ptr := ⟨hyc, hyk⟩
    have hsep := sep_first_pass (A := laddrs ws) (X := x.addrs) (Y := y.addrs)
      (R := laddrs rest) (W := (fpair cmp x y).addrs)
      (by simpa only [laddrs_cons] using hd) (fpair_addrs_perm cmp x y)
    obtain ⟨hxy, hAxy, hRxy, hWA, hRWA, hall⟩ := hsep
    simp only [first_pass_loop, hptr_cons, deref_some hxc, bind_ok]
    rw [wp_bind]
    apply wp_first_pass_pair cmp m x y none (some y.a) (some x.a) (unspine rest).ptr hx hy hxy
    intro m1 hO1 hb1 hf1
    have hws1 : Chain0 m1 ws := Chain0_frame hf1 hAxy hws
    have hrest1 : Repr m1 (some y.a) (unspine rest) :=
      Repr_frame hf1 (by rw [unspine_addrs]; exact hRxy) hrest
    simp only []
    rw [wp_bind]
    apply wp_first_pass_link m1 (fpair cmp x y) ws hO1 hws1 hWA
    intro m3 hch3 hb3 hf3
    have hrest3 : Repr m3 (some y.a) (unspine rest) :=
      Repr_frame hf3 (by rw [unspine_addrs]; exact hRWA) hrest1
    have hfr : ∀ b, b ∉ laddrs ws → b ∉ laddrs (x :: y :: rest) → m3.cell b = m.cell b := by
      intro b h1 h2
      simp only [laddrs_cons, List.mem_append, not_or] at h2
      rw [hf3 b, hf1 b]
      · simp only [List.mem_append, not_or]; exact ⟨h2.1, h2.2.1⟩
      · simp only [List.mem_append, not_or, mem_fpair_addrs]; exact ⟨⟨h2.1, h2.2.1⟩, h1⟩
    cases rest with
    | nil =>
      simp only [unspine_nil, ptr_nil, pure_eq_ok, wp_ok]
      exact hQ m3 hch3 (hb3.trans hb1) hfr
    | cons z rest =>
      simp only [unspine_cons, ptr_node]
      rw [wp_bind]
      have hdz : (laddrs (z :: rest)).Nodup := by
        rw [List.nodup_append] at hall
        exact hall.2.1
      apply Repr.clear_parent hrest3 hdz
      intro m4 hr4 hb4 hf4
      have hz : z.a ∈ laddrs (z :: rest) := by simp [Root.addrs]
      have hch4 : Chain0 m4 (fpair cmp x y :: ws) := by
        refine Chain0_frame hf4 ?_ hch3
        intro b hb hb2
        simp only [List.mem_singleton] at hb2
        subst hb2
        exact hRWA hz (by simpa only [laddrs_cons] using hb)
      apply wp_first_pass_loop cmp fuel (z :: rest) (fpair cmp x y :: ws) m4
        (by simp only [List.length_cons] at hf ⊢; omega) hr4 hch4
        (by simpa only [laddrs_cons, List.append_assoc] using hall)
      intro m' hch' hb' hf'
      have e : (ffirst cmp (x :: y :: z :: rest)).reverse ++ ws =
          (ffirst cmp (z :: rest)).reverse ++ fpair cmp x y :: ws := by
        simp only [ffirst_two, List.reverse_cons, List.append_assoc, List.singleton_append]
      rw [e] at hQ
      refine hQ m' hch' (hb'.trans (hb4.trans (hb3.trans hb1))) ?_
      intro b h1 h2
      have h3 : b ∉ laddrs (fpair cmp x y :: ws) := by
        simp only [laddrs_cons, List.mem_append, not_or, mem_fpair_addrs] at h2 ⊢
        exact ⟨⟨h2.1, h2.2.1⟩, h1⟩
      have h4 : b ∉ laddrs (z :: rest) := by
        simp only [laddrs_cons, List.mem_append, not_or] at h2 ⊢
        exact h2.2.2
      rw [hf' b h3 h4, hf4 b, hfr b h1 h2]
      simp only [List.mem_singleton]
      rintro rfl
      exact h4 hz

theorem laddrs_append (xs ys : List (Root T)) : laddrs (xs ++ ys) = laddrs xs ++ laddrs ys := by
  induction xs with
  | nil => rfl
  | cons x xs ih => simp only [List.cons_append, laddrs_cons, ih, List.append_assoc]

theorem laddrs_reverse_perm (xs : List (Root T)) : (laddrs xs.reverse).Perm (laddrs xs) := by
  induction xs with
  | nil => exact List.Perm.refl _
  | cons x xs ih =>
    simp only [List.reverse_cons, laddrs_append, laddrs_cons, laddrs_nil, List.append_nil]
    exact (ih.append_right _).trans List.perm_append_comm

theorem laddrs_ffirst_perm (cmp : T → T → Bool) :
    ∀ xs : List (Root T), (laddrs (ffirst cmp xs)).Perm (laddrs xs)
  | [] => List.Perm.refl _
  | [_] => List.Perm.refl _
  | x :: y :: rest => by
    simp only [ffirst_two, laddrs_cons, ← List.append_assoc]
    exact ((fpair_addrs_perm cmp x y)).append (laddrs_ffirst_perm cmp rest)

theorem foldl_fpair_addrs_perm (cmp : T → T → Bool) :
    ∀ (ws : List (Root T)) (acc : Root T),
      (ws.foldl (fpair cmp) acc).addrs.Perm (acc.addrs ++ laddrs ws)
  | [], acc => by simp
  | w :: ws, acc => by
    simp only [List.foldl_cons, laddrs_cons, ← List.append_assoc]
    exact (foldl_fpair_addrs_perm cmp ws (fpair cmp acc w)).trans
      ((fpair_addrs_perm cmp acc w).append_right _)

theorem ffirst_length_le (cmp : T → T → Bool) :
    ∀ xs : List (Root T), (ffirst cmp xs).length ≤ xs.length
  | [] => Nat.le_refl _
  | [_] => Nat.le_refl _
  | x :: y :: rest => by
    have := ffirst_length_le cmp rest
    simp only [ffirst_two, List.length_cons]
    omega

theorem ffirst_ne_nil (cmp : T → T → Bool) :
    ∀ xs : List (Root T), xs ≠ [] → ffirst cmp xs ≠ []
  | [], h => absurd rfl h
  | [_], _ => by simp
  | _ :: _ :: _, _ => by simp

theorem wp_second_pass_loop (cmp : T → T → Bool) : ∀ (fuel : Nat) (ws : List (Root T))
    (acc : Root T) (m : Memory T), ws.length < fuel →
    Owns m acc none none → Chain m ws → (acc.addrs ++ laddrs ws).Nodup →
    ∀ Q : Memory T × Ptr → Prop,
    (∀ m', Owns m' (ws.foldl (fpair cmp) acc) none none → m'.brk = m.brk →
       (∀ b, b ∉ acc.addrs ++ laddrs ws → m'.cell b = m.cell b) →
       Q (m', some (ws.foldl (fpair cmp) acc).a)) →
    wp (second_pass_loop cmp fuel m (some acc.a) (hptr ws)) Q
  | 0, _, _, _, hf, _, _, _, _, _ => absurd hf (Nat.not_lt_zero _)
  | fuel + 1, [], acc, m, _, hacc, _, _, Q, hQ => by
    simp only [second_pass_loop, hptr_nil, pure_eq_ok, wp_ok]
    exact hQ m hacc rfl (fun _ _ => rfl)
  | fuel + 1, w :: ws, acc, m, hf, hacc, hch, hd, Q, hQ => by
    obtain ⟨⟨rt, hw⟩, hc⟩ := hch
    have hd1 := hd
    simp only [laddrs_cons, ← List.append_assoc] at hd1
    have hd2 := List.nodup_append.1 hd1
    have hdaw : (acc.addrs ++ w.addrs).Nodup := hd2.1
    have hwk : w.a ∉ w.kids.addrs := by
      have := (List.nodup_append.1 hdaw).2.1
      simp only [Root.addrs, List.nodup_cons] at this
      exact this.1
    have hwacc : w.a ∉ acc.addrs := fun h =>
      (List.nodup_append.1 hdaw).2.2 h (List.mem_cons_self _ _)
    simp only [second_pass_loop, hptr_cons, deref_some hw.1, bind_ok]
    simp only [Memory.set_right, Memory.set_parent, Memory.modify, hw.1, bind_ok, put_cell,
      if_true, put_put_same]
    rw [wp_bind]
    have hw' : Owns (m.put w.a (some ⟨w.v, none, w.kids.ptr, none⟩)) w none none :=
      Owns.set none none hwk hw
    have hacc' : Owns (m.put w.a (some ⟨w.v, none, w.kids.ptr, none⟩)) acc none none :=
      Owns_put hwacc hacc
    apply wp_pair cmp _ acc w none none none none hacc' hw' hdaw
    intro m1 hO1 hb1 hf1
    simp only [ite_self] at hO1
    simp only []
    have hfr : ∀ b, b ∉ acc.addrs ++ w.addrs → m1.cell b = m.cell b := by
      intro b hb
      simp only [List.mem_append, not_or] at hb
      rw [hf1 b hb.1 hb.2]
      have : b ≠ w.a := fun e => hb.2 (e ▸ List.mem_cons_self _ _)
      simp [this]
    have hc1 : Chain m1 ws := Chain_frame hfr hd2.2.2.symm hc
    have hd3 : ((fpair cmp acc w).addrs ++ laddrs ws).Nodup :=
      (((fpair_addrs_perm cmp acc w)).append_right _).nodup_iff.2 hd1
    apply wp_second_pass_loop cmp fuel ws (fpair cmp acc w) m1
      (by simp only [List.length_cons] at hf; omega) hO1 hc1 hd3
    intro m' hO' hb' hf'
    refine hQ m' hO' (hb'.trans hb1) ?_
    intro b hb
    simp only [laddrs_cons, List.mem_append, not_or] at hb
    rw [hf' b, hfr b]
    · simp only [List.mem_append, not_or]; exact ⟨hb.1, hb.2.1⟩
    · simp only [List.mem_append, not_or, mem_fpair_addrs]; exact ⟨⟨hb.1, hb.2.1⟩, hb.2.2⟩

theorem wp_second_pass (cmp : T → T → Bool) (fuel : Nat) (w : Root T) (ws : List (Root T))
    (m : Memory T) (hf : ws.length < fuel) (hch : Chain0 m (w :: ws))
    (hd : (laddrs (w :: ws)).Nodup) (Q : Memory T × Ptr → Prop)
    (hQ : ∀ m', Owns m' (ws.foldl (fpair cmp) w) none none → m'.brk = m.brk →
       (∀ b, b ∉ laddrs (w :: ws) → m'.cell b = m.cell b) →
       Q (m', some (ws.foldl (fpair cmp) w).a)) :
    wp (second_pass cmp fuel m (some w.a)) Q := by
  obtain ⟨hw, hc⟩ := hch
  have hd1 := hd
  simp only [laddrs_cons] at hd1
  have hd2 := List.nodup_append.1 hd1
  have hwk : w.a ∉ w.kids.addrs := by
    have := hd2.1
    simp only [Root.addrs, List.nodup_cons] at this
    exact this.1
  have hwws : w.a ∉ laddrs ws := fun h => hd2.2.2 (List.mem_cons_self _ _) h
  simp only [second_pass, deref_some hw.1, bind_ok, Memory.set_parent, Memory.modify, hw.1]
  apply wp_second_pass_loop cmp fuel ws w _ hf (Owns.set none none hwk hw) (Chain_put hwws hc) hd1
  intro m' hO' hb' hf'
  refine hQ m' hO' hb' ?_
  intro b hb
  rw [hf' b (by simpa only [laddrs_cons] using hb)]
  have : b ≠ w.a := fun e => hb (e ▸ by simp [Root.addrs])
  simp [this]

theorem wp_first_pass (cmp : T → T → Bool) (fuel : Nat) (x : Root T) (xs : List (Root T))
    (m : Memory T) (hf : (x :: xs).length < fuel) (hr : Repr m none (unspine (x :: xs)))
    (hd : (laddrs (x :: xs)).Nodup) (Q : Memory T × Ptr → Prop)
    (hQ : ∀ m', Chain0 m' (ffirst cmp (x :: xs)).reverse → m'.brk = m.brk →
       (∀ b, b ∉ laddrs (x :: xs) → m'.cell b = m.cell b) →
       Q (m', hptr (ffirst cmp (x :: xs)).reverse)) :
    wp (first_pass cmp fuel m (some x.a)) Q := by
  simp only [first_pass, deref_some hr.1, bind_ok]
  apply wp_first_pass_loop cmp fuel (x :: xs) [] m hf hr trivial (by simpa using hd)
  intro m' hch hb hfr
  simp only [List.append_nil] at hch ⊢
  exact hQ m' hch hb (fun b hb => hfr b (by simp) hb)

theorem wp_merge_two_pass (cmp : T → T → Bool) (fuel : Nat) (x : Root T) (xs : List (Root T))
    (m : Memory T) (hf : (x :: xs).length < fuel) (hr : Repr m none (unspine (x :: xs)))
    (hd : (laddrs (x :: xs)).Nodup) (Q : Memory T × Ptr → Prop)
    (hQ : ∀ m' R, ftwo_pass cmp (x :: xs) = some R → Owns m' R none none → m'.brk = m.brk →
       (∀ b, b ∉ laddrs (x :: xs) → m'.cell b = m.cell b) → Q (m', some R.a)) :
    wp (merge_two_pass cmp fuel m (some x.a)) Q := by
  simp only [merge_two_pass]
  rw [wp_bind]
  apply wp_first_pass cmp fuel x xs m hf hr hd
  intro m1 hch hb1 hf1
  have hlen := ffirst_length_le cmp (x :: xs)
  have hperm : (laddrs (ffirst cmp (x :: xs)).reverse).Perm (laddrs (x :: xs)) :=
    (laddrs_reverse_perm _).trans (laddrs_ffirst_perm cmp _)
  have hne : (ffirst cmp (x :: xs)).reverse ≠ [] := by
    simpa only [ne_eq, List.reverse_eq_nil_iff] using ffirst_ne_nil cmp (x :: xs) (by simp)
  have hR : ftwo_pass cmp (x :: xs) = match (ffirst cmp (x :: xs)).reverse with
    | [] => none
    | w :: ws => some (ws.foldl (fpair cmp) w) := rfl
  rw [← List.length_reverse] at hlen
  generalize (ffirst cmp (x :: xs)).reverse = l at *
  cases l with
  | nil => exact absurd rfl hne
  | cons w ws =>
    simp only [hptr_cons]
    apply wp_second_pass cmp fuel w ws m1
      (by simp only [List.length_cons] at hlen hf; omega) hch (hperm.nodup_iff.2 hd)
    intro m2 hO2 hb2 hf2
    refine hQ m2 _ hR hO2 (hb2.trans hb1) ?_
    intro b hb
    rw [hf2 b (fun h => hb (hperm.mem_iff.1 h)), hf1 b hb]

theorem unspine_spine : ∀ t : Tree T, unspine t.spine = t
  | Tree.nil => rfl
  | Tree.node a v l r => by
    simp only [Tree.spine, unspine_cons, unspine_spine r]

theorem laddrs_spine (t : Tree T) : laddrs t.spine = t.addrs := by
  rw [← unspine_addrs, unspine_spine]

theorem spine_length_le : ∀ t : Tree T, t.spine.length ≤ t.addrs.length
  | Tree.nil => Nat.le_refl _
  | Tree.node a v l r => by
    have := spine_length_le r
    simp only [Tree.spine, List.length_cons, addrs_node, List.length_append]
    omega

theorem ftwo_pass_addrs_perm (cmp : T → T → Bool) (rest : List (Root T)) (R : Root T)
    (h : ftwo_pass cmp rest = some R) : R.addrs.Perm (laddrs rest) := by
  unfold ftwo_pass at h
  have hperm : (laddrs (ffirst cmp rest).reverse).Perm (laddrs rest) :=
    (laddrs_reverse_perm _).trans (laddrs_ffirst_perm cmp _)
  generalize (ffirst cmp rest).reverse = l at *
  cases l with
  | nil => simp at h
  | cons w ws =>
    simp only [Option.some.injEq] at h
    subst h
    exact (foldl_fpair_addrs_perm cmp ws w).trans (by simpa only [laddrs_cons] using hperm)

theorem ffifo_loop_addrs_perm (cmp : T → T → Bool) : ∀ (n : Nat) (q : List (Root T))
    (R : Root T), ffifo_loop cmp n q = some R → R.addrs.Perm (laddrs q)
  | 0, _, _, h => by simp [ffifo_loop] at h
  | _ + 1, [], _, h => by simp [ffifo_loop] at h
  | _ + 1, [x], R, h => by
    simp only [ffifo_loop, Option.some.injEq] at h
    subst h
    simp
  | n + 1, x :: y :: rest, R, h => by
    simp only [ffifo_loop] at h
    have := ffifo_loop_addrs_perm cmp n _ R h
    refine this.trans ?_
    simp only [laddrs_append, laddrs_cons, laddrs_nil, List.append_nil]
    refine (List.perm_append_comm).trans ?_
    rw [← List.append_assoc]
    exact List.Perm.append_right _ (fpair_addrs_perm cmp x y)

theorem ffifo_loop_some (cmp : T → T → Bool) : ∀ (n : Nat) (q : List (Root T)),
    q ≠ [] → q.length ≤ n → ∃ R, ffifo_loop cmp n q = some R
  | 0, q, hq, hn => by
    cases q with
    | nil => exact absurd rfl hq
    | cons x xs => simp at hn
  | _ + 1, [], hq, _ => absurd rfl hq
  | _ + 1, [x], _, _ => ⟨x, rfl⟩
  | n + 1, x :: y :: rest, _, hn => by
    simp only [ffifo_loop]
    apply ffifo_loop_some cmp n _ (by simp)
    simp only [List.length_cons, List.length_append, List.length_nil] at hn ⊢
    omega

theorem fmerge_addrs_perm (cmp : T → T → Bool) (mode : MergeMode) (l : List (Root T))
    (R : Root T) (h : fmerge cmp mode l = some R) : R.addrs.Perm (laddrs l) := by
  cases mode with
  | TwoPass => exact ftwo_pass_addrs_perm cmp l R h
  | FifoQueue => exact (ffifo_loop_addrs_perm cmp _ _ R h).trans (laddrs_reverse_perm l)

theorem fmerge_nil (cmp : T → T → Bool) (mode : MergeMode) :
    fmerge cmp mode ([] : List (Root T)) = none := by
  cases mode <;> rfl

theorem fmerge_eq_none (cmp : T → T → Bool) (mode : MergeMode) (l : List (Root T))
    (h : fmerge cmp mode l = none) : l = [] := by
  by_contra hne
  cases mode with
  | TwoPass =>
    simp only [fmerge, ftwo_pass] at h
    have := ffirst_ne_nil cmp l hne
    cases hl : (ffirst cmp l).reverse with
    | nil => simp at hl; exact this hl
    | cons w ws => rw [hl] at h; simp at h
  | FifoQueue =>
    obtain ⟨R, hR⟩ := ffifo_loop_some cmp l.length l.reverse (by simpa using hne) (by simp)
    simp only [fmerge, ffifo, hR] at h
    cases h

@[simp] theorem nptr_nil (e : Ptr) : nptr ([] : List (Root T)) e = e := rfl

@[simp] theorem nptr_cons (x : Root T) (xs : List (Root T)) (e : Ptr) :
    nptr (x :: xs) e = some x.a := rfl

theorem nptr_none (xs : List (Root T)) : nptr xs none = hptr xs := by
  cases xs <;> rfl

theorem nptr_append (xs ys : List (Root T)) (e : Ptr) :
    nptr (xs ++ ys) e = nptr xs (nptr ys e) := by
  cases xs <;> rfl

theorem QSeg_congr {m m' : Memory T} {e : Ptr} : ∀ (q : List (Root T)),
    (∀ b ∈ laddrs q, m'.cell b = m.cell b) → QSeg m q e → QSeg m' q e
  | [], _, _ => trivial
  | x :: xs, h, ⟨hx, hxs⟩ =>
    ⟨Owns_congr (fun b hb => h b (by simp [laddrs, hb])) hx,
      QSeg_congr xs (fun b hb => h b (by simp [laddrs, hb])) hxs⟩

theorem QSeg_frame {m m' : Memory T} {S : List Nat} {q : List (Root T)} {e : Ptr}
    (hf : ∀ b, b ∉ S → m'.cell b = m.cell b) (hd : (laddrs q).Disjoint S) (h : QSeg m q e) :
    QSeg m' q e :=
  QSeg_congr q (fun b hb => hf b (fun hS => hd hb hS)) h

theorem QSeg_append {m : Memory T} {e : Ptr} : ∀ (xs ys : List (Root T)),
    QSeg m (xs ++ ys) e ↔ QSeg m xs (nptr ys e) ∧ QSeg m ys e
  | [], ys => by simp [QSeg]
  | x :: xs, ys => by
    have ih := QSeg_append (m := m) (e := e) xs ys
    show Owns m x (nptr (xs ++ ys) e) none ∧ QSeg m (xs ++ ys) e ↔
      (Owns m x (nptr xs (nptr ys e)) none ∧ QSeg m xs (nptr ys e)) ∧ QSeg m ys e
    rw [ih, nptr_append, and_assoc]

theorem wp_fifo_build_loop : ∀ (fuel : Nat) (ws q : List (Root T)) (m : Memory T) (p : Ptr),
    Repr m p (unspine ws) → QSeg m q none → (laddrs ws ++ laddrs q).Nodup →
    ws.length < fuel → ∀ Q : Memory T × Ptr → Prop,
    (∀ m', QSeg m' (ws.reverse ++ q) none → m'.brk = m.brk →
      (∀ b, b ∉ laddrs ws → m'.cell b = m.cell b) → Q (m', hptr (ws.reverse ++ q))) →
    wp (fifo_build_loop fuel m (hptr q) (hptr ws)) Q
  | 0, _, _, _, _, _, _, _, hf, _, _ => by simp at hf
  | fuel + 1, [], q, m, p, _, hq, _, _, Q, hQ => by
    simp only [fifo_build_loop, hptr_nil, pure_eq_ok, wp_ok]
    exact hQ m hq rfl (fun _ _ => rfl)
  | fuel + 1, f :: ws, q, m, p, hr, hq, hd, hf, Q, hQ => by
    obtain ⟨hc, hk, hrest⟩ := hr
    have hd2 : (laddrs ws ++ laddrs (f :: q)).Nodup := by
      refine (List.Perm.nodup_iff ?_).1 hd
      simp only [laddrs_cons]
      rw [← List.append_assoc (laddrs ws)]
      exact List.Perm.append_right _ List.perm_append_comm
    simp only [laddrs_cons, Root.addrs, List.nodup_append, List.nodup_cons,
      List.mem_cons, List.cons_append, List.mem_append, not_or, List.disjoint_cons_left,
      List.disjoint_cons_right, List.disjoint_append_left, List.disjoint_append_right] at hd
    casesm* _ ∧ _
    simp only [fifo_build_loop, hptr_cons, deref_some hc, bind_ok, Memory.set_right,
      Memory.set_parent, Memory.modify, hc, put_cell, if_true, put_put_same]
    rw [unspine_ptr]
    have hfr : ∀ b, b ∉ [f.a] →
        (m.put f.a (some ⟨f.v, hptr q, f.kids.ptr, none⟩)).cell b = m.cell b :=
      put_frame m f.a _
    have hO : Owns (m.put f.a (some ⟨f.v, hptr q, f.kids.ptr, none⟩)) f (nptr q none) none := by
      rw [nptr_none]
      exact ⟨by simp, Repr_put (by assumption) hk⟩
    have hq' : QSeg (m.put f.a (some ⟨f.v, hptr q, f.kids.ptr, none⟩)) (f :: q) none :=
      ⟨hO, QSeg_frame hfr (by simpa using (by assumption : f.a ∉ laddrs q)) hq⟩
    have hrest' : Repr (m.put f.a (some ⟨f.v, hptr q, f.kids.ptr, none⟩)) (some f.a)
        (unspine ws) :=
      Repr_put (by rw [unspine_addrs]; assumption) hrest
    have := wp_fifo_build_loop fuel ws (f :: q) _ (some f.a) hrest' hq' hd2
      (by simpa using hf) Q (by
      intro m' hq2 hb hfr2
      have e : (f :: ws).reverse ++ q = ws.reverse ++ f :: q := by simp
      rw [← e]
      rw [← e] at hq2
      refine hQ m' hq2 (by simpa using hb) ?_
      intro b hb'
      simp only [laddrs_cons, Root.addrs, List.mem_append, List.mem_cons, not_or] at hb'
      rw [hfr2 b hb'.2]
      simp [hb'.1.1])
    simpa using this

theorem wp_set_parent_owned {m : Memory T} {x : Root T} {p r : Ptr} (hx : Owns m x p r)
    (q : Ptr) (Q : Memory T → Prop)
    (hQ : Q (m.put x.a (some ⟨x.v, q, x.kids.ptr, r⟩))) :
    wp (m.set_parent (some x.a) q) Q := by
  simp [Memory.set_parent, Memory.modify, hx.1, hQ]

theorem wp_fifo_front (cmp : T → T → Bool) (m : Memory T) (x y : Root T) (e : Ptr)
    (hx : Owns m x (some y.a) none) (hy : Owns m y e none) (hd : (x.addrs ++ y.addrs).Nodup)
    (Q : Memory T × Ptr → Prop)
    (hQ : ∀ m', Owns m' (fpair cmp x y) none none → m'.brk = m.brk →
      (∀ b, b ∉ x.addrs → b ∉ y.addrs → m'.cell b = m.cell b) →
      Q (m', some (fpair cmp x y).a)) :
    wp (do
      let m ← m.set_parent (some x.a) none
      let m ← m.set_parent (some y.a) none
      pair cmp m (some x.a) (some y.a)) Q := by
  have hd0 := hd
  simp only [Root.addrs, List.nodup_append, List.nodup_cons,
    List.mem_cons, List.cons_append, List.mem_append, not_or, List.disjoint_cons_left,
    List.disjoint_cons_right] at hd
  casesm* _ ∧ _
  have hne : x.a ≠ y.a := by assumption
  rw [wp_bind]
  apply wp_set_parent_owned hx
  rw [wp_bind]
  have hy1 : Owns (m.put x.a (some ⟨x.v, none, x.kids.ptr, none⟩)) y e none :=
    Owns_put (by simp only [Root.addrs, List.mem_cons, not_or]; exact ⟨hne, by assumption⟩) hy
  apply wp_set_parent_owned hy1
  have hx2 : Owns ((m.put x.a (some ⟨x.v, none, x.kids.ptr, none⟩)).put y.a
      (some ⟨y.v, none, y.kids.ptr, none⟩)) x none none :=
    ⟨by simp [hne], Repr_put (by assumption) (Repr_put (by assumption) hx.2)⟩
  have hy2 : Owns ((m.put x.a (some ⟨x.v, none, x.kids.ptr, none⟩)).put y.a
      (some ⟨y.v, none, y.kids.ptr, none⟩)) y none none :=
    ⟨by simp, Repr_put (by assumption) (Repr_put (by assumption) hy.2)⟩
  apply wp_pair cmp _ x y none none none none hx2 hy2 hd0
  intro m' hO hb hfr
  simp only [ite_self] at hO
  refine hQ m' hO (by simpa using hb) ?_
  intro b hbx hby
  rw [hfr b hbx hby]
  simp only [Root.addrs, List.mem_cons, not_or] at hbx hby
  simp [hbx.1, hby.1]

theorem fifo_close (cmp : T → T → Bool) (m : Memory T) (x l : Root T)
    (hO : Owns m (fpair cmp x l) none none) (hd : (x.addrs ++ l.addrs).Nodup) :
    ∃ n par', m.cell l.a = some n ∧
      Owns (m.put l.a (some { n with parent_ := some (fpair cmp x l).a }))
        (fpair cmp x l) par' none := by
  simp only [Root.addrs, List.nodup_append, List.nodup_cons,
    List.mem_cons, List.cons_append, List.mem_append, not_or, List.disjoint_cons_left,
    List.disjoint_cons_right] at hd
  casesm* _ ∧ _
  by_cases hc : cmp x.v l.v = true
  · simp only [fpair, hc, if_true] at hO ⊢
    have hl := hO.2.1
    refine ⟨_, none, hl, Owns_congr ?_ hO⟩
    intro b _
    by_cases hb : b = l.a
    · subst hb
      simp [hl]
    · simp [hb]
  · simp only [Bool.not_eq_true] at hc
    simp only [fpair, hc, Bool.false_eq_true, if_false] at hO ⊢
    refine ⟨_, some l.a, hO.1, ?_⟩
    have hnd : l.a ∉ (Tree.node x.a x.v x.kids l.kids : Tree T).addrs := by
      simp only [addrs_node, List.mem_cons, List.mem_append, not_or]
      refine ⟨?_, ?_, ?_⟩
      · intro e
        have : x.a ≠ l.a := by assumption
        exact this e.symm
      · assumption
      · assumption
    exact ⟨by simp, Repr_put hnd hO.2⟩

theorem hptr_snoc (xs : List (Root T)) (l w : Root T) :
    hptr ((xs ++ [l]) ++ [w]) = nptr (xs ++ [l]) none := by
  cases xs <;> rfl

theorem wp_fifo_merge_loop (cmp : T → T → Bool) : ∀ (fuel : Nat) (init : List (Root T))
    (l : Root T) (m : Memory T), QSeg m (init ++ [l]) none →
    (laddrs (init ++ [l])).Nodup → init.length < fuel → ∀ Q : Memory T × Ptr → Prop,
    (∀ m' R par', ffifo_loop cmp (init.length + 1) (init ++ [l]) = some R →
      Owns m' R par' none → m'.brk = m.brk →
      (∀ b, b ∉ laddrs (init ++ [l]) → m'.cell b = m.cell b) → Q (m', some R.a)) →
    wp (fifo_merge_loop cmp fuel m (hptr (init ++ [l])) (some l.a)) Q
  | 0, _, _, _, _, _, hf, _, _ => by simp at hf
  | fuel + 1, [], l, m, hq, _, _, Q, hQ => by
    have hl : Owns m l none none := hq.1
    simp only [List.nil_append, hptr_cons, fifo_merge_loop, deref_some hl.1, bind_ok,
      pure_eq_ok, wp_ok]
    exact hQ m l none rfl hl rfl (fun _ _ => rfl)
  | fuel + 1, [x], l, m, hq, hd, hf, Q, hQ => by
    have hx : Owns m x (some l.a) none := hq.1
    have hl : Owns m l none none := hq.2.1
    have hd' : (x.addrs ++ l.addrs).Nodup := by simpa using hd
    simp only [List.cons_append, List.nil_append, hptr_cons, fifo_merge_loop,
      deref_some hx.1, deref_some hl.1, bind_ok]
    have := wp_fifo_front cmp m x l none hx hl hd'
      (fun r => wp (do
        let m ← r.1.set_parent (some l.a) r.2
        let last := (← m.deref (some l.a)).parent_
        fifo_merge_loop cmp fuel m none last) Q) (by
      intro m3 hO hb hfr
      obtain ⟨n, par', hn, hO'⟩ := fifo_close cmp m3 x l hO hd'
      simp only [Memory.set_parent, Memory.modify, hn, bind_ok, Memory.deref, put_cell,
        if_true]
      cases fuel with
      | zero => simp at hf
      | succ k =>
        simp only [fifo_merge_loop, pure_eq_ok, wp_ok]
        refine hQ _ _ par' rfl hO' (by simpa using hb) ?_
        intro b hb'
        simp only [List.cons_append, List.nil_append, laddrs_cons, laddrs_nil,
          List.append_nil, List.mem_append, not_or] at hb'
        have hbl : b ≠ l.a := fun e => hb'.2 (by simp [Root.addrs, e])
        simp only [put_cell, if_neg hbl]
        exact hfr b hb'.1 hb'.2)
    simpa [wp_bind] using this
  | fuel + 1, x :: y :: init, l, m, hq, hd, hf, Q, hQ => by
    have hx : Owns m x (some y.a) none := hq.1
    have hy : Owns m y (nptr (init ++ [l]) none) none := hq.2.1
    have hrest : QSeg m (init ++ [l]) none := hq.2.2
    have hd' : (x.addrs ++ y.addrs).Nodup := by
      simp only [List.cons_append, laddrs_cons, ← List.append_assoc] at hd
      exact (List.nodup_append.1 hd).1
    have hdr : (laddrs (init ++ [l])).Disjoint (x.addrs ++ y.addrs) := by
      simp only [List.cons_append, laddrs_cons, ← List.append_assoc] at hd
      exact ((List.nodup_append.1 hd).2.2).symm
    have hndr : (laddrs (init ++ [l])).Nodup := by
      simp only [List.cons_append, laddrs_cons, ← List.append_assoc] at hd
      exact (List.nodup_append.1 hd).2.1
    simp only [List.cons_append, hptr_cons, fifo_merge_loop,
      deref_some hx.1, deref_some hy.1, bind_ok]
    have := wp_fifo_front cmp m x y _ hx hy hd'
      (fun r => wp (do
        let m ← r.1.set_parent (some l.a) r.2
        let last := (← m.deref (some l.a)).parent_
        fifo_merge_loop cmp fuel m (nptr (init ++ [l]) none) last) Q) (by
      intro m3 hO hb hfr
      have hrest3 : QSeg m3 (init ++ [l]) none :=
        QSeg_frame (S := x.addrs ++ y.addrs)
          (fun b hb' => hfr b (fun h => hb' (List.mem_append_left _ h))
            (fun h => hb' (List.mem_append_right _ h))) hdr hrest
      rw [QSeg_append] at hrest3
      obtain ⟨hin3, hl3, -⟩ := hrest3
      simp only [nptr_nil] at hl3
      have hwl : l.a ∉ (fpair cmp x y).addrs := by
        intro h
        have h2 := (fpair_addrs_perm cmp x y).mem_iff.1 h
        exact hdr (by simp [laddrs_append, Root.addrs]) h2
      have hli : l.a ∉ laddrs init := by
        rw [laddrs_append] at hndr
        intro h
        exact (List.nodup_append.1 hndr).2.2 h (by simp [Root.addrs])
      have hlk : l.a ∉ l.kids.addrs := by
        rw [laddrs_append] at hndr
        have := (List.nodup_append.1 hndr).2.1
        simp only [laddrs_cons, laddrs_nil, List.append_nil, Root.addrs,
          List.nodup_cons] at this
        exact this.1
      set w := fpair cmp x y with hw
      simp only [Memory.set_parent, Memory.modify, hl3.1, bind_ok, Memory.deref, put_cell,
        if_true]
      have hq4 : QSeg (m3.put l.a (some ⟨l.v, some w.a, l.kids.ptr, none⟩))
          ((init ++ [l]) ++ [w]) none := by
        rw [QSeg_append, QSeg_append]
        refine ⟨⟨?_, ?_, trivial⟩, ?_, trivial⟩
        · exact QSeg_frame (put_frame m3 l.a _) (by simpa using hli) hin3
        · exact Owns.set _ _ hlk hl3
        · exact Owns_put hwl hO
      have hperm : (laddrs ((init ++ [l]) ++ [w])).Perm (laddrs (x :: y :: init ++ [l])) := by
        rw [laddrs_append]
        simp only [List.cons_append, laddrs_cons, laddrs_nil, List.append_nil]
        refine (List.perm_append_comm).trans ?_
        rw [← List.append_assoc]
        exact List.Perm.append_right _ (fpair_addrs_perm cmp x y)
      have := wp_fifo_merge_loop cmp fuel (init ++ [l]) w _ hq4
        (hperm.nodup_iff.2 hd) (by simpa using hf) Q (by
        intro m' R par' hR hO' hb' hfr'
        refine hQ m' R par' ?_ hO' (by simpa [hb] using hb') ?_
        · simpa [ffifo_loop] using hR
        · intro b hbn
          have hbn' : b ∉ laddrs ((init ++ [l]) ++ [w]) := fun h => hbn (hperm.mem_iff.1 h)
          rw [hfr' b hbn']
          have hbl : b ≠ l.a := by
            intro e
            apply hbn
            simp [laddrs_append, Root.addrs, e]
          simp only [put_cell, if_neg hbl]
          apply hfr b
          · intro h
            exact hbn (by simp [h])
          · intro h
            exact hbn (by simp [h]))
      rw [hptr_snoc] at this
      exact this)
    simpa [wp_bind] using this

theorem wp_merge_fifo (cmp : T → T → Bool) (fuel : Nat) (x : Root T) (xs : List (Root T))
    (m : Memory T) (hf : (x :: xs).length < fuel) (hr : Repr m none (unspine (x :: xs)))
    (hd : (laddrs (x :: xs)).Nodup) (Q : Memory T × Ptr → Prop)
    (hQ : ∀ m' R par', ffifo cmp (x :: xs) = some R → Owns m' R par' none → m'.brk = m.brk →
       (∀ b, b ∉ laddrs (x :: xs) → m'.cell b = m.cell b) → Q (m', some R.a)) :
    wp (merge_fifo cmp fuel m (some x.a)) Q := by
  obtain ⟨hc, hk, hrest⟩ := hr
  have hd0 := hd
  simp only [laddrs_cons, Root.addrs, List.nodup_append, List.nodup_cons,
    List.mem_cons, List.cons_append, List.mem_append, not_or, List.disjoint_cons_left] at hd
  casesm* _ ∧ _
  simp only [merge_fifo, deref_some hc, bind_ok, Memory.set_right,
    Memory.set_parent, Memory.modify, hc, put_cell, if_true, put_put_same]
  rw [unspine_ptr]
  have hq : QSeg (m.put x.a (some ⟨x.v, none, x.kids.ptr, none⟩)) [x] none :=
    ⟨⟨by simp, Repr_put (by assumption) hk⟩, trivial⟩
  have hrest' : Repr (m.put x.a (some ⟨x.v, none, x.kids.ptr, none⟩)) (some x.a)
      (unspine xs) :=
    Repr_put (by rw [unspine_addrs]; assumption) hrest
  have hd1 : (laddrs xs ++ laddrs [x]).Nodup := by
    refine (List.Perm.nodup_iff ?_).1 hd0
    simp only [laddrs_cons, laddrs_nil, List.append_nil]
    exact List.perm_append_comm
  have hperm : (laddrs (xs.reverse ++ [x])).Perm (laddrs (x :: xs)) := by
    rw [laddrs_append]
    simp only [laddrs_cons, laddrs_nil, List.append_nil]
    exact (List.perm_append_comm).trans (List.Perm.append_left _ (laddrs_reverse_perm xs))
  rw [wp_bind]
  have := wp_fifo_build_loop fuel xs [x] _ (some x.a) hrest' hq hd1
    (by simp only [List.length_cons] at hf; omega)
    (fun r => wp (fifo_merge_loop cmp fuel r.1 r.2 (some x.a)) Q) (by
    intro m3 hq3 hb3 hfr3
    apply wp_fifo_merge_loop cmp fuel xs.reverse x m3 hq3 (hperm.nodup_iff.2 hd0)
      (by simp only [List.length_cons, List.length_reverse] at hf ⊢; omega)
    intro m' R par' hR hO hb hfr
    refine hQ m' R par' ?_ hO (by simpa [hb3] using hb) ?_
    · simpa [ffifo] using hR
    · intro b hbn
      rw [hfr b (fun h => hbn (hperm.mem_iff.1 h))]
      rw [hfr3 b (fun h => hbn (by simp [h]))]
      have : b ≠ x.a := fun e => hbn (by simp [Root.addrs, e])
      simp [this])
  simpa using this

theorem wp_merge (cmp : T → T → Bool) (mode : MergeMode) (fuel : Nat) (x : Root T)
    (xs : List (Root T)) (m : Memory T) (hf : (x :: xs).length < fuel)
    (hr : Repr m none (unspine (x :: xs))) (hd : (laddrs (x :: xs)).Nodup)
    (Q : Memory T × Ptr → Prop)
    (hQ : ∀ m' R par', fmerge cmp mode (x :: xs) = some R → Owns m' R par' none →
      (mode = MergeMode.TwoPass → par' = none) → m'.brk = m.brk →
      (∀ b, b ∉ laddrs (x :: xs) → m'.cell b = m.cell b) → Q (m', some R.a)) :
    wp (merge cmp mode fuel m (some x.a)) Q := by
  cases mode with
  | TwoPass =>
    exact wp_merge_two_pass cmp fuel x xs m hf hr hd Q
      (fun m' R hR hO hb hfr => hQ m' R none hR hO (fun _ => rfl) hb hfr)
  | FifoQueue =>
    exact wp_merge_fifo cmp fuel x xs m hf hr hd Q
      (fun m' R par' hR hO hb hfr => hQ m' R par' hR hO (fun h => by cases h) hb hfr)

theorem wp_insert (cmp : T → T → Bool) (m : Memory T) (h : PairingHeap) (s : Option (Root T))
    (par : Ptr) (v : T) (hi : InvP m h s par) (Q : Memory T × PairingHeap × Ptr → Prop)
    (hQ : ∀ m' h' par', InvP m' h' (finsert cmp s m.brk v) par' → (par = none → par' = none) →
      m'.brk = m.brk + 1 → h'.size_ = h.size_ + 1 →
      (∀ b, b ∉ haddrs s ++ [m.brk] → m'.cell b = m.cell b) → Q (m', h', some m.brk)) :
    wp (insert cmp m h v) Q := by
  have hn : Owns (new_node m v).1 ⟨m.brk, v, Tree.nil⟩ none none :=
    ⟨by simp [new_node], trivial⟩
  have hfr : ∀ b, b ∉ [m.brk] → (new_node m v).1.cell b = m.cell b := by
    intro b hb
    simp only [List.mem_singleton] at hb
    simp [new_node, hb]
  cases s with
  | none =>
    obtain ⟨hr, hs⟩ := hi
    have he : h.empty = true := by simp [PairingHeap.empty, PairingHeap.size, hs]
    simp only [insert, insert_impl, he, if_true, pure_eq_ok, bind_ok, wp_ok]
    refine hQ _ _ none ⟨rfl, by simp [Root.addrs, hs], hn, by simp [Root.addrs], ?_⟩
      (fun _ => rfl) rfl rfl ?_
    · intro b hb
      simp only [Root.addrs, addrs_nil, List.mem_singleton] at hb
      simp [new_node, hb]
    · intro b hb
      exact hfr b (by simpa [haddrs] using hb)
  | some x =>
    obtain ⟨hr, hs, hx, hd, hlt⟩ := hi
    have he : h.empty = false := by
      simp [PairingHeap.empty, PairingHeap.size, hs, Root.addrs]
    have hbx : m.brk ∉ x.addrs := fun hb => Nat.lt_irrefl _ (hlt _ hb)
    have hx' : Owns (new_node m v).1 x par none :=
      Owns_frame hfr (fun b hb hb2 => by
        simp only [List.mem_singleton] at hb2
        exact hbx (hb2 ▸ hb)) hx
    have hd' : (x.addrs ++ (⟨m.brk, v, Tree.nil⟩ : Root T).addrs).Nodup := by
      rw [List.nodup_append]
      refine ⟨hd, by simp [Root.addrs], ?_⟩
      intro b hb hb2
      simp only [Root.addrs, addrs_nil, List.mem_singleton] at hb2
      exact hbx (hb2 ▸ hb)
    simp only [insert, insert_impl, he, Bool.false_eq_true, if_false, hr]
    rw [wp_bind]
    have key := wp_pair cmp (new_node m v).1 x ⟨m.brk, v, Tree.nil⟩ par none none none hx' hn hd'
    apply key
    intro m1 hO1 hb1 hf1
    simp only [pure_eq_ok, wp_ok]
    refine hQ m1 _ (if cmp x.v v = true then par else none)
      ⟨rfl, ?_, by simpa using hO1, ?_, ?_⟩ ?_ hb1 rfl ?_
    · show h.size_ + 1 = _
      rw [(fpair_addrs_perm cmp x _).length_eq, hs]
      simp [Root.addrs]
    · exact (fpair_addrs_perm cmp x _).nodup_iff.2 hd'
    · intro b hb
      rw [mem_fpair_addrs] at hb
      rw [hb1]
      rcases hb with hb | hb
      · exact Nat.lt_succ_of_lt (hlt b hb)
      · simp only [Root.addrs, addrs_nil, List.mem_singleton] at hb
        simp [new_node, hb]
    · intro hp
      simp [hp]
    · intro b hb
      simp only [haddrs, List.mem_append, not_or] at hb
      rw [hf1 b hb.1 (by simpa [Root.addrs] using hb.2), hfr b hb.2]

theorem wp_delete_node {m : Memory T} {a : Nat} {n : PairingNode T} (h : m.cell a = some n)
    (Q : Memory T → Prop) (hQ : Q (m.put a none)) : wp (delete_node m (some a)) Q := by
  simp [delete_node, h, hQ]

theorem wp_delete_min (cmp : T → T → Bool) (mode : MergeMode) (fuel : Nat) (m : Memory T) (h : PairingHeap)
    (x : Root T) (par : Ptr) (hi : InvP m h (some x) par) (hf : x.addrs.length ≤ fuel)
    (Q : Memory T × PairingHeap → Prop)
    (hQ : ∀ m' h' par', InvP m' h' (fdelete_min cmp mode (some x)) par' →
      (mode = MergeMode.TwoPass → par' = none) → m'.brk = m.brk →
      h'.size_ + 1 = h.size_ → m'.cell x.a = none →
      (∀ b, b ∉ x.addrs → m'.cell b = m.cell b) → Q (m', h')) :
    wp (delete_min cmp mode fuel m h) Q := by
  obtain ⟨hr, hs, hx, hd, hlt⟩ := hi
  have he : h.empty = false := by
    simp [PairingHeap.empty, PairingHeap.size, hs, Root.addrs]
  obtain ⟨xa, xv, xk⟩ := x
  simp only at hr hx
  cases xk with
  | nil =>
    have h1 : (1 == h.size) = true := by simp [PairingHeap.size, hs, Root.addrs]
    simp only [delete_min, empty_check, he, Bool.false_eq_true, if_false, bind_ok, h1, if_true,
      pure_eq_ok, hr]
    rw [wp_bind]
    apply wp_delete_node hx.1
    simp only [wp_ok]
    have hfd : fdelete_min cmp mode (some ⟨xa, xv, Tree.nil⟩) = none := fmerge_nil cmp mode
    rw [hfd] at hQ
    refine hQ _ _ none ⟨rfl, ?_⟩ (fun _ => rfl) rfl ?_ (by simp) ?_
    · simp [hs, Root.addrs]
    · simp [hs, Root.addrs]
    · intro b hb
      simp only [Root.addrs, addrs_nil, List.mem_singleton] at hb
      simp [hb]
  | node c vc lc rc =>
    have h1 : (1 == h.size) = false := by simp [PairingHeap.size, hs, Root.addrs]
    obtain ⟨hxc, hxk⟩ := hx
    simp only [ptr_node] at hxc
    simp only [Root.addrs, addrs_node, List.nodup_cons, List.mem_cons, not_or] at hd
    have hne : xa ≠ c := hd.1.1
    have hkd : (laddrs ((⟨c, vc, lc⟩ : Root T) :: rc.spine)).Nodup := by
      simp only [laddrs_cons, laddrs_spine, Root.addrs, List.cons_append, List.nodup_cons]
      exact hd.2
    have hrk : Repr m (some xa) (unspine ((⟨c, vc, lc⟩ : Root T) :: rc.spine)) := by
      simp only [unspine_cons, unspine_spine]
      exact hxk
    simp only [delete_min, empty_check, he, Bool.false_eq_true, if_false, bind_ok, h1, hr,
      deref_some hxc]
    rw [wp_bind, wp_bind]
    apply Repr.clear_parent hrk hkd
    intro m1 hr1 hb1 hf1
    have hxc1 : m1.cell xa = some ⟨xv, par, some c, none⟩ := by
      rw [hf1 xa (by simpa using hne)]; exact hxc
    simp only [deref_some hxc1, bind_ok]
    have hlen : ((⟨c, vc, lc⟩ : Root T) :: rc.spine).length < fuel := by
      have := spine_length_le rc
      simp only [Root.addrs, addrs_node, List.length_cons, List.length_append] at hf ⊢
      omega
    apply wp_merge cmp mode fuel ⟨c, vc, lc⟩ rc.spine m1 hlen hr1 hkd
    intro m2 R par2 hR hO2 hp2 hb2 hf2
    have hperm := fmerge_addrs_perm cmp mode _ R hR
    have hxa : xa ∉ laddrs ((⟨c, vc, lc⟩ : Root T) :: rc.spine) := by
      simp only [laddrs_cons, laddrs_spine, Root.addrs, List.cons_append, List.mem_cons,
        not_or]
      exact hd.1
    have hxc2 : m2.cell xa = some ⟨xv, par, some c, none⟩ := by
      rw [hf2 xa hxa]; exact hxc1
    simp only []
    rw [wp_bind]
    apply wp_delete_node hxc2
    simp only [pure_eq_ok, wp_ok]
    have hka : laddrs ((⟨c, vc, lc⟩ : Root T) :: rc.spine) = c :: (lc.addrs ++ rc.addrs) := by
      simp only [laddrs_cons, laddrs_spine, Root.addrs, List.cons_append]
    have hfd : fdelete_min cmp mode (some ⟨xa, xv, Tree.node c vc lc rc⟩) = some R := hR
    rw [hfd] at hQ
    have hsz : h.size_ - 1 = R.addrs.length := by
      rw [hperm.length_eq, hs, hka]
      simp [Root.addrs]
    refine hQ _ _ par2 ⟨rfl, hsz, Owns_put (fun hh => hxa (hperm.mem_iff.1 hh)) hO2,
      hperm.nodup_iff.2 hkd, ?_⟩ hp2 (hb2.trans hb1) ?_ (by simp) ?_
    · intro b hb
      rw [put_brk, hb2, hb1]
      refine hlt b ?_
      have := hperm.mem_iff.1 hb
      rw [hka] at this
      simp only [Root.addrs, addrs_node]
      exact List.mem_cons_of_mem _ this
    · show h.size_ - 1 + 1 = h.size_
      rw [hs]
      simp [Root.addrs]
    · intro b hb
      simp only [Root.addrs, addrs_node, List.mem_cons, not_or] at hb
      have hb' : b ∉ laddrs ((⟨c, vc, lc⟩ : Root T) :: rc.spine) := by
        rw [hka]
        simpa only [List.mem_cons, not_or] using hb.2
      rw [put_cell, if_neg hb.1, hf2 b hb', hf1 b]
      simp only [List.mem_singleton]
      exact hb.2.1

@[simp] theorem lvals_nil : lvals ([] : List (Root T)) = [] := rfl
@[simp] theorem lvals_cons (x : Root T) (xs : List (Root T)) :
    lvals (x :: xs) = x.vals ++ lvals xs := rfl
@[simp] theorem vals_nil : (Tree.nil : Tree T).vals = [] := rfl
@[simp] theorem vals_node (a : Nat) (v : T) (l r : Tree T) :
    (Tree.node a v l r).vals = v :: (l.vals ++ r.vals) := rfl

theorem StrictWeakOrder.asymm {cmp : T → T → Bool} (h : StrictWeakOrder cmp) (a b : T)
    (hab : cmp a b = true) : cmp b a = false := by
  cases hba : cmp b a with
  | false => rfl
  | true =>
    have := h.trans a b a hab hba
    rw [h.irrefl a] at this
    exact absurd this (by simp)

theorem StrictWeakOrder.neg_trans {cmp : T → T → Bool} (h : StrictWeakOrder cmp) (a b c : T)
    (hab : cmp a b = false) (hbc : cmp b c = false) : cmp a c = false := by
  cases hac : cmp a c with
  | false => rfl
  | true =>
    exfalso
    cases hba : cmp b a with
    | true =>
      have := h.trans b a c hba hac
      rw [hbc] at this
      exact absurd this (by simp)
    | false =>
      cases hcb : cmp c b with
      | true =>
        have := h.trans a c b hac hcb
        rw [hab] at this
        exact absurd this (by simp)
      | false =>
        have := (h.incomp_trans a b c hab hba hbc hcb).1
        rw [hac] at this
        exact absurd this (by simp)

theorem fpair_vals_perm (cmp : T → T → Bool) (x y : Root T) :
    (fpair cmp x y).vals.Perm (x.vals ++ y.vals) := by
  unfold fpair
  split
  · simp only [Root.vals, vals_node, List.cons_append]
    refine List.Perm.cons _ ?_
    have h1 : (y.v :: (y.kids.vals ++ x.kids.vals)).Perm (x.kids.vals ++ y.v :: y.kids.vals) := by
      rw [← List.cons_append]
      exact List.perm_append_comm
    exact h1
  · simp only [Root.vals, vals_node, List.cons_append]
    have h1 : (y.v :: x.v :: (x.kids.vals ++ y.kids.vals)).Perm
        (x.v :: y.v :: (x.kids.vals ++ y.kids.vals)) := List.Perm.swap _ _ _
    refine h1.trans (List.Perm.cons _ ?_)
    exact List.perm_middle.symm

theorem lvals_append (xs ys : List (Root T)) : lvals (xs ++ ys) = lvals xs ++ lvals ys := by
  induction xs with
  | nil => rfl
  | cons x xs ih => simp only [List.cons_append, lvals_cons, ih, List.append_assoc]

theorem lvals_reverse_perm (xs : List (Root T)) : (lvals xs.reverse).Perm (lvals xs) := by
  induction xs with
  | nil => exact List.Perm.refl _
  | cons x xs ih =>
    simp only [List.reverse_cons, lvals_append, lvals_cons, lvals_nil, List.append_nil]
    exact (ih.append_right _).trans List.perm_append_comm

theorem lvals_ffirst_perm (cmp : T → T → Bool) :
    ∀ xs : List (Root T), (lvals (ffirst cmp xs)).Perm (lvals xs)
  | [] => List.Perm.refl _
  | [_] => List.Perm.refl _
  | x :: y :: rest => by
    simp only [ffirst_two, lvals_cons, ← List.append_assoc]
    exact ((fpair_vals_perm cmp x y)).append (lvals_ffirst_perm cmp rest)

theorem foldl_fpair_vals_perm (cmp : T → T → Bool) :
    ∀ (ws : List (Root T)) (acc : Root T),
      (ws.foldl (fpair cmp) acc).vals.Perm (acc.vals ++ lvals ws)
  | [], acc => by simp
  | w :: ws, acc => by
    simp only [List.foldl_cons, lvals_cons, ← List.append_assoc]
    exact (foldl_fpair_vals_perm cmp ws (fpair cmp acc w)).trans
      ((fpair_vals_perm cmp acc w).append_right _)

theorem ftwo_pass_vals_perm (cmp : T → T → Bool) (rest : List (Root T)) (R : Root T)
    (h : ftwo_pass cmp rest = some R) : R.vals.Perm (lvals rest) := by
  unfold ftwo_pass at h
  have hperm : (lvals (ffirst cmp rest).reverse).Perm (lvals rest) :=
    (lvals_reverse_perm _).trans (lvals_ffirst_perm cmp _)
  generalize (ffirst cmp rest).reverse = l at *
  cases l with
  | nil => simp at h
  | cons w ws =>
    simp only [Option.some.injEq] at h
    subst h
    exact (foldl_fpair_vals_perm cmp ws w).trans (by simpa only [lvals_cons] using hperm)

theorem lvals_spine : ∀ t : Tree T, lvals t.spine = t.vals
  | Tree.nil => rfl
  | Tree.node a v l r => by
    simp only [Tree.spine, lvals_cons, Root.vals, lvals_spine r, vals_node, List.cons_append]

theorem fpair_ordered {cmp : T → T → Bool} (hasym : ∀ a b, cmp a b = true → cmp b a = false)
    {x y : Root T} (hx : Ordered cmp x) (hy : Ordered cmp y) : Ordered cmp (fpair cmp x y) := by
  unfold fpair
  cases hc : cmp x.v y.v with
  | true => exact ⟨hasym _ _ hc, hy, hx⟩
  | false => exact ⟨hc, hx, hy⟩

theorem ffirst_ordered {cmp : T → T → Bool} (hasym : ∀ a b, cmp a b = true → cmp b a = false) :
    ∀ xs : List (Root T), (∀ r ∈ xs, Ordered cmp r) → ∀ r ∈ ffirst cmp xs, Ordered cmp r
  | [], _ => by simp
  | [_], h => by simpa using h
  | x :: y :: rest, h => by
    intro r hr
    simp only [ffirst_two, List.mem_cons] at hr
    rcases hr with hr | hr
    · subst hr
      exact fpair_ordered hasym (h x (by simp)) (h y (by simp))
    · exact ffirst_ordered hasym rest (fun r hr => h r (by simp [hr])) r hr

theorem foldl_fpair_ordered {cmp : T → T → Bool}
    (hasym : ∀ a b, cmp a b = true → cmp b a = false) :
    ∀ (ws : List (Root T)) (acc : Root T), Ordered cmp acc → (∀ r ∈ ws, Ordered cmp r) →
      Ordered cmp (ws.foldl (fpair cmp) acc)
  | [], _, hacc, _ => hacc
  | w :: ws, acc, hacc, h =>
    foldl_fpair_ordered hasym ws _ (fpair_ordered hasym hacc (h w (by simp)))
      (fun r hr => h r (by simp [hr]))

theorem ftwo_pass_ordered {cmp : T → T → Bool} (hasym : ∀ a b, cmp a b = true → cmp b a = false)
    (rest : List (Root T)) (R : Root T) (hall : ∀ r ∈ rest, Ordered cmp r)
    (h : ftwo_pass cmp rest = some R) : Ordered cmp R := by
  unfold ftwo_pass at h
  have ho : ∀ r ∈ (ffirst cmp rest).reverse, Ordered cmp r := fun r hr =>
    ffirst_ordered hasym rest hall r (List.mem_reverse.1 hr)
  generalize (ffirst cmp rest).reverse = l at *
  cases l with
  | nil => simp at h
  | cons w ws =>
    simp only [Option.some.injEq] at h
    subst h
    exact foldl_fpair_ordered hasym ws w (ho w (by simp)) (fun r hr => ho r (by simp [hr]))

theorem ffifo_loop_vals_perm (cmp : T → T → Bool) : ∀ (n : Nat) (q : List (Root T))
    (R : Root T), ffifo_loop cmp n q = some R → R.vals.Perm (lvals q)
  | 0, _, _, h => by simp [ffifo_loop] at h
  | _ + 1, [], _, h => by simp [ffifo_loop] at h
  | _ + 1, [x], R, h => by
    simp only [ffifo_loop, Option.some.injEq] at h
    subst h
    simp
  | n + 1, x :: y :: rest, R, h => by
    simp only [ffifo_loop] at h
    have := ffifo_loop_vals_perm cmp n _ R h
    refine this.trans ?_
    simp only [lvals_append, lvals_cons, lvals_nil, List.append_nil]
    refine (List.perm_append_comm).trans ?_
    rw [← List.append_assoc]
    exact List.Perm.append_right _ (fpair_vals_perm cmp x y)

theorem ffifo_loop_ordered {cmp : T → T → Bool}
    (hasym : ∀ a b, cmp a b = true → cmp b a = false) : ∀ (n : Nat) (q : List (Root T))
    (R : Root T), (∀ r ∈ q, Ordered cmp r) → ffifo_loop cmp n q = some R → Ordered cmp R
  | 0, _, _, _, h => by simp [ffifo_loop] at h
  | _ + 1, [], _, _, h => by simp [ffifo_loop] at h
  | _ + 1, [x], R, hall, h => by
    simp only [ffifo_loop, Option.some.injEq] at h
    subst h
    exact hall _ (by simp)
  | n + 1, x :: y :: rest, R, hall, h => by
    simp only [ffifo_loop] at h
    refine ffifo_loop_ordered hasym n _ R ?_ h
    intro r hr
    simp only [List.mem_append, List.mem_singleton] at hr
    rcases hr with hr | hr
    · exact hall r (by simp [hr])
    · subst hr
      exact fpair_ordered hasym (hall x (by simp)) (hall y (by simp))

theorem fmerge_vals_perm (cmp : T → T → Bool) (mode : MergeMode) (l : List (Root T))
    (R : Root T) (h : fmerge cmp mode l = some R) : R.vals.Perm (lvals l) := by
  cases mode with
  | TwoPass => exact ftwo_pass_vals_perm cmp l R h
  | FifoQueue => exact (ffifo_loop_vals_perm cmp _ _ R h).trans (lvals_reverse_perm l)

theorem fmerge_ordered {cmp : T → T → Bool} (hasym : ∀ a b, cmp a b = true → cmp b a = false)
    (mode : MergeMode) (l : List (Root T)) (R : Root T) (hall : ∀ r ∈ l, Ordered cmp r)
    (h : fmerge cmp mode l = some R) : Ordered cmp R := by
  cases mode with
  | TwoPass => exact ftwo_pass_ordered hasym l R hall h
  | FifoQueue =>
    exact ffifo_loop_ordered hasym _ _ R (fun r hr => hall r (List.mem_reverse.1 hr)) h

theorem Below.spine_ordered {cmp : T → T → Bool} {b : T} :
    ∀ {t : Tree T}, Below cmp b t → ∀ r ∈ t.spine, Ordered cmp r
  | Tree.nil, _ => by simp [Tree.spine]
  | Tree.node a v l r, ⟨_, hl, hr⟩ => by
    intro x hx
    simp only [Tree.spine, List.mem_cons] at hx
    rcases hx with hx | hx
    · subst hx; exact hl
    · exact Below.spine_ordered hr x hx

theorem Below.vals {cmp : T → T → Bool}
    (hnt : ∀ a b c, cmp a b = false → cmp b c = false → cmp a c = false) :
    ∀ {t : Tree T} {b : T}, Below cmp b t → ∀ y ∈ t.vals, cmp y b = false
  | Tree.nil, _, _ => by simp
  | Tree.node a v l r, b, ⟨hv, hl, hr⟩ => by
    intro y hy
    simp only [vals_node, List.mem_cons, List.mem_append] at hy
    rcases hy with hy | hy | hy
    · subst hy; exact hv
    · exact hnt _ _ _ (Below.vals hnt hl y hy) hv
    · exact Below.vals hnt hr y hy

theorem fdelete_min_ordered {cmp : T → T → Bool}
    (hasym : ∀ a b, cmp a b = true → cmp b a = false) (mode : MergeMode)
    (s : Option (Root T)) (h : hOrdered cmp s) : hOrdered cmp (fdelete_min cmp mode s) := by
  cases s with
  | none => trivial
  | some x =>
    simp only [fdelete_min]
    cases hR : fmerge cmp mode x.kids.spine with
    | none => trivial
    | some R => exact fmerge_ordered hasym mode _ R (Below.spine_ordered h) hR

theorem finsert_ordered {cmp : T → T → Bool}
    (hasym : ∀ a b, cmp a b = true → cmp b a = false) (s : Option (Root T)) (a : Nat) (v : T)
    (h : hOrdered cmp s) : hOrdered cmp (finsert cmp s a v) := by
  cases s with
  | none => exact trivial
  | some x => exact fpair_ordered hasym h trivial

theorem finsert_vals_perm (cmp : T → T → Bool) (s : Option (Root T)) (a : Nat) (v : T) :
    (hvals (finsert cmp s a v)).Perm (hvals s ++ [v]) := by
  cases s with
  | none => simp [finsert, hvals, Root.vals]
  | some x => simpa [finsert, hvals, Root.vals] using fpair_vals_perm cmp x ⟨a, v, Tree.nil⟩

theorem fdelete_min_vals_perm (cmp : T → T → Bool) (mode : MergeMode) (x : Root T) :
    (x.v :: hvals (fdelete_min cmp mode (some x))).Perm x.vals := by
  simp only [fdelete_min, Root.vals]
  refine List.Perm.cons _ ?_
  cases hR : fmerge cmp mode x.kids.spine with
  | none =>
    simp only [hvals]
    rw [← lvals_spine, fmerge_eq_none cmp mode _ hR]
    simp
  | some R =>
    simp only [hvals]
    exact (fmerge_vals_perm cmp mode _ R hR).trans (by rw [lvals_spine])

theorem InvP.size {m : Memory T} {h : PairingHeap} {s : Option (Root T)} {par : Ptr}
    (hi : InvP m h s par) : h.size_ = (haddrs s).length := by
  cases s with
  | none => exact hi.2
  | some x => exact hi.2.1

theorem InvP_empty_heap (m : Memory T) (par : Ptr) : InvP m PairingHeap.mk_empty none par :=
  ⟨rfl, rfl⟩

theorem find_min_eq {m : Memory T} {h : PairingHeap} {x : Root T} {par : Ptr}
    (hi : InvP m h (some x) par) : find_min m h = Except.ok x.v := by
  obtain ⟨hr, hs, hx, -, -⟩ := hi
  have he : h.empty = false := by
    simp [PairingHeap.empty, PairingHeap.size, hs, Root.addrs]
  simp [find_min, empty_check, he, hr, deref_some hx.1]

theorem finsert_all_vals_perm (cmp : T → T → Bool) :
    ∀ (xs : List T) (s : Option (Root T)) (b : Nat),
      (hvals (finsert_all cmp xs s b)).Perm (hvals s ++ xs)
  | [], s, _ => by simp [finsert_all]
  | v :: vs, s, b => by
    simp only [finsert_all]
    refine (finsert_all_vals_perm cmp vs _ _).trans ?_
    refine ((finsert_vals_perm cmp s b v).append_right vs).trans ?_
    simp

theorem finsert_all_ordered {cmp : T → T → Bool}
    (hasym : ∀ a b, cmp a b = true → cmp b a = false) :
    ∀ (xs : List T) (s : Option (Root T)) (b : Nat), hOrdered cmp s →
      hOrdered cmp (finsert_all cmp xs s b)
  | [], _, _, h => h
  | v :: vs, s, b, h => finsert_all_ordered hasym vs _ _ (finsert_ordered hasym s b v h)

theorem wp_insert_all (cmp : T → T → Bool) : ∀ (xs : List T) (m : Memory T) (h : PairingHeap)
    (s : Option (Root T)) (par : Ptr), InvP m h s par →
    ∀ Q : Memory T × PairingHeap → Prop,
    (∀ m' h' par', InvP m' h' (finsert_all cmp xs s m.brk) par' → (par = none → par' = none) →
      h'.size_ = h.size_ + xs.length → Q (m', h')) →
    wp (insert_all cmp xs m h) Q
  | [], m, h, s, par, hi, Q, hQ => by
    simp only [insert_all, pure_eq_ok, wp_ok]
    exact hQ m h par hi id rfl
  | v :: vs, m, h, s, par, hi, Q, hQ => by
    simp only [insert_all]
    rw [wp_bind]
    apply wp_insert cmp m h s par v hi
    intro m1 h1 par1 hi1 hp1 hb1 hs1 _
    simp only []
    apply wp_insert_all cmp vs m1 h1 _ par1 hi1
    intro m2 h2 par2 hi2 hp2 hs2
    rw [hb1] at hi2
    refine hQ m2 h2 par2 hi2 (fun e => hp2 (hp1 e)) ?_
    rw [hs2, hs1, List.length_cons]
    omega

theorem wp_drain (cmp : T → T → Bool) (mode : MergeMode) (fuel : Nat) : ∀ (n : Nat) (m : Memory T)
    (h : PairingHeap) (s : Option (Root T)) (par : Ptr), InvP m h s par →
    (haddrs s).length = n → n ≤ fuel →
    ∀ Q : List T × Memory T × PairingHeap → Prop,
    (∀ out m' h', out.Perm (hvals s) → h'.root_ = none → h'.size_ = 0 →
      ((∀ a b, cmp a b = true → cmp b a = false) →
        (∀ a b c, cmp a b = false → cmp b c = false → cmp a c = false) → hOrdered cmp s →
        out.Pairwise (fun a b => cmp b a = false)) → Q (out, m', h')) →
    wp (drain cmp mode fuel n m h) Q
  | 0, m, h, s, par, hi, hn, _, Q, hQ => by
    cases s with
    | some x => simp [haddrs, Root.addrs] at hn
    | none =>
      simp only [drain, pure_eq_ok, wp_ok]
      exact hQ [] m h (List.Perm.refl _) hi.1 hi.2 (fun _ _ _ => List.Pairwise.nil)
  | n + 1, m, h, s, par, hi, hn, hf, Q, hQ => by
    cases s with
    | none => simp [haddrs] at hn
    | some x =>
      simp only [drain, find_min_eq hi, bind_ok]
      rw [wp_bind]
      simp only [haddrs] at hn
      apply wp_delete_min cmp mode fuel m h x par hi (by omega)
      intro m1 h1 par1 hi1 _ _ hs1 _ _
      simp only []
      rw [wp_bind]
      have hn1 : (haddrs (fdelete_min cmp mode (some x))).length = n := by
        rw [← hi1.size]
        have := hi.size
        simp only [haddrs] at this
        omega
      apply wp_drain cmp mode fuel n m1 h1 _ par1 hi1 hn1 (by omega)
      intro out m2 h2 hperm hr2 hs2 hsorted
      simp only [pure_eq_ok, wp_ok]
      refine hQ _ m2 h2 ?_ hr2 hs2 ?_
      · exact (hperm.cons x.v).trans (fdelete_min_vals_perm cmp mode x)
      · intro hasym hnt hord
        refine List.Pairwise.cons ?_ (hsorted hasym hnt (fdelete_min_ordered hasym mode _ hord))
        intro y hy
        have hk : (hvals (fdelete_min cmp mode (some x))).Perm x.kids.vals :=
          List.Perm.cons_inv (fdelete_min_vals_perm cmp mode x)
        exact Below.vals hnt hord y (hk.mem_iff.1 (hperm.mem_iff.1 hy))

theorem InvP_frame {m m' : Memory T} {h : PairingHeap} {s : Option (Root T)} {par : Ptr}
    {S : List Nat} (hf : ∀ b, b ∉ S → m'.cell b = m.cell b) (hd : (haddrs s).Disjoint S)
    (hb : m.brk ≤ m'.brk) (hi : InvP m h s par) : InvP m' h s par := by
  cases s with
  | none => exact hi
  | some x =>
    obtain ⟨hr, hs, hx, hn, hlt⟩ := hi
    exact ⟨hr, hs, Owns_frame hf hd hx, hn, fun b hb' => Nat.lt_of_lt_of_le (hlt b hb') hb⟩

theorem wp_meld (cmp : T → T → Bool) (m : Memory T) (h1 h2 : PairingHeap)
    (s1 s2 : Option (Root T)) (p1 p2 : Ptr) (hi1 : InvP m h1 s1 p1) (hi2 : InvP m h2 s2 p2)
    (hd : (haddrs s1).Disjoint (haddrs s2)) (Q : Memory T × PairingHeap → Prop)
    (hQ : ∀ m' h' par', InvP m' h' (fmeld cmp s1 s2) par' →
      (p1 = none → p2 = none → par' = none) → m'.brk = m.brk →
      h'.size_ = h1.size_ + h2.size_ →
      (∀ b, b ∉ haddrs s1 ++ haddrs s2 → m'.cell b = m.cell b) → Q (m', h')) :
    wp (meld cmp m h1 h2) Q := by
  cases s1 with
  | none =>
    obtain ⟨hr1, hs1⟩ := hi1
    cases s2 with
    | none =>
      obtain ⟨hr2, hs2⟩ := hi2
      simp only [meld, hr1, hr2, Option.isNone_none, Bool.and_self, if_true, pure_eq_ok, wp_ok]
      exact hQ m h1 none ⟨hr1, hs1⟩ (fun _ _ => rfl) rfl (by simp [hs2]) (fun _ _ => rfl)
    | some y =>
      obtain ⟨hr2, hs2, hy, hn, hlt⟩ := hi2
      simp [meld, hr1, hr2]
      exact hQ m _ p2 ⟨rfl, by simp [hs1, hs2], hy, hn, hlt⟩ (fun _ e => e) rfl rfl
        (fun _ _ => rfl)
  | some x =>
    obtain ⟨hr1, hs1, hx, hn1, hlt1⟩ := hi1
    cases s2 with
    | none =>
      obtain ⟨hr2, hs2⟩ := hi2
      simp [meld, hr1, hr2]
      exact hQ m _ p1 ⟨rfl, by simp [hs1, hs2], hx, hn1, hlt1⟩ (fun e _ => e) rfl rfl
        (fun _ _ => rfl)
    | some y =>
      obtain ⟨hr2, hs2, hy, hn2, hlt2⟩ := hi2
      simp only [haddrs] at hd
      have hnd : (x.addrs ++ y.addrs).Nodup := List.nodup_append.2 ⟨hn1, hn2, hd⟩
      simp only [meld, hr1, hr2, Option.isNone_some, Bool.and_self, Bool.false_eq_true,
        if_false, Option.isSome_some, if_true]
      rw [wp_bind]
      apply wp_pair cmp m x y p1 none p2 none hx hy hnd
      intro m1 hO1 hb1 hf1
      simp only [pure_eq_ok, wp_ok, ite_self] at hO1 ⊢
      refine hQ m1 _ (if cmp x.v y.v = true then p1 else p2)
        ⟨rfl, ?_, hO1, (fpair_addrs_perm cmp x y).nodup_iff.2 hnd, ?_⟩ ?_ hb1 rfl ?_
      · show h1.size_ + h2.size_ = _
        rw [(fpair_addrs_perm cmp x y).length_eq, hs1, hs2, List.length_append]
      · intro b hb
        rw [mem_fpair_addrs] at hb
        rw [hb1]
        rcases hb with hb | hb
        · exact hlt1 b hb
        · exact hlt2 b hb
      · intro e1 e2
        simp [e1, e2]
      · intro b hb
        simp only [haddrs, List.mem_append, not_or] at hb
        exact hf1 b hb.1 hb.2

theorem wp_dec_key_impl_iff (cmp : T → T → Bool) (m : Memory T) (h : PairingHeap) (node : Ptr)
    (hne : node ≠ h.root_) (Q : Memory T × PairingHeap → Prop) :
    wp (dec_key_impl cmp m h node) Q ↔
      wp (dec_key_splice m node) (fun m1 =>
        wp (pair cmp m1 node h.root_) (fun r => Q (r.1, { root_ := r.2, size_ := h.size_ }))) := by
  simp only [dec_key_impl, dec_key_splice, hne, if_false, wp_bind, pure_eq_ok, wp_ok]
  try exact Iff.rfl

theorem extract_ptr_ne {a : Nat} {t : Tree T} (h : t.extract a = none) : t.ptr ≠ some a := by
  cases t with
  | nil => simp
  | node b v l r =>
    simp only [ptr_node, ne_eq, Option.some.injEq]
    intro e
    simp [Tree.extract, e] at h

theorem relink_eq {nb : PairingNode T} {q : Ptr} :
    (nb.left_ = q → ({ nb with left_ := q } : PairingNode T) = nb) ∧
    (nb.right_ = q → ({ nb with right_ := q } : PairingNode T) = nb) := by
  cases nb
  constructor <;> intro h <;> simp only at h <;> subst h <;> rfl

theorem wp_splice (a : Nat) : ∀ (t : Tree T) (m : Memory T) (b : Nat) (nb : PairingNode T)
    (left : Bool) (n : Root T) (t' : Tree T),
    m.cell b = some nb →
    (if left then nb.left_ = t.ptr else nb.right_ = t.ptr ∧ nb.left_ ≠ some a) →
    Repr m (some b) t → (b :: t.addrs).Nodup → t.extract a = some (n, t') →
    ∀ Q : Memory T → Prop,
    (∀ m', Repr m' (some b) t' → Owns m' n none none →
      m'.cell b = some (if left then { nb with left_ := t'.ptr }
        else { nb with right_ := t'.ptr }) →
      m'.brk = m.brk → (∀ c, c ∉ b :: t.addrs → m'.cell c = m.cell c) → Q m') →
    wp (dec_key_splice m (some a)) Q
  | Tree.nil, _, _, _, _, _, _, _, _, _, _, he, _, _ => by simp [Tree.extract] at he
  | Tree.node c v l r, m, b, nb, left, n, t', hb, hlink, hr, hd, he, Q, hQ => by
    obtain ⟨hc, hl, hrr⟩ := hr
    by_cases hca : c = a
    · subst hca
      simp only [Tree.extract, if_true, Option.some.injEq, Prod.mk.injEq] at he
      obtain ⟨rfl, rfl⟩ := he
      simp only [addrs_node, List.nodup_cons, List.mem_cons, List.mem_append, not_or,
        List.nodup_append] at hd
      obtain ⟨⟨hbc, hbl, hbr⟩, ⟨hcl, hcr⟩, hnl, hnr, hdis⟩ := hd
      have hcb : c ≠ b := fun e => hbc e.symm
      cases left with
      | true =>
        simp only [if_true, ptr_node] at hlink
        cases r with
        | nil =>
          simp [dec_key_splice, Memory.deref, hlink, Memory.set_left,
            Memory.set_right, Memory.set_parent, Memory.modify, hb, hc, hcb, hbc]
          refine hQ _ trivial ⟨by simp, Repr_put hcl (Repr_put hbl hl)⟩ (by simp [hbc]) rfl ?_
          intro x hx
          simp only [addrs_node, addrs_nil, List.append_nil, List.mem_cons, not_or] at hx
          simp [hx.1, hx.2.1]
        | node r0 v0 l0 r1 =>
          obtain ⟨hr0, hl0, hr1⟩ := hrr
          simp only [addrs_node, List.mem_cons, List.mem_append, not_or, List.nodup_cons,
            List.nodup_append, List.disjoint_cons_right] at hbr hcr hnr hdis
          obtain ⟨hb0, hbl0, hbr1⟩ := hbr
          obtain ⟨hc0, hcl0, hcr1⟩ := hcr
          obtain ⟨⟨h0l0, h0r1⟩, hnl0, hnr1, hd01⟩ := hnr
          have h0c : r0 ≠ c := fun e => hc0 e.symm
          have h0b : r0 ≠ b := fun e => hb0 e.symm
          simp [dec_key_splice, Memory.deref, hlink, Memory.set_left,
            Memory.set_right, Memory.set_parent, Memory.modify, hb, hc, hcb, hbc, hr0, h0c, h0b,
            hc0, hb0]
          refine hQ _ ⟨by simp [h0c, h0b], ?_, ?_⟩ ⟨by simp, ?_⟩ (by simp [hbc, hb0]) rfl ?_
          · exact Repr_put hcl0 (Repr_put h0l0 (Repr_put hbl0 hl0))
          · exact Repr_put hcr1 (Repr_put h0r1 (Repr_put hbr1 hr1))
          · exact Repr_put hcl (Repr_put hdis.1 (Repr_put hbl hl))
          · intro x hx
            simp only [addrs_node, List.mem_cons, List.mem_append, not_or] at hx
            simp [hx.1, hx.2.1, hx.2.2.2.1]
      | false =>
        simp only [Bool.false_eq_true, if_false, ptr_node] at hlink
        obtain ⟨hlink, hnl0⟩ := hlink
        have hnl1 : ¬ some c = nb.left_ := fun e => hnl0 e.symm
        cases r with
        | nil =>
          simp [dec_key_splice, Memory.deref, hlink, hnl1, Memory.set_left,
            Memory.set_right, Memory.set_parent, Memory.modify, hb, hc, hcb, hbc]
          refine hQ _ trivial ⟨by simp, Repr_put hcl (Repr_put hbl hl)⟩ (by simp [hbc]) rfl ?_
          intro x hx
          simp only [addrs_node, addrs_nil, List.append_nil, List.mem_cons, not_or] at hx
          simp [hx.1, hx.2.1]
        | node r0 v0 l0 r1 =>
          obtain ⟨hr0, hl0, hr1⟩ := hrr
          simp only [addrs_node, List.mem_cons, List.mem_append, not_or, List.nodup_cons,
            List.nodup_append, List.disjoint_cons_right] at hbr hcr hnr hdis
          obtain ⟨hb0, hbl0, hbr1⟩ := hbr
          obtain ⟨hc0, hcl0, hcr1⟩ := hcr
          obtain ⟨⟨h0l0, h0r1⟩, hnl0, hnr1, hd01⟩ := hnr
          have h0c : r0 ≠ c := fun e => hc0 e.symm
          have h0b : r0 ≠ b := fun e => hb0 e.symm
          simp [dec_key_splice, Memory.deref, hlink, hnl1, Memory.set_left,
            Memory.set_right, Memory.set_parent, Memory.modify, hb, hc, hcb, hbc, hr0, h0c, h0b,
            hc0, hb0]
          refine hQ _ ⟨by simp [h0c, h0b], ?_, ?_⟩ ⟨by simp, ?_⟩ (by simp [hbc, hb0]) rfl ?_
          · exact Repr_put hcl0 (Repr_put h0l0 (Repr_put hbl0 hl0))
          · exact Repr_put hcr1 (Repr_put h0r1 (Repr_put hbr1 hr1))
          · exact Repr_put hcl (Repr_put hdis.1 (Repr_put hbl hl))
          · intro x hx
            simp only [addrs_node, List.mem_cons, List.mem_append, not_or] at hx
            simp [hx.1, hx.2.1, hx.2.2.2.1]
    · simp only [Tree.extract, hca, if_false] at he
      simp only [addrs_node, List.nodup_cons, List.mem_cons, List.mem_append, not_or,
        List.nodup_append] at hd
      obtain ⟨⟨hbc, hbl, hbr⟩, ⟨hcl, hcr⟩, hnl, hnr, hdis⟩ := hd
      cases hel : l.extract a with
      | some p =>
        obtain ⟨n1, l'⟩ := p
        simp only [hel, Option.some.injEq, Prod.mk.injEq] at he
        obtain ⟨rfl, rfl⟩ := he
        apply wp_splice a l m c _ true n1 l' hc (by simp) hl
          (by simp only [List.nodup_cons]; exact ⟨hcl, hnl⟩) hel
        intro m' hl' hn' hc' hb' hf'
        simp only [if_true] at hc'
        have hbm : m'.cell b = some nb := by
          rw [hf' b (by simp only [List.mem_cons, not_or]; exact ⟨hbc, hbl⟩)]; exact hb
        refine hQ m' ⟨hc', hl', ?_⟩ hn' ?_ hb' ?_
        · refine Repr_frame hf' ?_ hrr
          intro x hx hx2
          simp only [List.mem_cons] at hx2
          rcases hx2 with hx2 | hx2
          · exact hcr (hx2 ▸ hx)
          · exact hdis hx2 hx
        · rw [hbm]
          cases left with
          | true =>
            simp only [if_true, ptr_node] at hlink ⊢
            rw [relink_eq.1 hlink]
          | false =>
            simp only [Bool.false_eq_true, if_false, ptr_node] at hlink ⊢
            rw [relink_eq.2 hlink.1]
        · intro x hx
          simp only [addrs_node, List.mem_cons, List.mem_append, not_or] at hx
          exact hf' x (by simp only [List.mem_cons, not_or]; exact ⟨hx.2.1, hx.2.2.1⟩)
      | none =>
        simp only [hel] at he
        cases her : r.extract a with
        | none => simp [her] at he
        | some p =>
          obtain ⟨n1, r'⟩ := p
          simp only [her, Option.some.injEq, Prod.mk.injEq] at he
          obtain ⟨rfl, rfl⟩ := he
          apply wp_splice a r m c _ false n1 r' hc
            (by simp only [Bool.false_eq_true, if_false]; exact ⟨trivial, extract_ptr_ne hel⟩)
            hrr (by simp only [List.nodup_cons]; exact ⟨hcr, hnr⟩) her
          intro m' hr' hn' hc' hb' hf'
          simp only [Bool.false_eq_true, if_false] at hc'
          have hbm : m'.cell b = some nb := by
            rw [hf' b (by simp only [List.mem_cons, not_or]; exact ⟨hbc, hbr⟩)]; exact hb
          refine hQ m' ⟨hc', ?_, hr'⟩ hn' ?_ hb' ?_
          · refine Repr_frame hf' ?_ hl
            intro x hx hx2
            simp only [List.mem_cons] at hx2
            rcases hx2 with hx2 | hx2
            · exact hcl (hx2 ▸ hx)
            · exact hdis hx hx2
          · rw [hbm]
            cases left with
            | true =>
              simp only [if_true, ptr_node] at hlink ⊢
              rw [relink_eq.1 hlink]
            | false =>
              simp only [Bool.false_eq_true, if_false, ptr_node] at hlink ⊢
              rw [relink_eq.2 hlink.1]
          · intro x hx
            simp only [addrs_node, List.mem_cons, List.mem_append, not_or] at hx
            exact hf' x (by simp only [List.mem_cons, not_or]; exact ⟨hx.2.1, hx.2.2.2⟩)

theorem extract_addrs_perm (a : Nat) : ∀ (t : Tree T) (n : Root T) (t' : Tree T),
    t.extract a = some (n, t') → (n.addrs ++ t'.addrs).Perm t.addrs
  | Tree.nil, _, _, h => by simp [Tree.extract] at h
  | Tree.node b v l r, n, t', h => by
    by_cases hb : b = a
    · simp only [Tree.extract, hb, if_true, Option.some.injEq, Prod.mk.injEq] at h
      obtain ⟨rfl, rfl⟩ := h
      simp [Root.addrs, hb]
    · simp only [Tree.extract, hb, if_false] at h
      cases hl : l.extract a with
      | some p =>
        obtain ⟨n1, l'⟩ := p
        simp only [hl, Option.some.injEq, Prod.mk.injEq] at h
        obtain ⟨rfl, rfl⟩ := h
        have ih := extract_addrs_perm a l n1 l' hl
        simp only [addrs_node]
        refine List.perm_middle.trans (List.Perm.cons _ ?_)
        rw [← List.append_assoc]
        exact ih.append_right _
      | none =>
        simp only [hl] at h
        cases hr : r.extract a with
        | none => simp [hr] at h
        | some p =>
          obtain ⟨n1, r'⟩ := p
          simp only [hr, Option.some.injEq, Prod.mk.injEq] at h
          obtain ⟨rfl, rfl⟩ := h
          have ih := extract_addrs_perm a r n1 r' hr
          simp only [addrs_node]
          refine List.perm_middle.trans (List.Perm.cons _ ?_)
          have h1 : (n1.addrs ++ (l.addrs ++ r'.addrs)).Perm (l.addrs ++ (n1.addrs ++ r'.addrs)) := by
            rw [← List.append_assoc, ← List.append_assoc]
            exact List.perm_append_comm.append_right _
          exact h1.trans (List.Perm.append_left l.addrs ih)

theorem extract_vals_perm (a : Nat) : ∀ (t : Tree T) (n : Root T) (t' : Tree T),
    t.extract a = some (n, t') → (n.vals ++ t'.vals).Perm t.vals
  | Tree.nil, _, _, h => by simp [Tree.extract] at h
  | Tree.node b v l r, n, t', h => by
    by_cases hb : b = a
    · simp only [Tree.extract, hb, if_true, Option.some.injEq, Prod.mk.injEq] at h
      obtain ⟨rfl, rfl⟩ := h
      simp [Root.vals]
    · simp only [Tree.extract, hb, if_false] at h
      cases hl : l.extract a with
      | some p =>
        obtain ⟨n1, l'⟩ := p
        simp only [hl, Option.some.injEq, Prod.mk.injEq] at h
        obtain ⟨rfl, rfl⟩ := h
        have ih := extract_vals_perm a l n1 l' hl
        simp only [vals_node]
        refine List.perm_middle.trans (List.Perm.cons _ ?_)
        rw [← List.append_assoc]
        exact ih.append_right _
      | none =>
        simp only [hl] at h
        cases hr : r.extract a with
        | none => simp [hr] at h
        | some p =>
          obtain ⟨n1, r'⟩ := p
          simp only [hr, Option.some.injEq, Prod.mk.injEq] at h
          obtain ⟨rfl, rfl⟩ := h
          have ih := extract_vals_perm a r n1 r' hr
          simp only [vals_node]
          refine List.perm_middle.trans (List.Perm.cons _ ?_)
          have h1 : (n1.vals ++ (l.vals ++ r'.vals)).Perm (l.vals ++ (n1.vals ++ r'.vals)) := by
            rw [← List.append_assoc, ← List.append_assoc]
            exact List.perm_append_comm.append_right _
          exact h1.trans (List.Perm.append_left l.vals ih)

theorem extract_a (a : Nat) : ∀ (t : Tree T) (n : Root T) (t' : Tree T),
    t.extract a = some (n, t') → n.a = a
  | Tree.nil, _, _, h => by simp [Tree.extract] at h
  | Tree.node b v l r, n, t', h => by
    by_cases hb : b = a
    · simp only [Tree.extract, hb, if_true, Option.some.injEq, Prod.mk.injEq] at h
      obtain ⟨rfl, rfl⟩ := h
      rfl
    · simp only [Tree.extract, hb, if_false] at h
      cases hl : l.extract a with
      | some p =>
        obtain ⟨n1, l'⟩ := p
        simp only [hl, Option.some.injEq, Prod.mk.injEq] at h
        exact h.1 ▸ extract_a a l n1 l' hl
      | none =>
        simp only [hl] at h
        cases hr : r.extract a with
        | none => simp [hr] at h
        | some p =>
          obtain ⟨n1, r'⟩ := p
          simp only [hr, Option.some.injEq, Prod.mk.injEq] at h
          exact h.1 ▸ extract_a a r n1 r' hr

theorem extract_of_mem (a : Nat) : ∀ (t : Tree T), a ∈ t.addrs → ∃ p, t.extract a = some p
  | Tree.nil, h => by simp at h
  | Tree.node b v l r, h => by
    by_cases hb : b = a
    · exact ⟨(⟨b, v, l⟩, r), by simp only [Tree.extract, hb, if_true]⟩
    · simp only [addrs_node, List.mem_cons, List.mem_append] at h
      simp only [Tree.extract, hb, if_false]
      cases hl : l.extract a with
      | some p => exact ⟨_, rfl⟩
      | none =>
        rcases h with h | h | h
        · exact absurd h.symm hb
        · obtain ⟨p, hp⟩ := extract_of_mem a l h
          rw [hp] at hl
          exact absurd hl (by simp)
        · obtain ⟨p, hp⟩ := extract_of_mem a r h
          simp only [hp]
          exact ⟨_, rfl⟩

theorem extract_below {cmp : T → T → Bool} (a : Nat) : ∀ (t : Tree T) (b : T) (n : Root T)
    (t' : Tree T), t.extract a = some (n, t') → Below cmp b t → Below cmp b t' ∧ Ordered cmp n
  | Tree.nil, _, _, _, h, _ => by simp [Tree.extract] at h
  | Tree.node c v l r, b, n, t', h, ⟨hv, hl, hr⟩ => by
    by_cases hc : c = a
    · simp only [Tree.extract, hc, if_true, Option.some.injEq, Prod.mk.injEq] at h
      obtain ⟨rfl, rfl⟩ := h
      exact ⟨hr, hl⟩
    · simp only [Tree.extract, hc, if_false] at h
      cases hel : l.extract a with
      | some p =>
        obtain ⟨n1, l'⟩ := p
        simp only [hel, Option.some.injEq, Prod.mk.injEq] at h
        obtain ⟨rfl, rfl⟩ := h
        have ih := extract_below a l v n1 l' hel hl
        exact ⟨⟨hv, ih.1, hr⟩, ih.2⟩
      | none =>
        simp only [hel] at h
        cases her : r.extract a with
        | none => simp [her] at h
        | some p =>
          obtain ⟨n1, r'⟩ := p
          simp only [her, Option.some.injEq, Prod.mk.injEq] at h
          obtain ⟨rfl, rfl⟩ := h
          have ih := extract_below a r b n1 r' her hr
          exact ⟨⟨hv, hl, ih.1⟩, ih.2⟩

@[simp] theorem ptr_assign (a : Nat) (w : T) (t : Tree T) : (t.assign a w).ptr = t.ptr := by
  cases t <;> rfl

@[simp] theorem addrs_assign (a : Nat) (w : T) : ∀ t : Tree T, (t.assign a w).addrs = t.addrs
  | Tree.nil => rfl
  | Tree.node b v l r => by
    simp only [Tree.assign, addrs_node, addrs_assign a w l, addrs_assign a w r]

theorem assign_of_not_mem (a : Nat) (w : T) : ∀ t : Tree T, a ∉ t.addrs → t.assign a w = t
  | Tree.nil, _ => rfl
  | Tree.node b v l r, h => by
    simp only [addrs_node, List.mem_cons, List.mem_append, not_or] at h
    have hb : ¬ b = a := fun e => h.1 e.symm
    simp only [Tree.assign, hb, if_false, assign_of_not_mem a w l h.2.1,
      assign_of_not_mem a w r h.2.2]

theorem Repr.assign {m : Memory T} {a : Nat} {na : PairingNode T} (w : T)
    (hc : m.cell a = some na) : ∀ (t : Tree T) (par : Ptr), Repr m par t →
      Repr (m.put a (some { na with data_ := w })) par (t.assign a w)
  | Tree.nil, _, _ => trivial
  | Tree.node b v l r, par, ⟨hb, hl, hr⟩ => by
    refine ⟨?_, Repr.assign w hc l _ hl, Repr.assign w hc r _ hr⟩
    by_cases e : b = a
    · subst e
      rw [hb] at hc
      cases hc
      simp
    · simp [e, hb]

theorem extract_none_of_not_mem (a : Nat) (t : Tree T) (h : a ∉ t.addrs) :
    t.extract a = none := by
  cases he : t.extract a with
  | none => rfl
  | some p =>
    obtain ⟨n, t'⟩ := p
    have h1 := extract_a a t n t' he
    have h2 := (extract_addrs_perm a t n t' he).mem_iff.1
      (List.mem_append_left _ (List.mem_cons_self n.a n.kids.addrs))
    rw [h1] at h2
    exact absurd h2 h

theorem not_mem_of_extract_none (a : Nat) (t : Tree T) (h : t.extract a = none) :
    a ∉ t.addrs := by
  intro hm
  obtain ⟨p, hp⟩ := extract_of_mem a t hm
  rw [hp] at h
  exact absurd h (by simp)

theorem mem_of_extract (a : Nat) (t : Tree T) (n : Root T) (t' : Tree T)
    (h : t.extract a = some (n, t')) : a ∈ t.addrs := by
  by_contra hm
  rw [extract_none_of_not_mem a t hm] at h
  exact absurd h (by simp)

theorem extract_assign (a : Nat) (w : T) : ∀ (t : Tree T) (n : Root T) (t' : Tree T),
    t.addrs.Nodup → t.extract a = some (n, t') →
    (t.assign a w).extract a = some (⟨n.a, w, n.kids⟩, t')
  | Tree.nil, _, _, _, h => by simp [Tree.extract] at h
  | Tree.node b v l r, n, t', hd, h => by
    simp only [addrs_node, List.nodup_cons, List.mem_append, not_or, List.nodup_append] at hd
    obtain ⟨⟨hbl, hbr⟩, hnl, hnr, hdis⟩ := hd
    by_cases hb : b = a
    · simp only [Tree.extract, hb, if_true, Option.some.injEq, Prod.mk.injEq] at h
      obtain ⟨rfl, rfl⟩ := h
      subst hb
      simp only [Tree.assign, Tree.extract, if_true, assign_of_not_mem b w l hbl,
        assign_of_not_mem b w r hbr]
    · simp only [Tree.extract, hb, if_false] at h
      simp only [Tree.assign, Tree.extract, hb, if_false]
      cases hl : l.extract a with
      | some p =>
        obtain ⟨n1, l'⟩ := p
        simp only [hl, Option.some.injEq, Prod.mk.injEq] at h
        obtain ⟨rfl, rfl⟩ := h
        have har : a ∉ r.addrs := fun hr => hdis (mem_of_extract a l n1 l' hl) hr
        simp only [extract_assign a w l n1 l' hnl hl, assign_of_not_mem a w r har]
      | none =>
        simp only [hl] at h
        have hal := not_mem_of_extract_none a l hl
        simp only [assign_of_not_mem a w l hal, hl]
        cases hr : r.extract a with
        | none => simp [hr] at h
        | some p =>
          obtain ⟨n1, r'⟩ := p
          simp only [hr, Option.some.injEq, Prod.mk.injEq] at h
          obtain ⟨rfl, rfl⟩ := h
          simp only [extract_assign a w r n1 r' hnr hr]

theorem wp_dec_key_impl (cmp : T → T → Bool) (m : Memory T) (h : PairingHeap) (x : Root T)
    (par : Ptr) (a : Nat) (n : Root T) (kids' : Tree T) (hi : InvP m h (some x) par)
    (hex : x.kids.extract a = some (n, kids')) (Q : Memory T × PairingHeap → Prop)
    (hQ : ∀ m' h' par', InvP m' h' (some (fpair cmp n ⟨x.a, x.v, kids'⟩)) par' →
      (par = none → par' = none) → m'.brk = m.brk → h'.size_ = h.size_ →
      (∀ b, b ∉ x.addrs → m'.cell b = m.cell b) → Q (m', h')) :
    wp (dec_key_impl cmp m h (some a)) Q := by
  obtain ⟨hr, hs, hx, hd, hlt⟩ := hi
  have hna := extract_a a _ n kids' hex
  have hperm := extract_addrs_perm a _ n kids' hex
  have hak := mem_of_extract a _ n kids' hex
  have hd' := hd
  simp only [Root.addrs, List.nodup_cons] at hd'
  have hne : (some a : Ptr) ≠ h.root_ := by
    rw [hr]
    intro e
    simp only [Option.some.injEq] at e
    exact hd'.1 (e ▸ hak)
  rw [wp_dec_key_impl_iff cmp m h (some a) hne]
  apply wp_splice a x.kids m x.a _ true n kids' hx.1 (by simp) hx.2 hd hex
  intro m1 hk1 hn1 hc1 hb1 hf1
  simp only [if_true] at hc1
  have hroot : Owns m1 ⟨x.a, x.v, kids'⟩ par none := ⟨hc1, hk1⟩
  have hp2 : (n.addrs ++ (⟨x.a, x.v, kids'⟩ : Root T).addrs).Perm x.addrs := by
    simp only [Root.addrs]
    exact List.perm_middle.trans ((hperm.cons x.a))
  have hnd : (n.addrs ++ (⟨x.a, x.v, kids'⟩ : Root T).addrs).Nodup := hp2.nodup_iff.2 hd
  rw [hr, ← hna]
  apply wp_pair cmp m1 n ⟨x.a, x.v, kids'⟩ none none par none hn1 hroot hnd
  intro m2 hO2 hb2 hf2
  simp only [ite_self] at hO2
  have hp3 := (fpair_addrs_perm cmp n ⟨x.a, x.v, kids'⟩).trans hp2
  refine hQ m2 _ (if cmp n.v x.v = true then none else par)
    ⟨rfl, by rw [hs, hp3.length_eq], hO2, hp3.nodup_iff.2 hd, ?_⟩ ?_ (hb2.trans hb1) rfl ?_
  · intro b hb
    rw [hb2, hb1]
    exact hlt b (hp3.mem_iff.1 hb)
  · intro e
    simp [e]
  · intro b hb
    have h1 : b ∉ n.addrs ++ (⟨x.a, x.v, kids'⟩ : Root T).addrs := fun hh => hb (hp2.mem_iff.1 hh)
    simp only [List.mem_append, not_or] at h1
    rw [hf2 b h1.1 h1.2, hf1 b hb]

theorem dec_key_impl_root (cmp : T → T → Bool) (m : Memory T) (h : PairingHeap) :
    dec_key_impl cmp m h h.root_ = Except.ok (m, h) := by
  simp [dec_key_impl]

theorem Repr.cell_of_mem {m : Memory T} : ∀ (t : Tree T) (par : Ptr) (a : Nat), Repr m par t →
    a ∈ t.addrs → ∃ na, m.cell a = some na
  | Tree.nil, _, _, _, h => by simp at h
  | Tree.node b v l r, par, a, ⟨hb, hl, hr⟩, h => by
    simp only [addrs_node, List.mem_cons, List.mem_append] at h
    rcases h with h | h | h
    · exact ⟨_, h ▸ hb⟩
    · exact Repr.cell_of_mem l _ a hl h
    · exact Repr.cell_of_mem r _ a hr h

theorem wp_lower_key (cmp : T → T → Bool) (m : Memory T) (h : PairingHeap) (x : Root T)
    (par : Ptr) (a : Nat) (w : T) (hi : InvP m h (some x) par) (ha : a ∈ x.addrs)
    (Q : Memory T × PairingHeap → Prop)
    (hQ : ∀ m' h' par', InvP m' h' (some (flower cmp x a w)) par' →
      (par = none → par' = none) → m'.brk = m.brk → h'.size_ = h.size_ →
      (∀ b, b ∉ x.addrs → m'.cell b = m.cell b) → Q (m', h')) :
    wp (lower_key cmp m h (some a) w) Q := by
  obtain ⟨hr, hs, hx, hd, hlt⟩ := hi
  have hd' := hd
  simp only [Root.addrs, List.nodup_cons] at hd'
  by_cases hax : a = x.a
  · subst hax
    simp only [lower_key, Memory.set_data, Memory.modify, hx.1, bind_ok, decrease_key]
    rw [← hr, dec_key_impl_root, wp_ok]
    have hfl : flower cmp x x.a w = ⟨x.a, w, x.kids⟩ := by simp [flower]
    rw [hfl] at hQ
    refine hQ _ h par ⟨hr, hs, ⟨by simp, Repr_put hd'.1 hx.2⟩, hd, hlt⟩ id rfl rfl ?_
    intro b hb
    simp only [Root.addrs, List.mem_cons, not_or] at hb
    simp [hb.1]
  · have hak : a ∈ x.kids.addrs := by
      simp only [Root.addrs, List.mem_cons] at ha
      exact ha.resolve_left hax
    obtain ⟨na, hna⟩ := Repr.cell_of_mem _ _ a hx.2 hak
    obtain ⟨⟨n, kids'⟩, hex⟩ := extract_of_mem a x.kids hak
    have hex' := extract_assign a w x.kids n kids' hd'.2 hex
    have hxa : x.a ≠ a := fun e => hax e.symm
    simp only [lower_key, Memory.set_data, Memory.modify, hna, bind_ok, decrease_key]
    have hi1 : InvP (m.put a (some { na with data_ := w })) h
        (some ⟨x.a, x.v, x.kids.assign a w⟩) par := by
      refine ⟨hr, by simpa [Root.addrs] using hs, ⟨by simp [hxa, hx.1], Repr.assign w hna _ _ hx.2⟩,
        by simpa [Root.addrs] using hd, by simpa [Root.addrs] using hlt⟩
    apply wp_dec_key_impl cmp _ h ⟨x.a, x.v, x.kids.assign a w⟩ par a _ kids' hi1 hex'
    intro m' h' par' hi' hp hb hs' hf
    have hfl : flower cmp x a w = fpair cmp ⟨n.a, w, n.kids⟩ ⟨x.a, x.v, kids'⟩ := by
      simp [flower, hax, hex]
    rw [hfl] at hQ
    refine hQ m' h' par' hi' hp hb hs' ?_
    intro b hb'
    rw [hf b (by simpa [Root.addrs] using hb')]
    have : b ≠ a := fun e => hb' (e ▸ ha)
    simp [this]

theorem fpair_always (x y : Root T) :
    fpair AlwaysTrueCmp x y = ⟨x.a, x.v, Tree.node y.a y.v y.kids x.kids⟩ := by
  simp [fpair, AlwaysTrueCmp]

theorem wp_erase (cmp : T → T → Bool) (mode : MergeMode) (fuel : Nat) (m : Memory T) (h : PairingHeap)
    (x : Root T) (par : Ptr) (a : Nat) (hi : InvP m h (some x) par) (ha : a ∈ x.addrs)
    (hf : x.addrs.length ≤ fuel) (Q : Memory T × PairingHeap → Prop)
    (hQ : ∀ m' h' par', InvP m' h' (ferase cmp mode x a) par' →
      (mode = MergeMode.TwoPass → par' = none) → m'.brk = m.brk →
      h'.size_ + 1 = h.size_ → m'.cell a = none →
      (∀ b, b ∉ x.addrs → m'.cell b = m.cell b) → Q (m', h')) :
    wp (erase cmp mode fuel m h (some a)) Q := by
  have hr := hi.1
  have hd := hi.2.2.2.1
  by_cases hax : a = x.a
  · subst hax
    simp only [erase, erase_impl]
    rw [← hr, dec_key_impl_root, bind_ok]
    have hfe : ferase cmp mode x x.a = fdelete_min cmp mode (some x) := by simp [ferase]
    rw [hfe] at hQ
    exact wp_delete_min cmp mode fuel m h x par hi hf Q hQ
  · have hak : a ∈ x.kids.addrs := by
      simp only [Root.addrs, List.mem_cons] at ha
      exact ha.resolve_left hax
    obtain ⟨⟨n, kids'⟩, hex⟩ := extract_of_mem a x.kids hak
    have hna := extract_a a _ n kids' hex
    simp only [erase, erase_impl]
    rw [wp_bind]
    apply wp_dec_key_impl AlwaysTrueCmp m h x par a n kids' hi hex
    intro m1 h1 par1 hi1 _ hb1 hs1 hf1
    rw [fpair_always] at hi1
    simp only []
    have hlen : (⟨n.a, n.v, Tree.node x.a x.v kids' n.kids⟩ : Root T).addrs.length ≤ fuel := by
      rw [← hi1.2.1, hs1, hi.2.1]
      exact hf
    apply wp_delete_min cmp mode fuel m1 h1 _ par1 hi1 hlen
    intro m2 h2 par2 hi2 hp2 hb2 hs2 hc2 hf2
    have hfe : ferase cmp mode x a
        = fmerge cmp mode (⟨x.a, x.v, kids'⟩ :: n.kids.spine) := by
      simp [ferase, hax, hex]
    rw [hfe] at hQ
    have hmem : ∀ b, b ∈ (⟨n.a, n.v, Tree.node x.a x.v kids' n.kids⟩ : Root T).addrs →
        b ∈ x.addrs := by
      intro b hb
      have hp := extract_addrs_perm a _ n kids' hex
      simp only [Root.addrs, addrs_node, List.mem_cons, List.mem_append] at hb ⊢
      have hp' := fun c => (hp.mem_iff (a := c))
      simp only [Root.addrs, List.mem_append, List.mem_cons] at hp'
      rcases hb with hb | hb | hb | hb
      · exact Or.inr ((hp' b).1 (Or.inl (Or.inl hb)))
      · exact Or.inl hb
      · exact Or.inr ((hp' b).1 (Or.inr hb))
      · exact Or.inr ((hp' b).1 (Or.inl (Or.inr hb)))
    refine hQ m2 h2 par2 hi2 hp2 (hb2.trans hb1) (by rw [hs2, hs1]) (by rw [← hna]; exact hc2) ?_
    intro b hb
    rw [hf2 b (fun hh => hb (hmem b hh)), hf1 b hb]

theorem Repr.reaches_mem {m : Memory T} : ∀ (t : Tree T) (par : Ptr) (b : Nat), Repr m par t →
    Reaches m t.ptr b → b ∈ t.addrs
  | Tree.nil, _, _, _, h => by cases h
  | Tree.node a v l r, par, b, ⟨hc, hl, hr⟩, h => by
    simp only [addrs_node, List.mem_cons, List.mem_append]
    cases h with
    | here _ n hn => exact Or.inl rfl
    | left _ n _ hn hb =>
      rw [hc] at hn
      cases hn
      exact Or.inr (Or.inl (Repr.reaches_mem l _ b hl hb))
    | right _ n _ hn hb =>
      rw [hc] at hn
      cases hn
      exact Or.inr (Or.inr (Repr.reaches_mem r _ b hr hb))

theorem Repr.mem_reaches {m : Memory T} : ∀ (t : Tree T) (par : Ptr) (b : Nat), Repr m par t →
    b ∈ t.addrs → Reaches m t.ptr b
  | Tree.nil, _, _, _, h => by simp at h
  | Tree.node a v l r, par, b, ⟨hc, hl, hr⟩, h => by
    simp only [addrs_node, List.mem_cons, List.mem_append] at h
    rcases h with h | h | h
    · subst h
      exact Reaches.here _ _ hc
    · exact Reaches.left _ _ _ hc (Repr.mem_reaches l _ b hl h)
    · exact Reaches.right _ _ _ hc (Repr.mem_reaches r _ b hr h)

theorem InvP.reaches_iff {m : Memory T} {h : PairingHeap} {s : Option (Root T)} {par : Ptr}
    (hi : InvP m h s par) (b : Nat) : Reaches m h.root_ b ↔ b ∈ haddrs s := by
  cases s with
  | none =>
    rw [hi.1]
    simp only [haddrs, List.not_mem_nil, iff_false]
    intro h
    cases h
  | some x =>
    obtain ⟨hr, -, hx, -, -⟩ := hi
    have hrep : Repr m par (Tree.node x.a x.v x.kids Tree.nil) := ⟨hx.1, hx.2, trivial⟩
    rw [hr]
    constructor
    · intro hb
      have := Repr.reaches_mem _ par b hrep hb
      simpa [haddrs, Root.addrs] using this
    · intro hb
      exact Repr.mem_reaches _ par b hrep (by simpa [haddrs, Root.addrs] using hb)

theorem Repr.data_mem {m : Memory T} : ∀ (t : Tree T) (par : Ptr) (a : Nat)
    (na : PairingNode T), Repr m par t → a ∈ t.addrs → m.cell a = some na → na.data_ ∈ t.vals
  | Tree.nil, _, _, _, _, h, _ => by simp at h
  | Tree.node b v l r, par, a, na, ⟨hb, hl, hr⟩, h, hc => by
    simp only [addrs_node, List.mem_cons, List.mem_append] at h
    simp only [vals_node, List.mem_cons, List.mem_append]
    rcases h with h | h | h
    · subst h
      rw [hb] at hc
      cases hc
      exact Or.inl rfl
    · exact Or.inr (Or.inl (Repr.data_mem l _ a na hl h hc))
    · exact Or.inr (Or.inr (Repr.data_mem r _ a na hr h hc))

theorem Below.sib {cmp : T → T → Bool} {m : Memory T} : ∀ (t : Tree T) (par : Ptr) (b : T)
    (c : Nat) (nc : PairingNode T), Repr m par t → Below cmp b t → SibOf m t.ptr c →
    m.cell c = some nc → cmp nc.data_ b = false
  | Tree.nil, _, _, _, _, _, _, h, _ => by cases h
  | Tree.node a v l r, par, b, c, nc, ⟨hc, _, hr⟩, ⟨hv, _, hbr⟩, h, hcc => by
    cases h with
    | head _ n hn =>
      rw [hc] at hcc
      cases hcc
      exact hv
    | next _ n _ hn hs =>
      rw [hc] at hn
      cases hn
      exact Below.sib r _ b c nc hr hbr hs hcc

theorem Below.child {cmp : T → T → Bool} {m : Memory T} : ∀ (t : Tree T) (par : Ptr) (b : T)
    (p c : Nat) (np nc : PairingNode T), Repr m par t → Below cmp b t → p ∈ t.addrs →
    ChildOf m p c → m.cell p = some np → m.cell c = some nc → cmp nc.data_ np.data_ = false
  | Tree.nil, _, _, _, _, _, _, _, _, h, _, _, _ => by simp at h
  | Tree.node a v l r, par, b, p, c, np, nc, ⟨hc, hl, hr⟩, ⟨_, hbl, hbr⟩, h, hch, hp, hcc => by
    simp only [addrs_node, List.mem_cons, List.mem_append] at h
    rcases h with h | h | h
    · subst h
      obtain ⟨np', hp', hs⟩ := hch
      rw [hc] at hp hp'
      cases hp
      cases hp'
      exact Below.sib l _ v c nc hl hbl hs hcc
    · exact Below.child l _ v p c np nc hl hbl h hch hp hcc
    · exact Below.child r _ b p c np nc hr hbr h hch hp hcc

theorem wp_ok_elim {α : Type} {x : Except Fault α} {Q : α → Prop} {a : α} (h : wp x Q)
    (e : x = Except.ok a) : Q a := by
  obtain ⟨b, hb, hq⟩ := h
  rw [hb] at e
  cases e
  exact hq

theorem nodup_length_le {l : List Nat} {n : Nat} (hd : l.Nodup) (hlt : ∀ b ∈ l, b < n) :
    l.length ≤ n := by
  have h1 : l.toFinset ⊆ Finset.range n := by
    intro b hb
    simp only [List.mem_toFinset] at hb
    simpa using hlt b hb
  have h2 := Finset.card_le_card h1
  rw [List.toFinset_card_of_nodup hd, Finset.card_range] at h2
  exact h2

theorem InvP.length_le {m : Memory T} {h : PairingHeap} {x : Root T} {par : Ptr}
    (hi : InvP m h (some x) par) : x.addrs.length ≤ m.brk :=
  nodup_length_le hi.2.2.2.1 hi.2.2.2.2

theorem InvP.lt_brk {m : Memory T} {h : PairingHeap} {s : Option (Root T)} {par : Ptr}
    (hi : InvP m h s par) : ∀ b ∈ haddrs s, b < m.brk := by
  cases s with
  | none => intro b hb; simp [haddrs] at hb
  | some x => exact hi.2.2.2.2

theorem WInv.update {cmp : T → T → Bool} {mode : MergeMode} {w : World T}
    {ts : Nat → Option (Root T)}
    {ps : Nat → Ptr} (hI : ∀ k, InvP w.mem (w.heap k) (ts k) (ps k))
    (hD : ∀ i j, i ≠ j → (haddrs (ts i)).Disjoint (haddrs (ts j)))
    (hO : ∀ k, hOrdered cmp (ts k)) (hP : mode = MergeMode.TwoPass → ∀ k, ps k = none)
    (i : Nat) (m' : Memory T) (h' : PairingHeap) (s' : Option (Root T)) (S : List Nat)
    (par' : Ptr) (hi' : InvP m' h' s' par') (hp' : mode = MergeMode.TwoPass → par' = none)
    (ho : hOrdered cmp s')
    (hf : ∀ b, b ∉ S → m'.cell b = w.mem.cell b) (hb : w.mem.brk ≤ m'.brk)
    (hS : ∀ k, k ≠ i → (haddrs (ts k)).Disjoint S)
    (hs' : ∀ k, k ≠ i → (haddrs (ts k)).Disjoint (haddrs s')) :
    WInv cmp mode (w.set m' i h') := by
  refine ⟨fun k => if k = i then s' else ts k, fun k => if k = i then par' else ps k,
    ?_, ?_, ?_, ?_⟩
  · intro k
    by_cases hk : k = i
    · simp only [World.set, hk, if_true]
      exact hi'
    · simp only [World.set, hk, if_false]
      exact InvP_frame hf (hS k hk) hb (hI k)
  · intro k j hkj
    by_cases hk : k = i
    · have hj : j ≠ i := fun e => hkj (hk.trans e.symm)
      simp only [hk, if_true, hj, if_false]
      exact (hs' j hj).symm
    · by_cases hj : j = i
      · simp only [hk, if_false, hj, if_true]
        exact hs' k hk
      · simp only [hk, hj, if_false]
        exact hD k j hkj
  · intro k
    by_cases hk : k = i
    · simp only [hk, if_true]; exact ho
    · simp only [hk, if_false]; exact hO k
  · intro hm k
    by_cases hk : k = i
    · simp only [hk, if_true]; exact hp' hm
    · simp only [hk, if_false]; exact hP hm k

theorem mem_haddrs_finsert (cmp : T → T → Bool) (s : Option (Root T)) (a : Nat) (v : T)
    (b : Nat) : b ∈ haddrs (finsert cmp s a v) ↔ b ∈ haddrs s ∨ b = a := by
  cases s with
  | none => simp [finsert, haddrs, Root.addrs]
  | some x =>
    simp only [finsert, haddrs, mem_fpair_addrs]
    simp [Root.addrs]

theorem mem_haddrs_fdelete_min (cmp : T → T → Bool) (mode : MergeMode) (x : Root T)
    (b : Nat) (h : b ∈ haddrs (fdelete_min cmp mode (some x))) : b ∈ x.kids.addrs := by
  simp only [fdelete_min] at h
  cases hR : fmerge cmp mode x.kids.spine with
  | none => simp [hR, haddrs] at h
  | some R =>
    rw [hR] at h
    have := (fmerge_addrs_perm cmp mode _ R hR).mem_iff.1 h
    rwa [laddrs_spine] at this

theorem mem_haddrs_fmeld (cmp : T → T → Bool) (s1 s2 : Option (Root T)) (b : Nat) :
    b ∈ haddrs (fmeld cmp s1 s2) ↔ b ∈ haddrs s1 ∨ b ∈ haddrs s2 := by
  cases s1 with
  | none => simp [fmeld, haddrs]
  | some x =>
    cases s2 with
    | none => simp [fmeld, haddrs]
    | some y => simp [fmeld, haddrs, mem_fpair_addrs]

theorem fmeld_ordered {cmp : T → T → Bool} (hasym : ∀ a b, cmp a b = true → cmp b a = false)
    (s1 s2 : Option (Root T)) (h1 : hOrdered cmp s1) (h2 : hOrdered cmp s2) :
    hOrdered cmp (fmeld cmp s1 s2) := by
  cases s1 with
  | none => exact h2
  | some x =>
    cases s2 with
    | none => exact h1
    | some y => exact fpair_ordered hasym h1 h2

theorem Below.mono {cmp : T → T → Bool}
    (hnt : ∀ a b c, cmp a b = false → cmp b c = false → cmp a c = false) {b b' : T}
    (hb : cmp b b' = false) : ∀ {t : Tree T}, Below cmp b t → Below cmp b' t
  | Tree.nil, _ => trivial
  | Tree.node _ _ _ _, ⟨hv, hl, hr⟩ => ⟨hnt _ _ _ hv hb, hl, Below.mono hnt hb hr⟩

theorem Repr.extract_data {m : Memory T} (a : Nat) (na : PairingNode T)
    (hc : m.cell a = some na) : ∀ (t : Tree T) (par : Ptr) (n : Root T) (t' : Tree T),
    Repr m par t → t.extract a = some (n, t') → na.data_ = n.v
  | Tree.nil, _, _, _, _, h => by simp [Tree.extract] at h
  | Tree.node b v l r, par, n, t', ⟨hb, hl, hr⟩, h => by
    by_cases e : b = a
    · simp only [Tree.extract, e, if_true, Option.some.injEq, Prod.mk.injEq] at h
      obtain ⟨rfl, rfl⟩ := h
      subst e
      rw [hb] at hc
      cases hc
      rfl
    · simp only [Tree.extract, e, if_false] at h
      cases hel : l.extract a with
      | some p =>
        obtain ⟨n1, l'⟩ := p
        simp only [hel, Option.some.injEq, Prod.mk.injEq] at h
        exact h.1 ▸ Repr.extract_data a na hc l _ n1 l' hl hel
      | none =>
        simp only [hel] at h
        cases her : r.extract a with
        | none => simp [her] at h
        | some p =>
          obtain ⟨n1, r'⟩ := p
          simp only [her, Option.some.injEq, Prod.mk.injEq] at h
          exact h.1 ▸ Repr.extract_data a na hc r _ n1 r' hr her

theorem mem_flower_addrs (cmp : T → T → Bool) (x : Root T) (a : Nat) (w : T) (b : Nat)
    (h : b ∈ (flower cmp x a w).addrs) : b ∈ x.addrs := by
  unfold flower at h
  by_cases hax : a = x.a
  · simpa [hax, Root.addrs] using h
  · simp only [hax, if_false] at h
    cases hex : x.kids.extract a with
    | none => simpa [hex] using h
    | some p =>
      obtain ⟨n, kids'⟩ := p
      simp only [hex, mem_fpair_addrs] at h
      have hp := fun c => (extract_addrs_perm a _ n kids' hex).mem_iff (a := c)
      simp only [Root.addrs, List.mem_cons, List.mem_append] at hp h ⊢
      rcases h with (h | h) | h | h
      · exact Or.inr ((hp b).1 (Or.inl (Or.inl h)))
      · exact Or.inr ((hp b).1 (Or.inl (Or.inr h)))
      · exact Or.inl h
      · exact Or.inr ((hp b).1 (Or.inr h))

theorem flower_ordered {cmp : T → T → Bool} (hcmp : StrictWeakOrder cmp) (x : Root T)
    (a : Nat) (w : T) (hx : Ordered cmp x)
    (hroot : a = x.a → cmp x.v w = false)
    (hkid : ∀ n kids', x.kids.extract a = some (n, kids') → cmp n.v w = false) :
    Ordered cmp (flower cmp x a w) := by
  unfold flower
  by_cases hax : a = x.a
  · simp only [hax, if_true]
    exact Below.mono hcmp.neg_trans (hroot hax) hx
  · simp only [hax, if_false]
    cases hex : x.kids.extract a with
    | none => exact hx
    | some p =>
      obtain ⟨n, kids'⟩ := p
      have hb := extract_below a _ x.v n kids' hex hx
      exact fpair_ordered hcmp.asymm (Below.mono hcmp.neg_trans (hkid n kids' hex) hb.2) hb.1

theorem mem_haddrs_ferase (cmp : T → T → Bool) (mode : MergeMode) (x : Root T) (a : Nat)
    (b : Nat) (h : b ∈ haddrs (ferase cmp mode x a)) : b ∈ x.addrs := by
  unfold ferase at h
  by_cases hax : a = x.a
  · simp only [hax, if_true] at h
    exact List.mem_cons_of_mem _ (mem_haddrs_fdelete_min cmp mode x b h)
  · simp only [hax, if_false] at h
    cases hex : x.kids.extract a with
    | none => simpa [hex, haddrs] using h
    | some p =>
      obtain ⟨n, kids'⟩ := p
      simp only [hex] at h
      cases hR : fmerge cmp mode (⟨x.a, x.v, kids'⟩ :: n.kids.spine) with
      | none => simp [hR, haddrs] at h
      | some R =>
        rw [hR] at h
        have h1 := (fmerge_addrs_perm cmp mode _ R hR).mem_iff.1 h
        have hp := fun c => (extract_addrs_perm a _ n kids' hex).mem_iff (a := c)
        simp only [laddrs_cons, laddrs_spine, Root.addrs, List.mem_cons, List.mem_append]
          at hp h1 ⊢
        rcases h1 with (h1 | h1) | h1
        · exact Or.inl h1
        · exact Or.inr ((hp b).1 (Or.inr h1))
        · exact Or.inr ((hp b).1 (Or.inl (Or.inr h1)))

theorem ferase_ordered {cmp : T → T → Bool} (hasym : ∀ a b, cmp a b = true → cmp b a = false)
    (mode : MergeMode) (x : Root T) (a : Nat) (hx : Ordered cmp x) :
    hOrdered cmp (ferase cmp mode x a) := by
  unfold ferase
  by_cases hax : a = x.a
  · simp only [hax, if_true]
    exact fdelete_min_ordered hasym mode (some x) hx
  · simp only [hax, if_false]
    cases hex : x.kids.extract a with
    | none => exact hx
    | some p =>
      obtain ⟨n, kids'⟩ := p
      have hb := extract_below a _ x.v n kids' hex hx
      simp only []
      cases hR : fmerge cmp mode (⟨x.a, x.v, kids'⟩ :: n.kids.spine) with
      | none => trivial
      | some R =>
        refine fmerge_ordered hasym mode _ R ?_ hR
        intro r hr
        simp only [List.mem_cons] at hr
        rcases hr with hr | hr
        · subst hr; exact hb.1
        · exact Below.spine_ordered hb.2 r hr

theorem bind_pure_ok {α β : Type} {x : Except Fault α} {g : α → β} {b : β}
    (h : (x >>= fun r => pure (g r)) = Except.ok b) : ∃ a, x = Except.ok a ∧ b = g a := by
  cases x with
  | error e => simp at h
  | ok a =>
    simp only [bind_ok, pure_eq_ok, Except.ok.injEq] at h
    exact ⟨a, rfl, h.symm⟩

theorem delete_min_empty (cmp : T → T → Bool) (mode : MergeMode) (fuel : Nat) (m : Memory T)
    (h : PairingHeap) (hs : h.size_ = 0) :
    delete_min cmp mode fuel m h = Except.error Fault.out_of_range := by
  simp [delete_min, empty_check, PairingHeap.empty, PairingHeap.size, hs]

theorem find_min_empty (m : Memory T) (h : PairingHeap) (hs : h.size_ = 0) :
    find_min m h = Except.error Fault.out_of_range := by
  simp [find_min, empty_check, PairingHeap.empty, PairingHeap.size, hs]

theorem WInv.init (cmp : T → T → Bool) (mode : MergeMode) :
    WInv cmp mode (World.init : World T) :=
  ⟨fun _ => none, fun _ => none, fun _ => ⟨rfl, rfl⟩, fun _ _ _ => by simp [haddrs],
    fun _ => trivial, fun _ _ => rfl⟩

theorem WInv.step {cmp : T → T → Bool} (hcmp : StrictWeakOrder cmp) {mode : MergeMode}
    {w w' : World T} {op : Op T} {fuel : Nat} (hw : WInv cmp mode w)
    (ha : w.allowed cmp op) (hf : w.mem.brk ≤ fuel)
    (hs : w.step cmp mode fuel op = Except.ok w') : WInv cmp mode w' := by
  obtain ⟨ts, ps, hI, hD, hO, hP⟩ := hw
  cases op with
  | insert i v =>
    simp only [World.step] at hs
    obtain ⟨⟨m', h', hd⟩, he, rfl⟩ := bind_pure_ok hs
    have hi := hI i
    refine wp_ok_elim (Q := fun r => WInv cmp mode (w.set r.1 i r.2.1))
      (wp_insert cmp w.mem (w.heap i) (ts i) (ps i) v hi _ ?_) he
    intro m1 h1 par1 hi1 hp1 hb1 _ hf1
    refine WInv.update hI hD hO hP i m1 h1 _ _ par1 hi1 (fun hm => hp1 (hP hm i))
      (finsert_ordered hcmp.asymm _ _ _ (hO i)) hf1 (by omega) ?_ ?_
    · intro k hk b hb hb2
      simp only [List.mem_append, List.mem_singleton] at hb2
      rcases hb2 with hb2 | hb2
      · exact hD k i hk hb hb2
      · exact absurd ((hI k).lt_brk b hb) (by omega)
    · intro k hk b hb hb2
      rw [mem_haddrs_finsert] at hb2
      rcases hb2 with hb2 | hb2
      · exact hD k i hk hb hb2
      · exact absurd ((hI k).lt_brk b hb) (by omega)
  | delete_min i =>
    simp only [World.step] at hs
    obtain ⟨⟨m', h'⟩, he, rfl⟩ := bind_pure_ok hs
    have hi := hI i
    cases hti : ts i with
    | none =>
      rw [hti] at hi
      rw [delete_min_empty cmp _ fuel w.mem _ hi.2] at he
      exact absurd he (by simp)
    | some x =>
      rw [hti] at hi
      have hox : Ordered cmp x := by have := hO i; rwa [hti] at this
      refine wp_ok_elim (Q := fun r => WInv cmp mode (w.set r.1 i r.2))
        (wp_delete_min cmp mode fuel w.mem (w.heap i) x _ hi
          (Nat.le_trans hi.length_le hf) _ ?_) he
      intro m1 h1 par1 hi1 hp1 hb1 _ _ hf1
      refine WInv.update hI hD hO hP i m1 h1 _ x.addrs par1 hi1 hp1
        (fdelete_min_ordered hcmp.asymm mode (some x) hox) hf1 (by omega) ?_ ?_
      · intro k hk
        have := hD k i hk
        rwa [hti] at this
      · intro k hk b hb hb2
        have := hD k i hk
        rw [hti] at this
        exact this hb (List.mem_cons_of_mem _ (mem_haddrs_fdelete_min cmp mode x b hb2))
  | meld i j =>
    simp only [World.step] at hs
    obtain ⟨⟨m', h'⟩, he, rfl⟩ := bind_pure_ok hs
    have hI1 : ∀ k, InvP (w.set w.mem j PairingHeap.mk_empty).mem
        ((w.set w.mem j PairingHeap.mk_empty).heap k) (if k = j then none else ts k) (ps k) := by
      intro k
      by_cases hk : k = j
      · simp only [World.set, hk, if_true]
        exact ⟨rfl, rfl⟩
      · simp only [World.set, hk, if_false]
        exact hI k
    have hD1 : ∀ k l, k ≠ l → (haddrs (if k = j then none else ts k)).Disjoint
        (haddrs (if l = j then none else ts l)) := by
      intro k l hkl
      by_cases hk : k = j
      · simp [hk, haddrs]
      · by_cases hl : l = j
        · simp [hl, haddrs]
        · simp only [hk, hl, if_false]
          exact hD k l hkl
    have hO1 : ∀ k, hOrdered cmp (if k = j then none else ts k) := by
      intro k
      by_cases hk : k = j
      · simp only [hk, if_true]; trivial
      · simp only [hk, if_false]; exact hO k
    have hi1 := hI1 i
    have hj := hI j
    have hdij : (haddrs (if i = j then none else ts i)).Disjoint (haddrs (ts j)) := by
      by_cases hij : i = j
      · simp [hij, haddrs]
      · simp only [hij, if_false]
        exact hD i j hij
    refine wp_ok_elim
      (Q := fun r => WInv cmp mode ((w.set w.mem j PairingHeap.mk_empty).set r.1 i r.2))
      (wp_meld cmp _ _ (w.heap j) _ (ts j) (ps i) (ps j) hi1 hj hdij _ ?_) he
    intro m1 h1 par1 hi' hp1 hb1 _ hf1
    refine WInv.update hI1 hD1 hO1 hP i m1 h1 _ _ par1 hi'
      (fun hm => hp1 (hP hm i) (hP hm j))
      (fmeld_ordered hcmp.asymm _ _ (hO1 i) (hO j)) hf1 (Nat.le_of_eq hb1.symm) ?_ ?_
    · intro k hk b hb hb2
      by_cases hkj : k = j
      · simp [hkj, haddrs] at hb
      · simp only [hkj, if_false] at hb
        simp only [List.mem_append] at hb2
        rcases hb2 with hb2 | hb2
        · by_cases hij : i = j
          · simp [hij, haddrs] at hb2
          · simp only [hij, if_false] at hb2
            exact hD k i hk hb hb2
        · exact hD k j hkj hb hb2
    · intro k hk b hb hb2
      rw [mem_haddrs_fmeld] at hb2
      by_cases hkj : k = j
      · simp [hkj, haddrs] at hb
      · simp only [hkj, if_false] at hb
        rcases hb2 with hb2 | hb2
        · by_cases hij : i = j
          · simp [hij, haddrs] at hb2
          · simp only [hij, if_false] at hb2
            exact hD k i hk hb hb2
        · exact hD k j hkj hb hb2
  | lower_key i a v =>
    simp only [World.step] at hs
    obtain ⟨⟨m', h'⟩, he, rfl⟩ := bind_pure_ok hs
    obtain ⟨hreach, na, hna, hle⟩ := ha
    have hi := hI i
    have hmem := (hi.reaches_iff a).1 hreach
    cases hti : ts i with
    | none => rw [hti] at hmem; simp [haddrs] at hmem
    | some x =>
      rw [hti] at hi hmem
      have hox : Ordered cmp x := by have := hO i; rwa [hti] at this
      refine wp_ok_elim (Q := fun r => WInv cmp mode (w.set r.1 i r.2))
        (wp_lower_key cmp w.mem (w.heap i) x (ps i) a v hi hmem _ ?_) he
      intro m1 h1 par1 hi1 hp1 hb1 _ hf1
      have hord : Ordered cmp (flower cmp x a v) := by
        refine flower_ordered hcmp x a v hox ?_ ?_
        · intro e
          subst e
          rw [hi.2.2.1.1] at hna
          cases hna
          exact hle
        · intro n kids' hex
          rw [← Repr.extract_data a na hna _ _ n kids' hi.2.2.1.2 hex]
          exact hle
      refine WInv.update hI hD hO hP i m1 h1 _ x.addrs par1 hi1 (fun hm => hp1 (hP hm i))
        hord hf1 (by omega) ?_ ?_
      · intro k hk
        have := hD k i hk
        rwa [hti] at this
      · intro k hk b hb hb2
        have := hD k i hk
        rw [hti] at this
        exact this hb (mem_flower_addrs cmp x a v b hb2)
  | erase i a =>
    simp only [World.step] at hs
    obtain ⟨⟨m', h'⟩, he, rfl⟩ := bind_pure_ok hs
    have hi := hI i
    have hmem := (hi.reaches_iff a).1 ha
    cases hti : ts i with
    | none => rw [hti] at hmem; simp [haddrs] at hmem
    | some x =>
      rw [hti] at hi hmem
      have hox : Ordered cmp x := by have := hO i; rwa [hti] at this
      refine wp_ok_elim (Q := fun r => WInv cmp mode (w.set r.1 i r.2))
        (wp_erase cmp mode fuel w.mem (w.heap i) x _ a hi hmem
          (Nat.le_trans hi.length_le hf) _ ?_) he
      intro m1 h1 par1 hi1 hp1 hb1 _ _ hf1
      refine WInv.update hI hD hO hP i m1 h1 _ x.addrs par1 hi1 hp1
        (ferase_ordered hcmp.asymm mode x a hox) hf1 (by omega) ?_ ?_
      · intro k hk
        have := hD k i hk
        rwa [hti] at this
      · intro k hk b hb hb2
        have := hD k i hk
        rw [hti] at this
        exact this hb (mem_haddrs_ferase cmp mode x a b hb2)

theorem Reachable.winv {cmp : T → T → Bool} (hcmp : StrictWeakOrder cmp) {mode : MergeMode}
    {w : World T} (hr : Reachable cmp mode w) : WInv cmp mode w := by
  induction hr with
  | init => exact WInv.init cmp mode
  | step w w' op fuel _ ha hf hs ih => exact WInv.step hcmp ih ha hf hs

theorem NoRange.ok {α : Type} (a : α) : NoRange (Except.ok a : Except Fault α) := by
  simp [NoRange]

theorem NoRange.pure {α : Type} (a : α) : NoRange (pure a : Except Fault α) := by
  simp [NoRange]

theorem NoRange.bad {α : Type} : NoRange (Except.error Fault.bad_access : Except Fault α) := by
  simp [NoRange]

theorem NoRange.fuel {α : Type} : NoRange (Except.error Fault.out_of_fuel : Except Fault α) := by
  simp [NoRange]

theorem NoRange.bind {α β : Type} {x : Except Fault α} {f : α → Except Fault β}
    (hx : NoRange x) (hf : ∀ a, NoRange (f a)) : NoRange (x >>= f) := by
  cases x with
  | error e =>
    cases e with
    | out_of_range => exact absurd rfl hx
    | bad_access => exact NoRange.bad
    | out_of_fuel => exact NoRange.fuel
  | ok a => exact hf a

theorem NoRange.deref (m : Memory T) (p : Ptr) : NoRange (m.deref p) := by
  unfold Memory.deref
  split
  · exact NoRange.bad
  · split
    · exact NoRange.bad
    · exact NoRange.ok _

theorem NoRange.modify (m : Memory T) (p : Ptr) (f : PairingNode T → PairingNode T) :
    NoRange (m.modify p f) := by
  unfold Memory.modify
  split
  · exact NoRange.bad
  · split
    · exact NoRange.bad
    · exact NoRange.ok _

theorem NoRange.set_parent (m : Memory T) (p q : Ptr) : NoRange (m.set_parent p q) :=
  NoRange.modify _ _ _

theorem NoRange.set_left (m : Memory T) (p q : Ptr) : NoRange (m.set_left p q) :=
  NoRange.modify _ _ _

theorem NoRange.set_right (m : Memory T) (p q : Ptr) : NoRange (m.set_right p q) :=
  NoRange.modify _ _ _

theorem NoRange.delete_node (m : Memory T) (p : Ptr) : NoRange (delete_node m p) := by
  unfold idril.delete_node
  split
  · exact NoRange.ok _
  · split
    · exact NoRange.bad
    · exact NoRange.ok _

theorem NoRange.pair (cmp : T → T → Bool) (m : Memory T) (l r : Ptr) :
    NoRange (pair cmp m l r) := by
  unfold idril.pair
  refine NoRange.bind (NoRange.deref _ _) fun _ => NoRange.bind (NoRange.deref _ _) fun _ =>
    NoRange.bind (NoRange.deref _ _) fun _ => NoRange.bind (NoRange.set_parent _ _ _) fun _ =>
    NoRange.bind (NoRange.set_right _ _ _) fun _ => NoRange.bind (NoRange.set_left _ _ _) fun _ =>
    NoRange.bind ?_ fun _ => NoRange.pure _
  split
  · exact NoRange.set_parent _ _ _
  · exact NoRange.pure _

theorem NoRange.first_pass_loop (cmp : T → T → Bool) : ∀ (fuel : Nat) (m : Memory T)
    (prev next : Ptr), NoRange (first_pass_loop cmp fuel m prev next)
  | 0, _, _, _ => NoRange.fuel
  | fuel + 1, m, prev, next => by
    unfold idril.first_pass_loop
    split
    · exact NoRange.pure _
    · refine NoRange.bind (NoRange.deref _ _) fun _ => NoRange.bind ?_ fun _ =>
        NoRange.bind ?_ fun _ => ?_
      · split
        · exact NoRange.bind (NoRange.deref _ _) fun _ =>
            NoRange.bind (NoRange.set_right _ _ _) fun _ =>
            NoRange.bind (NoRange.set_parent _ _ _) fun _ =>
            NoRange.bind (NoRange.set_right _ _ _) fun _ =>
            NoRange.bind (NoRange.set_parent _ _ _) fun _ =>
            NoRange.bind (NoRange.pair _ _ _ _) fun _ => NoRange.pure _
        · exact NoRange.pure _
      · split
        · exact NoRange.bind (NoRange.set_right _ _ _) fun _ => NoRange.set_parent _ _ _
        · exact NoRange.pure _
      · split
        · exact NoRange.bind (NoRange.set_parent _ _ _) fun _ =>
            NoRange.first_pass_loop cmp fuel _ _ _
        · exact NoRange.pure _

theorem NoRange.second_pass_loop (cmp : T → T → Bool) : ∀ (fuel : Nat) (m : Memory T)
    (last parent : Ptr), NoRange (second_pass_loop cmp fuel m last parent)
  | 0, _, _, _ => NoRange.fuel
  | fuel + 1, m, last, parent => by
    unfold idril.second_pass_loop
    split
    · exact NoRange.pure _
    · exact NoRange.bind (NoRange.deref _ _) fun _ =>
        NoRange.bind (NoRange.set_right _ _ _) fun _ =>
        NoRange.bind (NoRange.set_parent _ _ _) fun _ =>
        NoRange.bind (NoRange.pair _ _ _ _) fun _ => NoRange.second_pass_loop cmp fuel _ _ _

theorem NoRange.fifo_build_loop : ∀ (fuel : Nat) (m : Memory T)
    (head first : Ptr), NoRange (fifo_build_loop fuel m head first)
  | 0, _, _, _ => NoRange.fuel
  | fuel + 1, m, head, first => by
    unfold idril.fifo_build_loop
    split
    · exact NoRange.pure _
    · exact NoRange.bind (NoRange.deref _ _) fun _ =>
        NoRange.bind (NoRange.set_right _ _ _) fun _ =>
        NoRange.bind (NoRange.set_parent _ _ _) fun _ => NoRange.fifo_build_loop fuel _ _ _

theorem NoRange.fifo_merge_loop (cmp : T → T → Bool) : ∀ (fuel : Nat) (m : Memory T)
    (head last : Ptr), NoRange (fifo_merge_loop cmp fuel m head last)
  | 0, _, _, _ => NoRange.fuel
  | fuel + 1, m, head, last => by
    unfold idril.fifo_merge_loop
    split
    · exact NoRange.pure _
    · refine NoRange.bind (NoRange.deref _ _) fun _ => ?_
      dsimp only
      split
      · exact NoRange.pure _
      · exact NoRange.bind (NoRange.deref _ _) fun _ =>
          NoRange.bind (NoRange.set_parent _ _ _) fun _ =>
          NoRange.bind (NoRange.set_parent _ _ _) fun _ =>
          NoRange.bind (NoRange.pair _ _ _ _) fun _ =>
          NoRange.bind (NoRange.set_parent _ _ _) fun _ =>
          NoRange.bind (NoRange.deref _ _) fun _ => NoRange.fifo_merge_loop cmp fuel _ _ _

theorem NoRange.merge (cmp : T → T → Bool) (mode : MergeMode) (fuel : Nat) (m : Memory T)
    (first : Ptr) : NoRange (merge cmp mode fuel m first) := by
  cases mode with
  | TwoPass =>
    simp only [idril.merge, merge_two_pass, first_pass, second_pass]
    exact NoRange.bind (NoRange.bind (NoRange.deref _ _) fun _ =>
      NoRange.first_pass_loop cmp fuel _ _ _) fun _ =>
      NoRange.bind (NoRange.deref _ _) fun _ => NoRange.bind (NoRange.set_parent _ _ _) fun _ =>
      NoRange.second_pass_loop cmp fuel _ _ _
  | FifoQueue =>
    simp only [idril.merge, merge_fifo]
    exact NoRange.bind (NoRange.deref _ _) fun _ =>
      NoRange.bind (NoRange.set_parent _ _ _) fun _ =>
      NoRange.bind (NoRange.set_right _ _ _) fun _ =>
      NoRange.bind (NoRange.fifo_build_loop fuel _ _ _) fun _ =>
      NoRange.fifo_merge_loop cmp fuel _ _ _

theorem delete_min_range_iff (cmp : T → T → Bool) (mode : MergeMode) (fuel : Nat)
    (m : Memory T) (h : PairingHeap) :
    delete_min cmp mode fuel m h = Except.error Fault.out_of_range ↔ h.size_ = 0 := by
  constructor
  · intro e
    by_contra hs
    have he : h.empty = false := by
      simp only [PairingHeap.empty, PairingHeap.size, beq_eq_false_iff_ne, ne_eq]
      exact fun e => hs e.symm
    have : NoRange (delete_min cmp mode fuel m h) := by
      simp only [delete_min, empty_check, he, Bool.false_eq_true, if_false, bind_ok]
      refine NoRange.bind ?_ fun _ => NoRange.bind (NoRange.delete_node _ _) fun _ =>
        NoRange.pure _
      split
      · exact NoRange.pure _
      · exact NoRange.bind (NoRange.deref _ _) fun _ =>
          NoRange.bind (NoRange.set_parent _ _ _) fun _ =>
          NoRange.bind (NoRange.deref _ _) fun _ => NoRange.merge _ _ _ _ _
    exact this e
  · exact delete_min_empty cmp mode fuel m h

theorem find_min_range_iff (m : Memory T) (h : PairingHeap) :
    find_min m h = Except.error Fault.out_of_range ↔ h.size_ = 0 := by
  constructor
  · intro e
    by_contra hs
    have he : h.empty = false := by
      simp only [PairingHeap.empty, PairingHeap.size, beq_eq_false_iff_ne, ne_eq]
      exact fun e => hs e.symm
    have : NoRange (find_min m h) := by
      simp only [find_min, empty_check, he, Bool.false_eq_true, if_false, bind_ok]
      exact NoRange.bind (NoRange.deref _ _) fun _ => NoRange.pure _
    exact this e
  · exact find_min_empty m h

theorem wp_run_calls (cmp : T → T → Bool) (mode : MergeMode) (fuel : Nat) : ∀ (cs : List (Call T)) (m : Memory T)
    (h : PairingHeap) (s : Option (Root T)) (par : Ptr), InvP m h s par →
    never_underflows h.size_ cs → m.brk + count_insert cs ≤ fuel →
    ∀ Q : Memory T × PairingHeap → Prop,
    (∀ m' h' s' par', InvP m' h' s' par' →
      h'.size_ + count_delete cs = h.size_ + count_insert cs → Q (m', h')) →
    wp (run_calls cmp mode fuel cs m h) Q
  | [], m, h, s, par, hi, _, _, Q, hQ => by
    simp only [run_calls, pure_eq_ok, wp_ok]
    exact hQ m h s par hi rfl
  | Call.insert v :: cs, m, h, s, par, hi, hn, hf, Q, hQ => by
    simp only [run_calls]
    rw [wp_bind]
    apply wp_insert cmp m h s par v hi
    intro m1 h1 par1 hi1 _ hb1 hs1 _
    simp only [never_underflows, count_insert] at hn hf
    apply wp_run_calls cmp mode fuel cs m1 h1 _ par1 hi1 (by rw [hs1]; exact hn) (by omega)
    intro m2 h2 s2 par2 hi2 hs2
    refine hQ m2 h2 s2 par2 hi2 ?_
    simp only [count_insert, count_delete]
    omega
  | Call.delete_min :: cs, m, h, s, par, hi, hn, hf, Q, hQ => by
    simp only [run_calls]
    rw [wp_bind]
    simp only [never_underflows, count_insert] at hn hf
    cases s with
    | none => exact absurd hi.2 (by omega)
    | some x =>
      apply wp_delete_min cmp mode fuel m h x par hi (by have := hi.length_le; omega)
      intro m1 h1 par1 hi1 _ hb1 hs1 _ _
      have e : h1.size_ = h.size_ - 1 := by omega
      apply wp_run_calls cmp mode fuel cs m1 h1 _ par1 hi1 (by rw [e]; exact hn.2) (by omega)
      intro m2 h2 s2 par2 hi2 hs2
      refine hQ m2 h2 s2 par2 hi2 ?_
      simp only [count_insert, count_delete]
      omega

theorem run_calls_underflow (cmp : T → T → Bool) (mode : MergeMode) (fuel : Nat) :
    ∀ (cs : List (Call T)) (m : Memory T) (h : PairingHeap) (s : Option (Root T)) (par : Ptr),
    InvP m h s par → ¬ never_underflows h.size_ cs → m.brk + count_insert cs ≤ fuel →
    run_calls cmp mode fuel cs m h = Except.error Fault.out_of_range
  | [], _, _, _, _, _, hn, _ => absurd trivial hn
  | Call.insert v :: cs, m, h, s, par, hi, hn, hf => by
    simp only [never_underflows, count_insert] at hn hf
    obtain ⟨⟨m1, h1, p⟩, e, s1, par1, hi1, hs1, hb1⟩ := wp_insert cmp m h s par v hi
      (fun r => ∃ s' par', InvP r.1 r.2.1 s' par' ∧ r.2.1.size_ = h.size_ + 1 ∧
        r.1.brk = m.brk + 1)
      (fun m' h' par' hi' _ hb hs _ => ⟨_, par', hi', hs, hb⟩)
    simp only [run_calls, e, bind_ok]
    simp only at hs1 hb1
    exact run_calls_underflow cmp mode fuel cs m1 h1 s1 par1 hi1 (by rw [hs1]; exact hn)
      (by omega)
  | Call.delete_min :: cs, m, h, s, par, hi, hn, hf => by
    simp only [never_underflows, count_insert, not_and] at hn hf
    by_cases h0 : h.size_ = 0
    · simp only [run_calls, delete_min_empty cmp mode fuel m h h0, bind_error]
    · cases s with
      | none => exact absurd hi.2 h0
      | some x =>
        obtain ⟨⟨m1, h1⟩, e, s1, par1, hi1, hs1, hb1⟩ := wp_delete_min cmp mode fuel m h x par
          hi (by have := hi.length_le; omega)
          (fun r => ∃ s' par', InvP r.1 r.2 s' par' ∧ r.2.size_ + 1 = h.size_ ∧
            r.1.brk = m.brk)
          (fun m' h' par' hi' _ hb hs _ _ => ⟨_, par', hi', hs, hb⟩)
        simp only [run_calls, e, bind_ok]
        simp only at hs1 hb1
        have e1 : h1.size_ = h.size_ - 1 := by omega
        exact run_calls_underflow cmp mode fuel cs m1 h1 s1 par1 hi1
          (by rw [e1]; exact hn (by omega)) (by omega)

theorem InvP.consistent {m : Memory T} {h : PairingHeap} {s : Option (Root T)} {par : Ptr}
    (hi : InvP m h s par) : Consistent m h := by
  refine ⟨⟨haddrs s, ?_, hi.reaches_iff, hi.size⟩, ?_, ?_⟩
  · cases s with
    | none => simp [haddrs]
    | some x => exact hi.2.2.2.1
  · cases s with
    | none => simp [hi.1, PairingHeap.size, hi.2]
    | some x => simp [hi.1, PairingHeap.size, hi.2.1, Root.addrs]
  · simp only [PairingHeap.empty, beq_iff_eq]
    exact ⟨fun e => e.symm, fun e => e.symm⟩

theorem Consistent_empty_heap (m : Memory T) : Consistent m PairingHeap.mk_empty :=
  (InvP_empty_heap m none).consistent

theorem clear_result (fuel : Nat) (m m' : Memory T) (h h' : PairingHeap)
    (e : clear fuel m h = Except.ok (m', h')) : h' = PairingHeap.mk_empty := by
  simp only [clear, assign_from, PairingHeap.swap] at e
  cases hd : destroy fuel m { root_ := h.root_, size_ := h.size_ } with
  | error err => simp [hd] at e
  | ok r =>
    simp only [hd, bind_ok, pure_eq_ok, Except.ok.injEq, Prod.mk.injEq] at e
    exact e.2.symm

theorem HeapOrder.of_ordered {cmp : T → T → Bool} {m : Memory T} {h : PairingHeap}
    {s : Option (Root T)} {par : Ptr} (hi : InvP m h s par) (hirr : ∀ a, cmp a a = false)
    (ho : hOrdered cmp s) : HeapOrder cmp m h := by
  intro p c np nc hp hc hnp hnc
  have hmem := (hi.reaches_iff p).1 hp
  cases s with
  | none => simp [haddrs] at hmem
  | some x =>
    have hrep : Repr m par (Tree.node x.a x.v x.kids Tree.nil) :=
      ⟨hi.2.2.1.1, hi.2.2.1.2, trivial⟩
    have hb : Below cmp x.v (Tree.node x.a x.v x.kids Tree.nil) := ⟨hirr _, ho, trivial⟩
    exact Below.child _ _ x.v p c np nc hrep hb (by simpa [haddrs, Root.addrs] using hmem)
      hc hnp hnc

theorem Below.of_graph {cmp : T → T → Bool} {m : Memory T} : ∀ (t : Tree T) (par : Ptr)
    (b : T), Repr m par t →
    (∀ c nc, SibOf m t.ptr c → m.cell c = some nc → cmp nc.data_ b = false) →
    (∀ p c np nc, p ∈ t.addrs → ChildOf m p c → m.cell p = some np → m.cell c = some nc →
      cmp nc.data_ np.data_ = false) → Below cmp b t
  | Tree.nil, _, _, _, _, _ => trivial
  | Tree.node a v l r, par, b, ⟨hc, hl, hr⟩, hsib, hch => by
    refine ⟨hsib a _ (SibOf.head a _ hc) hc, ?_, ?_⟩
    · refine Below.of_graph l _ v hl ?_ ?_
      · intro c nc hs hnc
        exact hch a c _ nc (by simp) ⟨_, hc, hs⟩ hc hnc
      · intro p c np nc hp
        exact hch p c np nc (by simp [hp])
    · refine Below.of_graph r _ b hr ?_ ?_
      · intro c nc hs hnc
        exact hsib c nc (SibOf.next a _ c hc hs) hnc
      · intro p c np nc hp
        exact hch p c np nc (by simp [hp])

theorem HeapOrder.ordered {cmp : T → T → Bool} {m : Memory T} {h : PairingHeap}
    {s : Option (Root T)} {par : Ptr} (hi : InvP m h s par) (ho : HeapOrder cmp m h) :
    hOrdered cmp s := by
  cases s with
  | none => trivial
  | some x =>
    obtain ⟨hr, -, hx, -, -⟩ := hi
    refine Below.of_graph x.kids _ x.v hx.2 ?_ ?_
    · intro c nc hs hnc
      refine ho x.a c _ nc ?_ ⟨_, hx.1, hs⟩ hx.1 hnc
      rw [hr]
      exact Reaches.here _ _ hx.1
    · intro p c np nc hp hc hnp hnc
      refine ho p c np nc ?_ hc hnp hnc
      rw [hr]
      exact Reaches.left _ _ _ hx.1 (Repr.mem_reaches _ _ p hx.2 hp)

theorem haddrs_fdelete_min_perm (cmp : T → T → Bool) (mode : MergeMode) (x : Root T) :
    (haddrs (fdelete_min cmp mode (some x))).Perm x.kids.addrs := by
  simp only [fdelete_min]
  cases hR : fmerge cmp mode x.kids.spine with
  | none =>
    simp only [haddrs]
    rw [← laddrs_spine, fmerge_eq_none cmp mode _ hR]
    simp
  | some R =>
    simp only [haddrs]
    exact (fmerge_addrs_perm cmp mode _ R hR).trans (by rw [laddrs_spine])

theorem wp_decrease_key (cmp : T → T → Bool) (m : Memory T) (h : PairingHeap) (x : Root T)
    (par : Ptr) (a : Nat) (hi : InvP m h (some x) par) (ha : a ∈ x.addrs)
    (Q : Memory T × PairingHeap → Prop)
    (hQ : ∀ m' h' s' par', InvP m' h' (some s') par' → s'.addrs.Perm x.addrs →
      s'.vals.Perm x.vals → m'.brk = m.brk → h'.size_ = h.size_ →
      (∀ b, b ∉ x.addrs → m'.cell b = m.cell b) → Q (m', h')) :
    wp (decrease_key cmp m h (some a)) Q := by
  by_cases hax : a = x.a
  · subst hax
    simp only [decrease_key]
    rw [← hi.1, dec_key_impl_root, wp_ok]
    exact hQ m h x par hi (List.Perm.refl _) (List.Perm.refl _) rfl rfl (fun _ _ => rfl)
  · have hak : a ∈ x.kids.addrs := by
      simp only [Root.addrs, List.mem_cons] at ha
      exact ha.resolve_left hax
    obtain ⟨⟨n, kids'⟩, hex⟩ := extract_of_mem a x.kids hak
    simp only [decrease_key]
    apply wp_dec_key_impl cmp m h x par a n kids' hi hex
    intro m' h' par' hi' _ hb hs hf
    refine hQ m' h' _ par' hi' ?_ ?_ hb hs hf
    · refine (fpair_addrs_perm cmp n _).trans ?_
      simp only [Root.addrs]
      exact List.perm_middle.trans ((extract_addrs_perm a _ n kids' hex).cons x.a)
    · refine (fpair_vals_perm cmp n _).trans ?_
      simp only [Root.vals]
      exact List.perm_middle.trans ((extract_vals_perm a _ n kids' hex).cons x.v)

theorem InvP.swap {m : Memory T} {h1 h2 : PairingHeap} {s1 s2 : Option (Root T)} {p1 p2 : Ptr}
    (hi1 : InvP m h1 s1 p1) (hi2 : InvP m h2 s2 p2) :
    InvP m (h1.swap h2).1 s2 p2 ∧ InvP m (h1.swap h2).2 s1 p1 := by
  constructor
  · cases s2 with
    | none => exact ⟨hi2.1, hi2.2⟩
    | some y => exact ⟨hi2.1, hi2.2.1, hi2.2.2⟩
  · cases s1 with
    | none => exact ⟨hi1.1, hi1.2⟩
    | some x => exact ⟨hi1.1, hi1.2.1, hi1.2.2⟩

theorem less_strict_weak_order : StrictWeakOrder less where
  irrefl := by intro a; simp [less]
  trans := by
    intro a b c h1 h2
    simp only [less, decide_eq_true_eq] at *
    omega
  incomp_trans := by
    intro a b c h1 h2 h3 h4
    simp only [less, decide_eq_false_iff_not, not_lt] at *
    omega

theorem one_world_reachable : Reachable less MergeMode.TwoPass one_world :=
  Reachable.step World.init one_world (Op.insert 0 1) 0 Reachable.init trivial
    (Nat.le_refl 0) rfl

theorem twin_world_reachable : Reachable less MergeMode.TwoPass twin_world :=
  Reachable.step one_world twin_world (Op.insert 0 1) 1 one_world_reachable trivial
    (Nat.le_refl 1) rfl

theorem Reachable.well_formed {cmp : T → T → Bool} (hcmp : StrictWeakOrder cmp) {w : World T}
    {mode : MergeMode} (hr : Reachable cmp mode w) (i : Nat) :
    WellFormed w.mem (w.heap i) := by
  obtain ⟨ts, ps, hI, -, -, -⟩ := hr.winv hcmp
  exact ⟨ts i, ps i, hI i⟩

theorem Reachable.heap_order {cmp : T → T → Bool} (hcmp : StrictWeakOrder cmp) {w : World T}
    {mode : MergeMode} (hr : Reachable cmp mode w) (i : Nat) :
    HeapOrder cmp w.mem (w.heap i) := by
  obtain ⟨ts, ps, hI, -, hO, -⟩ := hr.winv hcmp
  exact HeapOrder.of_ordered (hI i) hcmp.irrefl (hO i)

theorem wp_heap_sort (cmp : T → T → Bool) (mode : MergeMode) (fuel : Nat) (xs : List T) (hf : xs.length ≤ fuel)
    (Q : List T × Memory T × PairingHeap → Prop)
    (hQ : ∀ out m' h', out.Perm xs → h'.root_ = none → h'.size_ = 0 →
      ((∀ a b, cmp a b = true → cmp b a = false) →
        (∀ a b c, cmp a b = false → cmp b c = false → cmp a c = false) →
        out.Pairwise (fun a b => cmp b a = false)) → Q (out, m', h')) :
    wp (heap_sort cmp mode fuel xs) Q := by
  simp only [heap_sort]
  rw [wp_bind]
  apply wp_insert_all cmp xs Memory.init PairingHeap.mk_empty none none (InvP_empty_heap _ _)
  intro m1 h1 par1 hi1 _ hs1
  simp only []
  have hlen : (haddrs (finsert_all cmp xs none (Memory.init : Memory T).brk)).length
      = xs.length := by
    rw [← hi1.size, hs1]
    simp [PairingHeap.mk_empty]
  apply wp_drain cmp mode fuel xs.length m1 h1 _ par1 hi1 hlen hf
  intro out m2 h2 hperm hr hs hsorted
  refine hQ out m2 h2 ?_ hr hs ?_
  · exact hperm.trans (by simpa [hvals] using finsert_all_vals_perm cmp xs none _)
  · intro hasym hnt
    exact hsorted hasym hnt (finsert_all_ordered hasym xs none _ trivial)

/-- C1: heap-sort order. With a strict-weak-order comparator, inserting `xs` one by one into
an empty heap (two-pass merge) and then running `|xs|` rounds of `find_min` followed by
`delete_min` returns, given fuel for the loops, values `m1..mN` such that for `i < j`
`compare(mj, mi)` is false. -/
theorem heap_sort_order (cmp : T → T → Bool) (hcmp : StrictWeakOrder cmp) (xs : List T)
    (fuel : Nat) (hf : xs.length ≤ fuel) :
    ∃ out m h, heap_sort cmp MergeMode.TwoPass fuel xs = Except.ok (out, m, h) ∧
      out.length = xs.length ∧ out.Pairwise (fun mi mj => cmp mj mi = false) := by
  have := wp_heap_sort cmp MergeMode.TwoPass fuel xs hf
    (fun r => r.1.length = xs.length ∧ r.1.Pairwise (fun mi mj => cmp mj mi = false))
    (fun out _ _ hperm _ _ hs => ⟨hperm.length_eq, hs hcmp.asymm hcmp.neg_trans⟩)
  obtain ⟨⟨out, m, h⟩, e, hq⟩ := this
  exact ⟨out, m, h, e, hq⟩

theorem heap_sort_order_witness :
    ∃ out m h, heap_sort less MergeMode.TwoPass 4 [5, 3, 8, 1] = Except.ok (out, m, h) ∧
      out.length = [5, 3, 8, 1].length ∧ out.Pairwise (fun mi mj => less mj mi = false) :=
  heap_sort_order less less_strict_weak_order [5, 3, 8, 1] 4 (by decide)

/-- C2: heap-sort completeness. For every comparator, merge strategy and list `xs`,
inserting `xs` into an empty heap and running `|xs|` rounds of `find_min` / `delete_min`
returns (given fuel for the loops) a permutation of `xs` and leaves the heap empty
(`root_` null, `size_` 0); for `[5, 3, 8, 1]` with the less-than comparator the sequence
is exactly `[1, 3, 5, 8]`, with either merge strategy. -/
theorem heap_sort_complete :
    (∀ (T : Type) (cmp : T → T → Bool) (mode : MergeMode) (xs : List T) (fuel : Nat),
      xs.length ≤ fuel →
      ∃ out m h, heap_sort cmp mode fuel xs = Except.ok (out, m, h) ∧
        out.Perm xs ∧ h.root_ = none ∧ h.size = 0 ∧ h.empty = true) ∧
    returned (heap_sort less MergeMode.TwoPass 4 [5, 3, 8, 1]) = some [1, 3, 5, 8] ∧
    returned (heap_sort less MergeMode.FifoQueue 4 [5, 3, 8, 1]) = some [1, 3, 5, 8] := by
  refine ⟨?_, by decide, by decide⟩
  intro T cmp mode xs fuel hf
  have := wp_heap_sort cmp mode fuel xs hf
    (fun r => r.1.Perm xs ∧ r.2.2.root_ = none ∧ r.2.2.size = 0 ∧ r.2.2.empty = true)
    (fun out _ h' hperm hr hs _ =>
      ⟨hperm, hr, hs, by simp [PairingHeap.empty, PairingHeap.size, hs]⟩)
  obtain ⟨⟨out, m, h⟩, e, hq⟩ := this
  exact ⟨out, m, h, e, hq⟩

theorem heap_sort_complete_witness :
    ∃ out m h, heap_sort less MergeMode.FifoQueue 3 [2, 1, 2] = Except.ok (out, m, h) ∧
      out.Perm [2, 1, 2] ∧ h.root_ = none ∧ h.size = 0 ∧ h.empty = true :=
  heap_sort_complete.1 Nat less MergeMode.FifoQueue [2, 1, 2] 3 (by decide)

/-- C3: `find_min` returns a minimum. In every state reachable by `insert`, `delete_min`,
`meld`, `decrease_key` (after the value was lowered) and `erase` with a strict-weak-order
comparator and either merge strategy, a heap with `size() != 0` has a root node, `find_min`
returns that node's value (it has no effect on the state: the embedding of `find_min`
returns a value only), and no value stored in a node of the heap compares less than it. -/
theorem find_min_minimum (cmp : T → T → Bool) (hcmp : StrictWeakOrder cmp) (mode : MergeMode)
    (w : World T) (hr : Reachable cmp mode w) (i : Nat) (hne : (w.heap i).size ≠ 0) :
    ∃ rn, w.mem.deref (w.heap i).root_ = Except.ok rn ∧
      find_min w.mem (w.heap i) = Except.ok rn.data_ ∧
      ∀ a na, Reaches w.mem (w.heap i).root_ a → w.mem.cell a = some na →
        cmp na.data_ rn.data_ = false := by
  obtain ⟨ts, ps, hI, -, hO, -⟩ := hr.winv hcmp
  have hi := hI i
  have ho := hO i
  cases hti : ts i with
  | none =>
    rw [hti] at hi
    exact absurd hi.2 hne
  | some x =>
    rw [hti] at hi ho
    refine ⟨⟨x.v, ps i, x.kids.ptr, none⟩, ?_, ?_, ?_⟩
    · rw [hi.1]
      exact deref_some hi.2.2.1.1
    · exact find_min_eq hi
    · intro a na hreach hna
      have hmem := (hi.reaches_iff a).1 hreach
      simp only [haddrs, Root.addrs, List.mem_cons] at hmem
      rcases hmem with hmem | hmem
      · subst hmem
        rw [hi.2.2.1.1] at hna
        cases hna
        exact hcmp.irrefl _
      · exact Below.vals hcmp.neg_trans ho _ (Repr.data_mem _ _ a na hi.2.2.1.2 hmem hna)

theorem find_min_minimum_witness :
    (twin_world.heap 0).size ≠ 0 ∧
    ∃ rn, twin_world.mem.deref (twin_world.heap 0).root_ = Except.ok rn ∧
      find_min twin_world.mem (twin_world.heap 0) = Except.ok rn.data_ ∧
      ∀ a na, Reaches twin_world.mem (twin_world.heap 0).root_ a →
        twin_world.mem.cell a = some na → less na.data_ rn.data_ = false :=
  ⟨by decide, find_min_minimum less less_strict_weak_order MergeMode.TwoPass twin_world
    twin_world_reachable 0 (by decide)⟩

theorem Repr_stored {m : Memory T} : ∀ (t : Tree T) (par : Ptr), Repr m par t →
    t.addrs.map (fun b => (m.cell b).map PairingNode.data_) = t.vals.map some
  | Tree.nil, _, _ => by simp
  | Tree.node a v l r, par, ⟨ha, hl, hr⟩ => by
    simp only [addrs_node, vals_node, List.map_cons, List.map_append, ha, Option.map_some']
    rw [Repr_stored l _ hl, Repr_stored r _ hr]

theorem InvP_stored {m : Memory T} {h : PairingHeap} {s : Option (Root T)} {par : Ptr}
    (hi : InvP m h s par) : Stored m h (hvals s) := by
  refine ⟨haddrs s, ?_, hi.reaches_iff, ?_⟩
  · cases s with
    | none => exact List.nodup_nil
    | some x => exact hi.2.2.2.1
  · cases s with
    | none => rfl
    | some x =>
      simp only [haddrs, hvals, Root.addrs, Root.vals, List.map_cons, hi.2.2.1.1,
        Option.map_some']
      rw [Repr_stored _ _ hi.2.2.1.2]

theorem one_world_well_formed : WellFormed one_world.mem (one_world.heap 0) :=
  Reachable.well_formed less_strict_weak_order one_world_reachable 0

theorem twin_world_well_formed : WellFormed twin_world.mem (twin_world.heap 0) :=
  Reachable.well_formed less_strict_weak_order twin_world_reachable 0

theorem empty_iff_size (h : PairingHeap) : h.empty = true ↔ h.size = 0 := by
  simp only [PairingHeap.empty, PairingHeap.size, beq_iff_eq]
  exact eq_comm

theorem delete_min_observed_cases (cmp : T → T → Bool) (mode : MergeMode) (fuel : Nat)
    (m : Memory T) (h : PairingHeap) :
    (h.size = 0 ∧ delete_min cmp mode fuel m h = Except.error Fault.out_of_range ∧
      delete_min_observed cmp mode fuel m h = Outcome.thrown m h) ∨
    (h.size ≠ 0 ∧ ∃ m' h', delete_min cmp mode fuel m h = Except.ok (m', h') ∧
      delete_min_observed cmp mode fuel m h = Outcome.returned () m' h') ∨
    (h.size ≠ 0 ∧ ∃ f, f ≠ Fault.out_of_range ∧
      delete_min cmp mode fuel m h = Except.error f ∧
      delete_min_observed cmp mode fuel m h = Outcome.undefined f) := by
  by_cases he : h.empty = true
  · have hs := (empty_iff_size h).1 he
    refine Or.inl ⟨hs, (delete_min_range_iff cmp mode fuel m h).2 hs, ?_⟩
    simp [delete_min_observed, empty_check_observed, he, Outcome.and_then]
  · have hs : h.size ≠ 0 := fun e => he ((empty_iff_size h).2 e)
    simp only [Bool.not_eq_true] at he
    have hd : delete_min cmp mode fuel m h = delete_min_rest cmp mode fuel m h := by
      simp only [delete_min, delete_min_rest, empty_check, he, Bool.false_eq_true, if_false,
        bind_ok]
    have ho : delete_min_observed cmp mode fuel m h = Outcome.of_steps (do
        let (m, h) ← delete_min_rest cmp mode fuel m h
        pure ((), m, h)) := by
      simp [delete_min_observed, empty_check_observed, he, Outcome.and_then]
    rw [ho, hd]
    cases hr : delete_min_rest cmp mode fuel m h with
    | ok r =>
      obtain ⟨m', h'⟩ := r
      exact Or.inr (Or.inl ⟨hs, m', h', rfl, rfl⟩)
    | error f =>
      refine Or.inr (Or.inr ⟨hs, f, ?_, rfl, rfl⟩)
      rintro rfl
      rw [← hd] at hr
      exact hs ((delete_min_range_iff cmp mode fuel m h).1 hr)

theorem find_min_observed_cases (m : Memory T) (h : PairingHeap) :
    (h.size = 0 ∧ find_min m h = Except.error Fault.out_of_range ∧
      find_min_observed m h = Outcome.thrown m h) ∨
    (h.size ≠ 0 ∧ ∃ v, find_min m h = Except.ok v ∧
      find_min_observed m h = Outcome.returned v m h) ∨
    (h.size ≠ 0 ∧ ∃ f, f ≠ Fault.out_of_range ∧ find_min m h = Except.error f ∧
      find_min_observed m h = Outcome.undefined f) := by
  by_cases he : h.empty = true
  · have hs := (empty_iff_size h).1 he
    refine Or.inl ⟨hs, (find_min_range_iff m h).2 hs, ?_⟩
    simp [find_min_observed, empty_check_observed, he, Outcome.and_then]
  · have hs : h.size ≠ 0 := fun e => he ((empty_iff_size h).2 e)
    simp only [Bool.not_eq_true] at he
    have hd : find_min m h = (do pure (← m.deref h.root_).data_) := by
      simp only [find_min, empty_check, he, Bool.false_eq_true, if_false, bind_ok]
    have ho : find_min_observed m h = Outcome.of_steps (do
        pure ((← m.deref h.root_).data_, m, h)) := by
      simp [find_min_observed, empty_check_observed, he, Outcome.and_then]
    rw [ho, hd]
    cases hr : m.deref h.root_ with
    | ok n => exact Or.inr (Or.inl ⟨hs, n.data_, rfl, rfl⟩)
    | error f =>
      refine Or.inr (Or.inr ⟨hs, f, ?_, rfl, rfl⟩)
      rintro rfl
      have : find_min m h = Except.error Fault.out_of_range := by
        rw [hd, hr]
        rfl
      exact hs ((find_min_range_iff m h).1 this)

/-- C4: empty-heap error. `find_min` and `delete_min` (either merge strategy, any fuel)
throw `std::out_of_range` if and only if `size()` is 0; the exception is the one thrown by
`empty_check`, the first statement of both. A call that throws leaves the memory and the
data members `root_` and `size_` as they were: `find_min_observed` and `delete_min_observed`
carry the state through the statements of the two functions, they agree with `find_min` and
`delete_min` on what is returned and on what is thrown, and their outcome is `thrown` if
and only if `size()` is 0, and then with the memory and the heap record of the call. On a
well-formed heap with `size() != 0` both calls return (given fuel for the loops). -/
theorem empty_heap_error (cmp : T → T → Bool) (mode : MergeMode) (fuel : Nat) (m : Memory T)
    (h : PairingHeap) :
    (find_min m h = Except.error Fault.out_of_range ↔ h.size = 0) ∧
    (delete_min cmp mode fuel m h = Except.error Fault.out_of_range ↔ h.size = 0) ∧
    (h.size = 0 → empty_check h = Except.error Fault.out_of_range) ∧
    (h.size ≠ 0 → empty_check h = Except.ok ()) ∧
    (delete_min cmp mode fuel m h
      = (empty_check h >>= fun _ => delete_min_rest cmp mode fuel m h)) ∧
    (∀ v, find_min m h = Except.ok v ↔ find_min_observed m h = Outcome.returned v m h) ∧
    (∀ m' h', delete_min cmp mode fuel m h = Except.ok (m', h') ↔
      delete_min_observed cmp mode fuel m h = Outcome.returned () m' h') ∧
    (find_min m h = Except.error Fault.out_of_range ↔
      find_min_observed m h = Outcome.thrown m h) ∧
    (delete_min cmp mode fuel m h = Except.error Fault.out_of_range ↔
      delete_min_observed cmp mode fuel m h = Outcome.thrown m h) ∧
    (∀ m' h', find_min_observed m h = Outcome.thrown m' h' ↔
      h.size = 0 ∧ m' = m ∧ h' = h) ∧
    (∀ m' h', delete_min_observed cmp mode fuel m h = Outcome.thrown m' h' ↔
      h.size = 0 ∧ m' = m ∧ h' = h) ∧
    (WellFormed m h → h.size ≠ 0 → h.size ≤ fuel →
      (∃ v, find_min m h = Except.ok v) ∧
      ∃ m' h', delete_min cmp mode fuel m h = Except.ok (m', h')) := by
  have hf := find_min_observed_cases m h
  have hd := delete_min_observed_cases cmp mode fuel m h
  refine ⟨find_min_range_iff m h, delete_min_range_iff cmp mode fuel m h, ?_, ?_, rfl, ?_, ?_,
    ?_, ?_, ?_, ?_, ?_⟩
  · intro h0
    simp only [PairingHeap.size] at h0
    simp [empty_check, PairingHeap.empty, PairingHeap.size, h0]
  · intro h0
    simp only [PairingHeap.size] at h0
    have : ¬ (0 = h.size_) := fun e => h0 e.symm
    simp [empty_check, PairingHeap.empty, PairingHeap.size, this]
  · intro v
    rcases hf with ⟨-, e1, e2⟩ | ⟨-, w, e1, e2⟩ | ⟨-, f, -, e1, e2⟩ <;> rw [e1, e2] <;> simp
  · intro m' h'
    rcases hd with ⟨-, e1, e2⟩ | ⟨-, m1, h1, e1, e2⟩ | ⟨-, f, -, e1, e2⟩ <;> rw [e1, e2] <;> simp
  · rcases hf with ⟨-, e1, e2⟩ | ⟨-, w, e1, e2⟩ | ⟨-, f, hne, e1, e2⟩
    · rw [e1, e2]
      simp
    · rw [e1, e2]
      simp
    · rw [e1, e2]
      simp [hne]
  · rcases hd with ⟨-, e1, e2⟩ | ⟨-, m1, h1, e1, e2⟩ | ⟨-, f, hne, e1, e2⟩
    · rw [e1, e2]
      simp
    · rw [e1, e2]
      simp
    · rw [e1, e2]
      simp [hne]
  · intro m' h'
    rcases hf with ⟨hs, -, e2⟩ | ⟨hs, w, -, e2⟩ | ⟨hs, f, -, -, e2⟩ <;> rw [e2] <;>
      simp [hs, eq_comm]
  · intro m' h'
    rcases hd with ⟨hs, -, e2⟩ | ⟨hs, m1, h1, -, e2⟩ | ⟨hs, f, -, -, e2⟩ <;> rw [e2] <;>
      simp [hs, eq_comm]
  · rintro ⟨s, par, hi⟩ hne hf
    cases s with
    | none => exact absurd hi.2 hne
    | some x =>
      refine ⟨⟨x.v, find_min_eq hi⟩, ?_⟩
      have hlen : x.addrs.length ≤ fuel := by
        have := hi.2.1
        simp only [PairingHeap.size] at hf
        omega
      obtain ⟨⟨m', h'⟩, e, -⟩ := wp_delete_min cmp mode fuel m h x par hi hlen
        (fun _ => True) (fun _ _ _ _ _ _ _ _ _ => trivial)
      exact ⟨m', h', e⟩

theorem empty_heap_error_witness :
    (∃ v, find_min one_world.mem (one_world.heap 0) = Except.ok v) ∧
      ∃ m' h', delete_min less MergeMode.FifoQueue 1 one_world.mem (one_world.heap 0)
        = Except.ok (m', h') :=
  (empty_heap_error less MergeMode.FifoQueue 1 one_world.mem
    (one_world.heap 0)).2.2.2.2.2.2.2.2.2.2.2 one_world_well_formed (by decide) (by decide)

/-- C5: size arithmetic. A sequence of `insert` and `delete_min` calls run from the empty
heap (either merge strategy, fuel at least the number of inserts) in which no `delete_min`
meets an empty heap returns, it has at most as many delete-mins as inserts, `size()`
afterwards is the number of inserts minus the number of delete-mins, and `empty()` is true
exactly when `size()` is 0; a sequence in which some `delete_min` meets an empty heap
ends with `std::out_of_range`. -/
theorem size_arithmetic (cmp : T → T → Bool) (mode : MergeMode) (cs : List (Call T))
    (fuel : Nat) (hf : count_insert cs ≤ fuel) :
    (never_underflows 0 cs →
      ∃ m h, run_calls cmp mode fuel cs Memory.init PairingHeap.mk_empty
          = Except.ok (m, h) ∧
        count_delete cs ≤ count_insert cs ∧
        h.size = count_insert cs - count_delete cs ∧ (h.empty = true ↔ h.size = 0)) ∧
    (¬ never_underflows 0 cs →
      run_calls cmp mode fuel cs Memory.init PairingHeap.mk_empty
        = Except.error Fault.out_of_range) := by
  refine ⟨fun hn => ?_, fun hn => ?_⟩
  · have := wp_run_calls cmp mode fuel cs Memory.init PairingHeap.mk_empty none none
      (InvP_empty_heap _ _) hn (by simpa [Memory.init] using hf)
      (fun r => count_delete cs ≤ count_insert cs ∧
        r.2.size = count_insert cs - count_delete cs ∧ (r.2.empty = true ↔ r.2.size = 0))
      (by
        intro m' h' s' par' _ hs
        simp only [PairingHeap.mk_empty, PairingHeap.size, PairingHeap.empty] at hs ⊢
        refine ⟨by omega, by omega, ?_⟩
        simp only [beq_iff_eq]
        exact ⟨fun e => e.symm, fun e => e.symm⟩)
    obtain ⟨⟨m, h⟩, e, hq⟩ := this
    exact ⟨m, h, e, hq⟩
  · exact run_calls_underflow cmp mode fuel cs Memory.init PairingHeap.mk_empty none none
      (InvP_empty_heap _ _) hn (by simpa [Memory.init] using hf)

theorem size_arithmetic_witness :
    ∃ m h, run_calls less MergeMode.TwoPass 3
        [Call.insert 3, Call.insert 1, Call.delete_min, Call.insert 2]
        Memory.init PairingHeap.mk_empty = Except.ok (m, h) ∧
      count_delete [Call.insert 3, Call.insert 1, Call.delete_min, Call.insert 2]
        ≤ count_insert [Call.insert 3, Call.insert 1, Call.delete_min, Call.insert 2] ∧
      h.size = count_insert [Call.insert 3, Call.insert 1, Call.delete_min, Call.insert 2]
        - count_delete [Call.insert 3, Call.insert 1, Call.delete_min, Call.insert 2] ∧
      (h.empty = true ↔ h.size = 0) :=
  (size_arithmetic less MergeMode.TwoPass
    [Call.insert 3, Call.insert 1, Call.delete_min, Call.insert 2] 3 (by decide)).1
    ⟨by decide, trivial⟩

/-- C9: `delete_min` removes exactly the minimum. On a well-formed heap with
`size() >= 1` (either merge strategy, given fuel for the loops) `delete_min` returns; it
frees the root node, the nodes reachable afterwards are the ones reachable before without
the root, the values stored before are those stored afterwards plus one occurrence of the
value `find_min` returned, `size()` drops by exactly 1, and a heap of size 1 becomes
empty. -/
theorem delete_min_removes_min (cmp : T → T → Bool) (mode : MergeMode) (fuel : Nat)
    (m : Memory T) (h : PairingHeap) (hw : WellFormed m h) (hne : 1 ≤ h.size)
    (hf : h.size ≤ fuel) :
    ∃ v ra m' h', find_min m h = Except.ok v ∧ h.root_ = some ra ∧
      delete_min cmp mode fuel m h = Except.ok (m', h') ∧
      WellFormed m' h' ∧ m'.cell ra = none ∧
      (∀ b, Reaches m' h'.root_ b ↔ Reaches m h.root_ b ∧ b ≠ ra) ∧
      (∃ vs vs', Stored m h vs ∧ Stored m' h' vs' ∧ vs.Perm (v :: vs')) ∧
      h'.size + 1 = h.size ∧ (h.size = 1 → h'.root_ = none ∧ h'.size = 0) := by
  obtain ⟨s, par, hi⟩ := hw
  cases s with
  | none =>
    have := hi.2
    simp only [PairingHeap.size] at hne
    omega
  | some x =>
    have hlen : x.addrs.length ≤ fuel := by
      have := hi.2.1
      simp only [PairingHeap.size] at hf
      omega
    have := wp_delete_min cmp mode fuel m h x par hi hlen
      (fun r => WellFormed r.1 r.2 ∧ r.1.cell x.a = none ∧
        (∀ b, Reaches r.1 r.2.root_ b ↔ Reaches m h.root_ b ∧ b ≠ x.a) ∧
        (∃ vs vs', Stored m h vs ∧ Stored r.1 r.2 vs' ∧ vs.Perm (x.v :: vs')) ∧
        r.2.size + 1 = h.size ∧ (h.size = 1 → r.2.root_ = none ∧ r.2.size = 0))
      (by
        intro m' h' par' hi' _ _ hs hc _
        refine ⟨⟨_, _, hi'⟩, hc, ?_, ?_, hs, ?_⟩
        · intro b
          rw [hi'.reaches_iff, hi.reaches_iff]
          have hperm := haddrs_fdelete_min_perm cmp mode x
          have hnd := hi.2.2.2.1
          simp only [Root.addrs, List.nodup_cons] at hnd
          rw [hperm.mem_iff]
          simp only [haddrs, Root.addrs, List.mem_cons]
          constructor
          · intro hb
            exact ⟨Or.inr hb, fun e => hnd.1 (e ▸ hb)⟩
          · rintro ⟨hb | hb, hne⟩
            · exact absurd hb hne
            · exact hb
        · refine ⟨_, _, InvP_stored hi, InvP_stored hi', ?_⟩
          exact (fdelete_min_vals_perm cmp mode x).symm
        · intro h1
          simp only [PairingHeap.size] at h1 ⊢
          have h0 : h'.size_ = 0 := by omega
          refine ⟨?_, h0⟩
          cases hs' : fdelete_min cmp mode (some x) with
          | none =>
            rw [hs'] at hi'
            exact hi'.1
          | some y =>
            rw [hs'] at hi'
            have := hi'.2.1
            simp [Root.addrs] at this
            omega)
    obtain ⟨⟨m', h'⟩, e, hq⟩ := this
    exact ⟨x.v, x.a, m', h', find_min_eq hi, hi.1, e, hq⟩

theorem delete_min_removes_min_witness :
    ∃ v ra m' h', find_min twin_world.mem (twin_world.heap 0) = Except.ok v ∧
      (twin_world.heap 0).root_ = some ra ∧
      delete_min less MergeMode.TwoPass 2 twin_world.mem (twin_world.heap 0)
        = Except.ok (m', h') ∧
      WellFormed m' h' ∧ m'.cell ra = none ∧
      (∀ b, Reaches m' h'.root_ b ↔ Reaches twin_world.mem (twin_world.heap 0).root_ b ∧
        b ≠ ra) ∧
      (∃ vs vs', Stored twin_world.mem (twin_world.heap 0) vs ∧ Stored m' h' vs' ∧
        vs.Perm (v :: vs')) ∧
      h'.size + 1 = (twin_world.heap 0).size ∧
      ((twin_world.heap 0).size = 1 → h'.root_ = none ∧ h'.size = 0) :=
  delete_min_removes_min less MergeMode.TwoPass 2 twin_world.mem (twin_world.heap 0) twin_world_well_formed
    (by decide) (by decide)

theorem WellFormed.disjoint {m : Memory T} {h1 h2 : PairingHeap} {s1 s2 : Option (Root T)}
    {p1 p2 : Ptr} (hi1 : InvP m h1 s1 p1) (hi2 : InvP m h2 s2 p2)
    (hd : ∀ b, Reaches m h1.root_ b → ¬ Reaches m h2.root_ b) :
    (haddrs s1).Disjoint (haddrs s2) := by
  intro b hb1 hb2
  exact hd b ((hi1.reaches_iff b).2 hb1) ((hi2.reaches_iff b).2 hb2)

theorem InvP.mem_of_reaches {m : Memory T} {h : PairingHeap} {s : Option (Root T)} {par : Ptr}
    (hi : InvP m h s par) {a : Nat} (ha : Reaches m h.root_ a) :
    ∃ x, s = some x ∧ a ∈ x.addrs := by
  have := (hi.reaches_iff a).1 ha
  cases s with
  | none => simp [haddrs] at this
  | some x => exact ⟨x, rfl, this⟩

/-- Root/size consistency of the operations that complete. The empty heap of the
constructor is well formed and consistent; every well-formed heap is consistent (`size()`
is the number of nodes reachable from `root_` through `left_` / `right_`, `root_` is null
iff `size() == 0`, `empty()` iff `size() == 0`); and on a well-formed heap `insert`,
`delete_min` (two-pass merge), `meld` with a well-formed heap on other nodes,
`decrease_key`, `erase` of a node of the heap and `swap` return and leave a well-formed,
hence consistent, heap. `clear` gives the heap the members of an empty heap by a swap, and
these are consistent in every memory; the destructor then runs on the old contents, and
whenever it completes `clear` returns that empty, consistent heap. -/
theorem root_size_consistent (cmp : T → T → Bool) (fuel : Nat) (m : Memory T)
    (h : PairingHeap) (hw : WellFormed m h) (hf : h.size ≤ fuel) :
    (WellFormed m PairingHeap.mk_empty ∧ Consistent m PairingHeap.mk_empty) ∧
    Consistent m h ∧
    (∀ v, ∃ m' h' p, insert cmp m h v = Except.ok (m', h', p) ∧
      WellFormed m' h' ∧ Consistent m' h') ∧
    (h.size ≠ 0 → ∃ m' h', delete_min cmp MergeMode.TwoPass fuel m h = Except.ok (m', h') ∧
      WellFormed m' h' ∧ Consistent m' h') ∧
    (∀ h2, WellFormed m h2 → (∀ b, Reaches m h.root_ b → ¬ Reaches m h2.root_ b) →
      ∃ m' h', meld cmp m h h2 = Except.ok (m', h') ∧ WellFormed m' h' ∧ Consistent m' h') ∧
    (∀ a, Reaches m h.root_ a →
      ∃ m' h', decrease_key cmp m h (some a) = Except.ok (m', h') ∧
        WellFormed m' h' ∧ Consistent m' h') ∧
    (∀ a, Reaches m h.root_ a →
      ∃ m' h', erase cmp MergeMode.TwoPass fuel m h (some a) = Except.ok (m', h') ∧
        WellFormed m' h' ∧ Consistent m' h') ∧
    (∀ h2, WellFormed m h2 →
      (WellFormed m (h.swap h2).1 ∧ Consistent m (h.swap h2).1) ∧
      (WellFormed m (h.swap h2).2 ∧ Consistent m (h.swap h2).2)) ∧
    ((h.swap PairingHeap.mk_empty).1 = PairingHeap.mk_empty ∧
      (∀ m' : Memory T, Consistent m' PairingHeap.mk_empty) ∧
      ∀ m' h', clear fuel m h = Except.ok (m', h') →
        h' = PairingHeap.mk_empty ∧ Consistent m' h') := by
  obtain ⟨s, par, hi⟩ := hw
  have hlen : ∀ x, s = some x → x.addrs.length ≤ fuel := by
    intro x e
    subst e
    have := hi.2.1
    simp only [PairingHeap.size] at hf
    omega
  refine ⟨⟨⟨none, none, InvP_empty_heap m none⟩, Consistent_empty_heap m⟩, hi.consistent,
    ?_, ?_, ?_, ?_, ?_, ?_, ?_⟩
  · intro v
    obtain ⟨⟨m', h', p⟩, e, hq⟩ := wp_insert cmp m h s par v hi
      (fun r => WellFormed r.1 r.2.1 ∧ Consistent r.1 r.2.1)
      (fun m' h' par' hi' _ _ _ _ => ⟨⟨_, _, hi'⟩, hi'.consistent⟩)
    exact ⟨m', h', p, e, hq⟩
  · intro hne
    cases s with
    | none => exact absurd hi.2 hne
    | some x =>
      obtain ⟨⟨m', h'⟩, e, hq⟩ := wp_delete_min cmp MergeMode.TwoPass fuel m h x par hi
        (hlen x rfl) (fun r => WellFormed r.1 r.2 ∧ Consistent r.1 r.2)
        (fun m' h' _ hi' _ _ _ _ _ => ⟨⟨_, _, hi'⟩, hi'.consistent⟩)
      exact ⟨m', h', e, hq⟩
  · rintro h2 ⟨s2, p2, hi2⟩ hd
    obtain ⟨⟨m', h'⟩, e, hq⟩ := wp_meld cmp m h h2 s s2 par p2 hi hi2
      (WellFormed.disjoint hi hi2 hd) (fun r => WellFormed r.1 r.2 ∧ Consistent r.1 r.2)
      (fun m' h' par' hi' _ _ _ _ => ⟨⟨_, _, hi'⟩, hi'.consistent⟩)
    exact ⟨m', h', e, hq⟩
  · intro a ha
    obtain ⟨x, e, hax⟩ := hi.mem_of_reaches ha
    subst e
    obtain ⟨⟨m', h'⟩, e, hq⟩ := wp_decrease_key cmp m h x par a hi hax
      (fun r => WellFormed r.1 r.2 ∧ Consistent r.1 r.2)
      (fun m' h' s' par' hi' _ _ _ _ _ => ⟨⟨_, _, hi'⟩, hi'.consistent⟩)
    exact ⟨m', h', e, hq⟩
  · intro a ha
    obtain ⟨x, e, hax⟩ := hi.mem_of_reaches ha
    subst e
    obtain ⟨⟨m', h'⟩, e, hq⟩ := wp_erase cmp MergeMode.TwoPass fuel m h x par a hi hax
      (hlen x rfl) (fun r => WellFormed r.1 r.2 ∧ Consistent r.1 r.2)
      (fun m' h' _ hi' _ _ _ _ _ => ⟨⟨_, _, hi'⟩, hi'.consistent⟩)
    exact ⟨m', h', e, hq⟩
  · rintro h2 ⟨s2, p2, hi2⟩
    have := InvP.swap hi hi2
    exact ⟨⟨⟨_, _, this.1⟩, this.1.consistent⟩, ⟨⟨_, _, this.2⟩, this.2.consistent⟩⟩
  · refine ⟨rfl, fun m' => Consistent_empty_heap m', ?_⟩
    intro m' h' e
    rw [clear_result fuel m m' h h' e]
    exact ⟨rfl, Consistent_empty_heap m'⟩

theorem root_size_consistent_witness :
    (∃ m' h', delete_min less MergeMode.TwoPass 5 twin_world.mem (twin_world.heap 0)
      = Except.ok (m', h') ∧ WellFormed m' h' ∧ Consistent m' h') ∧
    ∃ m' h', clear 5 twin_world.mem (twin_world.heap 0) = Except.ok (m', h') ∧
      h' = PairingHeap.mk_empty ∧ Consistent m' h' :=
  ⟨(root_size_consistent less 5 twin_world.mem (twin_world.heap 0) twin_world_well_formed
    (by decide)).2.2.2.1 (by decide),
   _, _, rfl,
   (root_size_consistent less 5 twin_world.mem (twin_world.heap 0) twin_world_well_formed
    (by decide)).2.2.2.2.2.2.2.2.2.2 _ _ rfl⟩

/-- C7 as stated fails: after `insert(1); insert(1)` the second node (address 1) is the
root and the first node (address 0) is its child, and `compare(p.value, n.value)`, that is
`1 < 1`, is false. -/
theorem heap_order_strict_counterexample :
    ∃ w : World Nat,
      (World.init.step less MergeMode.TwoPass 0 (Op.insert 0 1) >>= fun w1 =>
        w1.step less MergeMode.TwoPass 1 (Op.insert 0 1)) = Except.ok w ∧
      Reachable less MergeMode.TwoPass w ∧
      Reaches w.mem (w.heap 0).root_ 1 ∧ ChildOf w.mem 1 0 ∧
      ∃ np nc, w.mem.cell 1 = some np ∧ w.mem.cell 0 = some nc ∧
        less np.data_ nc.data_ = false :=
  ⟨_, rfl,
    Reachable.step _ _ (Op.insert 0 1) 1
      (Reachable.step _ _ (Op.insert 0 1) 0 Reachable.init trivial (Nat.le_refl 0) rfl)
      trivial (Nat.le_refl 1) rfl,
    Reaches.here 1 _ rfl, ⟨_, rfl, SibOf.head 0 _ rfl⟩, _, _, rfl, rfl, by decide⟩

/-- C7, amended: in every state reachable by `insert`, `delete_min`, `meld`, `decrease_key`
and `erase` (strict-weak-order comparator, either merge strategy), for every node `n` of a
heap whose multiway parent is `p`, `compare(n.value, p.value)` is false. -/
theorem heap_order_weak (cmp : T → T → Bool) (hcmp : StrictWeakOrder cmp) (mode : MergeMode)
    (w : World T) (hr : Reachable cmp mode w) (i p c : Nat) (np nc : PairingNode T)
    (hp : Reaches w.mem (w.heap i).root_ p) (hc : ChildOf w.mem p c)
    (hnp : w.mem.cell p = some np) (hnc : w.mem.cell c = some nc) :
    cmp nc.data_ np.data_ = false :=
  Reachable.heap_order hcmp hr i p c np nc hp hc hnp hnc

theorem heap_order_weak_witness :
    Reaches twin_world.mem (twin_world.heap 0).root_ 1 ∧ ChildOf twin_world.mem 1 0 ∧
    ∃ np nc, twin_world.mem.cell 1 = some np ∧ twin_world.mem.cell 0 = some nc ∧
      less nc.data_ np.data_ = false :=
  ⟨Reaches.here 1 _ rfl, ⟨_, rfl, SibOf.head 0 _ rfl⟩, _, _, rfl, rfl,
    heap_order_weak less less_strict_weak_order MergeMode.TwoPass twin_world
      twin_world_reachable 0 1 0 _ _
      (Reaches.here 1 _ rfl) ⟨_, rfl, SibOf.head 0 _ rfl⟩ rfl rfl⟩

/-- C8: heap order in the glossary form is preserved. With a strict-weak-order comparator
and the two-pass merge, if no node of a well-formed heap has a child of strictly higher
priority, the same holds (and the heap is well formed again) after `insert`, after
`delete_min`, after `meld` with another such heap on other nodes, after `decrease_key` on
a node of the heap whose value was replaced by one the old value is not less than, and
after `erase` of a node of the heap; each of the calls returns. -/
theorem heap_order_preserved (cmp : T → T → Bool) (hcmp : StrictWeakOrder cmp) (fuel : Nat)
    (m : Memory T) (h : PairingHeap) (hw : WellFormed m h) (ho : HeapOrder cmp m h)
    (hf : h.size ≤ fuel) :
    (∀ v, ∃ m' h' p, insert cmp m h v = Except.ok (m', h', p) ∧
      WellFormed m' h' ∧ HeapOrder cmp m' h') ∧
    (h.size ≠ 0 → ∃ m' h', delete_min cmp MergeMode.TwoPass fuel m h = Except.ok (m', h') ∧
      WellFormed m' h' ∧ HeapOrder cmp m' h') ∧
    (∀ h2, WellFormed m h2 → HeapOrder cmp m h2 →
      (∀ b, Reaches m h.root_ b → ¬ Reaches m h2.root_ b) →
      ∃ m' h', meld cmp m h h2 = Except.ok (m', h') ∧
        WellFormed m' h' ∧ HeapOrder cmp m' h') ∧
    (∀ a na v, Reaches m h.root_ a → m.cell a = some na → cmp na.data_ v = false →
      ∃ m' h', lower_key cmp m h (some a) v = Except.ok (m', h') ∧
        WellFormed m' h' ∧ HeapOrder cmp m' h') ∧
    (∀ a, Reaches m h.root_ a →
      ∃ m' h', erase cmp MergeMode.TwoPass fuel m h (some a) = Except.ok (m', h') ∧
        WellFormed m' h' ∧ HeapOrder cmp m' h') := by
  obtain ⟨s, par, hi⟩ := hw
  have hos := HeapOrder.ordered hi ho
  have hlen : ∀ x, s = some x → x.addrs.length ≤ fuel := by
    intro x e
    subst e
    have := hi.2.1
    simp only [PairingHeap.size] at hf
    omega
  refine ⟨?_, ?_, ?_, ?_, ?_⟩
  · intro v
    obtain ⟨⟨m', h', p⟩, e, hq⟩ := wp_insert cmp m h s par v hi
      (fun r => WellFormed r.1 r.2.1 ∧ HeapOrder cmp r.1 r.2.1)
      (fun m' h' par' hi' _ _ _ _ => ⟨⟨_, _, hi'⟩,
        HeapOrder.of_ordered hi' hcmp.irrefl (finsert_ordered hcmp.asymm s _ v hos)⟩)
    exact ⟨m', h', p, e, hq⟩
  · intro hne
    cases s with
    | none => exact absurd hi.2 hne
    | some x =>
      obtain ⟨⟨m', h'⟩, e, hq⟩ := wp_delete_min cmp MergeMode.TwoPass fuel m h x par hi
        (hlen x rfl) (fun r => WellFormed r.1 r.2 ∧ HeapOrder cmp r.1 r.2)
        (fun m' h' _ hi' _ _ _ _ _ => ⟨⟨_, _, hi'⟩,
          HeapOrder.of_ordered hi' hcmp.irrefl (fdelete_min_ordered hcmp.asymm _ _ hos)⟩)
      exact ⟨m', h', e, hq⟩
  · rintro h2 ⟨s2, p2, hi2⟩ ho2 hd
    obtain ⟨⟨m', h'⟩, e, hq⟩ := wp_meld cmp m h h2 s s2 par p2 hi hi2
      (WellFormed.disjoint hi hi2 hd) (fun r => WellFormed r.1 r.2 ∧ HeapOrder cmp r.1 r.2)
      (fun m' h' par' hi' _ _ _ _ => ⟨⟨_, _, hi'⟩,
        HeapOrder.of_ordered hi' hcmp.irrefl
          (fmeld_ordered hcmp.asymm s s2 hos (HeapOrder.ordered hi2 ho2))⟩)
    exact ⟨m', h', e, hq⟩
  · intro a na v ha hna hv
    obtain ⟨x, e, hax⟩ := hi.mem_of_reaches ha
    subst e
    have hord : Ordered cmp (flower cmp x a v) := by
      apply flower_ordered hcmp x a v hos
      · intro e
        subst e
        rw [hi.2.2.1.1] at hna
        cases hna
        exact hv
      · intro n kids' hex
        rw [← Repr.extract_data a na hna _ _ _ _ hi.2.2.1.2 hex]
        exact hv
    obtain ⟨⟨m', h'⟩, e, hq⟩ := wp_lower_key cmp m h x par a v hi hax
      (fun r => WellFormed r.1 r.2 ∧ HeapOrder cmp r.1 r.2)
      (fun m' h' par' hi' _ _ _ _ => ⟨⟨_, _, hi'⟩,
        HeapOrder.of_ordered hi' hcmp.irrefl hord⟩)
    exact ⟨m', h', e, hq⟩
  · intro a ha
    obtain ⟨x, e, hax⟩ := hi.mem_of_reaches ha
    subst e
    obtain ⟨⟨m', h'⟩, e, hq⟩ := wp_erase cmp MergeMode.TwoPass fuel m h x par a hi hax
      (hlen x rfl) (fun r => WellFormed r.1 r.2 ∧ HeapOrder cmp r.1 r.2)
      (fun m' h' _ hi' _ _ _ _ _ => ⟨⟨_, _, hi'⟩,
        HeapOrder.of_ordered hi' hcmp.irrefl (ferase_ordered hcmp.asymm _ x a hos)⟩)
    exact ⟨m', h', e, hq⟩

theorem heap_order_preserved_witness :
    ∃ m' h', lower_key less twin_world.mem (twin_world.heap 0) (some 0) 0
      = Except.ok (m', h') ∧ WellFormed m' h' ∧ HeapOrder less m' h' :=
  (heap_order_preserved less less_strict_weak_order 2 twin_world.mem (twin_world.heap 0)
    twin_world_well_formed
    (Reachable.heap_order less_strict_weak_order twin_world_reachable 0)
    (by decide)).2.2.2.1 0 _ 0 (Reaches.left 1 _ 0 rfl (Reaches.here 0 _ rfl)) rfl (by decide)

theorem or_shuffle {A B C D E : Prop} (hp : (A ∨ B) ∨ C ↔ E) :
    (D ∨ E) ↔ A ∨ D ∨ C ∨ B := by
  rw [← hp]
  tauto

/-- C10: decrease-key to a new minimum. On a well-formed heap, if the value of a node `n`
that is not the root is replaced by `v` with `compare(v, root.value)` true and
`decrease_key(handle of n)` is called, the call returns with `n` as the root (size
unchanged), the next `find_min` returns `v`, and the next `delete_min` (either merge
strategy) frees `n` and leaves exactly the other nodes in the heap. -/
theorem decrease_key_new_min (cmp : T → T → Bool) (mode : MergeMode) (fuel : Nat)
    (m : Memory T) (h : PairingHeap) (a : Nat) (v : T) (rn : PairingNode T)
    (hw : WellFormed m h) (ha : Reaches m h.root_ a) (hna : h.root_ ≠ some a)
    (hr : m.deref h.root_ = Except.ok rn) (hlt : cmp v rn.data_ = true)
    (hf : h.size ≤ fuel) :
    ∃ m1 h1, lower_key cmp m h (some a) v = Except.ok (m1, h1) ∧ h1.root_ = some a ∧
      h1.size = h.size ∧ find_min m1 h1 = Except.ok v ∧
      ∃ m2 h2, delete_min cmp mode fuel m1 h1 = Except.ok (m2, h2) ∧
        m2.cell a = none ∧ h2.size + 1 = h.size ∧
        ∀ b, Reaches m2 h2.root_ b ↔ Reaches m h.root_ b ∧ b ≠ a := by
  obtain ⟨s, par, hi⟩ := hw
  obtain ⟨x, e, hax⟩ := hi.mem_of_reaches ha
  subst e
  have hxa : a ≠ x.a := by
    intro e
    exact hna (e ▸ hi.1)
  have hrn : rn.data_ = x.v := by
    rw [hi.1, deref_some hi.2.2.1.1] at hr
    cases hr
    rfl
  rw [hrn] at hlt
  have hak : a ∈ x.kids.addrs := by
    simp only [Root.addrs, List.mem_cons] at hax
    exact hax.resolve_left hxa
  obtain ⟨⟨n, kids'⟩, hex⟩ := extract_of_mem a x.kids hak
  have hn := extract_a a _ _ _ hex
  have hfl : flower cmp x a v = ⟨a, v, Tree.node x.a x.v kids' n.kids⟩ := by
    simp only [flower, if_neg hxa, hex, fpair, hlt, if_true, hn]
  have hperm := extract_addrs_perm a _ _ _ hex
  have := wp_lower_key cmp m h x par a v hi hax
    (fun r => r.2.root_ = some a ∧ r.2.size = h.size ∧ find_min r.1 r.2 = Except.ok v ∧
      ∃ m2 h2, delete_min cmp mode fuel r.1 r.2 = Except.ok (m2, h2) ∧
        m2.cell a = none ∧ h2.size + 1 = h.size ∧
        ∀ b, Reaches m2 h2.root_ b ↔ Reaches m h.root_ b ∧ b ≠ a)
    (by
      intro m1 h1 par1 hi1 _ _ hs1 _
      rw [hfl] at hi1
      refine ⟨hi1.1, hs1, find_min_eq hi1, ?_⟩
      have hl1 : (Root.addrs (⟨a, v, Tree.node x.a x.v kids' n.kids⟩ : Root T)).length
          ≤ fuel := by
        have h1 := hi1.2.1
        have h2 := hi.2.1
        simp only [PairingHeap.size] at hf
        omega
      obtain ⟨⟨m2, h2⟩, e, hq⟩ := wp_delete_min cmp mode fuel m1 h1 _ par1 hi1 hl1
        (fun r => r.1.cell a = none ∧ r.2.size + 1 = h.size ∧
          ∀ b, Reaches r.1 r.2.root_ b ↔ Reaches m h.root_ b ∧ b ≠ a)
        (by
          intro m2 h2 par2 hi2 _ _ hs2 hc2 _
          refine ⟨hc2, by simp only [PairingHeap.size]; omega, ?_⟩
          intro b
          rw [hi2.reaches_iff, hi.reaches_iff, (haddrs_fdelete_min_perm cmp mode _).mem_iff]
          have hnd := hi1.2.2.2.1
          simp only [Root.addrs, List.nodup_cons] at hnd
          have hmem : b ∈ x.addrs ↔ b = a ∨
              b ∈ (Tree.node x.a x.v kids' n.kids : Tree T).addrs := by
            have hp := hperm.mem_iff (a := b)
            simp only [Root.addrs, addrs_node, List.mem_cons, List.mem_append, hn] at hp ⊢
            exact or_shuffle hp
          simp only [haddrs]
          rw [hmem]
          constructor
          · intro hb
            exact ⟨Or.inr hb, fun e => hnd.1 (e ▸ hb)⟩
          · rintro ⟨hb | hb, hne⟩
            · exact absurd hb hne
            · exact hb)
      exact ⟨m2, h2, e, hq⟩)
  obtain ⟨⟨m1, h1⟩, e, hq⟩ := this
  exact ⟨m1, h1, e, hq⟩

theorem decrease_key_new_min_witness :
    ∃ m1 h1, lower_key less twin_world.mem (twin_world.heap 0) (some 0) 0
        = Except.ok (m1, h1) ∧ h1.root_ = some 0 ∧
      h1.size = (twin_world.heap 0).size ∧ find_min m1 h1 = Except.ok 0 ∧
      ∃ m2 h2, delete_min less MergeMode.FifoQueue 2 m1 h1 = Except.ok (m2, h2) ∧
        m2.cell 0 = none ∧ h2.size + 1 = (twin_world.heap 0).size ∧
        ∀ b, Reaches m2 h2.root_ b ↔
          Reaches twin_world.mem (twin_world.heap 0).root_ b ∧ b ≠ 0 :=
  decrease_key_new_min less MergeMode.FifoQueue 2 twin_world.mem (twin_world.heap 0) 0 0 _
    twin_world_well_formed (Reaches.left 1 _ 0 rfl (Reaches.here 0 _ rfl)) (by decide) rfl
    (by decide) (by decide)

@[simp] theorem pairs_nil : (Tree.nil : Tree T).pairs = [] := rfl

@[simp] theorem pairs_node (a : Nat) (v : T) (l r : Tree T) :
    (Tree.node a v l r).pairs = (a, v) :: (l.pairs ++ r.pairs) := rfl

@[simp] theorem lpairs_nil : lpairs ([] : List (Root T)) = [] := rfl

@[simp] theorem lpairs_cons (x : Root T) (xs : List (Root T)) :
    lpairs (x :: xs) = x.pairs ++ lpairs xs := rfl

theorem pairs_fst : ∀ t : Tree T, t.pairs.map Prod.fst = t.addrs
  | Tree.nil => rfl
  | Tree.node a v l r => by
    simp only [pairs_node, addrs_node, List.map_cons, List.map_append, pairs_fst l, pairs_fst r]

theorem pairs_snd : ∀ t : Tree T, t.pairs.map Prod.snd = t.vals
  | Tree.nil => rfl
  | Tree.node a v l r => by
    simp only [pairs_node, vals_node, List.map_cons, List.map_append, pairs_snd l, pairs_snd r]

theorem root_pairs_fst (x : Root T) : x.pairs.map Prod.fst = x.addrs := by
  simp only [Root.pairs, Root.addrs, List.map_cons, pairs_fst]

theorem root_pairs_snd (x : Root T) : x.pairs.map Prod.snd = x.vals := by
  simp only [Root.pairs, Root.vals, List.map_cons, pairs_snd]

theorem hpairs_fst (s : Option (Root T)) : (hpairs s).map Prod.fst = haddrs s := by
  cases s with
  | none => rfl
  | some x => exact root_pairs_fst x

theorem hpairs_snd (s : Option (Root T)) : (hpairs s).map Prod.snd = hvals s := by
  cases s with
  | none => rfl
  | some x => exact root_pairs_snd x

theorem fpair_pairs_perm (cmp : T → T → Bool) (x y : Root T) :
    (fpair cmp x y).pairs.Perm (x.pairs ++ y.pairs) := by
  unfold fpair
  split
  · simp only [Root.pairs, pairs_node, List.cons_append]
    refine List.Perm.cons _ ?_
    have h1 : ((y.a, y.v) :: (y.kids.pairs ++ x.kids.pairs)).Perm
        (x.kids.pairs ++ (y.a, y.v) :: y.kids.pairs) := by
      rw [← List.cons_append]
      exact List.perm_append_comm
    exact h1
  · simp only [Root.pairs, pairs_node, List.cons_append]
    have h1 : ((y.a, y.v) :: (x.a, x.v) :: (x.kids.pairs ++ y.kids.pairs)).Perm
        ((x.a, x.v) :: (y.a, y.v) :: (x.kids.pairs ++ y.kids.pairs)) := List.Perm.swap _ _ _
    refine h1.trans (List.Perm.cons _ ?_)
    exact List.perm_middle.symm

theorem lpairs_append (xs ys : List (Root T)) : lpairs (xs ++ ys) = lpairs xs ++ lpairs ys := by
  induction xs with
  | nil => rfl
  | cons x xs ih => simp only [List.cons_append, lpairs_cons, ih, List.append_assoc]

theorem lpairs_reverse_perm (xs : List (Root T)) : (lpairs xs.reverse).Perm (lpairs xs) := by
  induction xs with
  | nil => exact List.Perm.refl _
  | cons x xs ih =>
    simp only [List.reverse_cons, lpairs_append, lpairs_cons, lpairs_nil, List.append_nil]
    exact (ih.append_right _).trans List.perm_append_comm

theorem lpairs_ffirst_perm (cmp : T → T → Bool) :
    ∀ xs : List (Root T), (lpairs (ffirst cmp xs)).Perm (lpairs xs)
  | [] => List.Perm.refl _
  | [_] => List.Perm.refl _
  | x :: y :: rest => by
    simp only [ffirst_two, lpairs_cons, ← List.append_assoc]
    exact ((fpair_pairs_perm cmp x y)).append (lpairs_ffirst_perm cmp rest)

theorem foldl_fpair_pairs_perm (cmp : T → T → Bool) :
    ∀ (ws : List (Root T)) (acc : Root T),
      (ws.foldl (fpair cmp) acc).pairs.Perm (acc.pairs ++ lpairs ws)
  | [], acc => by simp
  | w :: ws, acc => by
    simp only [List.foldl_cons, lpairs_cons, ← List.append_assoc]
    exact (foldl_fpair_pairs_perm cmp ws (fpair cmp acc w)).trans
      ((fpair_pairs_perm cmp acc w).append_right _)

theorem ftwo_pass_pairs_perm (cmp : T → T → Bool) (rest : List (Root T)) (R : Root T)
    (h : ftwo_pass cmp rest = some R) : R.pairs.Perm (lpairs rest) := by
  unfold ftwo_pass at h
  have hperm : (lpairs (ffirst cmp rest).reverse).Perm (lpairs rest) :=
    (lpairs_reverse_perm _).trans (lpairs_ffirst_perm cmp _)
  generalize (ffirst cmp rest).reverse = l at *
  cases l with
  | nil => simp at h
  | cons w ws =>
    simp only [Option.some.injEq] at h
    subst h
    exact (foldl_fpair_pairs_perm cmp ws w).trans (by simpa only [lpairs_cons] using hperm)

theorem ffifo_loop_pairs_perm (cmp : T → T → Bool) : ∀ (n : Nat) (q : List (Root T))
    (R : Root T), ffifo_loop cmp n q = some R → R.pairs.Perm (lpairs q)
  | 0, _, _, h => by simp [ffifo_loop] at h
  | _ + 1, [], _, h => by simp [ffifo_loop] at h
  | _ + 1, [x], R, h => by
    simp only [ffifo_loop, Option.some.injEq] at h
    subst h
    simp
  | n + 1, x :: y :: rest, R, h => by
    simp only [ffifo_loop] at h
    have := ffifo_loop_pairs_perm cmp n _ R h
    refine this.trans ?_
    simp only [lpairs_append, lpairs_cons, lpairs_nil, List.append_nil]
    refine (List.perm_append_comm).trans ?_
    rw [← List.append_assoc]
    exact List.Perm.append_right _ (fpair_pairs_perm cmp x y)

theorem fmerge_pairs_perm (cmp : T → T → Bool) (mode : MergeMode) (l : List (Root T))
    (R : Root T) (h : fmerge cmp mode l = some R) : R.pairs.Perm (lpairs l) := by
  cases mode with
  | TwoPass => exact ftwo_pass_pairs_perm cmp l R h
  | FifoQueue => exact (ffifo_loop_pairs_perm cmp _ _ R h).trans (lpairs_reverse_perm l)

theorem lpairs_spine : ∀ t : Tree T, lpairs t.spine = t.pairs
  | Tree.nil => rfl
  | Tree.node a v l r => by
    simp only [Tree.spine, lpairs_cons, Root.pairs, pairs_node, lpairs_spine r,
      List.cons_append]

theorem extract_pairs_perm (a : Nat) : ∀ (t : Tree T) (n : Root T) (t' : Tree T),
    t.extract a = some (n, t') → (n.pairs ++ t'.pairs).Perm t.pairs
  | Tree.nil, _, _, h => by simp [Tree.extract] at h
  | Tree.node b v l r, n, t', h => by
    by_cases hb : b = a
    · simp only [Tree.extract, hb, if_true, Option.some.injEq, Prod.mk.injEq] at h
      obtain ⟨rfl, rfl⟩ := h
      simp [Root.pairs, hb]
    · simp only [Tree.extract, hb, if_false] at h
      cases hl : l.extract a with
      | some p =>
        obtain ⟨n1, l'⟩ := p
        simp only [hl, Option.some.injEq, Prod.mk.injEq] at h
        obtain ⟨rfl, rfl⟩ := h
        have ih := extract_pairs_perm a l n1 l' hl
        simp only [pairs_node]
        refine List.perm_middle.trans (List.Perm.cons _ ?_)
        rw [← List.append_assoc]
        exact ih.append_right _
      | none =>
        simp only [hl] at h
        cases hr : r.extract a with
        | none => simp [hr] at h
        | some p =>
          obtain ⟨n1, r'⟩ := p
          simp only [hr, Option.some.injEq, Prod.mk.injEq] at h
          obtain ⟨rfl, rfl⟩ := h
          have ih := extract_pairs_perm a r n1 r' hr
          simp only [pairs_node]
          refine List.perm_middle.trans (List.Perm.cons _ ?_)
          have h1 : (n1.pairs ++ (l.pairs ++ r'.pairs)).Perm
              (l.pairs ++ (n1.pairs ++ r'.pairs)) := by
            rw [← List.append_assoc, ← List.append_assoc]
            exact List.perm_append_comm.append_right _
          exact h1.trans (List.Perm.append_left l.pairs ih)

theorem fdelete_min_pairs_perm (cmp : T → T → Bool) (mode : MergeMode) (x : Root T) :
    ((x.a, x.v) :: hpairs (fdelete_min cmp mode (some x))).Perm x.pairs := by
  simp only [fdelete_min, Root.pairs]
  refine List.Perm.cons _ ?_
  cases hR : fmerge cmp mode x.kids.spine with
  | none =>
    simp only [hpairs]
    rw [← lpairs_spine, fmerge_eq_none cmp mode _ hR]
    simp
  | some R =>
    simp only [hpairs]
    exact (fmerge_pairs_perm cmp mode _ R hR).trans (by rw [lpairs_spine])

theorem finsert_pairs_perm (cmp : T → T → Bool) (s : Option (Root T)) (a : Nat) (v : T) :
    (hpairs (finsert cmp s a v)).Perm ((a, v) :: hpairs s) := by
  cases s with
  | none => simp [finsert, hpairs, Root.pairs]
  | some x =>
    simp only [finsert, hpairs]
    refine (fpair_pairs_perm cmp x ⟨a, v, Tree.nil⟩).trans ?_
    simp only [Root.pairs, pairs_nil]
    exact List.perm_append_comm

theorem fmeld_pairs_perm (cmp : T → T → Bool) (s1 s2 : Option (Root T)) :
    (hpairs (fmeld cmp s1 s2)).Perm (hpairs s1 ++ hpairs s2) := by
  cases s1 with
  | none => simp [fmeld, hpairs]
  | some x =>
    cases s2 with
    | none => simp [fmeld, hpairs]
    | some y => exact fpair_pairs_perm cmp x y

theorem ferase_pairs_perm (cmp : T → T → Bool) (mode : MergeMode) (x : Root T) (a : Nat)
    (ha : a ∈ x.addrs) :
    ∃ v, ((a, v) :: hpairs (ferase cmp mode x a)).Perm x.pairs := by
  unfold ferase
  by_cases hax : a = x.a
  · simp only [hax, if_true]
    exact ⟨x.v, fdelete_min_pairs_perm cmp mode x⟩
  · simp only [hax, if_false]
    have hak : a ∈ x.kids.addrs := by
      simp only [Root.addrs, List.mem_cons] at ha
      exact ha.resolve_left hax
    obtain ⟨⟨n, kids'⟩, hex⟩ := extract_of_mem a x.kids hak
    have hna := extract_a a _ n kids' hex
    have hp := extract_pairs_perm a _ n kids' hex
    simp only [hex]
    refine ⟨n.v, ?_⟩
    cases hR : fmerge cmp mode (⟨x.a, x.v, kids'⟩ :: n.kids.spine) with
    | none => exact absurd (fmerge_eq_none cmp mode _ hR) (by simp)
    | some R =>
      have h1 := fmerge_pairs_perm cmp mode _ R hR
      simp only [lpairs_cons, lpairs_spine, Root.pairs, List.cons_append] at h1 hp
      simp only [hpairs, Root.pairs]
      rw [← hna]
      refine ((h1.cons _).trans (List.Perm.swap _ _ _)).trans (List.Perm.cons _ ?_)
      refine List.Perm.trans ?_ hp
      refine List.Perm.cons _ ?_
      exact List.perm_append_comm

theorem Repr_pair_cell {m : Memory T} : ∀ (t : Tree T) (par : Ptr) (b : Nat) (v : T),
    Repr m par t → (b, v) ∈ t.pairs → ∃ n, m.cell b = some n ∧ n.data_ = v
  | Tree.nil, _, _, _, _, h => by simp at h
  | Tree.node a w l r, par, b, v, ⟨ha, hl, hr⟩, h => by
    simp only [pairs_node, List.mem_cons, List.mem_append, Prod.mk.injEq] at h
    rcases h with ⟨rfl, rfl⟩ | h | h
    · exact ⟨_, ha, rfl⟩
    · exact Repr_pair_cell l _ b v hl h
    · exact Repr_pair_cell r _ b v hr h

theorem InvP_data_cell {m : Memory T} {h : PairingHeap} {s : Option (Root T)} {par : Ptr}
    (hi : InvP m h s par) {b : Nat} {v : T} (hb : (b, v) ∈ hpairs s) :
    ∃ n, m.cell b = some n ∧ n.data_ = v := by
  cases s with
  | none => simp [hpairs] at hb
  | some x =>
    simp only [hpairs, Root.pairs, List.mem_cons, Prod.mk.injEq] at hb
    rcases hb with ⟨rfl, rfl⟩ | hb
    · exact ⟨_, hi.2.2.1.1, rfl⟩
    · exact Repr_pair_cell _ _ b v hi.2.2.1.2 hb

theorem mem_hpairs_of_mem {s : Option (Root T)} {b : Nat} (hb : b ∈ haddrs s) :
    ∃ v, (b, v) ∈ hpairs s := by
  rw [← hpairs_fst, List.mem_map] at hb
  obtain ⟨⟨b', v⟩, hm, rfl⟩ := hb
  exact ⟨v, hm⟩

theorem mem_haddrs_of_pair {s : Option (Root T)} {b : Nat} {v : T} (hb : (b, v) ∈ hpairs s) :
    b ∈ haddrs s := by
  rw [← hpairs_fst, List.mem_map]
  exact ⟨(b, v), hb, rfl⟩

theorem InvP.data_eq {m m' : Memory T} {h h' : PairingHeap} {s s' : Option (Root T)}
    {par par' : Ptr} (hi : InvP m h s par) (hi' : InvP m' h' s' par')
    (hsub : ∀ p, p ∈ hpairs s' → p ∈ hpairs s) {b : Nat} (hb : b ∈ haddrs s') :
    ∃ v, get_handle_data m (some b) = Except.ok v ∧
      get_handle_data m' (some b) = Except.ok v := by
  obtain ⟨v, hv⟩ := mem_hpairs_of_mem hb
  obtain ⟨n', hn', hd'⟩ := InvP_data_cell hi' hv
  obtain ⟨n, hn, hd⟩ := InvP_data_cell hi (hsub _ hv)
  refine ⟨v, ?_, ?_⟩
  · simp [get_handle_data, deref_some hn, hd]
  · simp [get_handle_data, deref_some hn', hd']

theorem perm_cons_mem_iff {l l' : List Nat} {a : Nat} (hp : (a :: l').Perm l) (hn : l.Nodup)
    (b : Nat) : b ∈ l' ↔ b ∈ l ∧ b ≠ a := by
  have hn' := hp.nodup_iff.2 hn
  simp only [List.nodup_cons] at hn'
  rw [← hp.mem_iff, List.mem_cons]
  constructor
  · intro hb
    exact ⟨Or.inr hb, fun e => hn'.1 (e ▸ hb)⟩
  · rintro ⟨hb | hb, hne⟩
    · exact absurd hb hne
    · exact hb

theorem InvP.nodup {m : Memory T} {h : PairingHeap} {s : Option (Root T)} {par : Ptr}
    (hi : InvP m h s par) : (haddrs s).Nodup := by
  cases s with
  | none => exact List.nodup_nil
  | some x => exact hi.2.2.2.1

/-- C11: `erase` removes exactly the target. On a well-formed heap (either merge strategy,
given fuel for the loops) `erase` of a handle to a node of the heap, root or not, returns;
`size()` drops by exactly 1, the node of the handle is freed, the nodes reachable
afterwards are the ones reachable before without it, and the values stored before are
those stored afterwards plus one occurrence of the value of that node. -/
theorem erase_removes_target (cmp : T → T → Bool) (mode : MergeMode) (fuel : Nat)
    (m : Memory T) (h : PairingHeap) (a : Nat) (hw : WellFormed m h)
    (ha : Reaches m h.root_ a) (hf : h.size ≤ fuel) :
    ∃ na m' h', m.cell a = some na ∧
      erase cmp mode fuel m h (some a) = Except.ok (m', h') ∧
      WellFormed m' h' ∧ 1 ≤ h.size ∧ h'.size + 1 = h.size ∧ m'.cell a = none ∧
      (∀ b, Reaches m' h'.root_ b ↔ Reaches m h.root_ b ∧ b ≠ a) ∧
      ∃ vs vs', Stored m h vs ∧ Stored m' h' vs' ∧ vs.Perm (na.data_ :: vs') := by
  obtain ⟨s, par, hi⟩ := hw
  obtain ⟨x, e, hax⟩ := hi.mem_of_reaches ha
  subst e
  have hlen : x.addrs.length ≤ fuel := by
    have := hi.2.1
    simp only [PairingHeap.size] at hf
    omega
  obtain ⟨v, hp⟩ := ferase_pairs_perm cmp mode x a hax
  have hav : (a, v) ∈ hpairs (some x) := by
    simp only [hpairs]
    exact hp.mem_iff.1 (List.mem_cons_self _ _)
  obtain ⟨na, hna, hdv⟩ := InvP_data_cell hi hav
  have hpa : (a :: haddrs (ferase cmp mode x a)).Perm x.addrs := by
    have := hp.map Prod.fst
    simpa only [List.map_cons, hpairs_fst, root_pairs_fst] using this
  have hpv : (v :: hvals (ferase cmp mode x a)).Perm x.vals := by
    have := hp.map Prod.snd
    simpa only [List.map_cons, hpairs_snd, root_pairs_snd] using this
  have := wp_erase cmp mode fuel m h x par a hi hax hlen
    (fun r => WellFormed r.1 r.2 ∧ 1 ≤ h.size ∧ r.2.size + 1 = h.size ∧ r.1.cell a = none ∧
      (∀ b, Reaches r.1 r.2.root_ b ↔ Reaches m h.root_ b ∧ b ≠ a) ∧
      ∃ vs vs', Stored m h vs ∧ Stored r.1 r.2 vs' ∧ vs.Perm (na.data_ :: vs'))
    (by
      intro m' h' par' hi' _ _ hs hc _
      refine ⟨⟨_, _, hi'⟩, ?_, hs, hc, ?_, ?_⟩
      · simp only [PairingHeap.size]
        omega
      · intro b
        rw [hi'.reaches_iff, hi.reaches_iff]
        exact perm_cons_mem_iff hpa hi.2.2.2.1 b
      · refine ⟨_, _, InvP_stored hi, InvP_stored hi', ?_⟩
        rw [hdv]
        exact hpv.symm)
  obtain ⟨⟨m', h'⟩, e, hq⟩ := this
  exact ⟨na, m', h', hna, e, hq⟩

theorem erase_removes_target_witness :
    ∃ na m' h', twin_world.mem.cell 0 = some na ∧
      erase less MergeMode.FifoQueue 2 twin_world.mem (twin_world.heap 0) (some 0)
        = Except.ok (m', h') ∧
      WellFormed m' h' ∧ 1 ≤ (twin_world.heap 0).size ∧
      h'.size + 1 = (twin_world.heap 0).size ∧ m'.cell 0 = none ∧
      (∀ b, Reaches m' h'.root_ b ↔
        Reaches twin_world.mem (twin_world.heap 0).root_ b ∧ b ≠ 0) ∧
      ∃ vs vs', Stored twin_world.mem (twin_world.heap 0) vs ∧ Stored m' h' vs' ∧
        vs.Perm (na.data_ :: vs') :=
  erase_removes_target less MergeMode.FifoQueue 2 twin_world.mem (twin_world.heap 0) 0
    twin_world_well_formed (Reaches.left 1 _ 0 rfl (Reaches.here 0 _ rfl)) (by decide)

/-- C12: `erase` leaves the other handles intact. On a well-formed heap (either merge
strategy, given fuel for the loops), for handles to two different nodes `a` and `g` of
the heap, `erase` of `a` returns, afterwards the node `g` is still reachable from `root_`,
and `get_handle_data` of `g` returns the value it returned before the call. -/
theorem erase_keeps_handles (cmp : T → T → Bool) (mode : MergeMode) (fuel : Nat)
    (m : Memory T) (h : PairingHeap) (a g : Nat) (hw : WellFormed m h)
    (ha : Reaches m h.root_ a) (hg : Reaches m h.root_ g) (hne : g ≠ a)
    (hf : h.size ≤ fuel) :
    ∃ m' h' v, erase cmp mode fuel m h (some a) = Except.ok (m', h') ∧
      Reaches m' h'.root_ g ∧ get_handle_data m (some g) = Except.ok v ∧
      get_handle_data m' (some g) = Except.ok v := by
  obtain ⟨s, par, hi⟩ := hw
  obtain ⟨x, e, hax⟩ := hi.mem_of_reaches ha
  subst e
  have hlen : x.addrs.length ≤ fuel := by
    have := hi.2.1
    simp only [PairingHeap.size] at hf
    omega
  obtain ⟨v, hp⟩ := ferase_pairs_perm cmp mode x a hax
  have hpa : (a :: haddrs (ferase cmp mode x a)).Perm x.addrs := by
    have := hp.map Prod.fst
    simpa only [List.map_cons, hpairs_fst, root_pairs_fst] using this
  have hgm : g ∈ haddrs (ferase cmp mode x a) :=
    (perm_cons_mem_iff hpa hi.2.2.2.1 g).2 ⟨(hi.reaches_iff g).1 hg, hne⟩
  have := wp_erase cmp mode fuel m h x par a hi hax hlen
    (fun r => ∃ w, Reaches r.1 r.2.root_ g ∧ get_handle_data m (some g) = Except.ok w ∧
      get_handle_data r.1 (some g) = Except.ok w)
    (by
      intro m' h' par' hi' _ _ _ _ _
      obtain ⟨w, h1, h2⟩ := InvP.data_eq hi hi'
        (fun p hp' => hp.mem_iff.1 (List.mem_cons_of_mem _ hp')) hgm
      exact ⟨w, (hi'.reaches_iff g).2 hgm, h1, h2⟩)
  obtain ⟨⟨m', h'⟩, e, w, hq⟩ := this
  exact ⟨m', h', w, e, hq⟩

theorem erase_keeps_handles_witness :
    ∃ m' h' v, erase less MergeMode.TwoPass 2 twin_world.mem (twin_world.heap 0) (some 1)
        = Except.ok (m', h') ∧
      Reaches m' h'.root_ 0 ∧ get_handle_data twin_world.mem (some 0) = Except.ok v ∧
      get_handle_data m' (some 0) = Except.ok v :=
  erase_keeps_handles less MergeMode.TwoPass 2 twin_world.mem (twin_world.heap 0) 1 0
    twin_world_well_formed (Reaches.here 1 _ rfl)
    (Reaches.left 1 _ 0 rfl (Reaches.here 0 _ rfl)) (by decide) (by decide)

theorem duo_world_reachable : Reachable less MergeMode.TwoPass duo_world :=
  Reachable.step one_world duo_world (Op.insert 1 2) 1 one_world_reachable trivial
    (Nat.le_refl 1) rfl

theorem Reachable_heaps_disjoint {cmp : T → T → Bool} (hcmp : StrictWeakOrder cmp) {mode : MergeMode}
    {w : World T} (hr : Reachable cmp mode w) {i j : Nat} (hij : i ≠ j) (b : Nat)
    (hb : Reaches w.mem (w.heap i).root_ b) : ¬ Reaches w.mem (w.heap j).root_ b := by
  obtain ⟨ts, ps, hI, hD, -, -⟩ := hr.winv hcmp
  intro hb'
  exact hD i j hij (((hI i).reaches_iff b).1 hb) (((hI j).reaches_iff b).1 hb')

theorem InvP.data_of_pair {m : Memory T} {h : PairingHeap} {s : Option (Root T)} {par : Ptr}
    (hi : InvP m h s par) {b : Nat} {v : T} (hb : (b, v) ∈ hpairs s) :
    get_handle_data m (some b) = Except.ok v := by
  obtain ⟨n, hn, hd⟩ := InvP_data_cell hi hb
  simp [get_handle_data, deref_some hn, hd]

/-- C13: `insert` adds one node and disturbs no other. On a well-formed heap `insert(v)`
returns the handle of a node that `new_node` constructs as a singleton holding `v` and
that was not a node of the heap; `get_handle_data` of the handle is `v`, `size()` grows
by 1, the new node is the root if the heap was empty and otherwise `root_` is the result
of `pair(root_, node)`; the nodes reachable afterwards are the old ones and the new one,
and every old node holds the value it held before. -/
theorem insert_adds_one (cmp : T → T → Bool) (m : Memory T) (h : PairingHeap) (v : T)
    (hw : WellFormed m h) :
    ∃ m' h', insert cmp m h v = Except.ok (m', h', some m.brk) ∧
      new_node m v = ((new_node m v).1, some m.brk) ∧
      (new_node m v).1.cell m.brk = some ⟨v, none, none, none⟩ ∧
      ¬ Reaches m h.root_ m.brk ∧
      get_handle_data m' (some m.brk) = Except.ok v ∧
      h'.size = h.size + 1 ∧
      (h.size = 0 → h'.root_ = some m.brk ∧ m' = (new_node m v).1) ∧
      (h.size ≠ 0 →
        pair cmp (new_node m v).1 h.root_ (some m.brk) = Except.ok (m', h'.root_)) ∧
      (∀ b, Reaches m' h'.root_ b ↔ Reaches m h.root_ b ∨ b = m.brk) ∧
      (∀ b, Reaches m h.root_ b →
        ∃ w, get_handle_data m (some b) = Except.ok w ∧
          get_handle_data m' (some b) = Except.ok w) ∧
      WellFormed m' h' := by
  obtain ⟨s, par, hi⟩ := hw
  have hp := finsert_pairs_perm cmp s m.brk v
  have hfresh : ¬ Reaches m h.root_ m.brk := by
    intro hr
    exact absurd (hi.lt_brk _ ((hi.reaches_iff _).1 hr)) (Nat.lt_irrefl _)
  obtain ⟨⟨m', h', p⟩, e, hp', hq⟩ := wp_insert cmp m h s par v hi
    (fun r => r.2.2 = some m.brk ∧
      get_handle_data r.1 (some m.brk) = Except.ok v ∧
      r.2.1.size = h.size + 1 ∧
      (∀ b, Reaches r.1 r.2.1.root_ b ↔ Reaches m h.root_ b ∨ b = m.brk) ∧
      (∀ b, Reaches m h.root_ b →
        ∃ w, get_handle_data m (some b) = Except.ok w ∧
          get_handle_data r.1 (some b) = Except.ok w) ∧
      WellFormed r.1 r.2.1)
    (by
      intro m' h' par' hi' _ _ hs _
      refine ⟨rfl, ?_, hs, ?_, ?_, ⟨_, _, hi'⟩⟩
      · exact hi'.data_of_pair (hp.mem_iff.2 (List.mem_cons_self _ _))
      · intro b
        rw [hi'.reaches_iff, hi.reaches_iff, mem_haddrs_finsert]
      · intro b hb
        obtain ⟨w, hw⟩ := mem_hpairs_of_mem ((hi.reaches_iff b).1 hb)
        exact ⟨w, hi.data_of_pair hw,
          hi'.data_of_pair (hp.mem_iff.2 (List.mem_cons_of_mem _ hw))⟩)
  simp only at hp' hq
  subst hp'
  refine ⟨m', h', e, rfl, by simp [new_node], hfresh, hq.1, hq.2.1, ?_, ?_, hq.2.2⟩
  · intro h0
    simp only [PairingHeap.size] at h0
    simp only [insert, insert_impl, PairingHeap.empty, PairingHeap.size, h0, beq_self_eq_true,
      if_true, pure_eq_ok, bind_ok, Except.ok.injEq, Prod.mk.injEq] at e
    obtain ⟨e1, e2, -⟩ := e
    rw [← e2]
    exact ⟨rfl, e1.symm⟩
  · intro h0
    simp only [PairingHeap.size] at h0
    have h0' : (0 == h.size_) = false := by
      simp only [beq_eq_false_iff_ne]
      exact fun e => h0 e.symm
    simp only [insert, insert_impl, PairingHeap.empty, PairingHeap.size, h0',
      Bool.false_eq_true, if_false] at e
    cases hpr : pair cmp (new_node m v).1 h.root_ (new_node m v).2 with
    | error f => simp [hpr] at e
    | ok r =>
      obtain ⟨m1, root⟩ := r
      simp only [hpr, bind_ok, pure_eq_ok, Except.ok.injEq, Prod.mk.injEq] at e
      obtain ⟨e1, e2, -⟩ := e
      subst e1
      rw [← e2]
      exact hpr

theorem insert_adds_one_witness :
    ∃ m' h', insert less one_world.mem (one_world.heap 0) 7
        = Except.ok (m', h', some one_world.mem.brk) ∧
      new_node one_world.mem 7 = ((new_node one_world.mem 7).1, some one_world.mem.brk) ∧
      (new_node one_world.mem 7).1.cell one_world.mem.brk = some ⟨7, none, none, none⟩ ∧
      ¬ Reaches one_world.mem (one_world.heap 0).root_ one_world.mem.brk ∧
      get_handle_data m' (some one_world.mem.brk) = Except.ok 7 ∧
      h'.size = (one_world.heap 0).size + 1 ∧
      ((one_world.heap 0).size = 0 →
        h'.root_ = some one_world.mem.brk ∧ m' = (new_node one_world.mem 7).1) ∧
      ((one_world.heap 0).size ≠ 0 →
        pair less (new_node one_world.mem 7).1 (one_world.heap 0).root_
          (some one_world.mem.brk) = Except.ok (m', h'.root_)) ∧
      (∀ b, Reaches m' h'.root_ b ↔
        Reaches one_world.mem (one_world.heap 0).root_ b ∨ b = one_world.mem.brk) ∧
      (∀ b, Reaches one_world.mem (one_world.heap 0).root_ b →
        ∃ w, get_handle_data one_world.mem (some b) = Except.ok w ∧
          get_handle_data m' (some b) = Except.ok w) ∧
      WellFormed m' h' :=
  insert_adds_one less one_world.mem (one_world.heap 0) 7 one_world_well_formed

/-- C14: `meld` adds sizes and unions contents. For well-formed heaps `A` and `B` on
different nodes, `A.meld(B)` returns; afterwards `size()` of `A` is `|A| + |B|`, the nodes
of `A` are those of `A` and of `B` before, and the values stored in `A` are those stored
in `A` before together with those stored in `B` before, as multisets. -/
theorem meld_union (cmp : T → T → Bool) (m : Memory T) (hA hB : PairingHeap)
    (hwA : WellFormed m hA) (hwB : WellFormed m hB)
    (hd : ∀ b, Reaches m hA.root_ b → ¬ Reaches m hB.root_ b) :
    ∃ m' h', meld cmp m hA hB = Except.ok (m', h') ∧ WellFormed m' h' ∧
      h'.size = hA.size + hB.size ∧
      (∀ b, Reaches m' h'.root_ b ↔ Reaches m hA.root_ b ∨ Reaches m hB.root_ b) ∧
      ∃ va vb vs, Stored m hA va ∧ Stored m hB vb ∧ Stored m' h' vs ∧
        vs.Perm (va ++ vb) := by
  obtain ⟨sA, pA, hiA⟩ := hwA
  obtain ⟨sB, pB, hiB⟩ := hwB
  obtain ⟨⟨m', h'⟩, e, hq⟩ := wp_meld cmp m hA hB sA sB pA pB hiA hiB
    (WellFormed.disjoint hiA hiB hd)
    (fun r => WellFormed r.1 r.2 ∧ r.2.size = hA.size + hB.size ∧
      (∀ b, Reaches r.1 r.2.root_ b ↔ Reaches m hA.root_ b ∨ Reaches m hB.root_ b) ∧
      ∃ va vb vs, Stored m hA va ∧ Stored m hB vb ∧ Stored r.1 r.2 vs ∧
        vs.Perm (va ++ vb))
    (by
      intro m' h' par' hi' _ _ hs _
      refine ⟨⟨_, _, hi'⟩, hs, ?_, _, _, _, InvP_stored hiA, InvP_stored hiB,
        InvP_stored hi', ?_⟩
      · intro b
        rw [hi'.reaches_iff, hiA.reaches_iff, hiB.reaches_iff, mem_haddrs_fmeld]
      · have := (fmeld_pairs_perm cmp sA sB).map Prod.snd
        simpa only [List.map_append, hpairs_snd] using this)
  exact ⟨m', h', e, hq⟩

theorem meld_union_witness :
    ∃ m' h', meld less duo_world.mem (duo_world.heap 0) (duo_world.heap 1)
        = Except.ok (m', h') ∧ WellFormed m' h' ∧
      h'.size = (duo_world.heap 0).size + (duo_world.heap 1).size ∧
      (∀ b, Reaches m' h'.root_ b ↔ Reaches duo_world.mem (duo_world.heap 0).root_ b ∨
        Reaches duo_world.mem (duo_world.heap 1).root_ b) ∧
      ∃ va vb vs, Stored duo_world.mem (duo_world.heap 0) va ∧
        Stored duo_world.mem (duo_world.heap 1) vb ∧ Stored m' h' vs ∧
        vs.Perm (va ++ vb) :=
  meld_union less duo_world.mem (duo_world.heap 0) (duo_world.heap 1)
    (Reachable.well_formed less_strict_weak_order duo_world_reachable 0)
    (Reachable.well_formed less_strict_weak_order duo_world_reachable 1)
    (Reachable_heaps_disjoint less_strict_weak_order duo_world_reachable (by decide))

/-- C15: `meld` minimum. For non-empty well-formed heaps `A` and `B` on different nodes,
`find_min` of `A` after `A.meld(B)` is `A.find_min()` when
`compare(A.find_min(), B.find_min())` is true and `B.find_min()` otherwise. -/
theorem meld_minimum (cmp : T → T → Bool) (m : Memory T) (hA hB : PairingHeap)
    (hwA : WellFormed m hA) (hwB : WellFormed m hB)
    (hd : ∀ b, Reaches m hA.root_ b → ¬ Reaches m hB.root_ b)
    (hneA : hA.size ≠ 0) (hneB : hB.size ≠ 0) :
    ∃ a b m' h', find_min m hA = Except.ok a ∧ find_min m hB = Except.ok b ∧
      meld cmp m hA hB = Except.ok (m', h') ∧
      find_min m' h' = Except.ok (if cmp a b then a else b) := by
  obtain ⟨sA, pA, hiA⟩ := hwA
  obtain ⟨sB, pB, hiB⟩ := hwB
  cases sA with
  | none => exact absurd hiA.2 hneA
  | some x =>
    cases sB with
    | none => exact absurd hiB.2 hneB
    | some y =>
      obtain ⟨⟨m', h'⟩, e, hq⟩ := wp_meld cmp m hA hB (some x) (some y) pA pB hiA hiB
        (WellFormed.disjoint hiA hiB hd)
        (fun r => find_min r.1 r.2 = Except.ok (if cmp x.v y.v then x.v else y.v))
        (by
          intro m' h' par' hi' _ _ _ _
          rw [find_min_eq hi']
          simp only [fpair]
          split <;> rfl)
      exact ⟨x.v, y.v, m', h', find_min_eq hiA, find_min_eq hiB, e, hq⟩

theorem meld_minimum_witness :
    ∃ a b m' h', find_min duo_world.mem (duo_world.heap 0) = Except.ok a ∧
      find_min duo_world.mem (duo_world.heap 1) = Except.ok b ∧
      meld less duo_world.mem (duo_world.heap 0) (duo_world.heap 1) = Except.ok (m', h') ∧
      find_min m' h' = Except.ok (if less a b then a else b) :=
  meld_minimum less duo_world.mem (duo_world.heap 0) (duo_world.heap 1)
    (Reachable.well_formed less_strict_weak_order duo_world_reachable 0)
    (Reachable.well_formed less_strict_weak_order duo_world_reachable 1)
    (Reachable_heaps_disjoint less_strict_weak_order duo_world_reachable (by decide))
    (by decide) (by decide)

/-- C16: the empty heap is an identity for `meld`. Melding an empty heap into a heap `A`
returns the same memory and the same `root_` and `size_`; melding a well-formed heap `A`
into an empty heap returns the same memory and a heap with the `root_` and `size_`
of `A`. -/
theorem meld_empty_identity (cmp : T → T → Bool) (m : Memory T) (hA : PairingHeap) :
    meld cmp m hA PairingHeap.mk_empty = Except.ok (m, hA) ∧
    (WellFormed m hA → meld cmp m PairingHeap.mk_empty hA = Except.ok (m, hA)) := by
  constructor
  · cases hr : hA.root_ with
    | none => simp [meld, PairingHeap.mk_empty, hr]
    | some a =>
      simp only [meld, PairingHeap.mk_empty, hr, Option.isNone_some, Option.isNone_none,
        Bool.and_true, Bool.false_eq_true, if_false, Option.isSome_some, Option.isSome_none,
        Bool.and_false, pure_eq_ok, bind_ok, Nat.add_zero]
      rw [← hr]
  · rintro ⟨s, par, hi⟩
    cases s with
    | none =>
      obtain ⟨hr, hs⟩ := hi
      have : hA = PairingHeap.mk_empty := by
        cases hA
        simp only [PairingHeap.mk_empty] at hr hs ⊢
        simp [hr, hs]
      subst this
      simp [meld, PairingHeap.mk_empty]
    | some x =>
      have hr := hi.1
      simp only [meld, PairingHeap.mk_empty, hr, Option.isNone_some, Option.isNone_none,
        Bool.and_false, Bool.false_eq_true, if_false, Option.isSome_some, Option.isSome_none,
        Bool.false_and, if_true, pure_eq_ok, bind_ok, Nat.zero_add]
      rw [← hr]

theorem meld_empty_identity_witness :
    meld less twin_world.mem PairingHeap.mk_empty (twin_world.heap 0)
      = Except.ok (twin_world.mem, twin_world.heap 0) :=
  (meld_empty_identity less twin_world.mem (twin_world.heap 0)).2 twin_world_well_formed

theorem inorder_perm : ∀ t : Tree T, t.inorder.Perm t.addrs
  | Tree.nil => List.Perm.refl _
  | Tree.node a v l r => by
    simp only [Tree.inorder, addrs_node]
    exact List.perm_middle.trans (List.Perm.cons _ ((inorder_perm l).append (inorder_perm r)))

theorem rlen_le : ∀ t : Tree T, t.rlen ≤ t.addrs.length
  | Tree.nil => Nat.le_refl _
  | Tree.node a v l r => by
    have := rlen_le r
    simp only [Tree.rlen, addrs_node, List.length_cons, List.length_append]
    omega

theorem descend_left_spec {m : Memory T} : ∀ (l : Tree T) (a : Nat) (v : T) (r : Tree T)
    (par : Ptr) (fuel : Nat), Repr m par (Tree.node a v l r) →
    (Tree.node a v l r).addrs.length ≤ fuel →
    ∃ c rest n, (Tree.node a v l r).inorder = c :: rest ∧
      descend_left fuel m (some a) = Except.ok (some c) ∧ LeftChain m (some a) c ∧
      m.cell c = some n ∧ n.left_ = none ∧ (l = Tree.nil → c = a)
  | _, _, _, _, _, 0, _, hf => by simp at hf
  | Tree.nil, a, v, r, par, fuel + 1, ⟨ha, _, _⟩, _ => by
    refine ⟨a, r.inorder, _, by simp [Tree.inorder], ?_, LeftChain.here a _ ha, ha, rfl,
      fun _ => rfl⟩
    simp [descend_left, deref_some ha]
  | Tree.node la lv ll lr, a, v, r, par, fuel + 1, ⟨ha, hl, _⟩, hf => by
    obtain ⟨c, rest, n, hin, hd, hch, hn, hnl, -⟩ := descend_left_spec ll la lv lr (some a) fuel hl
      (by simp only [addrs_node, List.length_cons, List.length_append] at hf ⊢; omega)
    refine ⟨c, rest ++ a :: r.inorder, n, ?_, ?_, LeftChain.step a _ c ha hch, hn, hnl,
      fun e => by cases e⟩
    · rw [Tree.inorder, hin]
      rfl
    · simp only [descend_left, deref_some ha, bind_ok, ptr_node]
      exact hd

theorem climb_out_right {m : Memory T} : ∀ (r : Tree T) (a : Nat) (v : T) (l : Tree T)
    (par : Ptr) (f : Nat), Repr m par (Tree.node a v l r) →
    ∃ z init, (Tree.node a v l r).inorder = init ++ [z] ∧
      (∃ n, m.cell z = some n ∧ n.right_ = none) ∧
      climb_out (f + ((Tree.node a v l r).rlen - 1)) m (some z) = climb_out f m (some a)
  | Tree.nil, a, v, l, par, f, ⟨ha, _, _⟩ => by
    refine ⟨a, l.inorder, by simp [Tree.inorder], ⟨_, ha, rfl⟩, ?_⟩
    simp [Tree.rlen]
  | Tree.node b bv bl br, a, v, l, par, f, ⟨ha, _, hr⟩ => by
    obtain ⟨z, init, hin, hz, hc⟩ := climb_out_right br b bv bl (some a) (f + 1) hr
    refine ⟨z, l.inorder ++ a :: init, ?_, hz, ?_⟩
    · rw [Tree.inorder, hin]
      simp
    · have e1 : f + ((Tree.node a v l (Tree.node b bv bl br)).rlen - 1)
          = f + 1 + ((Tree.node b bv bl br).rlen - 1) := by
        simp only [Tree.rlen]
        omega
      rw [e1, hc]
      have hb := hr.1
      simp only [climb_out, climb_right, deref_some hb, bind_ok, deref_some ha, ptr_node,
        if_true]

theorem Linked_append_cons {nx : Nat → Except Fault Ptr} {b : Nat} {L2 : List Nat}
    {e : Except Fault Ptr} : ∀ (L1 : List Nat), Linked nx L1 (Except.ok (some b)) →
    Linked nx (b :: L2) e → Linked nx (L1 ++ b :: L2) e
  | [], _, h2 => h2
  | [_], h1, h2 => ⟨h1, h2⟩
  | _ :: a' :: rest, ⟨h1, h1'⟩, h2 => ⟨h1, Linked_append_cons (a' :: rest) h1' h2⟩

theorem next_pos_of_right_none {m : Memory T} {a : Nat} {n : PairingNode T} (fuel : Nat)
    (ha : m.cell a = some n) (hr : n.right_ = none) :
    next_pos fuel m a = climb_out fuel m (some a) := by
  simp only [next_pos, PairingTreeIterator.increment, deref_some ha, bind_ok, hr, climb_out]
  cases climb_right fuel m (some a) with
  | error f => rfl
  | ok c =>
    simp only [bind_ok]
    cases m.deref c with
    | error f => rfl
    | ok nc => rfl

theorem next_pos_of_right_some {m : Memory T} {a : Nat} {n : PairingNode T} {r c : Nat}
    (fuel : Nat) (ha : m.cell a = some n) (hr : n.right_ = some r)
    (hd : descend_left fuel m (some r) = Except.ok (some c)) :
    next_pos fuel m a = Except.ok (some c) := by
  simp [next_pos, PairingTreeIterator.increment, deref_some ha, hr, hd]

theorem climb_out_left_child {m : Memory T} {la a : Nat} {n pn : PairingNode T} (k : Nat)
    (hla : m.cell la = some n) (hp : n.parent_ = some a) (ha : m.cell a = some pn)
    (hne : pn.right_ ≠ some la) : climb_out (k + 1) m (some la) = Except.ok (some a) := by
  simp [climb_out, climb_right, deref_some hla, hp, deref_some ha, hne]

theorem climb_out_right_child {m : Memory T} {rb a : Nat} {n pn : PairingNode T} (k : Nat)
    (hrb : m.cell rb = some n) (hp : n.parent_ = some a) (ha : m.cell a = some pn)
    (he : pn.right_ = some rb) : climb_out (k + 1) m (some rb) = climb_out k m (some a) := by
  simp [climb_out, climb_right, deref_some hrb, hp, deref_some ha, he]

theorem inorder_linked {m : Memory T} (fuel : Nat) : ∀ (t : Tree T) (par : Ptr),
    Repr m par t → t.addrs.Nodup → t.addrs.length ≤ fuel →
    Linked (next_pos fuel m) t.inorder (climb_out (fuel - (t.rlen - 1)) m t.ptr)
  | Tree.nil, _, _, _, _ => trivial
  | Tree.node a v l r, par, ⟨ha, hl, hr⟩, hd, hf => by
    simp only [addrs_node, List.nodup_cons, List.mem_append, not_or, List.nodup_append] at hd
    obtain ⟨⟨hal, har⟩, hdl, hdr, hlr⟩ := hd
    simp only [addrs_node, List.length_cons, List.length_append] at hf
    have ihl := inorder_linked fuel l (some a) hl hdl (by omega)
    have ihr := inorder_linked fuel r (some a) hr hdr (by omega)
    have hL : Linked (next_pos fuel m) l.inorder (Except.ok (some a)) := by
      cases l with
      | nil => trivial
      | node la lv ll lr =>
        have hrl := rlen_le (Tree.node la lv ll lr)
        simp only [addrs_node, List.length_cons, List.length_append] at hrl hf
        have hk : fuel - ((Tree.node la lv ll lr).rlen - 1)
            = (fuel - ((Tree.node la lv ll lr).rlen - 1) - 1) + 1 := by omega
        rw [hk, ptr_node] at ihl
        rw [climb_out_left_child _ hl.1 rfl ha] at ihl
        · exact ihl
        · simp only
          intro e
          cases r with
          | nil => simp at e
          | node rb rv rl rr =>
            simp only [ptr_node, Option.some.injEq] at e
            exact hlr (List.mem_cons_self _ _) (e ▸ List.mem_cons_self _ _)
    have hR : Linked (next_pos fuel m) (a :: r.inorder)
        (climb_out (fuel - ((Tree.node a v l r).rlen - 1)) m (some a)) := by
      cases r with
      | nil =>
        simp only [Tree.inorder, Linked, Tree.rlen]
        exact next_pos_of_right_none fuel ha rfl
      | node rb rv rl rr =>
        obtain ⟨c, rest, n, hin, hdesc, -⟩ := descend_left_spec rl rb rv rr (some a) fuel hr
          (by omega)
        have hrl := rlen_le (Tree.node rb rv rl rr)
        simp only [addrs_node, List.length_cons, List.length_append] at hrl hf
        have h1 : (Tree.node rb rv rl rr).rlen = rr.rlen + 1 := rfl
        have hk : fuel - ((Tree.node rb rv rl rr).rlen - 1)
            = (fuel - ((Tree.node a v l (Tree.node rb rv rl rr)).rlen - 1)) + 1 := by
          simp only [Tree.rlen] at hrl ⊢
          omega
        rw [hk, ptr_node, climb_out_right_child _ hr.1 rfl ha rfl] at ihr
        rw [hin] at ihr ⊢
        exact ⟨next_pos_of_right_some fuel ha rfl hdesc, ihr⟩
    exact Linked_append_cons l.inorder hL hR

theorem increment_of_next_pos {m : Memory T} {fuel : Nat} {c : Nat} {p : Ptr}
    (h : next_pos fuel m c = Except.ok p) :
    PairingTreeIterator.increment fuel m ⟨some c⟩ = Except.ok ⟨p⟩ := by
  simp only [next_pos] at h
  cases hi : PairingTreeIterator.increment fuel m ⟨some c⟩ with
  | error f => simp [hi] at h
  | ok it =>
    simp only [hi, bind_ok, pure_eq_ok, Except.ok.injEq] at h
    subst h
    rfl

theorem walk_linked {m : Memory T} (fuel : Nat) : ∀ (L : List Nat) (c : Nat),
    Linked (next_pos fuel m) (c :: L) (Except.ok none) →
    iter_walk fuel m (L.length + 1) ⟨some c⟩ = Except.ok ((c :: L).map some, ⟨none⟩)
  | [], c, h => by
    simp [iter_walk, increment_of_next_pos h]
  | b :: L, c, ⟨h1, h2⟩ => by
    have ih := walk_linked fuel L b h2
    show iter_walk fuel m ((L.length + 1) + 1) ⟨some c⟩ = _
    rw [iter_walk.eq_2, increment_of_next_pos h1, bind_ok, ih]
    rfl

theorem Reachable.root_parent_null {cmp : T → T → Bool} (hcmp : StrictWeakOrder cmp)
    {w : World T} (hr : Reachable cmp MergeMode.TwoPass w) (i : Nat) (rn : PairingNode T)
    (e : w.mem.deref (w.heap i).root_ = Except.ok rn) : rn.parent_ = none := by
  obtain ⟨ts, ps, hI, -, -, hP⟩ := hr.winv hcmp
  have hi := hI i
  rw [hP rfl i] at hi
  cases hti : ts i with
  | none =>
    rw [hti] at hi
    rw [hi.1] at e
    cases e
  | some x =>
    rw [hti] at hi
    rw [hi.1, deref_some hi.2.2.1.1] at e
    cases e
    rfl

theorem climb_out_root {m : Memory T} {a : Nat} {n : PairingNode T} (k : Nat)
    (ha : m.cell a = some n) (hp : n.parent_ = none) :
    climb_out (k + 1) m (some a) = Except.ok none := by
  simp [climb_out, climb_right, deref_some ha, hp]

/-- C18 as stated fails: after `insert(1); insert(1)` the root is the node at address 1
and its first child is the node at address 0; the constructor of the iterator descends
along `left_`, so `begin()` is positioned at node 0 and, whatever the fuel, never at the
root. -/
theorem begin_at_root_counterexample :
    (twin_world.heap 0).size ≠ 0 ∧ (twin_world.heap 0).root_ = some 1 ∧
    PairingHeap.begin 2 twin_world.mem (twin_world.heap 0) = Except.ok ⟨some 0⟩ ∧
    ∀ fuel, PairingHeap.begin fuel twin_world.mem (twin_world.heap 0)
      ≠ Except.ok ⟨(twin_world.heap 0).root_⟩ := by
  refine ⟨by decide, rfl, rfl, ?_⟩
  intro fuel e
  match fuel, e with
  | 0, e =>
    have h0 : PairingHeap.begin 0 twin_world.mem (twin_world.heap 0)
        = Except.error Fault.out_of_fuel := rfl
    rw [h0] at e
    cases e
  | 1, e =>
    have h1 : PairingHeap.begin 1 twin_world.mem (twin_world.heap 0)
        = Except.error Fault.out_of_fuel := rfl
    rw [h1] at e
    cases e
  | k + 2, e =>
    have h2 : PairingHeap.begin (k + 2) twin_world.mem (twin_world.heap 0)
        = Except.ok ⟨some 0⟩ := rfl
    rw [h2] at e
    have h3 : (twin_world.heap 0).root_ = some 1 := rfl
    rw [h3] at e
    simp at e

/-- C18, amended: on a well-formed heap (given fuel for the loop), `begin() == end()`
when the heap is empty; when it is not, `begin()` is positioned at the node at the end of
the chain of `left_` (first child) links that starts at the root, which is not `end()`,
and which is the root exactly when the root has no child. -/
theorem begin_leftmost (fuel : Nat) (m : Memory T) (h : PairingHeap) (hw : WellFormed m h)
    (hf : h.size ≤ fuel) :
    (h.size = 0 → PairingHeap.begin fuel m h = Except.ok PairingHeap.end_) ∧
    (h.size ≠ 0 → ∃ c n, PairingHeap.begin fuel m h = Except.ok ⟨some c⟩ ∧
      (⟨some c⟩ : PairingTreeIterator) ≠ PairingHeap.end_ ∧
      LeftChain m h.root_ c ∧ m.cell c = some n ∧ n.left_ = none ∧
      ∀ rn, m.deref h.root_ = Except.ok rn → (h.root_ = some c ↔ rn.left_ = none)) := by
  obtain ⟨s, par, hi⟩ := hw
  cases s with
  | none =>
    refine ⟨fun _ => ?_, fun hne => absurd hi.2 hne⟩
    simp [PairingHeap.begin, PairingTreeIterator.ctor, hi.1, PairingHeap.end_]
  | some x =>
    refine ⟨fun h0 => ?_, fun _ => ?_⟩
    · have := hi.2.1
      simp only [PairingHeap.size] at h0
      simp [Root.addrs, h0] at this
    · have hrep : Repr m par (Tree.node x.a x.v x.kids Tree.nil) :=
        ⟨hi.2.2.1.1, hi.2.2.1.2, trivial⟩
      have hlen : (Tree.node x.a x.v x.kids Tree.nil).addrs.length ≤ fuel := by
        have := hi.2.1
        simp only [PairingHeap.size] at hf
        simp only [Root.addrs, List.length_cons] at this
        simp only [addrs_node, addrs_nil, List.append_nil, List.length_cons]
        omega
      obtain ⟨c, rest, n, -, hd, hch, hn, hnl, hroot⟩ :=
        descend_left_spec x.kids x.a x.v Tree.nil par fuel hrep hlen
      refine ⟨c, n, ?_, by simp [PairingHeap.end_], ?_, hn, hnl, ?_⟩
      · simp [PairingHeap.begin, PairingTreeIterator.ctor, hi.1, hd]
      · rw [hi.1]
        exact hch
      · intro rn hrn
        rw [hi.1, deref_some hi.2.2.1.1] at hrn
        cases hrn
        rw [hi.1]
        constructor
        · intro e
          simp only [Option.some.injEq] at e
          rw [← e, hi.2.2.1.1] at hn
          cases hn
          exact hnl
        · intro e
          simp only at e
          have hk : x.kids = Tree.nil := by
            cases hkk : x.kids with
            | nil => rfl
            | node _ _ _ _ => rw [hkk] at e; simp at e
          rw [hroot hk]

theorem begin_leftmost_witness :
    ∃ c n, PairingHeap.begin 2 twin_world.mem (twin_world.heap 0) = Except.ok ⟨some c⟩ ∧
      (⟨some c⟩ : PairingTreeIterator) ≠ PairingHeap.end_ ∧
      LeftChain twin_world.mem (twin_world.heap 0).root_ c ∧
      twin_world.mem.cell c = some n ∧ n.left_ = none ∧
      ∀ rn, twin_world.mem.deref (twin_world.heap 0).root_ = Except.ok rn →
        ((twin_world.heap 0).root_ = some c ↔ rn.left_ = none) :=
  (begin_leftmost 2 twin_world.mem (twin_world.heap 0) twin_world_well_formed
    (by decide)).2 (by decide)

/-- C19: iterator coverage. On a well-formed heap of size `n` whose root has a null
`parent_`, as the two-pass strategy leaves it, `begin()` returns (given fuel for the
loops), `n` applications of `operator++` starting there return and end at `end()`, the
`n` positions they start from are nodes, each visited once, and they are exactly the
nodes of the heap. -/
theorem iterator_coverage (fuel : Nat) (m : Memory T) (h : PairingHeap)
    (hw : WellFormed m h)
    (hroot : ∀ rn, m.deref h.root_ = Except.ok rn → rn.parent_ = none)
    (hf : h.size ≤ fuel) :
    ∃ (b : PairingTreeIterator) (ps : List Nat), PairingHeap.begin fuel m h = Except.ok b ∧
      iter_walk fuel m h.size b = Except.ok (ps.map some, PairingHeap.end_) ∧
      ps.length = h.size ∧ ps.Nodup ∧ ∀ a, a ∈ ps ↔ Reaches m h.root_ a := by
  obtain ⟨s, par, hi⟩ := hw
  cases s with
  | none =>
    refine ⟨⟨none⟩, [], ?_, ?_, ?_, List.nodup_nil, ?_⟩
    · simp [PairingHeap.begin, PairingTreeIterator.ctor, hi.1]
    · have : h.size = 0 := hi.2
      rw [this]
      rfl
    · exact hi.2.symm
    · intro a
      rw [hi.reaches_iff]
      simp [haddrs]
  | some x =>
    have hpar : par = none := by
      have := hroot _ (by rw [hi.1]; exact deref_some hi.2.2.1.1)
      exact this
    subst hpar
    have hrep : Repr m none (Tree.node x.a x.v x.kids Tree.nil) :=
      ⟨hi.2.2.1.1, hi.2.2.1.2, trivial⟩
    have haddrs : (Tree.node x.a x.v x.kids Tree.nil).addrs = x.addrs := by
      simp [Root.addrs]
    have hsz : x.addrs.length = h.size := hi.2.1.symm
    have hlen : (Tree.node x.a x.v x.kids Tree.nil).addrs.length ≤ fuel := by
      rw [haddrs, hsz]
      exact hf
    obtain ⟨c, rest, n, hin, hd, -⟩ :=
      descend_left_spec x.kids x.a x.v Tree.nil none fuel hrep hlen
    have hlk := inorder_linked fuel _ none hrep (by rw [haddrs]; exact hi.2.2.2.1) hlen
    have hperm := inorder_perm (Tree.node x.a x.v x.kids Tree.nil)
    rw [haddrs] at hperm
    have hfuel : fuel = (fuel - 1) + 1 := by
      have : 1 ≤ x.addrs.length := by simp [Root.addrs]
      omega
    have hk : fuel - ((Tree.node x.a x.v x.kids Tree.nil).rlen - 1) = (fuel - 1) + 1 := by
      simp only [Tree.rlen]
      omega
    rw [hk, ptr_node, climb_out_root _ hi.2.2.1.1 rfl, hin] at hlk
    have hw := walk_linked fuel rest c hlk
    have hl : rest.length + 1 = h.size := by
      rw [← hsz, ← hperm.length_eq, hin]
      rfl
    rw [hl] at hw
    refine ⟨⟨some c⟩, c :: rest, ?_, hw, hl, ?_, ?_⟩
    · simp [PairingHeap.begin, PairingTreeIterator.ctor, hi.1, hd]
    · rw [← hin]
      exact hperm.nodup_iff.2 hi.2.2.2.1
    · intro a
      rw [hi.reaches_iff, ← hin]
      exact hperm.mem_iff

theorem iterator_coverage_witness :
    ∃ (b : PairingTreeIterator) (ps : List Nat),
      PairingHeap.begin 2 twin_world.mem (twin_world.heap 0) = Except.ok b ∧
      iter_walk 2 twin_world.mem (twin_world.heap 0).size b
        = Except.ok (ps.map some, PairingHeap.end_) ∧
      ps.length = (twin_world.heap 0).size ∧ ps.Nodup ∧
      ∀ a, a ∈ ps ↔ Reaches twin_world.mem (twin_world.heap 0).root_ a :=
  iterator_coverage 2 twin_world.mem (twin_world.heap 0) twin_world_well_formed
    (Reachable.root_parent_null less_strict_weak_order twin_world_reachable 0) (by decide)

theorem deep_copy_loop_null (fuel : Nat) (m : Memory T) (s : Nat) :
    ∃ f, deep_copy_loop fuel m (some s) none = Except.error f := by
  cases fuel with
  | zero => exact ⟨_, rfl⟩
  | succ k =>
    simp only [deep_copy_loop]
    cases hs : m.deref (some s) with
    | error f => exact ⟨f, rfl⟩
    | ok sn =>
      simp only [bind_ok]
      by_cases hl : sn.left_.isSome = true
      · simp only [hl, if_true, Memory.deref, bind_error]
        exact ⟨_, rfl⟩
      · simp only [hl, Bool.false_eq_true, if_false, pure_eq_ok, bind_ok]
        by_cases hr : sn.right_.isSome = true
        · simp only [hr, if_true, Memory.deref, bind_error]
          exact ⟨_, rfl⟩
        · simp only [hr, Bool.false_eq_true, if_false, pure_eq_ok, bind_ok, Memory.deref,
            bind_error]
          exact ⟨_, rfl⟩

theorem deep_copy_loop_left {m : Memory T} {a c la : Nat} {sn ln : PairingNode T} {cv : T}
    (fuel : Nat) (ha : m.cell a = some sn) (hl : sn.left_ = some la)
    (hla : m.cell la = some ln) (hcc : m.cell c = some ⟨cv, none, none, none⟩)
    (hab : a ≠ m.brk) (hcb : c ≠ m.brk) (hac : a ≠ c) :
    deep_copy_loop (fuel + 1) m (some a) (some c)
      = deep_copy_loop fuel
          (((new_node m ln.data_).1).put c (some ⟨cv, none, some m.brk, none⟩))
          (some la) (some m.brk) := by
  have hc1 : (new_node m ln.data_).1.cell c = some ⟨cv, none, none, none⟩ := by
    simp [new_node, hcb, hcc]
  have ha2 : (((new_node m ln.data_).1).put c (some ⟨cv, none, some m.brk, none⟩)).cell a
      = some sn := by
    simp [new_node, hab, hac, ha]
  have hc2 : (((new_node m ln.data_).1).put c (some ⟨cv, none, some m.brk, none⟩)).cell c
      = some ⟨cv, none, some m.brk, none⟩ := by
    simp
  have hn2 : (new_node m ln.data_).2 = some m.brk := rfl
  simp only [deep_copy_loop, deref_some ha, bind_ok, hl, Option.isSome_some, if_true,
    deref_some hcc, Option.isNone_none, pure_eq_ok, copy_node, deref_some hla,
    Memory.set_left, Memory.modify, hc1, hn2, deref_some ha2, deref_some hc2]

theorem deep_copy_loop_right {m : Memory T} {a c ra : Nat} {sn rn : PairingNode T} {cv : T}
    (fuel : Nat) (ha : m.cell a = some sn) (hl : sn.left_ = none) (hr : sn.right_ = some ra)
    (hra : m.cell ra = some rn) (hcc : m.cell c = some ⟨cv, none, none, none⟩)
    (hab : a ≠ m.brk) (hcb : c ≠ m.brk) (hac : a ≠ c) :
    deep_copy_loop (fuel + 1) m (some a) (some c)
      = deep_copy_loop fuel
          (((new_node m rn.data_).1).put c (some ⟨cv, none, none, some m.brk⟩))
          (some ra) (some m.brk) := by
  have hc1 : (new_node m rn.data_).1.cell c = some ⟨cv, none, none, none⟩ := by
    simp [new_node, hcb, hcc]
  have ha2 : (((new_node m rn.data_).1).put c (some ⟨cv, none, none, some m.brk⟩)).cell a
      = some sn := by
    simp [new_node, hab, hac, ha]
  have hc2 : (((new_node m rn.data_).1).put c (some ⟨cv, none, none, some m.brk⟩)).cell c
      = some ⟨cv, none, none, some m.brk⟩ := by
    simp
  have hn2 : (new_node m rn.data_).2 = some m.brk := rfl
  simp only [deep_copy_loop, deref_some ha, bind_ok, hl, Option.isSome_none,
    Bool.false_eq_true, if_false, hr, Option.isSome_some, if_true,
    deref_some hcc, Option.isNone_none, pure_eq_ok, copy_node, deref_some hra,
    Memory.set_right, Memory.modify, hc1, hn2, deref_some ha2, deref_some hc2]

theorem deep_copy_loop_stuck : ∀ (t : Tree T) (par : Ptr) (fuel : Nat) (m : Memory T)
    (c : Nat) (cv : T), t ≠ Tree.nil → Repr m par t →
    (∀ a v, t = Tree.node a v Tree.nil Tree.nil → par ≠ none) →
    (∀ b ∈ t.addrs, b < m.brk) → c ∉ t.addrs → c < m.brk →
    m.cell c = some ⟨cv, none, none, none⟩ →
    ∃ f, deep_copy_loop fuel m t.ptr (some c) = Except.error f
  | Tree.nil, _, _, _, _, _, h, _, _, _, _, _, _ => absurd rfl h
  | Tree.node a v l r, par, 0, _, _, _, _, _, _, _, _, _, _ => ⟨_, rfl⟩
  | Tree.node a v l r, par, fuel + 1, m, c, cv, _, ⟨ha, hl, hr⟩, hleaf, hlt, hc, hcb, hcc => by
    simp only [addrs_node, List.mem_cons, List.mem_append, not_or] at hc
    obtain ⟨hca, hcl, hcr⟩ := hc
    have halt : a < m.brk := hlt a (by simp)
    have hab : a ≠ m.brk := Nat.ne_of_lt halt
    have hcb' : c ≠ m.brk := Nat.ne_of_lt hcb
    have hac : a ≠ c := fun e => hca e.symm
    have hltl : ∀ b ∈ l.addrs, b < m.brk := fun b hb => hlt b (by
      simp only [addrs_node, List.mem_cons, List.mem_append]
      exact Or.inr (Or.inl hb))
    have hltr : ∀ b ∈ r.addrs, b < m.brk := fun b hb => hlt b (by
      simp only [addrs_node, List.mem_cons, List.mem_append]
      exact Or.inr (Or.inr hb))
    cases l with
    | node la lv ll lr =>
      have hla := hl.1
      have hfr : ∀ b, b ≠ c → b ≠ m.brk →
          (((new_node m lv).1).put c (some ⟨cv, none, some m.brk, none⟩)).cell b = m.cell b := by
        intro b h1 h2
        simp [new_node, h1, h2]
      have ih := deep_copy_loop_stuck (Tree.node la lv ll lr) (some a) fuel
        (((new_node m lv).1).put c (some ⟨cv, none, some m.brk, none⟩)) m.brk lv (by simp)
        (Repr_congr _ _ (fun b hb => hfr b (fun e => hcl (e ▸ hb))
          (Nat.ne_of_lt (hltl b hb))) hl)
        (fun _ _ _ => by simp)
        (fun b hb => Nat.lt_succ_of_lt (hltl b hb))
        (fun hb => absurd (hltl _ hb) (Nat.lt_irrefl _))
        (by simp [new_node])
        (by simp [new_node, hcb'.symm])
      rw [ptr_node, deep_copy_loop_left fuel ha rfl hla hcc hab hcb' hac]
      exact ih
    | nil =>
      cases r with
      | node ra rv rl rr =>
        have hra := hr.1
        have hfr : ∀ b, b ≠ c → b ≠ m.brk →
            (((new_node m rv).1).put c (some ⟨cv, none, none, some m.brk⟩)).cell b
              = m.cell b := by
          intro b h1 h2
          simp [new_node, h1, h2]
        have ih := deep_copy_loop_stuck (Tree.node ra rv rl rr) (some a) fuel
          (((new_node m rv).1).put c (some ⟨cv, none, none, some m.brk⟩)) m.brk rv (by simp)
          (Repr_congr _ _ (fun b hb => hfr b (fun e => hcr (e ▸ hb))
            (Nat.ne_of_lt (hltr b hb))) hr)
          (fun _ _ _ => by simp)
          (fun b hb => Nat.lt_succ_of_lt (hltr b hb))
          (fun hb => absurd (hltr _ hb) (Nat.lt_irrefl _))
          (by simp [new_node])
          (by simp [new_node, hcb'.symm])
        rw [ptr_node, deep_copy_loop_right fuel ha rfl rfl hra hcc hab hcb' hac]
        exact ih
      | nil =>
        have hp := hleaf a v rfl
        cases par with
        | none => exact absurd rfl hp
        | some p =>
          have := deep_copy_loop_null fuel m p
          simpa [deep_copy_loop, deref_some ha, deref_some hcc] using this

theorem deep_copy_fails (fuel : Nat) (m : Memory T) (h : PairingHeap) (x : Root T)
    (par : Ptr) (hi : InvP m h (some x) par) (hk : x.kids ≠ Tree.nil) :
    ∃ f, deep_copy fuel m h.root_ = Except.error f := by
  have hlt := hi.2.2.2.2
  have hxa : x.a < m.brk := hlt _ (by simp [Root.addrs])
  have hrep : Repr (new_node m x.v).1 par (Tree.node x.a x.v x.kids Tree.nil) := by
    refine Repr_congr _ _ ?_ ⟨hi.2.2.1.1, hi.2.2.1.2, trivial⟩
    intro b hb
    have : b < m.brk := hlt b (by simpa [Root.addrs] using hb)
    simp [new_node, Nat.ne_of_lt this]
  obtain ⟨f, hf⟩ := deep_copy_loop_stuck (Tree.node x.a x.v x.kids Tree.nil) par fuel
    (new_node m x.v).1 m.brk x.v (by simp) hrep
    (fun a v e => by
      simp only [Tree.node.injEq] at e
      exact absurd e.2.2.1 hk)
    (fun b hb => Nat.lt_succ_of_lt (hlt b (by simpa [Root.addrs] using hb)))
    (fun hb => absurd (hlt _ (by simpa [Root.addrs] using hb)) (Nat.lt_irrefl _))
    (by simp [new_node]) (by simp [new_node])
  refine ⟨f, ?_⟩
  simp only [ptr_node] at hf
  have hn2 : (new_node m x.v).2 = some m.brk := rfl
  simp [deep_copy, hi.1, copy_node, deref_some hi.2.2.1.1, hn2, hf]

/-- C17: `deep_copy` does not complete on trees of more than one node. `copy_node`
constructs every clone with a null `parent_` and `deep_copy` never sets it, so when the
walk steps back from a copied node with `newNode = newNode->parent_` the clone pointer
becomes null while the source pointer does not, and the next iteration reads a member of
the null clone. For every well-formed heap with at least two nodes and every fuel,
`deep_copy` of the root, and with it the copy constructor, ends in a fault. -/
theorem deep_copy_faults (fuel : Nat) (m : Memory T) (h : PairingHeap) (hw : WellFormed m h)
    (h2 : 2 ≤ h.size) :
    (∃ f, deep_copy fuel m h.root_ = Except.error f) ∧
    (∃ f, PairingHeap.copy_ctor fuel m h = Except.error f) := by
  obtain ⟨s, par, hi⟩ := hw
  cases s with
  | none =>
    have := hi.2
    simp only [PairingHeap.size] at h2
    omega
  | some x =>
    have hk : x.kids ≠ Tree.nil := by
      intro e
      have := hi.2.1
      simp only [PairingHeap.size] at h2
      simp only [Root.addrs, e, addrs_nil, List.length_singleton] at this
      omega
    obtain ⟨f, hf⟩ := deep_copy_fails fuel m h x par hi hk
    exact ⟨⟨f, hf⟩, ⟨f, by simp [PairingHeap.copy_ctor, hf]⟩⟩

theorem deep_copy_faults_witness :
    (∃ m' c, deep_copy 2 one_world.mem (one_world.heap 0).root_ = Except.ok (m', c)) ∧
    deep_copy 3 twin_world.mem (twin_world.heap 0).root_ = Except.error Fault.bad_access ∧
    (∃ f, deep_copy 3 twin_world.mem (twin_world.heap 0).root_ = Except.error f) ∧
    (∃ f, PairingHeap.copy_ctor 3 twin_world.mem (twin_world.heap 0) = Except.error f) :=
  ⟨⟨_, _, rfl⟩, rfl,
    deep_copy_faults 3 twin_world.mem (twin_world.heap 0) twin_world_well_formed
      (by decide)⟩

theorem tangle_well_formed : WellFormed tangle.1 tangle.2 := by
  obtain ⟨⟨m, h⟩, e, hq⟩ := wp_run_calls less MergeMode.TwoPass 6
    [Call.insert 0, Call.insert 2, Call.insert 3, Call.insert 4, Call.insert 1, Call.insert 5,
      Call.delete_min] Memory.init PairingHeap.mk_empty none none (InvP_empty_heap _ _)
    ⟨by decide, trivial⟩ (by decide) (fun r => WellFormed r.1 r.2)
    (fun m' h' s' par' hi _ => ⟨s', par', hi⟩)
  have : tangle = (m, h) := by
    simp only [tangle, e, returned_heap]
  rw [this]
  exact hq

theorem tangle_clear_faults : ∀ fuel r, clear fuel tangle.1 tangle.2 ≠ Except.ok r
  | 0, r, e => by
    have h : clear 0 tangle.1 tangle.2 = Except.error Fault.out_of_fuel := rfl
    rw [h] at e
    cases e
  | 1, r, e => by
    have h : clear 1 tangle.1 tangle.2 = Except.error Fault.out_of_fuel := rfl
    rw [h] at e
    cases e
  | 2, r, e => by
    have h : clear 2 tangle.1 tangle.2 = Except.error Fault.out_of_fuel := rfl
    rw [h] at e
    cases e
  | 3, r, e => by
    have h : clear 3 tangle.1 tangle.2 = Except.error Fault.out_of_fuel := rfl
    rw [h] at e
    cases e
  | k + 4, r, e => by
    have h : clear (k + 4) tangle.1 tangle.2 = Except.error Fault.bad_access := rfl
    rw [h] at e
    cases e

/-- C20: `clear` does not complete on every heap. Whenever `clear` returns, the heap has a
null `root_`, `size() == 0`, `empty()` is true and `find_min` throws `std::out_of_range`.
But on the well-formed heap left by `insert` of 0, 2, 3, 4, 1, 5 and one `delete_min` the
destructor that `clear` runs on the old contents deletes a first child, later descends
again from that child's parent through the stale `left_` link, and reads the deleted
node: with fuel for its loops the run ends in `Fault.bad_access`, and it returns for no
fuel. -/
theorem clear_faults :
    (∀ (T : Type) (fuel : Nat) (m m' : Memory T) (h h' : PairingHeap),
      clear fuel m h = Except.ok (m', h') →
      h'.root_ = none ∧ h'.size = 0 ∧ h'.empty = true ∧
        find_min m' h' = Except.error Fault.out_of_range) ∧
    WellFormed tangle.1 tangle.2 ∧
    clear 4 tangle.1 tangle.2 = Except.error Fault.bad_access ∧
    ∀ fuel r, clear fuel tangle.1 tangle.2 ≠ Except.ok r := by
  refine ⟨?_, tangle_well_formed, rfl, tangle_clear_faults⟩
  intro T fuel m m' h h' e
  rw [clear_result fuel m m' h h' e]
  exact ⟨rfl, rfl, rfl, rfl⟩

theorem clear_faults_witness :
    ∃ m' h', clear 5 twin_world.mem (twin_world.heap 0) = Except.ok (m', h') ∧
      h'.root_ = none ∧ h'.size = 0 ∧ h'.empty = true ∧
      find_min m' h' = Except.error Fault.out_of_range :=
  ⟨_, _, rfl, clear_faults.1 Nat 5 twin_world.mem _ (twin_world.heap 0) _ rfl⟩

/-- C6 fails for `clear`. The heap left by `insert` of 0, 2, 3, 4, 1, 5 and one
`delete_min` with the two-pass merge is well formed and consistent, with `size()` 5 and a
root. `clear()` on it does not complete: the destructor that runs on the old contents
deletes the node at address 3, steps to its parent at address 2, descends again through
the stale `left_` link and reads the deleted node. With fuel for its loops the call ends in `Fault.bad_access`, and it
returns for no fuel, so the call leaves no heap whose root and size could be consistent. -/
theorem clear_not_completed :
    run_calls less MergeMode.TwoPass 6
      [Call.insert 0, Call.insert 2, Call.insert 3, Call.insert 4, Call.insert 1,
        Call.insert 5, Call.delete_min] Memory.init PairingHeap.mk_empty
      = Except.ok tangle ∧
    WellFormed tangle.1 tangle.2 ∧ Consistent tangle.1 tangle.2 ∧
    tangle.2.size = 5 ∧ tangle.2.root_ = some 4 ∧
    clear 4 tangle.1 tangle.2 = Except.error Fault.bad_access ∧
    ∀ fuel r, clear fuel tangle.1 tangle.2 ≠ Except.ok r := by
  obtain ⟨s, par, hi⟩ := tangle_well_formed
  exact ⟨rfl, ⟨s, par, hi⟩, hi.consistent, rfl, rfl, rfl, tangle_clear_faults⟩

theorem pair_core_links (m : Memory T) (w l : Nat) (nw nl : PairingNode T)
    (hw : m.cell w = some nw) (hl : m.cell l = some nl) (hne : w ≠ l)
    (ho : ∀ o, nw.left_ = some o → o ≠ w ∧ o ≠ l ∧ ∃ no, m.cell o = some no) :
    ∃ m', (do
        let m ← m.set_parent (some l) (some w)
        let m ← m.set_right (some l) nw.left_
        let m ← m.set_left (some w) (some l)
        let m ← (match nw.left_ with
          | some o => m.set_parent (some o) (some l)
          | none => pure m : Except Fault (Memory T))
        pure (m, (some w : Ptr))) = Except.ok (m', some w) ∧ Paired m m' w l ∧
      m'.brk = m.brk := by
  cases hleft : nw.left_ with
  | none =>
    simp [Memory.set_parent, Memory.set_right, Memory.set_left, Memory.modify, hl, hw, hne]
    refine ⟨nw, nl, hw, hl, ?_, ?_, ?_, ?_⟩
    · simp
    · simp [hne.symm, hleft]
    · intro o h
      rw [hleft] at h
      cases h
    · intro b h1 h2 _
      simp [h1, h2]
  | some o =>
    obtain ⟨how, hol, no, hno⟩ := ho o hleft
    simp [Memory.set_parent, Memory.set_right, Memory.set_left, Memory.modify, hl, hw, hne,
      hno, how, hol]
    refine ⟨nw, nl, hw, hl, ?_, ?_, ?_, ?_⟩
    · simp [how.symm]
    · simp [hne.symm, hol.symm, hleft]
    · intro o' h
      rw [hleft] at h
      cases h
      exact ⟨no, hno, by simp⟩
    · intro b h1 h2 h3
      rw [hleft] at h3
      have h4 : b ≠ o := fun e => h3 (by rw [e])
      simp [h1, h2, h4]

theorem Owns.first_child {m : Memory T} {x : Root T} {p r : Ptr} (hx : Owns m x p r)
    (hd : x.addrs.Nodup) (o : Nat) (h : x.kids.ptr = some o) :
    o ≠ x.a ∧ o ∈ x.kids.addrs ∧ ∃ no, m.cell o = some no := by
  obtain ⟨xa, xv, xk⟩ := x
  cases xk with
  | nil => cases h
  | node b v l r =>
    simp only [ptr_node, Option.some.injEq] at h
    subst h
    simp only [Root.addrs, addrs_node, List.nodup_cons, List.mem_cons, not_or] at hd
    exact ⟨fun e => hd.1.1 e.symm, by simp, _, hx.2.1⟩

/-- C21: the `pair` primitive.  For tree roots `x` and `y` (disjoint trees, each root with
null `parent_` and null `right_`), `pair(x, y)` returns `x` when `compare(x.value,
y.value)` is true and `y` otherwise (so `y` wins ties).  With `w` the returned node and
`l` the other one, afterwards `w.left_ == l`, `l.parent_ == w`, `l.right_` is the
previous first child of `w`, that node (if any) has `parent_ == l`, and every other field
of every node, the values included, is unchanged; the memory then holds the tree in which
`l`, with its own children, precedes the previous children of `w`. -/
theorem pair_primitive (cmp : T → T → Bool) (m : Memory T) (x y : Root T)
    (hx : Owns m x none none) (hy : Owns m y none none) (hd : (x.addrs ++ y.addrs).Nodup) :
    ∃ m', pair cmp m (some x.a) (some y.a)
        = Except.ok (m', some (if cmp x.v y.v then x.a else y.a)) ∧
      (cmp x.v y.v = true → Paired m m' x.a y.a ∧
        Owns m' ⟨x.a, x.v, Tree.node y.a y.v y.kids x.kids⟩ none none) ∧
      (cmp x.v y.v = false → Paired m m' y.a x.a ∧
        Owns m' ⟨y.a, y.v, Tree.node x.a x.v x.kids y.kids⟩ none none) ∧
      m'.brk = m.brk := by
  have hxc := hx.1
  have hyc := hy.1
  have hdx : x.addrs.Nodup := (List.nodup_append.1 hd).1
  have hdy : y.addrs.Nodup := (List.nodup_append.1 hd).2.1
  have hdis : ∀ a, a ∈ x.addrs → a ∈ y.addrs → False := fun a h1 h2 =>
    (List.nodup_append.1 hd).2.2 h1 h2
  have hne : x.a ≠ y.a := fun e => hdis x.a (by simp [Root.addrs]) (by simp [e, Root.addrs])
  obtain ⟨⟨m', r⟩, e, hO⟩ := wp_pair cmp m x y none none none none hx hy hd
    (fun r => Owns r.1 (fpair cmp x y) none none) (fun m' h _ _ => by simpa using h)
  by_cases hc : cmp x.v y.v = true
  · have ho : ∀ o, x.kids.ptr = some o → o ≠ x.a ∧ o ≠ y.a ∧ ∃ no, m.cell o = some no := by
      intro o h
      obtain ⟨h1, h2, h3⟩ := hx.first_child hdx o h
      exact ⟨h1, fun e => hdis o (by simp [Root.addrs, h2]) (by simp [e, Root.addrs]), h3⟩
    obtain ⟨m1, e1, hp, hb⟩ := pair_core_links m x.a y.a _ _ hxc hyc hne ho
    have e2 : pair cmp m (some x.a) (some y.a) = Except.ok (m1, some x.a) := by
      simp only [pair, deref_some hxc, deref_some hyc, bind_ok, hc, if_true]
      exact e1
    rw [e2] at e
    cases e
    refine ⟨m', by simp [e2, hc], fun _ => ⟨hp, ?_⟩, fun h => ?_, hb⟩
    · simpa [fpair, hc] using hO
    · rw [hc] at h
      cases h
  · simp only [Bool.not_eq_true] at hc
    have ho : ∀ o, y.kids.ptr = some o → o ≠ y.a ∧ o ≠ x.a ∧ ∃ no, m.cell o = some no := by
      intro o h
      obtain ⟨h1, h2, h3⟩ := hy.first_child hdy o h
      exact ⟨h1, fun e => hdis o (by simp [e, Root.addrs]) (by simp [Root.addrs, h2]), h3⟩
    obtain ⟨m1, e1, hp, hb⟩ := pair_core_links m y.a x.a _ _ hyc hxc hne.symm ho
    have e2 : pair cmp m (some x.a) (some y.a) = Except.ok (m1, some y.a) := by
      simp only [pair, deref_some hxc, deref_some hyc, bind_ok, hc, Bool.false_eq_true,
        if_false]
      exact e1
    rw [e2] at e
    cases e
    refine ⟨m', by simp [e2, hc], fun h => ?_, fun _ => ⟨hp, ?_⟩, hb⟩
    · rw [hc] at h
      cases h
    · simpa [fpair, hc] using hO

theorem pair_primitive_witness :
    ∃ m', pair less trio_world.mem (some 1) (some 2)
        = Except.ok (m', some (if less 1 5 then 1 else 2)) ∧
      (less 1 5 = true → Paired trio_world.mem m' 1 2 ∧
        Owns m' ⟨1, 1, Tree.node 2 5 Tree.nil (Tree.node 0 1 Tree.nil Tree.nil)⟩ none none) ∧
      (less 1 5 = false → Paired trio_world.mem m' 2 1 ∧
        Owns m' ⟨2, 5, Tree.node 1 1 (Tree.node 0 1 Tree.nil Tree.nil) Tree.nil⟩ none none) ∧
      m'.brk = trio_world.mem.brk :=
  pair_primitive less trio_world.mem ⟨1, 1, Tree.node 0 1 Tree.nil Tree.nil⟩
    ⟨2, 5, Tree.nil⟩ ⟨rfl, rfl, trivial, trivial⟩ ⟨rfl, trivial⟩ (by decide)

theorem Repr_reaches_iff {m : Memory T} {t : Tree T} {p : Ptr} (h : Repr m p t) (b : Nat) :
    Reaches m t.ptr b ↔ b ∈ t.addrs :=
  ⟨Repr.reaches_mem t p b h, Repr.mem_reaches t p b h⟩

theorem Owns_reaches_iff {m : Memory T} {R : Root T} {p : Ptr} (h : Owns m R p none)
    (b : Nat) : Reaches m (some R.a) b ↔ b ∈ R.addrs := by
  have hrep : Repr m p (Tree.node R.a R.v R.kids Tree.nil) := ⟨h.1, h.2, trivial⟩
  simpa [Root.addrs] using Repr_reaches_iff hrep b

theorem Owns_heap_order {cmp : T → T → Bool} {m : Memory T} {R : Root T} {p : Ptr}
    (h : Owns m R p none) (hirr : ∀ a, cmp a a = false) (ho : Ordered cmp R)
    (q c : Nat) (nq nc : PairingNode T) (hq : Reaches m (some R.a) q) (hc : ChildOf m q c)
    (hnq : m.cell q = some nq) (hnc : m.cell c = some nc) : cmp nc.data_ nq.data_ = false := by
  have hrep : Repr m p (Tree.node R.a R.v R.kids Tree.nil) := ⟨h.1, h.2, trivial⟩
  have hb : Below cmp R.v (Tree.node R.a R.v R.kids Tree.nil) := ⟨hirr _, ho, trivial⟩
  have hmem := (Owns_reaches_iff h q).1 hq
  exact Below.child _ _ R.v q c nq nc hrep hb (by simpa [Root.addrs] using hmem) hc hnq hnc

theorem merge_core (cmp : T → T → Bool) (mode : MergeMode) (fuel : Nat) (m : Memory T)
    (x : Root T) (xs : List (Root T)) (hr : Repr m none (unspine (x :: xs)))
    (hd : (laddrs (x :: xs)).Nodup) (hf : (x :: xs).length < fuel) :
    ∃ m' R par', merge cmp mode fuel m (some x.a) = Except.ok (m', some R.a) ∧
      fmerge cmp mode (x :: xs) = some R ∧ Owns m' R par' none ∧
      (mode = MergeMode.TwoPass → par' = none) ∧ m'.brk = m.brk ∧
      ∀ b, b ∉ laddrs (x :: xs) → m'.cell b = m.cell b := by
  obtain ⟨⟨m', r⟩, e, R, par', h0, h1, h2, h3, h4, h5⟩ :=
    wp_merge cmp mode fuel x xs m hf hr hd
      (fun r => ∃ R par', r.2 = some R.a ∧ fmerge cmp mode (x :: xs) = some R ∧
        Owns r.1 R par' none ∧ (mode = MergeMode.TwoPass → par' = none) ∧
        r.1.brk = m.brk ∧ ∀ b, b ∉ laddrs (x :: xs) → r.1.cell b = m.cell b)
      (fun m' R par' h1 h2 h3 h4 h5 => ⟨R, par', rfl, h1, h2, h3, h4, h5⟩)
  simp only at h0
  subst h0
  exact ⟨m', R, par', e, h1, h2, h3, h4, h5⟩

theorem merge_nodes (cmp : T → T → Bool) (mode : MergeMode) {m m' : Memory T} {x R : Root T}
    {xs : List (Root T)} {par' : Ptr} (hr : Repr m none (unspine (x :: xs)))
    (hR : fmerge cmp mode (x :: xs) = some R) (hO : Owns m' R par' none) (b : Nat) :
    Reaches m' (some R.a) b ↔ Reaches m (some x.a) b := by
  have h1 := Repr_reaches_iff hr b
  rw [unspine_addrs] at h1
  simp only [unspine_cons, ptr_node] at h1
  rw [h1, Owns_reaches_iff hO b]
  exact (fmerge_addrs_perm cmp mode _ R hR).mem_iff

theorem pair_adjacent_eq (cmp : T → T → Bool) : ∀ l : List (Root T),
    pair_adjacent cmp l = ffirst cmp l
  | [] => rfl
  | [_] => rfl
  | x :: y :: rest => by
    simp only [pair_adjacent, ffirst, pair_adjacent_eq cmp rest]

theorem fold_from_right_eq (cmp : T → T → Bool) : ∀ ws : List (Root T),
    fold_from_right cmp ws = match ws.reverse with
      | [] => none
      | w :: ws' => some (ws'.foldl (fpair cmp) w)
  | [] => rfl
  | w :: ws => by
    simp only [fold_from_right, fold_from_right_eq cmp ws, List.reverse_cons]
    cases h : ws.reverse with
    | nil => simp
    | cons l rest => simp [List.foldl_append]

theorem two_pass_reference_eq (cmp : T → T → Bool) (l : List (Root T)) :
    two_pass_reference cmp l = ftwo_pass cmp l := by
  simp only [two_pass_reference, pair_adjacent_eq, fold_from_right_eq, ftwo_pass]

theorem fifo_reference_eq (cmp : T → T → Bool) : ∀ (n : Nat) (q : List (Root T)),
    q.length ≤ n → fifo_reference cmp q = ffifo_loop cmp n q
  | 0, q, h => by
    cases q with
    | nil => simp [fifo_reference, ffifo_loop]
    | cons x xs => simp at h
  | n + 1, [], _ => by simp [fifo_reference, ffifo_loop]
  | n + 1, [x], _ => by simp [fifo_reference, ffifo_loop]
  | n + 1, x :: y :: rest, h => by
    rw [fifo_reference, ffifo_loop]
    apply fifo_reference_eq cmp n
    simp only [List.length_cons, List.length_append, List.length_nil] at h ⊢
    omega

theorem forest3_repr :
    Repr forest3 none (unspine [⟨3, 1, Tree.nil⟩, ⟨2, 2, Tree.nil⟩, ⟨1, 3, Tree.nil⟩]) :=
  ⟨rfl, trivial, rfl, trivial, rfl, trivial, trivial⟩

/-- C22: two-pass merge result.  For a non-empty forest of heap-ordered trees on distinct
nodes, linked through `right_` as `delete_min` hands it over (the first tree with a null
`parent_`), `merge` with the `TwoPass` strategy returns (given fuel for the loops) a node
`r` with null `parent_` and null `right_`; the nodes reachable from `r` are exactly the
nodes of the forest, they form one tree on distinct nodes, and no node reachable from `r`
has a child of strictly higher priority. -/
theorem two_pass_merge_result (cmp : T → T → Bool) (hcmp : StrictWeakOrder cmp) (fuel : Nat)
    (m : Memory T) (x : Root T) (xs : List (Root T))
    (hr : Repr m none (unspine (x :: xs))) (hd : (laddrs (x :: xs)).Nodup)
    (ho : ∀ t ∈ x :: xs, Ordered cmp t) (hf : (x :: xs).length < fuel) :
    ∃ m' r rn, merge cmp MergeMode.TwoPass fuel m (some x.a) = Except.ok (m', some r) ∧
      m'.cell r = some rn ∧ rn.parent_ = none ∧ rn.right_ = none ∧
      (∀ b, Reaches m' (some r) b ↔ Reaches m (some x.a) b) ∧
      (∀ q c nq nc, Reaches m' (some r) q → ChildOf m' q c → m'.cell q = some nq →
        m'.cell c = some nc → cmp nc.data_ nq.data_ = false) ∧
      ∃ R : Root T, R.a = r ∧ Owns m' R none none ∧ R.addrs.Nodup ∧ Ordered cmp R := by
  obtain ⟨m', R, par', e, hR, hO, hp, -, -⟩ :=
    merge_core cmp MergeMode.TwoPass fuel m x xs hr hd hf
  have hpar : par' = none := hp rfl
  subst hpar
  have hord : Ordered cmp R := fmerge_ordered hcmp.asymm MergeMode.TwoPass _ R ho hR
  have hperm := fmerge_addrs_perm cmp MergeMode.TwoPass _ R hR
  refine ⟨m', R.a, _, e, hO.1, rfl, rfl, merge_nodes cmp MergeMode.TwoPass hr hR hO,
    Owns_heap_order hO hcmp.irrefl hord, R, rfl, hO, hperm.nodup_iff.2 hd, hord⟩

theorem two_pass_merge_result_witness :
    ∃ m' r rn, merge less MergeMode.TwoPass 4 forest3 (some 3) = Except.ok (m', some r) ∧
      m'.cell r = some rn ∧ rn.parent_ = none ∧ rn.right_ = none ∧
      (∀ b, Reaches m' (some r) b ↔ Reaches forest3 (some 3) b) ∧
      (∀ q c nq nc, Reaches m' (some r) q → ChildOf m' q c → m'.cell q = some nq →
        m'.cell c = some nc → less nc.data_ nq.data_ = false) ∧
      ∃ R : Root Nat, R.a = r ∧ Owns m' R none none ∧ R.addrs.Nodup ∧ Ordered less R :=
  two_pass_merge_result less less_strict_weak_order 4 forest3 ⟨3, 1, Tree.nil⟩
    [⟨2, 2, Tree.nil⟩, ⟨1, 3, Tree.nil⟩] forest3_repr (by decide)
    (by
      intro t ht
      simp only [List.mem_cons, List.mem_singleton, List.not_mem_nil, or_false] at ht
      rcases ht with rfl | rfl | rfl <;> exact trivial)
    (by decide)

/-- C23: two-pass merge equals its reference definition.  For a non-empty forest
`t1, ..., tk` on distinct nodes, `first_pass` returns (given fuel for the loops) the
scratch chain of the trees `w_i = pair(t_{2i-1}, t_{2i})`, an odd trailing tree being the
last `w`, with the last `w` at the head of the chain; `second_pass` folds the chain into
the tree the reference computes by starting with the last `w` and pairing the accumulator
with each earlier `w_i` from right to left; that tree is what `merge` leaves in memory
and returns. -/
theorem two_pass_refines_reference (cmp : T → T → Bool) (fuel : Nat) (m : Memory T)
    (x : Root T) (xs : List (Root T)) (hr : Repr m none (unspine (x :: xs)))
    (hd : (laddrs (x :: xs)).Nodup) (hf : (x :: xs).length < fuel) :
    ∃ m1 m' R, two_pass_reference cmp (x :: xs) = some R ∧
      first_pass cmp fuel m (some x.a)
        = Except.ok (m1, hptr (pair_adjacent cmp (x :: xs)).reverse) ∧
      Chain0 m1 (pair_adjacent cmp (x :: xs)).reverse ∧
      second_pass cmp fuel m1 (hptr (pair_adjacent cmp (x :: xs)).reverse)
        = Except.ok (m', some R.a) ∧
      merge cmp MergeMode.TwoPass fuel m (some x.a) = Except.ok (m', some R.a) ∧
      Owns m' R none none := by
  obtain ⟨⟨m1, p⟩, e1, hp, hch⟩ := wp_first_pass cmp fuel x xs m hf hr hd
    (fun r => r.2 = hptr (ffirst cmp (x :: xs)).reverse ∧
      Chain0 r.1 (ffirst cmp (x :: xs)).reverse)
    (fun m1 h _ _ => ⟨rfl, h⟩)
  simp only at hp hch
  subst hp
  have hlen := ffirst_length_le cmp (x :: xs)
  have hperm : (laddrs (ffirst cmp (x :: xs)).reverse).Perm (laddrs (x :: xs)) :=
    (laddrs_reverse_perm _).trans (laddrs_ffirst_perm cmp _)
  have hne : (ffirst cmp (x :: xs)).reverse ≠ [] := by
    simpa only [ne_eq, List.reverse_eq_nil_iff] using ffirst_ne_nil cmp (x :: xs) (by simp)
  have hR : two_pass_reference cmp (x :: xs) = match (ffirst cmp (x :: xs)).reverse with
    | [] => none
    | w :: ws => some (ws.foldl (fpair cmp) w) := two_pass_reference_eq cmp _
  rw [← List.length_reverse] at hlen
  rw [pair_adjacent_eq]
  generalize (ffirst cmp (x :: xs)).reverse = l at *
  cases l with
  | nil => exact absurd rfl hne
  | cons w ws =>
    obtain ⟨⟨m', r⟩, e2, hr2, hO⟩ := wp_second_pass cmp fuel w ws m1
      (by simp only [List.length_cons] at hlen hf; omega) hch (hperm.nodup_iff.2 hd)
      (fun r => r.2 = some (ws.foldl (fpair cmp) w).a ∧
        Owns r.1 (ws.foldl (fpair cmp) w) none none)
      (fun m' h _ _ => ⟨rfl, h⟩)
    simp only at hr2 hO
    subst hr2
    refine ⟨m1, m', _, hR, e1, hch, e2, ?_, hO⟩
    simp only [merge, merge_two_pass, e1, bind_ok]
    exact e2

theorem two_pass_refines_reference_witness :
    ∃ m1 m' R,
      two_pass_reference less [⟨3, 1, Tree.nil⟩, ⟨2, 2, Tree.nil⟩, ⟨1, 3, Tree.nil⟩]
        = some R ∧
      first_pass less 4 forest3 (some 3)
        = Except.ok (m1, hptr (pair_adjacent less
            [⟨3, 1, Tree.nil⟩, ⟨2, 2, Tree.nil⟩, ⟨1, 3, Tree.nil⟩]).reverse) ∧
      Chain0 m1 (pair_adjacent less
        [⟨3, 1, Tree.nil⟩, ⟨2, 2, Tree.nil⟩, ⟨1, 3, Tree.nil⟩]).reverse ∧
      second_pass less 4 m1 (hptr (pair_adjacent less
          [⟨3, 1, Tree.nil⟩, ⟨2, 2, Tree.nil⟩, ⟨1, 3, Tree.nil⟩]).reverse)
        = Except.ok (m', some R.a) ∧
      merge less MergeMode.TwoPass 4 forest3 (some 3) = Except.ok (m', some R.a) ∧
      Owns m' R none none :=
  two_pass_refines_reference less 4 forest3 ⟨3, 1, Tree.nil⟩
    [⟨2, 2, Tree.nil⟩, ⟨1, 3, Tree.nil⟩] forest3_repr (by decide) (by decide)

/-- C24: FIFO-queue merge result.  For a non-empty forest of heap-ordered trees on
distinct nodes, linked through `right_` as `delete_min` hands it over, `merge` with the
`FifoQueue` strategy returns (given fuel for the loops) a node `r`; the nodes reachable
from `r` through `left_` and `right_` are exactly the nodes of the forest, they form one
tree on distinct nodes with a null `right_` at `r`, and no node reachable from `r` has a
child of strictly higher priority. -/
theorem fifo_merge_result (cmp : T → T → Bool) (hcmp : StrictWeakOrder cmp) (fuel : Nat)
    (m : Memory T) (x : Root T) (xs : List (Root T))
    (hr : Repr m none (unspine (x :: xs))) (hd : (laddrs (x :: xs)).Nodup)
    (ho : ∀ t ∈ x :: xs, Ordered cmp t) (hf : (x :: xs).length < fuel) :
    ∃ m' r, merge cmp MergeMode.FifoQueue fuel m (some x.a) = Except.ok (m', some r) ∧
      (∀ b, Reaches m' (some r) b ↔ Reaches m (some x.a) b) ∧
      (∀ q c nq nc, Reaches m' (some r) q → ChildOf m' q c → m'.cell q = some nq →
        m'.cell c = some nc → cmp nc.data_ nq.data_ = false) ∧
      ∃ (R : Root T) (par' : Ptr), R.a = r ∧ Owns m' R par' none ∧ R.addrs.Nodup ∧
        Ordered cmp R := by
  obtain ⟨m', R, par', e, hR, hO, -, -, -⟩ :=
    merge_core cmp MergeMode.FifoQueue fuel m x xs hr hd hf
  have hord : Ordered cmp R := fmerge_ordered hcmp.asymm MergeMode.FifoQueue _ R ho hR
  have hperm := fmerge_addrs_perm cmp MergeMode.FifoQueue _ R hR
  exact ⟨m', R.a, e, merge_nodes cmp MergeMode.FifoQueue hr hR hO,
    Owns_heap_order hO hcmp.irrefl hord, R, par', rfl, hO, hperm.nodup_iff.2 hd, hord⟩

theorem fifo_merge_result_witness :
    ∃ m' r, merge less MergeMode.FifoQueue 4 forest3 (some 3) = Except.ok (m', some r) ∧
      (∀ b, Reaches m' (some r) b ↔ Reaches forest3 (some 3) b) ∧
      (∀ q c nq nc, Reaches m' (some r) q → ChildOf m' q c → m'.cell q = some nq →
        m'.cell c = some nc → less nc.data_ nq.data_ = false) ∧
      ∃ (R : Root Nat) (par' : Ptr), R.a = r ∧ Owns m' R par' none ∧ R.addrs.Nodup ∧
        Ordered less R :=
  fifo_merge_result less less_strict_weak_order 4 forest3 ⟨3, 1, Tree.nil⟩
    [⟨2, 2, Tree.nil⟩, ⟨1, 3, Tree.nil⟩] forest3_repr (by decide)
    (by
      intro t ht
      simp only [List.mem_cons, List.mem_singleton, List.not_mem_nil, or_false] at ht
      rcases ht with rfl | rfl | rfl <;> exact trivial)
    (by decide)

theorem forest2_merge : ∀ fuel m' r,
    merge less MergeMode.FifoQueue fuel forest2 (some 2) = Except.ok (m', r) →
    r = some 2 ∧ m'.cell 2 = some ⟨2, some 2, some 1, none⟩
  | 0, m', r, e => by
    have h : merge less MergeMode.FifoQueue 0 forest2 (some 2)
        = Except.error Fault.out_of_fuel := rfl
    rw [h] at e
    cases e
  | 1, m', r, e => by
    have h : merge less MergeMode.FifoQueue 1 forest2 (some 2)
        = Except.error Fault.out_of_fuel := rfl
    rw [h] at e
    cases e
  | k + 2, m', r, e => by
    obtain ⟨M, hM, hc⟩ : ∃ M, merge less MergeMode.FifoQueue (k + 2) forest2 (some 2)
        = Except.ok (M, some 2) ∧ M.cell 2 = some ⟨2, some 2, some 1, none⟩ := ⟨_, rfl, rfl⟩
    rw [hM] at e
    cases e
    exact ⟨rfl, hc⟩

/-- C25 fails: the FIFO-queue merge can return a root whose `parent_` is not null.  On
the forest of the single nodes 2 (value 2) and 1 (value 3), which `delete_min` hands over
after `insert` of 1, 3, 2, the queue is 1, 2; `pair(1, 2)` makes node 2 the winner, and
`last->parent_ = pair(lhs, rhs)` is executed with `last` being node 2 itself, so the
returned node 2 has `parent_ == ` itself (its `right_` is null).  The heap `delete_min`
leaves then has such a root: `operator++` applied to an iterator at the root returns an
iterator at the root again, and `clear` reads the root after deleting it. -/
theorem fifo_root_self_parent :
    Repr forest2 none (unspine [⟨2, 2, Tree.nil⟩, ⟨1, 3, Tree.nil⟩]) ∧
    (∃ m', merge less MergeMode.FifoQueue 2 forest2 (some 2) = Except.ok (m', some 2)) ∧
    (∀ fuel m' r, merge less MergeMode.FifoQueue fuel forest2 (some 2) = Except.ok (m', r) →
      ∃ rn, m'.deref r = Except.ok rn ∧ rn.parent_ = r ∧ rn.parent_ ≠ none ∧
        rn.right_ = none) ∧
    ∃ m' h' rn, run_calls less MergeMode.FifoQueue 3
        [Call.insert 1, Call.insert 3, Call.insert 2, Call.delete_min] Memory.init
        PairingHeap.mk_empty = Except.ok (m', h') ∧
      m'.deref h'.root_ = Except.ok rn ∧ rn.parent_ = h'.root_ ∧ h'.root_ = some 2 ∧
      PairingTreeIterator.increment 3 m' ⟨h'.root_⟩ = Except.ok ⟨h'.root_⟩ ∧
      clear 3 m' h' = Except.error Fault.bad_access := by
  refine ⟨⟨rfl, trivial, rfl, trivial, trivial⟩, ⟨_, rfl⟩, ?_,
    ⟨_, _, _, rfl, rfl, rfl, rfl, rfl, rfl⟩⟩
  intro fuel m' r e
  obtain ⟨hr, hc⟩ := forest2_merge fuel m' r e
  subst hr
  exact ⟨_, deref_some hc, rfl, by simp, rfl⟩

theorem forest3_fifo : ∀ fuel m' r,
    merge less MergeMode.FifoQueue fuel forest3 (some 3) = Except.ok (m', r) →
    r = some 3 ∧ m'.cell 3 = some ⟨1, none, some 2, none⟩
  | 0, m', r, e => by
    have h : merge less MergeMode.FifoQueue 0 forest3 (some 3)
        = Except.error Fault.out_of_fuel := rfl
    rw [h] at e
    cases e
  | 1, m', r, e => by
    have h : merge less MergeMode.FifoQueue 1 forest3 (some 3)
        = Except.error Fault.out_of_fuel := rfl
    rw [h] at e
    cases e
  | 2, m', r, e => by
    have h : merge less MergeMode.FifoQueue 2 forest3 (some 3)
        = Except.error Fault.out_of_fuel := rfl
    rw [h] at e
    cases e
  | k + 3, m', r, e => by
    obtain ⟨M, hM, hc⟩ : ∃ M, merge less MergeMode.FifoQueue (k + 3) forest3 (some 3)
        = Except.ok (M, some 3) ∧ M.cell 3 = some ⟨1, none, some 2, none⟩ := ⟨_, rfl, rfl⟩
    rw [hM] at e
    cases e
    exact ⟨rfl, hc⟩

/-- C26 as stated fails: on the forest of the single nodes `t1 = 3` (value 1),
`t2 = 2` (value 2), `t3 = 1` (value 3) the reference that starts with the queue
`[t1, t2, t3]` produces node 3 with the children 1 and 2, while `merge` with the
`FifoQueue` strategy, whose queue has the last sibling at the front, returns node 3 with
the only child 2 (whose only child is node 1): whatever the fuel, the memory `merge`
returns does not hold the reference tree. -/
theorem fifo_order_counterexample :
    Repr forest3 none (unspine [⟨3, 1, Tree.nil⟩, ⟨2, 2, Tree.nil⟩, ⟨1, 3, Tree.nil⟩]) ∧
    fifo_reference less [⟨3, 1, Tree.nil⟩, ⟨2, 2, Tree.nil⟩, ⟨1, 3, Tree.nil⟩]
      = some ⟨3, 1, Tree.node 1 3 Tree.nil (Tree.node 2 2 Tree.nil Tree.nil)⟩ ∧
    (∃ m', merge less MergeMode.FifoQueue 3 forest3 (some 3) = Except.ok (m', some 3) ∧
      Owns m' ⟨3, 1, Tree.node 2 2 (Tree.node 1 3 Tree.nil Tree.nil) Tree.nil⟩ none none) ∧
    ∀ fuel m' r, merge less MergeMode.FifoQueue fuel forest3 (some 3) = Except.ok (m', r) →
      ¬ ∃ p rt, Owns m' ⟨3, 1, Tree.node 1 3 Tree.nil (Tree.node 2 2 Tree.nil Tree.nil)⟩
        p rt := by
  refine ⟨forest3_repr, ?_, ⟨_, rfl, rfl, rfl, ⟨rfl, trivial, trivial⟩, trivial⟩, ?_⟩
  · simp [fifo_reference, fpair, less]
  · rintro fuel m' r e ⟨p, rt, hO⟩
    obtain ⟨-, hc⟩ := forest3_fifo fuel m' r e
    have h1 := hO.1
    rw [hc] at h1
    simp at h1

/-- C26, amended: the FIFO-queue merge follows the queue discipline on the reversed
sibling list.  For a non-empty forest `t1, ..., tk` on distinct nodes, `merge` with the
`FifoQueue` strategy returns (given fuel for the loops) the tree the reference computes
from the queue `[tk, ..., t1]`, the last sibling at the front, by repeatedly removing the
two front trees `x` then `y` and appending `pair(x, y)` at the back until one tree
remains; that tree is what `merge` leaves in memory. -/
theorem fifo_refines_reversed_queue (cmp : T → T → Bool) (fuel : Nat) (m : Memory T)
    (x : Root T) (xs : List (Root T)) (hr : Repr m none (unspine (x :: xs)))
    (hd : (laddrs (x :: xs)).Nodup) (hf : (x :: xs).length < fuel) :
    ∃ m' R par', fifo_reference cmp (x :: xs).reverse = some R ∧
      merge cmp MergeMode.FifoQueue fuel m (some x.a) = Except.ok (m', some R.a) ∧
      Owns m' R par' none := by
  obtain ⟨m', R, par', e, hR, hO, -, -, -⟩ :=
    merge_core cmp MergeMode.FifoQueue fuel m x xs hr hd hf
  refine ⟨m', R, par', ?_, e, hO⟩
  rw [fifo_reference_eq cmp (x :: xs).length _ (by simp)]
  exact hR

theorem fifo_refines_reversed_queue_witness :
    ∃ m' R par',
      fifo_reference less
        [⟨3, 1, Tree.nil⟩, ⟨2, 2, Tree.nil⟩, ⟨1, 3, Tree.nil⟩].reverse = some R ∧
      merge less MergeMode.FifoQueue 4 forest3 (some 3) = Except.ok (m', some R.a) ∧
      Owns m' R par' none :=
  fifo_refines_reversed_queue less 4 forest3 ⟨3, 1, Tree.nil⟩
    [⟨2, 2, Tree.nil⟩, ⟨1, 3, Tree.nil⟩] forest3_repr (by decide) (by decide)

theorem Ordered.root_min {cmp : T → T → Bool} (hcmp : StrictWeakOrder cmp) {x : Root T}
    (ho : Ordered cmp x) : ∀ y ∈ x.vals, cmp y x.v = false := by
  intro y hy
  simp only [Root.vals, List.mem_cons] at hy
  rcases hy with rfl | hy
  · exact hcmp.irrefl _
  · exact Below.vals hcmp.neg_trans ho y hy

theorem root_value_unique {cmp : T → T → Bool} (hcmp : StrictWeakOrder cmp) {P : T → Prop}
    (htot : ∀ a b, P a → P b → cmp a b = false → cmp b a = false → a = b) {x1 x2 : Root T}
    (h1 : Ordered cmp x1) (h2 : Ordered cmp x2) (hp : x1.vals.Perm x2.vals)
    (hP : ∀ v ∈ x1.vals, P v) : x1.v = x2.v := by
  have m1 : x1.v ∈ x2.vals := hp.mem_iff.1 (by simp [Root.vals])
  have m2 : x2.v ∈ x1.vals := hp.mem_iff.2 (by simp [Root.vals])
  exact htot _ _ (hP _ (by simp [Root.vals])) (hP _ m2) (Ordered.root_min hcmp h2 _ m1)
    (Ordered.root_min hcmp h1 _ m2)

theorem observe_agree {cmp : T → T → Bool} (hcmp : StrictWeakOrder cmp) {P : T → Prop}
    (htot : ∀ a b, P a → P b → cmp a b = false → cmp b a = false → a = b)
    {m1 m2 : Memory T} {h1 h2 : PairingHeap} {s1 s2 : Option (Root T)} {p1 p2 : Ptr}
    (hi1 : InvP m1 h1 s1 p1) (hi2 : InvP m2 h2 s2 p2) (ho1 : hOrdered cmp s1)
    (ho2 : hOrdered cmp s2) (hp : (hvals s1).Perm (hvals s2)) (hP : ∀ v ∈ hvals s1, P v)
    (hs : h1.size_ = h2.size_) : observe m1 h1 = observe m2 h2 := by
  cases s1 with
  | none =>
    cases s2 with
    | none =>
      simp only [observe, find_min_empty m1 h1 hi1.2, find_min_empty m2 h2 hi2.2,
        PairingHeap.size, hs]
    | some x2 =>
      have := hp.length_eq
      simp [hvals, Root.vals] at this
  | some x1 =>
    cases s2 with
    | none =>
      have := hp.length_eq
      simp [hvals, Root.vals] at this
    | some x2 =>
      simp only [observe, find_min_eq hi1, find_min_eq hi2, PairingHeap.size, hs,
        root_value_unique hcmp htot ho1 ho2 hp hP]

theorem run_observed_agree {cmp : T → T → Bool} (hcmp : StrictWeakOrder cmp) {P : T → Prop}
    (htot : ∀ a b, P a → P b → cmp a b = false → cmp b a = false → a = b)
    (mode1 mode2 : MergeMode) (fuel : Nat) : ∀ (cs : List (Call T)) (m1 m2 : Memory T)
    (h1 h2 : PairingHeap) (s1 s2 : Option (Root T)) (p1 p2 : Ptr),
    InvP m1 h1 s1 p1 → InvP m2 h2 s2 p2 → hOrdered cmp s1 → hOrdered cmp s2 →
    (hvals s1).Perm (hvals s2) → (∀ v ∈ hvals s1, P v) → (∀ v, Call.insert v ∈ cs → P v) →
    h1.size_ = h2.size_ → never_underflows h1.size_ cs →
    m1.brk + count_insert cs ≤ fuel → m2.brk + count_insert cs ≤ fuel →
    ∃ tr, run_observed cmp mode1 fuel cs m1 h1 = Except.ok tr ∧
      run_observed cmp mode2 fuel cs m2 h2 = Except.ok tr ∧ tr.length = cs.length
  | [], _, _, _, _, _, _, _, _, _, _, _, _, _, _, _, _, _, _, _ => ⟨[], rfl, rfl, rfl⟩
  | Call.insert v :: cs, m1, m2, h1, h2, s1, s2, p1, p2, hi1, hi2, ho1, ho2, hp, hP, hC, hs,
      hn, hf1, hf2 => by
    simp only [never_underflows, count_insert] at hn hf1 hf2
    obtain ⟨⟨m1', h1', a1⟩, e1, hi1', hb1, hs1⟩ := wp_insert cmp m1 h1 s1 p1 v hi1
      (fun r => (∃ par', InvP r.1 r.2.1 (finsert cmp s1 m1.brk v) par') ∧
        r.1.brk = m1.brk + 1 ∧ r.2.1.size_ = h1.size_ + 1)
      (fun m' h' par' hi _ hb hs _ => ⟨⟨par', hi⟩, hb, hs⟩)
    obtain ⟨⟨m2', h2', a2⟩, e2, hi2', hb2, hs2⟩ := wp_insert cmp m2 h2 s2 p2 v hi2
      (fun r => (∃ par', InvP r.1 r.2.1 (finsert cmp s2 m2.brk v) par') ∧
        r.1.brk = m2.brk + 1 ∧ r.2.1.size_ = h2.size_ + 1)
      (fun m' h' par' hi _ hb hs _ => ⟨⟨par', hi⟩, hb, hs⟩)
    simp only at hi1' hb1 hs1 hi2' hb2 hs2
    obtain ⟨q1, hi1'⟩ := hi1'
    obtain ⟨q2, hi2'⟩ := hi2'
    have ho1' := finsert_ordered hcmp.asymm s1 m1.brk v ho1
    have ho2' := finsert_ordered hcmp.asymm s2 m2.brk v ho2
    have hp' : (hvals (finsert cmp s1 m1.brk v)).Perm (hvals (finsert cmp s2 m2.brk v)) :=
      (finsert_vals_perm cmp s1 _ v).trans
        ((hp.append_right [v]).trans (finsert_vals_perm cmp s2 _ v).symm)
    have hP' : ∀ u ∈ hvals (finsert cmp s1 m1.brk v), P u := by
      intro u hu
      have := (finsert_vals_perm cmp s1 _ v).mem_iff.1 hu
      simp only [List.mem_append, List.mem_singleton] at this
      rcases this with h | rfl
      · exact hP u h
      · exact hC _ (by simp)
    have hs' : h1'.size_ = h2'.size_ := by omega
    obtain ⟨tr, t1, t2, hl⟩ := run_observed_agree hcmp htot mode1 mode2 fuel cs m1' m2' h1' h2'
      _ _ q1 q2 hi1' hi2' ho1' ho2' hp' hP' (fun u hu => hC u (by simp [hu])) hs'
      (by rw [hs1]; exact hn) (by omega) (by omega)
    refine ⟨observe m1' h1' :: tr, ?_, ?_, by simp [hl]⟩
    · simp only [run_observed, e1, bind_ok, t1, pure_eq_ok]
    · simp only [run_observed, e2, bind_ok, t2, pure_eq_ok,
        observe_agree hcmp htot hi1' hi2' ho1' ho2' hp' hP' hs']
  | Call.delete_min :: cs, m1, m2, h1, h2, s1, s2, p1, p2, hi1, hi2, ho1, ho2, hp, hP, hC, hs,
      hn, hf1, hf2 => by
    simp only [never_underflows, count_insert] at hn hf1 hf2
    cases s1 with
    | none => exact absurd hi1.2 (by omega)
    | some x1 =>
      cases s2 with
      | none => exact absurd hi2.2 (by omega)
      | some x2 =>
        obtain ⟨⟨m1', h1'⟩, e1, hi1', hb1, hs1⟩ := wp_delete_min cmp mode1 fuel m1 h1 x1 p1 hi1
          (by have := hi1.length_le; omega)
          (fun r => (∃ par', InvP r.1 r.2 (fdelete_min cmp mode1 (some x1)) par') ∧
            r.1.brk = m1.brk ∧ r.2.size_ + 1 = h1.size_)
          (fun m' h' par' hi _ hb hs _ _ => ⟨⟨par', hi⟩, hb, hs⟩)
        obtain ⟨⟨m2', h2'⟩, e2, hi2', hb2, hs2⟩ := wp_delete_min cmp mode2 fuel m2 h2 x2 p2 hi2
          (by have := hi2.length_le; omega)
          (fun r => (∃ par', InvP r.1 r.2 (fdelete_min cmp mode2 (some x2)) par') ∧
            r.1.brk = m2.brk ∧ r.2.size_ + 1 = h2.size_)
          (fun m' h' par' hi _ hb hs _ _ => ⟨⟨par', hi⟩, hb, hs⟩)
        simp only at hi1' hb1 hs1 hi2' hb2 hs2
        obtain ⟨q1, hi1'⟩ := hi1'
        obtain ⟨q2, hi2'⟩ := hi2'
        have ho1' := fdelete_min_ordered hcmp.asymm mode1 (some x1) ho1
        have ho2' := fdelete_min_ordered hcmp.asymm mode2 (some x2) ho2
        have hv : x1.v = x2.v := root_value_unique hcmp htot ho1 ho2 hp hP
        have hp' : (hvals (fdelete_min cmp mode1 (some x1))).Perm
            (hvals (fdelete_min cmp mode2 (some x2))) := by
          have h3 := (fdelete_min_vals_perm cmp mode1 x1).trans
            (hp.trans (fdelete_min_vals_perm cmp mode2 x2).symm)
          rw [hv] at h3
          exact h3.cons_inv
        have hP' : ∀ u ∈ hvals (fdelete_min cmp mode1 (some x1)), P u := by
          intro u hu
          exact hP u ((fdelete_min_vals_perm cmp mode1 x1).mem_iff.1 (by simp [hu]))
        have hs' : h1'.size_ = h2'.size_ := by omega
        obtain ⟨tr, t1, t2, hl⟩ := run_observed_agree hcmp htot mode1 mode2 fuel cs m1' m2'
          h1' h2' _ _ q1 q2 hi1' hi2' ho1' ho2' hp' hP' (fun u hu => hC u (by simp [hu])) hs'
          (by
            have : h1'.size_ = h1.size_ - 1 := by omega
            rw [this]
            exact hn.2) (by omega) (by omega)
        refine ⟨observe m1' h1' :: tr, ?_, ?_, by simp [hl]⟩
        · simp only [run_observed, e1, bind_ok, t1, pure_eq_ok]
        · simp only [run_observed, e2, bind_ok, t2, pure_eq_ok,
            observe_agree hcmp htot hi1' hi2' ho1' ho2' hp' hP' hs']

/-- C27: both merge strategies give the same answers.  For a comparator that is a strict
weak ordering and totally orders the inserted values (of two different inserted values
one is before the other), and a sequence of `insert` and `delete_min` calls in which no
`delete_min` meets an empty heap, a heap using `TwoPass` and a heap using `FifoQueue`,
both starting empty, complete every call (given fuel for the loops), and after every call
`find_min` returns the same on both (the same value, or `std::out_of_range` on both when
the heaps are empty) and `size` returns the same on both. -/
theorem merge_modes_agree (cmp : T → T → Bool) (hcmp : StrictWeakOrder cmp)
    (cs : List (Call T))
    (htot : ∀ a b, Call.insert a ∈ cs → Call.insert b ∈ cs → cmp a b = false →
      cmp b a = false → a = b)
    (fuel : Nat) (hn : never_underflows 0 cs) (hf : count_insert cs ≤ fuel) :
    ∃ tr, run_observed cmp MergeMode.TwoPass fuel cs Memory.init PairingHeap.mk_empty
        = Except.ok tr ∧
      run_observed cmp MergeMode.FifoQueue fuel cs Memory.init PairingHeap.mk_empty
        = Except.ok tr ∧ tr.length = cs.length := by
  have hi : InvP (Memory.init : Memory T) PairingHeap.mk_empty none none :=
    InvP_empty_heap _ _
  refine run_observed_agree hcmp htot MergeMode.TwoPass MergeMode.FifoQueue fuel cs _ _ _ _
    none none none none hi hi trivial trivial (List.Perm.refl _) ?_ (fun v hv => hv) rfl hn
    ?_ ?_
  · intro v hv
    simp [hvals] at hv
  · simpa [Memory.init] using hf
  · simpa [Memory.init] using hf

theorem merge_modes_agree_witness :
    ∃ tr, run_observed less MergeMode.TwoPass 4
        [Call.insert 2, Call.insert 1, Call.insert 3, Call.insert 1, Call.delete_min,
          Call.delete_min] Memory.init PairingHeap.mk_empty = Except.ok tr ∧
      run_observed less MergeMode.FifoQueue 4
        [Call.insert 2, Call.insert 1, Call.insert 3, Call.insert 1, Call.delete_min,
          Call.delete_min] Memory.init PairingHeap.mk_empty = Except.ok tr ∧
      tr.length = [Call.insert 2, Call.insert 1, Call.insert 3, Call.insert 1,
        Call.delete_min, Call.delete_min].length :=
  merge_modes_agree less less_strict_weak_order _
    (by
      intro a b _ _ h1 h2
      simp only [less, decide_eq_false_iff_not, not_lt] at h1 h2
      omega)
    4 ⟨by decide, by decide, trivial⟩ (by decide)

theorem sibs_sublist : ∀ t : Tree T, t.sibs.Sublist t.addrs
  | Tree.nil => List.Sublist.slnil
  | Tree.node a v l r => by
    simp only [Tree.sibs, addrs_node]
    exact List.Sublist.cons₂ a
      ((sibs_sublist r).trans (List.sublist_append_right l.addrs r.addrs))

theorem Repr.sib_iff {m : Memory T} : ∀ (t : Tree T) (par : Ptr) (c : Nat), Repr m par t →
    (SibOf m t.ptr c ↔ c ∈ t.sibs)
  | Tree.nil, _, c, _ => by
    simp only [ptr_nil, Tree.sibs, List.not_mem_nil, iff_false]
    intro h
    cases h
  | Tree.node a v l r, par, c, ⟨hc, _, hr⟩ => by
    simp only [ptr_node, Tree.sibs, List.mem_cons]
    constructor
    · intro h
      cases h with
      | head _ n hn => exact Or.inl rfl
      | next _ n _ hn hs =>
        rw [hc] at hn
        cases hn
        exact Or.inr ((Repr.sib_iff r _ c hr).1 hs)
    · rintro (rfl | h)
      · exact SibOf.head _ _ hc
      · exact SibOf.next _ _ _ hc ((Repr.sib_iff r _ c hr).2 h)

theorem Repr.subtree {m : Memory T} : ∀ (t : Tree T) (par : Ptr), Repr m par t →
    t.addrs.Nodup → ∀ n ∈ t.addrs, ∃ (v : T) (p : Ptr) (l r : Tree T),
      m.cell n = some ⟨v, p, l.ptr, r.ptr⟩ ∧ Repr m (some n) l ∧ Repr m (some n) r ∧
      (n :: (l.addrs ++ r.addrs)).Nodup
  | Tree.nil, _, _, _, n, hn => by simp at hn
  | Tree.node a v l r, par, ⟨hc, hl, hr⟩, hd, n, hn => by
    simp only [addrs_node, List.mem_cons, List.mem_append] at hn
    have hd' := hd
    simp only [addrs_node, List.nodup_cons, List.nodup_append] at hd'
    rcases hn with rfl | hn | hn
    · exact ⟨v, par, l, r, hc, hl, hr, hd⟩
    · exact Repr.subtree l _ hl hd'.2.1 n hn
    · exact Repr.subtree r _ hr hd'.2.2.1 n hn

/-- C28: link well-formedness invariant (two-pass strategy).  In every state reachable
from the empty heaps by `insert`, `delete_min`, `meld`, `decrease_key` (after the value
was lowered) and `erase`, for every heap: the root has a null `parent_` and a null
`right_`; for every node `n` of the heap a non-null `n.left_` is a node whose `parent_`
is `n`, and so is a non-null `n.right_`; no node can be reached from its own `left_` or
`right_` (no cycle), no node can be reached from both the `left_` and the `right_` of a
node (no sharing), the nodes are finitely many, `size()` of them; and the children of
every node, the nodes on the `right_` chain that starts at its `left_`, form a finite
list without repetition. -/
theorem links_well_formed (cmp : T → T → Bool) (hcmp : StrictWeakOrder cmp) (w : World T)
    (hr : Reachable cmp MergeMode.TwoPass w) (i : Nat) :
    (∀ rn, w.mem.deref (w.heap i).root_ = Except.ok rn →
      rn.parent_ = none ∧ rn.right_ = none) ∧
    (∀ n nn, Reaches w.mem (w.heap i).root_ n → w.mem.cell n = some nn →
      (∀ c, nn.left_ = some c → ∃ nc, w.mem.cell c = some nc ∧ nc.parent_ = some n) ∧
      (∀ c, nn.right_ = some c → ∃ nc, w.mem.cell c = some nc ∧ nc.parent_ = some n) ∧
      ¬ Reaches w.mem nn.left_ n ∧ ¬ Reaches w.mem nn.right_ n ∧
      (∀ b, Reaches w.mem nn.left_ b → ¬ Reaches w.mem nn.right_ b) ∧
      ∃ cs : List Nat, cs.Nodup ∧ ∀ c, ChildOf w.mem n c ↔ c ∈ cs) ∧
    (∃ S : List Nat, S.Nodup ∧ (∀ b, Reaches w.mem (w.heap i).root_ b ↔ b ∈ S) ∧
      (w.heap i).size = S.length) ∧
    ∃ s, InvP w.mem (w.heap i) s none := by
  obtain ⟨ts, ps, hI, -, -, hP⟩ := hr.winv hcmp
  have hi := hI i
  rw [hP rfl i] at hi
  refine ⟨?_, ?_, hi.consistent.1, ts i, hi⟩
  · intro rn e
    cases hs : ts i with
    | none =>
      rw [hs] at hi
      rw [hi.1] at e
      cases e
    | some x =>
      rw [hs] at hi
      rw [hi.1, deref_some hi.2.2.1.1] at e
      cases e
      exact ⟨rfl, rfl⟩
  · intro n nn hn hc
    obtain ⟨x, hs, hmem⟩ := hi.mem_of_reaches hn
    rw [hs] at hi
    have hrep : Repr w.mem none (Tree.node x.a x.v x.kids Tree.nil) :=
      ⟨hi.2.2.1.1, hi.2.2.1.2, trivial⟩
    have hnd : (Tree.node x.a x.v x.kids Tree.nil).addrs.Nodup := by
      simpa [Root.addrs] using hi.2.2.2.1
    obtain ⟨v, p, l, r, hcell, hl, hr', hd⟩ := Repr.subtree _ _ hrep hnd n
      (by simpa [Root.addrs] using hmem)
    rw [hcell] at hc
    cases hc
    simp only [List.nodup_cons, List.mem_append, not_or, List.nodup_append] at hd
    refine ⟨?_, ?_, ?_, ?_, ?_, l.sibs, (sibs_sublist l).nodup hd.2.1, ?_⟩
    · intro c hc
      cases l with
      | nil => cases hc
      | node a v' l' r' =>
        simp only [ptr_node, Option.some.injEq] at hc
        subst hc
        exact ⟨_, hl.1, rfl⟩
    · intro c hc
      cases r with
      | nil => cases hc
      | node a v' l' r' =>
        simp only [ptr_node, Option.some.injEq] at hc
        subst hc
        exact ⟨_, hr'.1, rfl⟩
    · intro h
      exact hd.1.1 (Repr.reaches_mem l _ n hl h)
    · intro h
      exact hd.1.2 (Repr.reaches_mem r _ n hr' h)
    · intro b h1 h2
      exact hd.2.2.2 (Repr.reaches_mem l _ b hl h1) (Repr.reaches_mem r _ b hr' h2)
    · intro c
      constructor
      · rintro ⟨np, hnp, hs⟩
        rw [hcell] at hnp
        cases hnp
        exact (Repr.sib_iff l _ c hl).1 hs
      · intro h
        exact ⟨_, hcell, (Repr.sib_iff l _ c hl).2 h⟩

theorem links_well_formed_witness :
    (∀ rn, twin_world.mem.deref (twin_world.heap 0).root_ = Except.ok rn →
      rn.parent_ = none ∧ rn.right_ = none) ∧
    (∀ n nn, Reaches twin_world.mem (twin_world.heap 0).root_ n →
      twin_world.mem.cell n = some nn →
      (∀ c, nn.left_ = some c →
        ∃ nc, twin_world.mem.cell c = some nc ∧ nc.parent_ = some n) ∧
      (∀ c, nn.right_ = some c →
        ∃ nc, twin_world.mem.cell c = some nc ∧ nc.parent_ = some n) ∧
      ¬ Reaches twin_world.mem nn.left_ n ∧ ¬ Reaches twin_world.mem nn.right_ n ∧
      (∀ b, Reaches twin_world.mem nn.left_ b → ¬ Reaches twin_world.mem nn.right_ b) ∧
      ∃ cs : List Nat, cs.Nodup ∧ ∀ c, ChildOf twin_world.mem n c ↔ c ∈ cs) ∧
    (∃ S : List Nat, S.Nodup ∧
      (∀ b, Reaches twin_world.mem (twin_world.heap 0).root_ b ↔ b ∈ S) ∧
      (twin_world.heap 0).size = S.length) ∧
    ∃ s, InvP twin_world.mem (twin_world.heap 0) s none :=
  links_well_formed less less_strict_weak_order twin_world twin_world_reachable 0

theorem children_of_not_mem (b : Nat) : ∀ t : Tree T, b ∉ t.addrs → t.children b = []
  | Tree.nil, _ => rfl
  | Tree.node a v l r, h => by
    simp only [addrs_node, List.mem_cons, List.mem_append, not_or] at h
    have hab : a ≠ b := fun e => h.1 e.symm
    simp only [Tree.children, hab, if_false, children_of_not_mem b l h.2.1,
      children_of_not_mem b r h.2.2, List.append_nil]

theorem children_subset (b : Nat) : ∀ (t : Tree T) (c : Nat), c ∈ t.children b → c ∈ t.addrs
  | Tree.nil, c, h => by simp [Tree.children] at h
  | Tree.node a v l r, c, h => by
    simp only [addrs_node, List.mem_cons, List.mem_append]
    by_cases hab : a = b
    · simp only [Tree.children, hab, if_true] at h
      exact Or.inr (Or.inl ((sibs_sublist l).subset h))
    · simp only [Tree.children, hab, if_false, List.mem_append] at h
      rcases h with h | h
      · exact Or.inr (Or.inl (children_subset b l c h))
      · exact Or.inr (Or.inr (children_subset b r c h))

theorem filter_ne_of_not_mem {a : Nat} {l : List Nat} (h : a ∉ l) :
    l.filter (fun c => !decide (c = a)) = l := by
  rw [List.filter_eq_self]
  intro c hc
  simp only [Bool.not_eq_eq_eq_not, Bool.not_true, decide_eq_false_iff_not]
  intro e
  exact h (e ▸ hc)

theorem extract_sibs (a : Nat) : ∀ (t : Tree T) (n : Root T) (t' : Tree T), t.addrs.Nodup →
    t.extract a = some (n, t') → t'.sibs = t.sibs.filter (fun c => decide (c ≠ a))
  | Tree.nil, _, _, _, h => by simp [Tree.extract] at h
  | Tree.node b v l r, n, t', hd, h => by
    simp only [addrs_node, List.nodup_cons, List.mem_append, not_or, List.nodup_append] at hd
    by_cases hb : b = a
    · simp only [Tree.extract, hb, if_true, Option.some.injEq, Prod.mk.injEq] at h
      obtain ⟨-, rfl⟩ := h
      subst hb
      have : b ∉ r.sibs := fun hh => hd.1.2 ((sibs_sublist r).subset hh)
      simp [Tree.sibs, filter_ne_of_not_mem this]
    · simp only [Tree.extract, hb, if_false] at h
      cases hl : l.extract a with
      | some p =>
        obtain ⟨n1, l'⟩ := p
        simp only [hl, Option.some.injEq, Prod.mk.injEq] at h
        obtain ⟨-, rfl⟩ := h
        have hal := mem_of_extract a l n1 l' hl
        have : a ∉ r.sibs := fun hh => hd.2.2.2 hal ((sibs_sublist r).subset hh)
        simp [Tree.sibs, hb, filter_ne_of_not_mem this]
      | none =>
        simp only [hl] at h
        cases hr : r.extract a with
        | some p =>
          obtain ⟨n1, r'⟩ := p
          simp only [hr, Option.some.injEq, Prod.mk.injEq] at h
          obtain ⟨-, rfl⟩ := h
          simp [Tree.sibs, hb, extract_sibs a r n1 r' hd.2.2.1 hr]
        | none => simp [hr] at h

theorem extract_children (a : Nat) : ∀ (t : Tree T) (n : Root T) (t' : Tree T),
    t.addrs.Nodup → t.extract a = some (n, t') →
    (∀ c, c ∈ n.addrs → n.children c = t.children c) ∧
    (∀ c, c ∉ n.addrs → t'.children c = (t.children c).filter (fun d => decide (d ≠ a)))
  | Tree.nil, _, _, _, h => by simp [Tree.extract] at h
  | Tree.node b v l r, n, t', hd, h => by
    have hd' := hd
    simp only [addrs_node, List.nodup_cons, List.mem_append, not_or, List.nodup_append] at hd'
    by_cases hb : b = a
    · simp only [Tree.extract, hb, if_true, Option.some.injEq, Prod.mk.injEq] at h
      obtain ⟨rfl, rfl⟩ := h
      subst hb
      constructor
      · intro c hc
        simp only [Root.addrs, List.mem_cons] at hc
        by_cases hbc : b = c
        · simp [Root.children, Tree.children, hbc]
        · have hcl : c ∈ l.addrs := by
            rcases hc with e | e
            · exact absurd e.symm hbc
            · exact e
          have hcr : c ∉ r.addrs := fun hh => hd'.2.2.2 hcl hh
          simp [Root.children, Tree.children, hbc, children_of_not_mem c r hcr]
      · intro c hc
        simp only [Root.addrs, List.mem_cons, not_or] at hc
        have hbc : b ≠ c := fun e => hc.1 e.symm
        have : b ∉ r.children c := fun hh => hd'.1.2 (children_subset c r b hh)
        simp [Tree.children, hbc, children_of_not_mem c l hc.2, filter_ne_of_not_mem this]
    · simp only [Tree.extract, hb, if_false] at h
      cases hl : l.extract a with
      | some p =>
        obtain ⟨n1, l'⟩ := p
        simp only [hl, Option.some.injEq, Prod.mk.injEq] at h
        obtain ⟨rfl, rfl⟩ := h
        have hal := mem_of_extract a l n1 l' hl
        have hperm := extract_addrs_perm a l n1 l' hl
        obtain ⟨ih1, ih2⟩ := extract_children a l n1 l' hd'.2.1 hl
        have har : a ∉ r.addrs := fun hh => hd'.2.2.2 hal hh
        constructor
        · intro c hc
          have hcl : c ∈ l.addrs := hperm.mem_iff.1 (by simp [hc])
          have hbc : b ≠ c := fun e => hd'.1.1 (e ▸ hcl)
          have hcr : c ∉ r.addrs := fun hh => hd'.2.2.2 hcl hh
          simp [Tree.children, hbc, ih1 c hc, children_of_not_mem c r hcr]
        · intro c hc
          by_cases hbc : b = c
          · simp [Tree.children, hbc, extract_sibs a l n1 l' hd'.2.1 hl]
          · have : a ∉ r.children c := fun hh => har (children_subset c r a hh)
            simp [Tree.children, hbc, ih2 c hc, filter_ne_of_not_mem this]
      | none =>
        simp only [hl] at h
        cases hr : r.extract a with
        | some p =>
          obtain ⟨n1, r'⟩ := p
          simp only [hr, Option.some.injEq, Prod.mk.injEq] at h
          obtain ⟨rfl, rfl⟩ := h
          have har := mem_of_extract a r n1 r' hr
          have hperm := extract_addrs_perm a r n1 r' hr
          obtain ⟨ih1, ih2⟩ := extract_children a r n1 r' hd'.2.2.1 hr
          have hal : a ∉ l.addrs := fun hh => hd'.2.2.2 hh har
          constructor
          · intro c hc
            have hcr : c ∈ r.addrs := hperm.mem_iff.1 (by simp [hc])
            have hbc : b ≠ c := fun e => hd'.1.2 (e ▸ hcr)
            have hcl : c ∉ l.addrs := fun hh => hd'.2.2.2 hh hcr
            simp [Tree.children, hbc, ih1 c hc, children_of_not_mem c l hcl]
          · intro c hc
            by_cases hbc : b = c
            · have : a ∉ l.sibs := fun hh => hal ((sibs_sublist l).subset hh)
              simp [Tree.children, hbc, filter_ne_of_not_mem this]
            · have : a ∉ l.children c := fun hh => hal (children_subset c l a hh)
              simp [Tree.children, hbc, ih2 c hc, filter_ne_of_not_mem this]
        | none => simp [hr] at h

theorem dec_key_steps (cmp : T → T → Bool) (m : Memory T) (h : PairingHeap) (x : Root T)
    (par : Ptr) (a : Nat) (n : Root T) (kids' : Tree T) (hi : InvP m h (some x) par)
    (hex : x.kids.extract a = some (n, kids')) :
    ∃ m1 m2 par', dec_key_splice m (some a) = Except.ok m1 ∧ Owns m1 n none none ∧
      Owns m1 ⟨x.a, x.v, kids'⟩ par none ∧
      pair cmp m1 (some a) h.root_
        = Except.ok (m2, some (fpair cmp n ⟨x.a, x.v, kids'⟩).a) ∧
      dec_key_impl cmp m h (some a)
        = Except.ok (m2, ⟨some (fpair cmp n ⟨x.a, x.v, kids'⟩).a, h.size_⟩) ∧
      InvP m2 ⟨some (fpair cmp n ⟨x.a, x.v, kids'⟩).a, h.size_⟩
        (some (fpair cmp n ⟨x.a, x.v, kids'⟩)) par' ∧
      (fpair cmp n ⟨x.a, x.v, kids'⟩).addrs.Perm x.addrs ∧
      ∀ b, b ∉ x.addrs → m2.cell b = m.cell b := by
  obtain ⟨hr, hs, hx, hd, hlt⟩ := hi
  have hna := extract_a a _ n kids' hex
  have hperm := extract_addrs_perm a _ n kids' hex
  have hak := mem_of_extract a _ n kids' hex
  have hd' := hd
  simp only [Root.addrs, List.nodup_cons] at hd'
  have hne : (some a : Ptr) ≠ h.root_ := by
    rw [hr]
    intro e
    simp only [Option.some.injEq] at e
    exact hd'.1 (e ▸ hak)
  obtain ⟨m1, e1, hk1, hn1, hc1, hb1, hf1⟩ := wp_splice a x.kids m x.a _ true n kids' hx.1
    (by simp) hx.2 hd hex
    (fun m1 => Repr m1 (some x.a) kids' ∧ Owns m1 n none none ∧
      m1.cell x.a = some ⟨x.v, par, kids'.ptr, none⟩ ∧ m1.brk = m.brk ∧
      ∀ c, c ∉ x.a :: x.kids.addrs → m1.cell c = m.cell c)
    (fun m' h1 h2 h3 h4 h5 => ⟨h1, h2, by simpa using h3, h4, h5⟩)
  have hroot : Owns m1 ⟨x.a, x.v, kids'⟩ par none := ⟨hc1, hk1⟩
  have hp2 : (n.addrs ++ (⟨x.a, x.v, kids'⟩ : Root T).addrs).Perm x.addrs := by
    simp only [Root.addrs]
    exact List.perm_middle.trans ((hperm.cons x.a))
  have hnd : (n.addrs ++ (⟨x.a, x.v, kids'⟩ : Root T).addrs).Nodup := hp2.nodup_iff.2 hd
  obtain ⟨⟨m2, r⟩, e2, hr2, hO2, hb2, hf2⟩ := wp_pair cmp m1 n ⟨x.a, x.v, kids'⟩ none none
    par none hn1 hroot hnd
    (fun r => r.2 = some (fpair cmp n ⟨x.a, x.v, kids'⟩).a ∧
      Owns r.1 (fpair cmp n ⟨x.a, x.v, kids'⟩) (if cmp n.v x.v = true then none else par)
        none ∧ r.1.brk = m1.brk ∧
      ∀ b, b ∉ n.addrs → b ∉ (⟨x.a, x.v, kids'⟩ : Root T).addrs → r.1.cell b = m1.cell b)
    (fun m' h1 h2 h3 => ⟨rfl, by simpa using h1, h2, h3⟩)
  simp only at hr2 hO2 hb2 hf2
  subst hr2
  rw [hna, ← hr] at e2
  have hp3 := (fpair_addrs_perm cmp n ⟨x.a, x.v, kids'⟩).trans hp2
  obtain ⟨r, e3, hr3⟩ := (wp_dec_key_impl_iff cmp m h (some a) hne
    (fun r => r = (m2, ⟨some (fpair cmp n ⟨x.a, x.v, kids'⟩).a, h.size_⟩))).2
    ⟨m1, e1, _, e2, rfl⟩
  subst hr3
  refine ⟨m1, m2, _, e1, hn1, hroot, e2, e3,
    ⟨rfl, by rw [hs, hp3.length_eq], hO2, hp3.nodup_iff.2 hd, ?_⟩, hp3, ?_⟩
  · intro b hb
    rw [hb2, hb1]
    exact hlt b (hp3.mem_iff.1 hb)
  · intro b hb
    have h1 : b ∉ n.addrs ++ (⟨x.a, x.v, kids'⟩ : Root T).addrs :=
      fun hh => hb (hp2.mem_iff.1 hh)
    simp only [List.mem_append, not_or] at h1
    rw [hf2 b h1.1 h1.2, hf1 b hb]

theorem quad_inv : InvP quad.1 quad.2 (some ⟨0, 0,
    Tree.node 3 1 Tree.nil (Tree.node 2 2 Tree.nil (Tree.node 1 3 Tree.nil Tree.nil))⟩) none :=
  ⟨rfl, rfl, ⟨rfl, rfl, trivial, rfl, trivial, rfl, trivial, trivial⟩, by decide, by decide⟩

/-- C29: the `decrease_key` splice.  Called on the root, `decrease_key` changes nothing.
Called on a non-root node `a` of a well-formed heap with tree `x`, it first detaches `a`
with its own children: the child lists inside the detached tree `n` are as before, every
other child list is the previous one without `a` (same order, same parent), the memory
then holds `n` with null `parent_` and null `right_` next to the remaining tree; then it
sets `root_ = pair(a, old root)`; `size()` and the set of nodes are unchanged and the
heap is well formed again. -/
theorem decrease_key_splice (cmp : T → T → Bool) (m : Memory T) (h : PairingHeap)
    (x : Root T) (par : Ptr) (a : Nat) (hi : InvP m h (some x) par)
    (ha : a ∈ x.kids.addrs) :
    decrease_key cmp m h h.root_ = Except.ok (m, h) ∧
    ∃ (n : Root T) (kids' : Tree T) (m1 m2 : Memory T) (r : Ptr),
      x.kids.extract a = some (n, kids') ∧ n.a = a ∧
      (∀ c, c ∈ n.addrs → n.children c = x.children c) ∧
      (∀ c, c ∉ n.addrs → (⟨x.a, x.v, kids'⟩ : Root T).children c
        = (x.children c).filter (fun d => decide (d ≠ a))) ∧
      dec_key_splice m (some a) = Except.ok m1 ∧
      Owns m1 n none none ∧ Owns m1 ⟨x.a, x.v, kids'⟩ par none ∧
      pair cmp m1 (some a) h.root_ = Except.ok (m2, r) ∧
      decrease_key cmp m h (some a) = Except.ok (m2, ⟨r, h.size_⟩) ∧
      WellFormed m2 ⟨r, h.size_⟩ ∧
      ∀ b, Reaches m2 r b ↔ Reaches m h.root_ b := by
  refine ⟨dec_key_impl_root cmp m h, ?_⟩
  obtain ⟨⟨n, kids'⟩, hex⟩ := extract_of_mem a x.kids ha
  obtain ⟨m1, m2, par', e1, hn1, hroot, e2, e3, hi2, hperm, -⟩ :=
    dec_key_steps cmp m h x par a n kids' hi hex
  have hd := hi.2.2.2.1
  have hd' := hd
  simp only [Root.addrs, List.nodup_cons] at hd'
  obtain ⟨c1, c2⟩ := extract_children a x.kids n kids' hd'.2 hex
  have hxn : x.a ∉ n.addrs := by
    intro hh
    have := (extract_addrs_perm a _ n kids' hex).mem_iff.1 (List.mem_append_left _ hh)
    exact hd'.1 this
  refine ⟨n, kids', m1, m2, _, hex, extract_a a _ n kids' hex, ?_, ?_, e1, hn1, hroot, e2, e3,
    ⟨_, _, hi2⟩, ?_⟩
  · intro c hc
    have hcx : x.a ≠ c := fun e => hxn (e ▸ hc)
    simp only [Root.children, hcx, if_false] at c1 ⊢
    rw [← c1 c hc]
  · intro c hc
    by_cases hcx : x.a = c
    · simp only [Root.children, hcx, if_true]
      exact extract_sibs a x.kids n kids' hd'.2 hex
    · simp only [Root.children, hcx, if_false]
      exact c2 c hc
  · intro b
    rw [hi2.reaches_iff b, hi.reaches_iff b]
    exact hperm.mem_iff

theorem decrease_key_splice_witness :
    decrease_key less quad.1 quad.2 quad.2.root_ = Except.ok (quad.1, quad.2) ∧
    ∃ (n : Root Nat) (kids' : Tree Nat) (m1 m2 : Memory Nat) (r : Ptr),
      (Tree.node 3 1 Tree.nil (Tree.node 2 2 Tree.nil
        (Tree.node 1 3 Tree.nil Tree.nil))).extract 2 = some (n, kids') ∧ n.a = 2 ∧
      (∀ c, c ∈ n.addrs → n.children c = (⟨0, 0, Tree.node 3 1 Tree.nil
        (Tree.node 2 2 Tree.nil (Tree.node 1 3 Tree.nil Tree.nil))⟩ : Root Nat).children c) ∧
      (∀ c, c ∉ n.addrs → (⟨0, 0, kids'⟩ : Root Nat).children c
        = ((⟨0, 0, Tree.node 3 1 Tree.nil (Tree.node 2 2 Tree.nil
            (Tree.node 1 3 Tree.nil Tree.nil))⟩ : Root Nat).children c).filter
          (fun d => decide (d ≠ 2))) ∧
      dec_key_splice quad.1 (some 2) = Except.ok m1 ∧
      Owns m1 n none none ∧ Owns m1 ⟨0, 0, kids'⟩ none none ∧
      pair less m1 (some 2) quad.2.root_ = Except.ok (m2, r) ∧
      decrease_key less quad.1 quad.2 (some 2) = Except.ok (m2, ⟨r, quad.2.size_⟩) ∧
      WellFormed m2 ⟨r, quad.2.size_⟩ ∧
      ∀ b, Reaches m2 r b ↔ Reaches quad.1 quad.2.root_ b :=
  decrease_key_splice less quad.1 quad.2 _ none 2 quad_inv (by decide)

/-- C30: `erase` forces its target to the root.  For a well-formed heap with tree `x` and
a non-root node `a`, whatever the stored values, `dec_key_impl` with the always-true
comparator returns with `a` as the root, the old root (with its remaining children) as
the first child of `a`, followed by the previous children of `a`; `erase(a)` is
`delete_min` applied to that heap.  When the handle is the root, `erase` is `delete_min`
on the unchanged heap. -/
theorem erase_forces_root (cmp : T → T → Bool) (mode : MergeMode) (fuel : Nat)
    (m : Memory T) (h : PairingHeap) (x : Root T) (par : Ptr) (a : Nat)
    (hi : InvP m h (some x) par) (ha : a ∈ x.kids.addrs) :
    (∃ (n : Root T) (kids' : Tree T) (m1 : Memory T) (par' : Ptr),
      x.kids.extract a = some (n, kids') ∧ n.a = a ∧
      dec_key_impl AlwaysTrueCmp m h (some a) = Except.ok (m1, ⟨some a, h.size_⟩) ∧
      InvP m1 ⟨some a, h.size_⟩ (some ⟨a, n.v, Tree.node x.a x.v kids' n.kids⟩) par' ∧
      erase cmp mode fuel m h (some a) = delete_min cmp mode fuel m1 ⟨some a, h.size_⟩) ∧
    erase cmp mode fuel m h h.root_ = delete_min cmp mode fuel m h := by
  constructor
  · obtain ⟨⟨n, kids'⟩, hex⟩ := extract_of_mem a x.kids ha
    obtain ⟨m1, m2, par', -, -, -, -, e3, hi2, -, -⟩ :=
      dec_key_steps AlwaysTrueCmp m h x par a n kids' hi hex
    have hna := extract_a a _ n kids' hex
    rw [fpair_always] at e3 hi2
    simp only [hna] at e3 hi2
    refine ⟨n, kids', m2, par', hex, hna, e3, hi2, ?_⟩
    simp only [erase, erase_impl, e3, bind_ok]
  · simp only [erase, erase_impl, dec_key_impl_root, bind_ok]

theorem erase_forces_root_witness :
    (∃ (n : Root Nat) (kids' : Tree Nat) (m1 : Memory Nat) (par' : Ptr),
      (Tree.node 3 1 Tree.nil (Tree.node 2 2 Tree.nil
        (Tree.node 1 3 Tree.nil Tree.nil))).extract 2 = some (n, kids') ∧ n.a = 2 ∧
      dec_key_impl AlwaysTrueCmp quad.1 quad.2 (some 2)
        = Except.ok (m1, ⟨some 2, quad.2.size_⟩) ∧
      InvP m1 ⟨some 2, quad.2.size_⟩ (some ⟨2, n.v, Tree.node 0 0 kids' n.kids⟩) par' ∧
      erase less MergeMode.TwoPass 5 quad.1 quad.2 (some 2)
        = delete_min less MergeMode.TwoPass 5 m1 ⟨some 2, quad.2.size_⟩) ∧
    erase less MergeMode.TwoPass 5 quad.1 quad.2 quad.2.root_
      = delete_min less MergeMode.TwoPass 5 quad.1 quad.2 :=
  erase_forces_root less MergeMode.TwoPass 5 quad.1 quad.2 _ none 2 quad_inv (by decide)

theorem leaky_well_formed : WellFormed leaky.1 leaky.2 := by
  obtain ⟨⟨m, h⟩, e, hq⟩ := wp_run_calls less MergeMode.TwoPass 6
    [Call.insert 0, Call.insert 1, Call.insert 2, Call.insert 3, Call.insert 4, Call.insert 5,
      Call.delete_min] Memory.init PairingHeap.mk_empty none none (InvP_empty_heap _ _)
    ⟨by decide, trivial⟩ (by decide) (fun r => WellFormed r.1 r.2)
    (fun m' h' s' par' hi _ => ⟨s', par', hi⟩)
  have : leaky = (m, h) := by
    simp only [leaky, e, returned_heap]
  rw [this]
  exact hq

theorem tangle_destroy_faults : ∀ fuel r, destroy fuel tangle.1 tangle.2 ≠ Except.ok r
  | 0, r, e => by
    have h : destroy 0 tangle.1 tangle.2 = Except.error Fault.out_of_fuel := rfl
    rw [h] at e
    cases e
  | 1, r, e => by
    have h : destroy 1 tangle.1 tangle.2 = Except.error Fault.out_of_fuel := rfl
    rw [h] at e
    cases e
  | 2, r, e => by
    have h : destroy 2 tangle.1 tangle.2 = Except.error Fault.out_of_fuel := rfl
    rw [h] at e
    cases e
  | 3, r, e => by
    have h : destroy 3 tangle.1 tangle.2 = Except.error Fault.out_of_fuel := rfl
    rw [h] at e
    cases e
  | k + 4, r, e => by
    have h : destroy (k + 4) tangle.1 tangle.2 = Except.error Fault.bad_access := rfl
    rw [h] at e
    cases e

theorem leaky_destroy_leaks : ∀ fuel m' h', destroy fuel leaky.1 leaky.2 = Except.ok (m', h') →
    m'.cell 3 = some ⟨3, some 2, none, none⟩ ∧ m'.cell 2 = none
  | 0, m', h', e => by
    have h : destroy 0 leaky.1 leaky.2 = Except.error Fault.out_of_fuel := rfl
    rw [h] at e
    cases e
  | 1, m', h', e => by
    have h : destroy 1 leaky.1 leaky.2 = Except.error Fault.out_of_fuel := rfl
    rw [h] at e
    cases e
  | 2, m', h', e => by
    have h : destroy 2 leaky.1 leaky.2 = Except.error Fault.out_of_fuel := rfl
    rw [h] at e
    cases e
  | 3, m', h', e => by
    have h : destroy 3 leaky.1 leaky.2 = Except.error Fault.out_of_fuel := rfl
    rw [h] at e
    cases e
  | 4, m', h', e => by
    have h : destroy 4 leaky.1 leaky.2 = Except.error Fault.out_of_fuel := rfl
    rw [h] at e
    cases e
  | k + 5, m', h', e => by
    obtain ⟨M, H, hM, h3, h2⟩ : ∃ M H, destroy (k + 5) leaky.1 leaky.2 = Except.ok (M, H) ∧
        M.cell 3 = some ⟨3, some 2, none, none⟩ ∧ M.cell 2 = none := ⟨_, _, rfl, rfl, rfl⟩
    rw [hM] at e
    cases e
    exact ⟨h3, h2⟩

/-- C31 fails: the destructor is not safe on every well-formed heap.  On the heap left by
`insert` of 0, 2, 3, 4, 1, 5 and one `delete_min` it deletes node 3, steps to its parent
2, which has the right sibling 5, descends again from node 2 through the stale `left_`
link and reads the deleted node 3: with fuel for its loops the run ends in
`Fault.bad_access`, and it returns for no fuel.  On the heap left by `insert` of 0, 1, 2,
3, 4, 5 and one `delete_min` it returns, but node 2 is deleted on arrival from its left
sibling, before its child 3, and node 3 is never deleted. -/
theorem destroy_unsafe :
    WellFormed tangle.1 tangle.2 ∧
    destroy 4 tangle.1 tangle.2 = Except.error Fault.bad_access ∧
    (∀ fuel r, destroy fuel tangle.1 tangle.2 ≠ Except.ok r) ∧
    WellFormed leaky.1 leaky.2 ∧ Reaches leaky.1 leaky.2.root_ 3 ∧
    ChildOf leaky.1 2 3 ∧
    (∃ m' h', destroy 5 leaky.1 leaky.2 = Except.ok (m', h')) ∧
    ∀ fuel m' h', destroy fuel leaky.1 leaky.2 = Except.ok (m', h') →
      m'.cell 2 = none ∧ ∃ n, m'.cell 3 = some n := by
  refine ⟨tangle_well_formed, rfl, tangle_destroy_faults, leaky_well_formed, ?_, ?_,
    ⟨_, _, rfl⟩, ?_⟩
  · exact Reaches.left 1 _ 3 rfl (Reaches.right 4 _ 3 rfl (Reaches.left 2 _ 3 rfl
      (Reaches.here 3 _ rfl)))
  · exact ⟨_, rfl, SibOf.head 3 _ rfl⟩
  · intro fuel m' h' e
    obtain ⟨h3, h2⟩ := leaky_destroy_leaks fuel m' h' e
    exact ⟨h2, _, h3⟩

theorem inorder_left_first {m : Memory T} : ∀ (t : Tree T) (par : Ptr), Repr m par t →
    ∀ (n : Nat) (nn : PairingNode T) (d : Nat), n ∈ t.inorder → m.cell n = some nn →
      Reaches m nn.left_ d → [d, n].Sublist t.inorder
  | Tree.nil, _, _, n, _, _, hn, _, _ => by simp [Tree.inorder] at hn
  | Tree.node a v l r, par, ⟨hc, hl, hr⟩, n, nn, d, hn, hnn, hd => by
    simp only [Tree.inorder, List.mem_append, List.mem_cons] at hn
    simp only [Tree.inorder]
    rcases hn with hn | rfl | hn
    · exact (inorder_left_first l _ hl n nn d hn hnn hd).trans
        (List.sublist_append_left _ _)
    · rw [hc] at hnn
      cases hnn
      have hdl : d ∈ l.inorder := (inorder_perm l).mem_iff.2 (Repr.reaches_mem l _ d hl hd)
      have h1 : [d].Sublist l.inorder := List.singleton_sublist.2 hdl
      have h2 : [n].Sublist (n :: r.inorder) := List.singleton_sublist.2 (by simp)
      exact List.Sublist.append h1 h2
    · exact ((inorder_left_first r _ hr n nn d hn hnn hd).trans
        (List.sublist_cons_self _ _)).trans (List.sublist_append_right _ _)

theorem walk_inorder {m : Memory T} {h : PairingHeap} {x : Root T} (fuel : Nat)
    (hi : InvP m h (some x) none) (hf : h.size ≤ fuel) :
    ∃ c rest, x.kids.inorder ++ [x.a] = c :: rest ∧
      PairingHeap.begin fuel m h = Except.ok ⟨some c⟩ ∧
      iter_walk fuel m h.size ⟨some c⟩ = Except.ok ((c :: rest).map some, PairingHeap.end_) := by
  have hrep : Repr m none (Tree.node x.a x.v x.kids Tree.nil) :=
    ⟨hi.2.2.1.1, hi.2.2.1.2, trivial⟩
  have haddrs : (Tree.node x.a x.v x.kids Tree.nil).addrs = x.addrs := by
    simp [Root.addrs]
  have hsz : x.addrs.length = h.size := hi.2.1.symm
  have hlen : (Tree.node x.a x.v x.kids Tree.nil).addrs.length ≤ fuel := by
    rw [haddrs, hsz]
    exact hf
  obtain ⟨c, rest, n, hin, hd, -⟩ :=
    descend_left_spec x.kids x.a x.v Tree.nil none fuel hrep hlen
  have hlk := inorder_linked fuel _ none hrep (by rw [haddrs]; exact hi.2.2.2.1) hlen
  have hperm := inorder_perm (Tree.node x.a x.v x.kids Tree.nil)
  rw [haddrs] at hperm
  have hk : fuel - ((Tree.node x.a x.v x.kids Tree.nil).rlen - 1) = (fuel - 1) + 1 := by
    have : 1 ≤ x.addrs.length := by simp [Root.addrs]
    simp only [Tree.rlen]
    omega
  rw [hk, ptr_node, climb_out_root _ hi.2.2.1.1 rfl, hin] at hlk
  have hw := walk_linked fuel rest c hlk
  have hl : rest.length + 1 = h.size := by
    rw [← hsz, ← hperm.length_eq, hin]
    rfl
  rw [hl] at hw
  refine ⟨c, rest, ?_, ?_, hw⟩
  · rw [← hin]
    simp [Tree.inorder]
  · simp [PairingHeap.begin, PairingTreeIterator.ctor, hi.1, hd]

/-- C32: iteration order relative to the tree.  On a well-formed non-empty heap whose
root has a null `parent_`, the traversal from `begin()` by `operator++` reaches `end()`
after `size()` increments (given fuel for the loops); the positions visited are the nodes
of the heap, each once; every node `d` under the `left_` (first child) link of a node
`n`, a multiway descendant of `n`, is visited before `n`; the last position visited is
the root, whose value is what `find_min` returns. -/
theorem iteration_descendants_first (fuel : Nat) (m : Memory T) (h : PairingHeap)
    (hw : WellFormed m h)
    (hroot : ∀ rn, m.deref h.root_ = Except.ok rn → rn.parent_ = none)
    (hne : h.size ≠ 0) (hf : h.size ≤ fuel) :
    ∃ (b : PairingTreeIterator) (ps : List Nat) (r : Nat) (rn : PairingNode T),
      PairingHeap.begin fuel m h = Except.ok b ∧
      iter_walk fuel m h.size b = Except.ok (ps.map some, PairingHeap.end_) ∧
      ps.Nodup ∧ (∀ a, a ∈ ps ↔ Reaches m h.root_ a) ∧
      (∀ n nn d, n ∈ ps → m.cell n = some nn → Reaches m nn.left_ d →
        [d, n].Sublist ps) ∧
      h.root_ = some r ∧ ps.getLast? = some r ∧ m.cell r = some rn ∧
      find_min m h = Except.ok rn.data_ := by
  obtain ⟨s, par, hi⟩ := hw
  cases s with
  | none => exact absurd hi.2 hne
  | some x =>
    have hpar : par = none := hroot _ (by rw [hi.1]; exact deref_some hi.2.2.1.1)
    subst hpar
    obtain ⟨c, rest, hin, hb, hwk⟩ := walk_inorder fuel hi hf
    have hrep : Repr m none (Tree.node x.a x.v x.kids Tree.nil) :=
      ⟨hi.2.2.1.1, hi.2.2.1.2, trivial⟩
    have hio : (Tree.node x.a x.v x.kids Tree.nil).inorder = c :: rest := by
      rw [← hin]
      simp [Tree.inorder]
    have hperm : (c :: rest).Perm x.addrs := by
      rw [← hio]
      simpa [Root.addrs] using inorder_perm (Tree.node x.a x.v x.kids Tree.nil)
    refine ⟨⟨some c⟩, c :: rest, x.a, _, hb, hwk, hperm.nodup_iff.2 hi.2.2.2.1, ?_, ?_,
      hi.1, ?_, hi.2.2.1.1, find_min_eq hi⟩
    · intro a
      rw [hi.reaches_iff]
      exact hperm.mem_iff
    · intro n nn d hn hnn hd
      rw [← hio] at hn ⊢
      exact inorder_left_first _ _ hrep n nn d hn hnn hd
    · rw [← hin]
      simp

theorem iteration_descendants_first_witness :
    ∃ (b : PairingTreeIterator) (ps : List Nat) (r : Nat) (rn : PairingNode Nat),
      PairingHeap.begin 5 tangle.1 tangle.2 = Except.ok b ∧
      iter_walk 5 tangle.1 tangle.2.size b = Except.ok (ps.map some, PairingHeap.end_) ∧
      ps.Nodup ∧ (∀ a, a ∈ ps ↔ Reaches tangle.1 tangle.2.root_ a) ∧
      (∀ n nn d, n ∈ ps → tangle.1.cell n = some nn → Reaches tangle.1 nn.left_ d →
        [d, n].Sublist ps) ∧
      tangle.2.root_ = some r ∧ ps.getLast? = some r ∧ tangle.1.cell r = some rn ∧
      find_min tangle.1 tangle.2 = Except.ok rn.data_ :=
  iteration_descendants_first 5 tangle.1 tangle.2 tangle_well_formed
    (by
      intro rn e
      have h : tangle.1.deref tangle.2.root_
          = Except.ok ⟨1, none, some 1, none⟩ := rfl
      rw [h] at e
      cases e
      rfl)
    (by decide) (by decide)

theorem pairs_addrs : ∀ t : Tree T, t.pairs.map Prod.fst = t.addrs
  | Tree.nil => rfl
  | Tree.node a v l r => by
    simp [Tree.pairs, Tree.addrs, pairs_addrs l, pairs_addrs r]

theorem keys_node (a : Nat) (kv : K × V) (l r : Tree (K × V)) :
    (Tree.node a kv l r).keys = kv.1 :: (l.keys ++ r.keys) := by
  simp [Tree.keys, Tree.pairs]

theorem keys_nil : (Tree.nil : Tree (K × V)).keys = [] := rfl

theorem inkeys_perm : ∀ t : Tree (K × V), t.inkeys.Perm t.keys
  | Tree.nil => List.Perm.refl _
  | Tree.node a kv l r => by
    rw [keys_node]
    simp only [Tree.inkeys]
    exact List.perm_middle.trans
      (List.Perm.cons _ ((inkeys_perm l).append (inkeys_perm r)))

theorem KeyEquiv.flip {cmp : K → K → Bool} {a b : K} (h : KeyEquiv cmp a b) : KeyEquiv cmp b a :=
  ⟨h.2, h.1⟩

theorem KeyEquiv.equiv_trans {cmp : K → K → Bool} (hcmp : StrictWeakOrder cmp) {a b c : K}
    (h1 : KeyEquiv cmp a b) (h2 : KeyEquiv cmp b c) : KeyEquiv cmp a c :=
  hcmp.incomp_trans a b c h1.1 h1.2 h2.1 h2.2

theorem KeyEquiv.lt_left {cmp : K → K → Bool} (hcmp : StrictWeakOrder cmp) {a b c : K}
    (h1 : KeyEquiv cmp a b) (h2 : cmp a c = true) : cmp b c = true := by
  by_contra hbc
  simp only [Bool.not_eq_true] at hbc
  have := hcmp.neg_trans a b c h1.1 hbc
  rw [h2] at this
  cases this

theorem KeyEquiv.lt_right {cmp : K → K → Bool} (hcmp : StrictWeakOrder cmp) {a b c : K}
    (h1 : KeyEquiv cmp a b) (h2 : cmp c a = true) : cmp c b = true := by
  by_contra hcb
  simp only [Bool.not_eq_true] at hcb
  have := hcmp.neg_trans c b a hcb h1.2
  rw [h2] at this
  cases this

theorem bfind_iff {cmp : K → K → Bool} (hcmp : StrictWeakOrder cmp) (key : K) :
    ∀ (t : Tree (K × V)), BstOrdered cmp t → ∀ c,
      (t.bfind cmp key = some c ↔ ∃ kv, (c, kv) ∈ t.pairs ∧ KeyEquiv cmp kv.1 key)
  | Tree.nil, _, c => by simp [Tree.bfind, Tree.pairs]
  | Tree.node a w l r, ⟨hl, hr, ol, or_⟩, c => by
    have ihl := bfind_iff hcmp key l ol c
    have ihr := bfind_iff hcmp key r or_ c
    have kl : ∀ kv, (c, kv) ∈ l.pairs → cmp kv.1 w.1 = true := fun kv h =>
      hl _ (List.mem_map.2 ⟨_, h, rfl⟩)
    have kr : ∀ kv, (c, kv) ∈ r.pairs → cmp w.1 kv.1 = true := fun kv h =>
      hr _ (List.mem_map.2 ⟨_, h, rfl⟩)
    simp only [Tree.bfind, Tree.pairs, List.mem_cons, List.mem_append, Prod.mk.injEq]
    by_cases h1 : cmp key w.1 = true
    · simp only [h1, if_true, ihl]
      constructor
      · rintro ⟨kv, h, e⟩
        exact ⟨kv, Or.inr (Or.inl h), e⟩
      · rintro ⟨kv, (⟨-, rfl⟩ | h | h), e⟩
        · rw [e.2] at h1
          cases h1
        · exact ⟨kv, h, e⟩
        · have h2 := hcmp.trans _ _ _ h1 (kr kv h)
          rw [e.2] at h2
          cases h2
    · simp only [Bool.not_eq_true] at h1
      by_cases h2 : cmp w.1 key = true
      · simp only [h1, h2, if_true, Bool.false_eq_true, if_false, ihr]
        constructor
        · rintro ⟨kv, h, e⟩
          exact ⟨kv, Or.inr (Or.inr h), e⟩
        · rintro ⟨kv, (⟨-, rfl⟩ | h | h), e⟩
          · rw [e.1] at h2
            cases h2
          · have h3 := hcmp.trans _ _ _ (kl kv h) h2
            rw [e.1] at h3
            cases h3
          · exact ⟨kv, h, e⟩
      · simp only [Bool.not_eq_true] at h2
        simp only [h1, h2, Bool.false_eq_true, if_false, Option.some.injEq]
        have hw : KeyEquiv cmp w.1 key := ⟨h2, h1⟩
        constructor
        · rintro rfl
          exact ⟨w, Or.inl ⟨rfl, rfl⟩, hw⟩
        · rintro ⟨kv, (⟨rfl, rfl⟩ | h | h), e⟩
          · rfl
          · have := (e.equiv_trans hcmp hw.flip).1
            rw [kl kv h] at this
            cases this
          · have := (e.equiv_trans hcmp hw.flip).2
            rw [kr kv h] at this
            cases this

theorem mem_keys {t : Tree (K × V)} {x : K} :
    x ∈ t.keys ↔ ∃ c kv, (c, kv) ∈ t.pairs ∧ kv.1 = x := by
  simp only [Tree.keys, List.mem_map, Prod.exists]

theorem keys_perm (t t' : Tree (K × V)) (h : t.pairs.Perm t'.pairs) : t.keys.Perm t'.keys :=
  h.map _

theorem addrs_perm_of_pairs (t t' : Tree T) (h : t.pairs.Perm t'.pairs) :
    t.addrs.Perm t'.addrs := by
  rw [← pairs_addrs t, ← pairs_addrs t']
  exact h.map _

theorem binsert_ptr (cmp : K → K → Bool) (key : K) (a : Nat) (kv : K × V) (b : Nat)
    (w : K × V) (l r : Tree (K × V)) :
    ((Tree.node b w l r).binsert cmp key a kv).ptr = some b := by
  simp only [Tree.binsert]
  split
  · rfl
  · split <;> rfl

theorem binsert_found (cmp : K → K → Bool) (key : K) (a : Nat) (kv : K × V) :
    ∀ (t : Tree (K × V)) (f : Nat), t.bfind cmp key = some f → t.binsert cmp key a kv = t
  | Tree.nil, f, h => by simp [Tree.bfind] at h
  | Tree.node b w l r, f, h => by
    simp only [Tree.bfind] at h
    simp only [Tree.binsert]
    by_cases h1 : cmp key w.1 = true
    · simp only [h1, if_true] at h ⊢
      rw [binsert_found cmp key a kv l f h]
    · simp only [Bool.not_eq_true] at h1
      by_cases h2 : cmp w.1 key = true
      · simp only [h1, h2, if_true, Bool.false_eq_true, if_false] at h ⊢
        rw [binsert_found cmp key a kv r f h]
      · simp only [Bool.not_eq_true] at h2
        simp only [h1, h2, Bool.false_eq_true, if_false]

theorem binsert_pairs (cmp : K → K → Bool) (key : K) (a : Nat) (kv : K × V) :
    ∀ (t : Tree (K × V)), t.bfind cmp key = none →
      (t.binsert cmp key a kv).pairs.Perm ((a, kv) :: t.pairs)
  | Tree.nil, _ => by simp [Tree.binsert, Tree.pairs]
  | Tree.node b w l r, h => by
    simp only [Tree.bfind] at h
    simp only [Tree.binsert]
    by_cases h1 : cmp key w.1 = true
    · simp only [h1, if_true] at h ⊢
      simp only [Tree.pairs]
      exact ((List.Perm.cons _ ((binsert_pairs cmp key a kv l h).append_right _))).trans
        (List.Perm.swap _ _ _)
    · simp only [Bool.not_eq_true] at h1
      by_cases h2 : cmp w.1 key = true
      · simp only [h1, h2, if_true, Bool.false_eq_true, if_false] at h ⊢
        simp only [Tree.pairs]
        refine ((List.Perm.cons _ ?_)).trans (List.Perm.swap _ _ _)
        exact ((binsert_pairs cmp key a kv r h).append_left _).trans List.perm_middle
      · simp only [Bool.not_eq_true] at h2
        simp [h1, h2] at h

theorem binsert_keys_subset (cmp : K → K → Bool) (key : K) (a : Nat) (kv : K × V)
    (t : Tree (K × V)) (x : K) (hx : x ∈ (t.binsert cmp key a kv).keys) :
    x = kv.1 ∨ x ∈ t.keys := by
  cases hb : t.bfind cmp key with
  | some f =>
    rw [binsert_found cmp key a kv t f hb] at hx
    exact Or.inr hx
  | none =>
    have := (keys_perm _ (Tree.node a kv t Tree.nil) (by
      simpa [Tree.pairs] using binsert_pairs cmp key a kv t hb)).mem_iff.1 hx
    rw [keys_node] at this
    simpa [keys_nil] using this

theorem binsert_ordered (cmp : K → K → Bool) (a : Nat) (kv : K × V) :
    ∀ (t : Tree (K × V)), BstOrdered cmp t → BstOrdered cmp (t.binsert cmp kv.1 a kv)
  | Tree.nil, _ => by simp [Tree.binsert, BstOrdered, keys_nil]
  | Tree.node b w l r, ⟨hl, hr, ol, or_⟩ => by
    simp only [Tree.binsert]
    by_cases h1 : cmp kv.1 w.1 = true
    · simp only [h1, if_true]
      refine ⟨?_, hr, binsert_ordered cmp a kv l ol, or_⟩
      intro x hx
      rcases binsert_keys_subset cmp kv.1 a kv l x hx with rfl | h
      · exact h1
      · exact hl x h
    · simp only [Bool.not_eq_true] at h1
      by_cases h2 : cmp w.1 kv.1 = true
      · simp only [h1, h2, if_true, Bool.false_eq_true, if_false]
        refine ⟨hl, ?_, ol, binsert_ordered cmp a kv r or_⟩
        intro x hx
        rcases binsert_keys_subset cmp kv.1 a kv r x hx with rfl | h
        · exact h2
        · exact hr x h
      · simp only [Bool.not_eq_true] at h2
        simp only [h1, h2, Bool.false_eq_true, if_false]
        exact ⟨hl, hr, ol, or_⟩

theorem bfind_binsert_self (cmp : K → K → Bool) (hirr : ∀ x, cmp x x = false) (a : Nat)
    (kv : K × V) : ∀ (t : Tree (K × V)), t.bfind cmp kv.1 = none →
      (t.binsert cmp kv.1 a kv).bfind cmp kv.1 = some a
  | Tree.nil, _ => by simp [Tree.binsert, Tree.bfind, hirr]
  | Tree.node b w l r, h => by
    simp only [Tree.bfind] at h
    simp only [Tree.binsert]
    by_cases h1 : cmp kv.1 w.1 = true
    · simp only [h1, if_true] at h ⊢
      simp only [Tree.bfind, h1, if_true]
      exact bfind_binsert_self cmp hirr a kv l h
    · simp only [Bool.not_eq_true] at h1
      by_cases h2 : cmp w.1 kv.1 = true
      · simp only [h1, h2, if_true, Bool.false_eq_true, if_false] at h ⊢
        simp only [Tree.bfind, h1, h2, if_true, Bool.false_eq_true, if_false]
        exact bfind_binsert_self cmp hirr a kv r h
      · simp only [Bool.not_eq_true] at h2
        simp [h1, h2] at h

theorem bfind_binsert_other (cmp : K → K → Bool) (a : Nat) (kv : K × V) (k' : K)
    (hne : ¬ KeyEquiv cmp k' kv.1) : ∀ (t : Tree (K × V)),
      (t.binsert cmp kv.1 a kv).bfind cmp k' = t.bfind cmp k'
  | Tree.nil => by
    simp only [Tree.binsert, Tree.bfind]
    by_cases h1 : cmp k' kv.1 = true
    · simp [h1]
    · simp only [Bool.not_eq_true] at h1
      by_cases h2 : cmp kv.1 k' = true
      · simp [h1, h2]
      · simp only [Bool.not_eq_true] at h2
        exact absurd ⟨h1, h2⟩ hne
  | Tree.node b w l r => by
    simp only [Tree.binsert]
    by_cases h1 : cmp kv.1 w.1 = true
    · simp only [h1, if_true, Tree.bfind, bfind_binsert_other cmp a kv k' hne l]
    · simp only [Bool.not_eq_true] at h1
      by_cases h2 : cmp w.1 kv.1 = true
      · simp only [h1, h2, if_true, Bool.false_eq_true, if_false, Tree.bfind,
          bfind_binsert_other cmp a kv k' hne r]
      · simp only [Bool.not_eq_true] at h2
        simp only [h1, h2, Bool.false_eq_true, if_false]

theorem fspot_of_bfind (cmp : K → K → Bool) (key : K) : ∀ (t : Tree (K × V)), t.ptr ≠ none →
    (∀ f, t.bfind cmp key = some f → t.fspot cmp key = ⟨some f, none⟩) ∧
    (t.bfind cmp key = none → ∃ p s, t.fspot cmp key = ⟨some p, some s⟩)
  | Tree.nil, h => absurd rfl h
  | Tree.node b w l r, _ => by
    simp only [Tree.bfind, Tree.fspot]
    by_cases h1 : cmp key w.1 = true
    · simp only [h1, if_true]
      cases hl : l.ptr with
      | none =>
        cases l with
        | nil => simp [Tree.bfind]
        | node lb lw ll lr => simp at hl
      | some s =>
        simp only
        exact fspot_of_bfind cmp key l (by simp [hl])
    · simp only [Bool.not_eq_true] at h1
      by_cases h2 : cmp w.1 key = true
      · simp only [h1, h2, if_true, Bool.false_eq_true, if_false]
        cases hr : r.ptr with
        | none =>
          cases r with
          | nil => simp [Tree.bfind]
          | node rb rw rl rr => simp at hr
        | some s =>
          simp only
          exact fspot_of_bfind cmp key r (by simp [hr])
      · simp only [Bool.not_eq_true] at h2
        simp [h1, h2]

theorem pop_left_none : ∀ t : Tree T, t.pop_left = none → t = Tree.nil
  | Tree.nil, _ => rfl
  | Tree.node a v l r, h => by
    simp only [Tree.pop_left] at h
    cases hl : l.pop_left with
    | none => simp [hl] at h
    | some p =>
      obtain ⟨c, w, l'⟩ := p
      simp [hl] at h

theorem pop_left_pairs : ∀ (t : Tree T) (c : Nat) (w : T) (t' : Tree T),
    t.pop_left = some (c, w, t') → ((c, w) :: t'.pairs).Perm t.pairs
  | Tree.nil, _, _, _, h => by simp [Tree.pop_left] at h
  | Tree.node a v l r, c, w, t', h => by
    simp only [Tree.pop_left] at h
    cases hl : l.pop_left with
    | none =>
      simp only [hl, Option.some.injEq, Prod.mk.injEq] at h
      obtain ⟨rfl, rfl, rfl⟩ := h
      rw [pop_left_none l hl]
      simp [Tree.pairs]
    | some p =>
      obtain ⟨c1, w1, l'⟩ := p
      simp only [hl, Option.some.injEq, Prod.mk.injEq] at h
      obtain ⟨rfl, rfl, rfl⟩ := h
      have ih := pop_left_pairs l c1 w1 l' hl
      simp only [Tree.pairs]
      exact (List.Perm.swap _ _ _).trans (List.Perm.cons _ (ih.append_right _))

theorem pop_left_ordered {cmp : K → K → Bool} (hcmp : StrictWeakOrder cmp) :
    ∀ (t : Tree (K × V)) (c : Nat) (w : K × V) (t' : Tree (K × V)),
    t.pop_left = some (c, w, t') → BstOrdered cmp t →
    BstOrdered cmp t' ∧ ∀ x ∈ t'.keys, cmp w.1 x = true
  | Tree.nil, _, _, _, h, _ => by simp [Tree.pop_left] at h
  | Tree.node a v l r, c, w, t', h, ⟨hl, hr, ol, or_⟩ => by
    simp only [Tree.pop_left] at h
    cases hpl : l.pop_left with
    | none =>
      simp only [hpl, Option.some.injEq, Prod.mk.injEq] at h
      obtain ⟨rfl, rfl, rfl⟩ := h
      exact ⟨or_, hr⟩
    | some p =>
      obtain ⟨c1, w1, l'⟩ := p
      simp only [hpl, Option.some.injEq, Prod.mk.injEq] at h
      obtain ⟨rfl, rfl, rfl⟩ := h
      obtain ⟨ol', hmin⟩ := pop_left_ordered hcmp l c1 w1 l' hpl ol
      have hp := keys_perm (Tree.node c1 w1 l' Tree.nil) l (by
        simpa [Tree.pairs] using pop_left_pairs l c1 w1 l' hpl)
      have hw1 : cmp w1.1 v.1 = true := hl _ (hp.mem_iff.1 (by simp [keys_node]))
      refine ⟨⟨?_, hr, ol', or_⟩, ?_⟩
      · intro x hx
        exact hl x (hp.mem_iff.1 (by simp [keys_node, keys_nil, hx]))
      · intro x hx
        rw [keys_node] at hx
        simp only [List.mem_cons, List.mem_append] at hx
        rcases hx with rfl | hx | hx
        · exact hw1
        · exact hmin x hx
        · exact hcmp.trans _ _ _ hw1 (hr x hx)

theorem join_pairs (l r : Tree T) : (Tree.join l r).pairs.Perm (l.pairs ++ r.pairs) := by
  cases l with
  | nil => simp [Tree.join, Tree.pairs]
  | node a v ll lr =>
    simp only [Tree.join, ptr_node]
    cases hp : r.pop_left with
    | none =>
      rw [pop_left_none r hp]
      simp [Tree.pairs]
    | some p =>
      obtain ⟨c, w, r'⟩ := p
      simp only
      have := pop_left_pairs r c w r' hp
      simp only [Tree.pairs]
      exact (List.perm_middle.symm).trans (this.append_left _)

theorem join_ordered {cmp : K → K → Bool} (hcmp : StrictWeakOrder cmp) (l r : Tree (K × V))
    (ol : BstOrdered cmp l) (or_ : BstOrdered cmp r)
    (hlr : ∀ x ∈ l.keys, ∀ y ∈ r.keys, cmp x y = true) : BstOrdered cmp (Tree.join l r) := by
  cases l with
  | nil => simpa [Tree.join] using or_
  | node a v ll lr =>
    simp only [Tree.join, ptr_node]
    cases hp : r.pop_left with
    | none => exact ol
    | some p =>
      obtain ⟨c, w, r'⟩ := p
      simp only
      obtain ⟨or', hmin⟩ := pop_left_ordered hcmp r c w r' hp or_
      have hk := keys_perm (Tree.node c w r' Tree.nil) r (by
        simpa [Tree.pairs] using pop_left_pairs r c w r' hp)
      refine ⟨?_, hmin, ol, or'⟩
      intro x hx
      exact hlr x hx _ (hk.mem_iff.1 (by simp [keys_node]))

theorem remove_of_not_mem (a : Nat) : ∀ t : Tree T, a ∉ t.addrs → t.remove a = t
  | Tree.nil, _ => rfl
  | Tree.node b v l r, h => by
    simp only [addrs_node, List.mem_cons, List.mem_append, not_or] at h
    have hb : b ≠ a := fun e => h.1 e.symm
    simp only [Tree.remove, hb, if_false, remove_of_not_mem a l h.2.1,
      remove_of_not_mem a r h.2.2]

theorem remove_pairs (a : Nat) : ∀ t : Tree T, t.addrs.Nodup → a ∈ t.addrs →
    ∃ v, ((a, v) :: (t.remove a).pairs).Perm t.pairs
  | Tree.nil, _, h => by simp at h
  | Tree.node b v l r, hd, h => by
    simp only [addrs_node, List.nodup_cons, List.mem_append, not_or, List.nodup_append] at hd
    simp only [addrs_node, List.mem_cons, List.mem_append] at h
    by_cases hb : b = a
    · subst hb
      refine ⟨v, ?_⟩
      simp only [Tree.remove, if_true, Tree.pairs]
      exact List.Perm.cons _ (join_pairs l r)
    · simp only [Tree.remove, hb, if_false, Tree.pairs]
      rcases h with h | h | h
      · exact absurd h.symm hb
      · obtain ⟨u, hu⟩ := remove_pairs a l hd.2.1 h
        have har : a ∉ r.addrs := fun hh => hd.2.2.2 h hh
        rw [remove_of_not_mem a r har]
        exact ⟨u, (List.Perm.swap _ _ _).trans (List.Perm.cons _ (hu.append_right _))⟩
      · obtain ⟨u, hu⟩ := remove_pairs a r hd.2.2.1 h
        have hal : a ∉ l.addrs := fun hh => hd.2.2.2 hh h
        rw [remove_of_not_mem a l hal]
        refine ⟨u, (List.Perm.swap _ _ _).trans (List.Perm.cons _ ?_)⟩
        exact List.perm_middle.symm.trans (hu.append_left _)

theorem remove_keys_subset (a : Nat) (t : Tree (K × V)) (hd : t.addrs.Nodup) (x : K)
    (hx : x ∈ (t.remove a).keys) : x ∈ t.keys := by
  by_cases ha : a ∈ t.addrs
  · obtain ⟨v, hv⟩ := remove_pairs a t hd ha
    obtain ⟨c, kv, h1, h2⟩ := mem_keys.1 hx
    exact mem_keys.2 ⟨c, kv, hv.mem_iff.1 (List.mem_cons_of_mem _ h1), h2⟩
  · rwa [remove_of_not_mem a t ha] at hx

theorem remove_ordered {cmp : K → K → Bool} (hcmp : StrictWeakOrder cmp) (a : Nat) :
    ∀ t : Tree (K × V), t.addrs.Nodup → BstOrdered cmp t → BstOrdered cmp (t.remove a)
  | Tree.nil, _, _ => trivial
  | Tree.node b v l r, hd, ⟨hl, hr, ol, or_⟩ => by
    have hd' := hd
    simp only [addrs_node, List.nodup_cons, List.mem_append, not_or, List.nodup_append] at hd'
    by_cases hb : b = a
    · simp only [Tree.remove, hb, if_true]
      exact join_ordered hcmp l r ol or_
        (fun x hx y hy => hcmp.trans _ _ _ (hl x hx) (hr y hy))
    · simp only [Tree.remove, hb, if_false]
      exact ⟨fun x hx => hl x (remove_keys_subset a l hd'.2.1 x hx),
        fun x hx => hr x (remove_keys_subset a r hd'.2.2.1 x hx),
        remove_ordered hcmp a l hd'.2.1 ol, remove_ordered hcmp a r hd'.2.2.1 or_⟩

theorem find_node_loop_spec (cmp : K → K → Bool) (key : K) {m : Memory (K × V)} :
    ∀ (t : Tree (K × V)) (par : Ptr) (fuel : Nat), Repr m par t → t.addrs.length < fuel →
      find_node_loop cmp fuel m key t.ptr = Except.ok (t.bfind cmp key)
  | _, _, 0, _, hf => by simp at hf
  | Tree.nil, _, fuel + 1, _, _ => rfl
  | Tree.node a kv l r, par, fuel + 1, ⟨hc, hl, hr⟩, hf => by
    simp only [addrs_node, List.length_cons, List.length_append] at hf
    have ihl := find_node_loop_spec cmp key l (some a) fuel hl (by omega)
    have ihr := find_node_loop_spec cmp key r (some a) fuel hr (by omega)
    simp only [ptr_node, find_node_loop, Bst.compare, node_key, deref_some hc, bind_ok,
      pure_eq_ok, Tree.bfind]
    by_cases h1 : cmp key kv.1 = true
    · simp only [h1, if_true, bind_ok]
      exact ihl
    · simp only [Bool.not_eq_true] at h1
      by_cases h2 : cmp kv.1 key = true
      · simp only [h1, h2, if_true, Bool.false_eq_true, if_false, bind_ok]
        exact ihr
      · simp only [Bool.not_eq_true] at h2
        simp only [h1, h2, Bool.false_eq_true, if_false, bind_ok]

theorem find_spot_loop_spec (cmp : K → K → Bool) (key : K) {m : Memory (K × V)} :
    ∀ (t : Tree (K × V)) (par : Ptr) (fuel : Nat), Repr m par t → t.ptr ≠ none →
      t.addrs.length ≤ fuel →
      find_spot_loop cmp fuel m key t.ptr = Except.ok (t.fspot cmp key)
  | Tree.nil, _, _, _, h, _ => absurd rfl h
  | Tree.node a kv l r, _, 0, _, _, hf => by simp at hf
  | Tree.node a kv l r, par, fuel + 1, ⟨hc, hl, hr⟩, _, hf => by
    simp only [addrs_node, List.length_cons, List.length_append] at hf
    simp only [ptr_node, find_spot_loop, Bst.compare, node_key, deref_some hc, bind_ok,
      pure_eq_ok, Tree.fspot, SonRef.read]
    by_cases h1 : cmp key kv.1 = true
    · simp only [h1, if_true, bind_ok, SonRef.read, deref_some hc, pure_eq_ok]
      cases hp : l.ptr with
      | none => rfl
      | some s =>
        simp only
        rw [← hp]
        exact find_spot_loop_spec cmp key l (some a) fuel hl (by simp [hp]) (by omega)
    · simp only [Bool.not_eq_true] at h1
      by_cases h2 : cmp kv.1 key = true
      · simp only [h1, h2, if_true, Bool.false_eq_true, if_false, bind_ok, SonRef.read,
          deref_some hc, pure_eq_ok]
        cases hp : r.ptr with
        | none => rfl
        | some s =>
          simp only
          rw [← hp]
          exact find_spot_loop_spec cmp key r (some a) fuel hr (by simp [hp]) (by omega)
      · simp only [Bool.not_eq_true] at h2
        simp only [h1, h2, Bool.false_eq_true, if_false, bind_ok]

theorem bst_leftmost_spec {m : Memory (K × V)} : ∀ (t : Tree (K × V)) (par : Ptr) (fuel : Nat),
    Repr m par t → t.ptr ≠ none → t.addrs.length ≤ fuel →
    ∃ c w t', t.pop_left = some (c, w, t') ∧ Bst.leftmost fuel m t.ptr = Except.ok (some c)
  | Tree.nil, _, _, _, h, _ => absurd rfl h
  | Tree.node a kv l r, _, 0, _, _, hf => by simp at hf
  | Tree.node a kv l r, par, fuel + 1, ⟨hc, hl, hr⟩, _, hf => by
    simp only [addrs_node, List.length_cons, List.length_append] at hf
    simp only [ptr_node, Bst.leftmost, has_left_son, deref_some hc, bind_ok, pure_eq_ok,
      Tree.pop_left]
    cases hp : l.ptr with
    | none =>
      cases l with
      | nil => exact ⟨a, kv, r, rfl, by simp⟩
      | node lb lw ll lr => simp at hp
    | some s =>
      obtain ⟨c, w, l', h1, h2⟩ := bst_leftmost_spec l (some a) fuel hl (by simp [hp])
        (by omega)
      rw [hp] at h2
      refine ⟨c, w, Tree.node a kv l' r, by simp [h1], ?_⟩
      simpa using h2

theorem subtree_at {m : Memory T} : ∀ (t : Tree T) (par : Ptr), Repr m par t →
    ∀ n ∈ t.addrs, ∃ (v : T) (p : Ptr) (l r : Tree T), Repr m p (Tree.node n v l r) ∧
      (Tree.node n v l r).addrs.length ≤ t.addrs.length
  | Tree.nil, _, _, n, hn => by simp at hn
  | Tree.node a v l r, par, ⟨hc, hl, hr⟩, n, hn => by
    simp only [addrs_node, List.mem_cons, List.mem_append] at hn
    rcases hn with rfl | hn | hn
    · exact ⟨v, par, l, r, ⟨hc, hl, hr⟩, Nat.le_refl _⟩
    · obtain ⟨v', p, l', r', h1, h2⟩ := subtree_at l _ hl n hn
      refine ⟨v', p, l', r', h1, ?_⟩
      simp only [addrs_node, List.length_cons, List.length_append] at h2 ⊢
      omega
    · obtain ⟨v', p, l', r', h1, h2⟩ := subtree_at r _ hr n hn
      refine ⟨v', p, l', r', h1, ?_⟩
      simp only [addrs_node, List.length_cons, List.length_append] at h2 ⊢
      omega

theorem iterator_ctor_returns {m : Memory (K × V)} {t : Tree (K × V)} {par : Ptr}
    (hr : Repr m par t) (n : Nat) (hn : n ∈ t.addrs) (fuel : Nat)
    (hf : t.addrs.length ≤ fuel) : ∃ it, BstIterator.ctor fuel m (some n) = Except.ok it := by
  obtain ⟨v, p, l, r, h1, h2⟩ := subtree_at t par hr n hn
  obtain ⟨c, w, t', -, h4⟩ := bst_leftmost_spec _ p fuel h1 (by simp) (by omega)
  simp only [ptr_node] at h4
  exact ⟨⟨some c⟩, by simp [BstIterator.ctor, h4]⟩

theorem fspot_parent_mem (cmp : K → K → Bool) (key : K) : ∀ (t : Tree (K × V)) (p : Ptr)
    (s : Option SonRef), t.ptr ≠ none → t.fspot cmp key = ⟨p, s⟩ → ∃ q, p = some q ∧ q ∈ t.addrs
  | Tree.nil, _, _, h, _ => absurd rfl h
  | Tree.node a kv l r, p, s, _, h => by
    simp only [Tree.fspot] at h
    by_cases h1 : cmp key kv.1 = true
    · simp only [h1, if_true] at h
      cases hp : l.ptr with
      | none =>
        simp only [hp, FindSpotResult.mk.injEq] at h
        exact ⟨a, h.1.symm, by simp⟩
      | some x =>
        simp only [hp] at h
        obtain ⟨q, hq1, hq2⟩ := fspot_parent_mem cmp key l p s (by simp [hp]) h
        exact ⟨q, hq1, by simp [hq2]⟩
    · simp only [Bool.not_eq_true] at h1
      by_cases h2 : cmp kv.1 key = true
      · simp only [h1, h2, if_true, Bool.false_eq_true, if_false] at h
        cases hp : r.ptr with
        | none =>
          simp only [hp, FindSpotResult.mk.injEq] at h
          exact ⟨a, h.1.symm, by simp⟩
        | some x =>
          simp only [hp] at h
          obtain ⟨q, hq1, hq2⟩ := fspot_parent_mem cmp key r p s (by simp [hp]) h
          exact ⟨q, hq1, by simp [hq2]⟩
      · simp only [Bool.not_eq_true] at h2
        simp only [h1, h2, Bool.false_eq_true, if_false, FindSpotResult.mk.injEq] at h
        exact ⟨a, h.1.symm, by simp⟩

theorem link_new_node (cmp : K → K → Bool) (key : K) (a' : Nat) (kv : K × V)
    {m : Memory (K × V)} : ∀ (t : Tree (K × V)) (par : Ptr) (p : Ptr) (s : SonRef),
    Repr m par t → t.addrs.Nodup → a' ∉ t.addrs → t.ptr ≠ none →
    m.cell a' = some ⟨kv, none, none, none⟩ → t.fspot cmp key = ⟨p, some s⟩ →
    ∃ m1 m2, m.set_parent (some a') p = Except.ok m1 ∧ s.write m1 (some a') = Except.ok m2 ∧
      Repr m2 par (t.binsert cmp key a' kv) ∧ m2.brk = m.brk ∧
      ∀ c, c ∉ a' :: t.addrs → m2.cell c = m.cell c
  | Tree.nil, _, _, _, _, _, _, h, _, _ => absurd rfl h
  | Tree.node b w l r, par, p, s, ⟨hc, hl, hr⟩, hd, ha, _, hnew, hs => by
    simp only [addrs_node, List.nodup_cons, List.mem_append, not_or, List.nodup_append] at hd
    simp only [addrs_node, List.mem_cons, List.mem_append, not_or] at ha
    have hab : a' ≠ b := ha.1
    simp only [Tree.fspot] at hs
    simp only [Tree.binsert]
    by_cases h1 : cmp key w.1 = true
    · simp only [h1, if_true] at hs ⊢
      cases hp : l.ptr with
      | none =>
        have hlnil : l = Tree.nil := by
          cases l with
          | nil => rfl
          | node lb lw ll lr => simp at hp
        subst hlnil
        simp only [ptr_nil, FindSpotResult.mk.injEq, Option.some.injEq] at hs
        obtain ⟨rfl, rfl⟩ := hs
        have hc' : (m.put a' (some ⟨kv, some b, none, none⟩)).cell b
            = some ⟨w, par, none, r.ptr⟩ := by
          simp [hab.symm, hc]
        refine ⟨_, (m.put a' (some ⟨kv, some b, none, none⟩)).put b
          (some ⟨w, par, some a', r.ptr⟩), modify_some hnew _, ?_, ?_, rfl, ?_⟩
        · simp only [SonRef.write, Memory.set_left]
          exact modify_some hc' _
        · refine ⟨by simp [Tree.binsert], ⟨by simp [hab, Tree.binsert], trivial, trivial⟩, ?_⟩
          exact Repr_put hd.1.2 (Repr_put ha.2.2 hr)
        · intro c hcc
          simp only [List.mem_cons, addrs_node, List.mem_append, not_or] at hcc
          simp [hcc.1, hcc.2.1]
      | some x =>
        simp only [hp] at hs
        obtain ⟨m1, m2, e1, e2, hrep, hb, hfr⟩ := link_new_node cmp key a' kv l (some b) p s hl
          hd.2.1 ha.2.1 (by simp [hp]) hnew hs
        refine ⟨m1, m2, e1, e2, ⟨?_, hrep, ?_⟩, hb, ?_⟩
        · rw [hfr b (by simp [hab.symm, hd.1.1]), hc]
          cases l with
          | nil => simp at hp
          | node lb lw ll lr => rw [binsert_ptr]; rfl
        · refine Repr_congr r _ ?_ hr
          intro c hcr
          exact hfr c (by
            simp only [List.mem_cons, not_or]
            exact ⟨fun e => ha.2.2 (e ▸ hcr), fun hcl => hd.2.2.2 hcl hcr⟩)
        · intro c hcc
          exact hfr c (by
            simp only [List.mem_cons, addrs_node, List.mem_append, not_or] at hcc ⊢
            exact ⟨hcc.1, hcc.2.2.1⟩)
    · simp only [Bool.not_eq_true] at h1
      by_cases h2 : cmp w.1 key = true
      · simp only [h1, h2, if_true, Bool.false_eq_true, if_false] at hs ⊢
        cases hp : r.ptr with
        | none =>
          have hrnil : r = Tree.nil := by
            cases r with
            | nil => rfl
            | node rb rw rl rr => simp at hp
          subst hrnil
          simp only [ptr_nil, FindSpotResult.mk.injEq, Option.some.injEq] at hs
          obtain ⟨rfl, rfl⟩ := hs
          have hc' : (m.put a' (some ⟨kv, some b, none, none⟩)).cell b
              = some ⟨w, par, l.ptr, none⟩ := by
            simp [hab.symm, hc]
          refine ⟨_, (m.put a' (some ⟨kv, some b, none, none⟩)).put b
            (some ⟨w, par, l.ptr, some a'⟩), modify_some hnew _, ?_, ?_, rfl, ?_⟩
          · simp only [SonRef.write, Memory.set_right]
            exact modify_some hc' _
          · refine ⟨by simp [Tree.binsert], ?_, ⟨by simp [hab], trivial, trivial⟩⟩
            exact Repr_put hd.1.1 (Repr_put ha.2.1 hl)
          · intro c hcc
            simp only [List.mem_cons, addrs_node, List.mem_append, not_or] at hcc
            simp [hcc.1, hcc.2.1]
        | some x =>
          simp only [hp] at hs
          obtain ⟨m1, m2, e1, e2, hrep, hb, hfr⟩ := link_new_node cmp key a' kv r (some b) p s
            hr hd.2.2.1 ha.2.2 (by simp [hp]) hnew hs
          refine ⟨m1, m2, e1, e2, ⟨?_, ?_, hrep⟩, hb, ?_⟩
          · rw [hfr b (by simp [hab.symm, hd.1.2]), hc]
            cases r with
            | nil => simp at hp
            | node rb rw rl rr => rw [binsert_ptr]; rfl
          · refine Repr_congr l _ ?_ hl
            intro c hcl
            exact hfr c (by
              simp only [List.mem_cons, not_or]
              exact ⟨fun e => ha.2.1 (e ▸ hcl), fun hcr => hd.2.2.2 hcl hcr⟩)
          · intro c hcc
            exact hfr c (by
              simp only [List.mem_cons, addrs_node, List.mem_append, not_or] at hcc ⊢
              exact ⟨hcc.1, hcc.2.2.2⟩)
      · simp only [Bool.not_eq_true] at h2
        simp [h1, h2] at hs

theorem find_node_spec (cmp : K → K → Bool) {m : Memory (K × V)} {b : Bst}
    {t : Tree (K × V)} (hi : BInv m b t) (k : K) {fuel : Nat} (hf : t.addrs.length < fuel) :
    Bst.find_node cmp fuel m b k = Except.ok (t.bfind cmp k) := by
  rw [Bst.find_node, hi.1]
  exact find_node_loop_spec cmp k t none fuel hi.2.2.1 hf

theorem lookup_spec (cmp : K → K → Bool) {m : Memory (K × V)} {b : Bst}
    {t : Tree (K × V)} (hi : BInv m b t) (k : K) {fuel : Nat} (hf : t.addrs.length < fuel) :
    Bst.lookup cmp fuel m b k = Except.ok (t.bfind cmp k) := by
  simp only [Bst.lookup, find_node_spec cmp hi k hf, bind_ok, pure_eq_ok]
  cases t.bfind cmp k <;> rfl

theorem bfind_mem (cmp : K → K → Bool) (key : K) : ∀ (t : Tree (K × V)) (f : Nat),
    t.bfind cmp key = some f → f ∈ t.addrs
  | Tree.nil, f, h => by simp [Tree.bfind] at h
  | Tree.node a w l r, f, h => by
    simp only [Tree.bfind] at h
    simp only [addrs_node, List.mem_cons, List.mem_append]
    by_cases h1 : cmp key w.1 = true
    · simp only [h1, if_true] at h
      exact Or.inr (Or.inl (bfind_mem cmp key l f h))
    · simp only [Bool.not_eq_true] at h1
      by_cases h2 : cmp w.1 key = true
      · simp only [h1, h2, if_true, Bool.false_eq_true, if_false] at h
        exact Or.inr (Or.inr (bfind_mem cmp key r f h))
      · simp only [Bool.not_eq_true] at h2
        simp only [h1, h2, Bool.false_eq_true, if_false, Option.some.injEq] at h
        exact Or.inl h.symm

theorem BInv.nonempty {m : Memory (K × V)} {b : Bst} {a : Nat} {kv : K × V}
    {l r : Tree (K × V)} (hi : BInv m b (Tree.node a kv l r)) : b.empty = false := by
  have := hi.2.1
  simp only [addrs_node, List.length_cons] at this
  simp [Bst.empty, Bst.size, this]

theorem new_node_frame (m : Memory T) (v : T) {t : Tree T} {par : Ptr} (hr : Repr m par t)
    (hlt : ∀ a ∈ t.addrs, a < m.brk) : Repr (new_node m v).1 par t := by
  refine Repr_congr t par ?_ hr
  intro c hc
  have : c ≠ m.brk := fun e => Nat.lt_irrefl _ (e ▸ hlt c hc)
  simp [new_node, this]

theorem insert_into_empty (fuel : Nat) (m : Memory (K × V)) (kv : K × V) :
    BInv (new_node m kv).1 ⟨some m.brk, 1⟩ (Tree.node m.brk kv Tree.nil Tree.nil) ∧
    BstIterator.ctor (fuel + 1) (new_node m kv).1 (some m.brk) = Except.ok ⟨some m.brk⟩ := by
  have hc : (new_node m kv).1.cell m.brk = some ⟨kv, none, none, none⟩ := by
    simp [new_node]
  refine ⟨⟨rfl, rfl, ⟨hc, trivial, trivial⟩, by simp, ?_⟩, ?_⟩
  · intro a ha
    simp only [addrs_node, addrs_nil, List.append_nil, List.mem_singleton] at ha
    subst ha
    simp [new_node]
  · simp [BstIterator.ctor, Bst.leftmost, has_left_son, deref_some hc]

theorem insert_linked (cmp : K → K → Bool) (fuel : Nat) (m m0 : Memory (K × V)) (b : Bst)
    (t : Tree (K × V)) (kv : K × V) (p : Ptr) (s : SonRef) (hi : BInv m b t)
    (hne : t.ptr ≠ none) (hb : t.bfind cmp kv.1 = none)
    (hs : t.fspot cmp kv.1 = ⟨p, some s⟩) (hf : t.addrs.length + 1 ≤ fuel)
    (h0 : m0.cell m.brk = some ⟨kv, none, none, none⟩) (hbrk : m0.brk = m.brk + 1)
    (hfr : ∀ c, c ≠ m.brk → m0.cell c = m.cell c) :
    ∃ m1 m2 it, m0.set_parent (some m.brk) p = Except.ok m1 ∧
      s.write m1 (some m.brk) = Except.ok m2 ∧
      BstIterator.ctor fuel m2 (some m.brk) = Except.ok it ∧
      BInv m2 ⟨b.root_, b.size_ + 1⟩ (t.binsert cmp kv.1 m.brk kv) ∧ m2.brk = m.brk + 1 := by
  obtain ⟨hr, hs', hrep, hd, hlt⟩ := hi
  have hnm : m.brk ∉ t.addrs := fun h => Nat.lt_irrefl _ (hlt _ h)
  have hrep0 : Repr m0 none t := by
    refine Repr_congr t none ?_ hrep
    intro c hc
    exact hfr c (fun e => hnm (e ▸ hc))
  obtain ⟨m1, m2, e1, e2, hrep2, hb2, -⟩ :=
    link_new_node cmp kv.1 m.brk kv t none p s hrep0 hd hnm hne h0 hs
  have hperm := addrs_perm_of_pairs (t.binsert cmp kv.1 m.brk kv)
    (Tree.node m.brk kv t Tree.nil)
    (by simpa [Tree.pairs] using binsert_pairs cmp kv.1 m.brk kv t hb)
  simp only [addrs_node, addrs_nil, List.append_nil] at hperm
  obtain ⟨it, hit⟩ := iterator_ctor_returns hrep2 m.brk
    (hperm.mem_iff.2 (by simp)) fuel (by rw [hperm.length_eq]; simpa using hf)
  refine ⟨m1, m2, it, e1, e2, hit, ⟨?_, ?_, hrep2, hperm.nodup_iff.2 ?_, ?_⟩, by rw [hb2, hbrk]⟩
  · cases t with
    | nil => exact absurd rfl hne
    | node tb tw tl tr =>
      rw [binsert_ptr]
      exact hr
  · rw [hperm.length_eq]
    simp [hs']
  · exact List.nodup_cons.2 ⟨hnm, hd⟩
  · intro a ha
    rw [hb2, hbrk]
    rcases List.mem_cons.1 (hperm.mem_iff.1 ha) with rfl | h
    · exact Nat.lt_succ_self _
    · exact Nat.lt_succ_of_lt (hlt a h)

theorem try_insert_spec (cmp : K → K → Bool) (fuel : Nat) (m : Memory (K × V)) (b : Bst)
    (t : Tree (K × V)) (kv : K × V) (hi : BInv m b t) (hf : t.addrs.length + 1 ≤ fuel) :
    (∀ f, t.bfind cmp kv.1 = some f →
      ∃ it, Bst.try_insert cmp fuel m b kv.1 kv = Except.ok (m, b, it, false)) ∧
    (t.bfind cmp kv.1 = none →
      ∃ m' b' it, Bst.try_insert cmp fuel m b kv.1 kv = Except.ok (m', b', it, true) ∧
        BInv m' b' (t.binsert cmp kv.1 m.brk kv) ∧ b'.size_ = b.size_ + 1 ∧
        m'.brk = m.brk + 1) := by
  cases t with
  | nil =>
    have hsz : b.size_ = 0 := hi.2.1
    have he : b.empty = true := by simp [Bst.empty, Bst.size, hsz]
    obtain ⟨fuel', rfl⟩ : ∃ f, fuel = f + 1 := ⟨fuel - 1, by omega⟩
    obtain ⟨h1, h2⟩ := insert_into_empty fuel' m kv
    refine ⟨fun f h => by simp [Tree.bfind] at h, fun _ => ⟨(new_node m kv).1,
      ⟨some m.brk, b.size_ + 1⟩, ⟨some m.brk⟩, ?_, ?_, rfl, rfl⟩⟩
    · simp only [Bst.try_insert, he, if_true]
      show (do
        let it ← BstIterator.ctor (fuel' + 1) (new_node m kv).1 (some m.brk)
        pure ((new_node m kv).1, ({ root_ := some m.brk, size_ := b.size_ + 1 } : Bst), it,
          true)) = _
      rw [h2]
      rfl
    · rw [hsz]
      exact h1
  | node a w l r =>
    have he := hi.nonempty
    have hroot : b.root_ = some a := hi.1
    have hfs : Bst.find_spot cmp fuel m b kv.1
        = Except.ok ((Tree.node a w l r).fspot cmp kv.1) := by
      rw [Bst.find_spot, hroot]
      exact find_spot_loop_spec cmp kv.1 _ none fuel hi.2.2.1 (by simp) (by omega)
    obtain ⟨hfound, habsent⟩ := fspot_of_bfind cmp kv.1 (Tree.node a w l r) (by simp)
    constructor
    · intro f hfd
      obtain ⟨it, hit⟩ := iterator_ctor_returns hi.2.2.1 f
        (bfind_mem cmp kv.1 _ f hfd) fuel (by omega)
      refine ⟨it, ?_⟩
      simp only [Bst.try_insert, he, Bool.false_eq_true, if_false, hfs, bind_ok,
        hfound f hfd, hit, pure_eq_ok]
    · intro hnone
      obtain ⟨p, s, hps⟩ := habsent hnone
      obtain ⟨m1, m2, it, e1, e2, hit, hinv, hbrk⟩ := insert_linked cmp fuel m (new_node m kv).1
        b _ kv p s hi (by simp) hnone hps hf (by simp [new_node]) rfl
        (fun c hc => by simp [new_node, hc])
      refine ⟨m2, _, it, ?_, hinv, rfl, hbrk⟩
      simp only [Bst.try_insert, he, Bool.false_eq_true, if_false, hfs, bind_ok, hps]
      show (do
        let m1 ← (new_node m kv).1.set_parent (some m.brk) p
        let m2 ← s.write m1 (some m.brk)
        let it ← BstIterator.ctor fuel m2 (some m.brk)
        pure (m2, ({ root_ := b.root_, size_ := b.size_ + 1 } : Bst), it, true)) = _
      rw [e1, bind_ok, e2, bind_ok, hit]
      rfl

theorem replace_in_parent_spec (m : Memory (K × V)) (b : Bst) (a : Nat) (n : BstNode K V)
    (left : Bool) (x : Ptr) (hc : m.cell a = some n) (hh : Hang m b a n.parent_ left) :
    ∃ m' b', replace_in_parent m b (some a) x = Except.ok (m', b') ∧
      Rehung m m' b b' n.parent_ left x := by
  cases hp : n.parent_ with
  | none =>
    refine ⟨m, ⟨x, b.size_⟩, ?_, by simp, rfl, fun _ _ => rfl, fun p np h => by cases h⟩
    simp [replace_in_parent, is_left_son, is_right_son, deref_some hc, hp]
  | some p =>
    rw [hp] at hh
    obtain ⟨np, hnp, hside⟩ := hh
    cases left with
    | true =>
      simp only [if_true] at hside
      refine ⟨m.put p (some { np with left_ := x }), b, ?_, by simp, rfl, ?_, ?_⟩
      · simp [replace_in_parent, is_left_son, deref_some hc, deref_some hnp, hp, hside,
          Memory.set_left, Memory.modify, hnp]
      · intro c hcp
        have : c ≠ p := fun e => hcp (by rw [e])
        simp [this]
      · intro p' np' e h'
        cases e
        rw [hnp] at h'
        cases h'
        simp
    | false =>
      simp only [Bool.false_eq_true, if_false] at hside
      have hl : ¬ (some a = np.left_) := fun e => hside.2 e.symm
      refine ⟨m.put p (some { np with right_ := x }), b, ?_, by simp, rfl, ?_, ?_⟩
      · simp [replace_in_parent, is_left_son, is_right_son, deref_some hc, deref_some hnp, hp,
          hside.1, hl, Memory.set_right, Memory.modify, hnp]
      · intro c hcp
        have : c ≠ p := fun e => hcp (by rw [e])
        simp [this]
      · intro p' np' e h'
        cases e
        rw [hnp] at h'
        cases h'
        simp

theorem set_parent_top {m : Memory T} (q : Ptr) (t : Tree T) (par : Ptr) (hr : Repr m par t)
    (hd : t.addrs.Nodup) :
    ∃ m', (if t.ptr.isSome then m.set_parent t.ptr q else pure m) = Except.ok m' ∧
      Repr m' q t ∧ m'.brk = m.brk ∧ ∀ c, t.ptr ≠ some c → m'.cell c = m.cell c := by
  cases t with
  | nil => exact ⟨m, rfl, trivial, rfl, fun _ _ => rfl⟩
  | node a v l r =>
    refine ⟨_, ?_, Repr.reparent q _ par rfl hr.1 hd hr, rfl, ?_⟩
    · simp [Memory.set_parent, modify_some hr.1]
    · intro c hc
      have : c ≠ a := fun e => hc (by simp [e])
      simp [this]

theorem extract_single (fuel : Nat) (m : Memory (K × V)) (b : Bst) (a : Nat)
    (n : BstNode K V) (left : Bool) (s : Tree (K × V)) (hc : m.cell a = some n)
    (hdeg : node_degree m (some a) = Except.ok 1)
    (hson : (if n.left_.isSome then n.left_ else n.right_) = s.ptr)
    (hs : Repr m (some a) s) (hd : (a :: s.addrs).Nodup) (hne : s.ptr ≠ none)
    (hh : Hang m b a n.parent_ left) (hp : ∀ p, n.parent_ = some p → p ∉ a :: s.addrs) :
    ∃ m' b', Bst.extract_node (fuel + 1) m b (some a) = Except.ok (m', b') ∧
      Repr m' n.parent_ s ∧ b' = (if n.parent_ = none then ⟨s.ptr, b.size_⟩ else b) ∧
      m'.brk = m.brk ∧ m'.cell a = m.cell a ∧
      (∀ p np, n.parent_ = some p → m.cell p = some np →
        m'.cell p = some (if left then { np with left_ := s.ptr }
          else { np with right_ := s.ptr })) ∧
      ∀ c, c ∉ a :: s.addrs → n.parent_ ≠ some c → m'.cell c = m.cell c := by
  obtain ⟨m1, b1, e1, hb1, hbrk1, hfr1, hpc1⟩ :=
    replace_in_parent_spec m b a n left s.ptr hc hh
  cases s with
  | nil => exact absurd rfl hne
  | node sb sv sl sr =>
    simp only [addrs_node, List.nodup_cons, List.mem_cons, List.mem_append, not_or] at hd
    have hpa : n.parent_ ≠ some a := fun e => hp a e (by simp)
    have hpsb : n.parent_ ≠ some sb := fun e => hp sb e (by simp)
    have hca1 : m1.cell a = some n := by rw [hfr1 a hpa, hc]
    have hcs1 : m1.cell sb = some ⟨sv, some a, sl.ptr, sr.ptr⟩ := by rw [hfr1 sb hpsb, hs.1]
    have hs1 : Repr m1 (some a) (Tree.node sb sv sl sr) := by
      refine Repr_congr _ _ ?_ hs
      intro c hcm
      exact hfr1 c (fun e => hp c e (List.mem_cons_of_mem _ hcm))
    have hrep := Repr.reparent n.parent_ (Tree.node sb sv sl sr) (some a) rfl hcs1
      (by simpa [addrs_node] using hd.2) hs1
    simp only [ptr_node] at hson e1
    refine ⟨_, b1, ?_, hrep, hb1, by simp [hbrk1], ?_, ?_, ?_⟩
    · simp only [Bst.extract_node, hdeg, bind_ok, deref_some hc, hson, e1,
        deref_some hca1, Memory.set_parent, modify_some hcs1, pure_eq_ok]
    · have : a ≠ sb := hd.1.1
      simp [this, hca1, hc]
    · intro p np e hnp
      have : p ≠ sb := fun e' => hpsb (by rw [e, e'])
      simp only [put_cell, this, if_false]
      exact hpc1 p np e hnp
    · intro c hcm hcp
      simp only [List.mem_cons, addrs_node, List.mem_append, not_or] at hcm
      simp only [put_cell, hcm.2.1, if_false]
      exact hfr1 c hcp

theorem extract_low (fuel : Nat) (m : Memory (K × V)) (b : Bst) (a : Nat) (kv : K × V)
    (par : Ptr) (left : Bool) (l r : Tree (K × V))
    (hc : m.cell a = some ⟨kv, par, l.ptr, r.ptr⟩) (hl : Repr m (some a) l)
    (hr : Repr m (some a) r) (hd : (a :: (l.addrs ++ r.addrs)).Nodup)
    (hh : Hang m b a par left) (hp : ∀ p, par = some p → p ∉ a :: (l.addrs ++ r.addrs))
    (hlow : l.ptr = none ∨ r.ptr = none) :
    ∃ m' b', Bst.extract_node (fuel + 1) m b (some a) = Except.ok (m', b') ∧
      Repr m' par (Tree.join l r) ∧
      b' = (if par = none then ⟨(Tree.join l r).ptr, b.size_⟩ else b) ∧
      m'.brk = m.brk ∧ m'.cell a = m.cell a ∧
      (∀ p np, par = some p → m.cell p = some np →
        m'.cell p = some (if left then { np with left_ := (Tree.join l r).ptr }
          else { np with right_ := (Tree.join l r).ptr })) ∧
      ∀ c, c ∉ a :: (l.addrs ++ r.addrs) → par ≠ some c → m'.cell c = m.cell c := by
  cases l with
  | nil =>
    cases r with
    | nil =>
      obtain ⟨m1, b1, e1, hb1, hbrk1, hfr1, hpc1⟩ :=
        replace_in_parent_spec m b a _ left none hc hh
      have hpa : par ≠ some a := fun e => hp a e (by simp)
      refine ⟨m1, b1, ?_, trivial, hb1, hbrk1, hfr1 a hpa, hpc1, fun c _ hcp => hfr1 c hcp⟩
      simp only [Bst.extract_node, node_degree, deref_some hc, bind_ok, pure_eq_ok, ptr_nil,
        Option.isSome_none, Bool.false_eq_true, if_false, Nat.add_zero]
      exact e1
    | node rb rv rl rr =>
      have hj : Tree.join Tree.nil (Tree.node rb rv rl rr) = Tree.node rb rv rl rr := rfl
      rw [hj]
      exact extract_single fuel m b a _ left _ hc
        (by simp [node_degree, deref_some hc]) (by simp) hr (by simpa using hd) (by simp) hh
        (by simpa using hp)
  | node lb lv ll lr =>
    have hrn : r = Tree.nil := by
      rcases hlow with h | h
      · simp at h
      · cases r with
        | nil => rfl
        | node rb rv rl rr => simp at h
    subst hrn
    have hj : Tree.join (Tree.node lb lv ll lr) Tree.nil = Tree.node lb lv ll lr := rfl
    rw [hj]
    obtain ⟨m', b', h1, h2, h3, h4, h5, h6, h7⟩ := extract_single fuel m b a _ left _ hc
      (by simp [node_degree, deref_some hc]) (by simp) hl (by simpa using hd) (by simp) hh
      (by simpa using hp)
    exact ⟨m', b', h1, h2, h3, h4, h5, h6, fun c hcm => h7 c (by simpa using hcm)⟩

theorem extract_pop (b : Bst) (fuel : Nat) : ∀ (r : Tree (K × V)) (m : Memory (K × V))
    (q : Nat) (nq : BstNode K V) (left : Bool) (c : Nat) (w : K × V) (r' : Tree (K × V)),
    m.cell q = some nq →
    (if left then nq.left_ = r.ptr else nq.right_ = r.ptr ∧ nq.left_ ≠ some c) →
    Repr m (some q) r → (q :: r.addrs).Nodup → r.pop_left = some (c, w, r') →
    ∃ m', Bst.extract_node (fuel + 1) m b (some c) = Except.ok (m', b) ∧
      Repr m' (some q) r' ∧
      m'.cell q = some (if left then { nq with left_ := r'.ptr }
        else { nq with right_ := r'.ptr }) ∧
      (∃ nc, m'.cell c = some nc ∧ nc.data_ = w) ∧ m'.brk = m.brk ∧
      ∀ x, x ∉ q :: r.addrs → m'.cell x = m.cell x
  | Tree.nil, _, _, _, _, _, _, _, _, _, _, _, h => by simp [Tree.pop_left] at h
  | Tree.node c0 v0 l0 r0, m, q, nq, left, c, w, r', hq, hlink, ⟨hc, hl, hr⟩, hd, hpop => by
    have hd' := hd
    simp only [addrs_node, List.nodup_cons, List.mem_cons, List.mem_append, not_or,
      List.nodup_append] at hd'
    simp only [Tree.pop_left] at hpop
    cases hpl : l0.pop_left with
    | none =>
      simp only [hpl, Option.some.injEq, Prod.mk.injEq] at hpop
      obtain ⟨rfl, rfl, rfl⟩ := hpop
      have hl0 := pop_left_none l0 hpl
      subst hl0
      have hh : Hang m b c0 (some q) left := by
        refine ⟨nq, hq, ?_⟩
        cases left with
        | true => simpa using hlink
        | false => simpa using hlink
      obtain ⟨m', b', e, hrep, hb, hbrk, hca, hpc, hfr⟩ := extract_low fuel m b c0 v0 (some q)
        left Tree.nil r0 hc trivial hr
        (by
          simp only [addrs_nil, List.nil_append, List.nodup_cons]
          exact ⟨hd'.2.1.2, hd'.2.2.2.1⟩) hh
        (by
          intro p hp
          cases hp
          simp only [addrs_nil, List.nil_append, List.mem_cons, not_or]
          exact ⟨hd'.1.1, hd'.1.2.2⟩) (Or.inl rfl)
      have hj : Tree.join Tree.nil r0 = r0 := rfl
      rw [hj] at hrep hpc
      simp only [reduceCtorEq, if_false] at hb
      subst hb
      refine ⟨m', e, hrep, hpc q nq rfl hq, ⟨_, hca.trans hc, rfl⟩, hbrk, ?_⟩
      intro x hx
      simp only [List.mem_cons, addrs_node, addrs_nil, List.nil_append, not_or] at hx
      exact hfr x (by simp [hx.2.1, hx.2.2]) (by
        intro e
        cases e
        exact hx.1 rfl)
    | some p =>
      obtain ⟨c1, w1, l0'⟩ := p
      simp only [hpl, Option.some.injEq, Prod.mk.injEq] at hpop
      obtain ⟨rfl, rfl, rfl⟩ := hpop
      obtain ⟨m', e, hrep, hc0, hnc, hbrk, hfr⟩ := extract_pop b fuel l0 m c0 _ true c1 w1 l0'
        hc (by simp) hl (List.nodup_cons.2 ⟨hd'.2.1.1, hd'.2.2.1⟩) hpl
      simp only [if_true] at hc0
      refine ⟨m', e, ⟨hc0, hrep, ?_⟩, ?_, hnc, hbrk, ?_⟩
      · refine Repr_congr r0 _ ?_ hr
        intro x hx
        exact hfr x (by
          simp only [List.mem_cons, not_or]
          exact ⟨fun e => hd'.2.1.2 (e ▸ hx), fun hx0 => hd'.2.2.2.2 hx0 hx⟩)
      · rw [hfr q (by
          simp only [List.mem_cons, not_or]
          exact ⟨hd'.1.1, hd'.1.2.1⟩), hq]
        cases left with
        | true =>
          simp only [if_true, ptr_node] at hlink ⊢
          rw [relink_eq.1 hlink]
        | false =>
          simp only [Bool.false_eq_true, if_false, ptr_node] at hlink ⊢
          rw [relink_eq.2 hlink.1]
      · intro x hx
        exact hfr x (by
          simp only [List.mem_cons, addrs_node, List.mem_append, not_or] at hx ⊢
          exact ⟨hx.2.1, hx.2.2.1⟩)

theorem pop_left_addrs (t : Tree T) (c : Nat) (w : T) (t' : Tree T)
    (h : t.pop_left = some (c, w, t')) : (c :: t'.addrs).Perm t.addrs := by
  have := (pop_left_pairs t c w t' h).map Prod.fst
  simpa [pairs_addrs] using this

theorem extract_two (fuel : Nat) (m : Memory (K × V)) (b : Bst) (a : Nat) (kv : K × V)
    (par : Ptr) (left : Bool) (l r : Tree (K × V)) (c : Nat) (w : K × V) (r' : Tree (K × V))
    (hc : m.cell a = some ⟨kv, par, l.ptr, r.ptr⟩) (hl : Repr m (some a) l)
    (hr : Repr m (some a) r) (hd : (a :: (l.addrs ++ r.addrs)).Nodup)
    (hh : Hang m b a par left) (hp : ∀ p, par = some p → p ∉ a :: (l.addrs ++ r.addrs))
    (hln : l.ptr ≠ none) (hpop : r.pop_left = some (c, w, r'))
    (hf : r.addrs.length ≤ fuel) :
    ∃ m' b', Bst.extract_node (fuel + 1) m b (some a) = Except.ok (m', b') ∧
      Repr m' par (Tree.node c w l r') ∧
      b' = (if par = none then ⟨some c, b.size_⟩ else b) ∧ m'.brk = m.brk ∧
      (∃ na, m'.cell a = some na) ∧
      (∀ p np, par = some p → m.cell p = some np →
        m'.cell p = some (if left then { np with left_ := some c }
          else { np with right_ := some c })) ∧
      ∀ x, x ∉ a :: (l.addrs ++ r.addrs) → par ≠ some x → m'.cell x = m.cell x := by
  have hperm := pop_left_addrs r c w r' hpop
  have hd' := hd
  simp only [List.nodup_cons, List.mem_append, not_or, List.nodup_append] at hd'
  obtain ⟨⟨hal, har⟩, hdl, hdr, hdis⟩ := hd'
  have hcr : c ∈ r.addrs := hperm.mem_iff.1 (by simp)
  have hsub : ∀ x, x ∈ r'.addrs → x ∈ r.addrs := fun x hx =>
    hperm.mem_iff.1 (List.mem_cons_of_mem _ hx)
  have hnd' : (c :: r'.addrs).Nodup := hperm.nodup_iff.2 hdr
  have hcr' : c ∉ r'.addrs := (List.nodup_cons.1 hnd').1
  have hdr' : r'.addrs.Nodup := (List.nodup_cons.1 hnd').2
  have hac : a ≠ c := fun e => har (e ▸ hcr)
  have hcl : c ∉ l.addrs := fun h => hdis h hcr
  have har' : a ∉ r'.addrs := fun h => har (hsub a h)
  have hrne : r.ptr ≠ none := by
    cases r with
    | nil => simp [Tree.pop_left] at hpop
    | node rb rv rl rr => simp
  obtain ⟨fuel', rfl⟩ : ∃ f, fuel = f + 1 := by
    cases r with
    | nil => exact absurd rfl hrne
    | node rb rv rl rr =>
      simp only [addrs_node, List.length_cons] at hf
      exact ⟨fuel - 1, by omega⟩
  have hlc : l.ptr ≠ some c := by
    cases l with
    | nil => simp
    | node lb lv ll lr =>
      simp only [ptr_node, ne_eq, Option.some.injEq]
      intro e
      exact hcl (by simp [e])
  obtain ⟨c', w', t', hpop', hlm⟩ := bst_leftmost_spec r (some a) (fuel' + 1) hr hrne hf
  rw [hpop] at hpop'
  simp only [Option.some.injEq, Prod.mk.injEq] at hpop'
  obtain ⟨rfl, -, -⟩ := hpop'
  obtain ⟨m1, e1, hr1, hca1, ⟨nc, hcc1, hncd⟩, hbrk1, hfr1⟩ := extract_pop b fuel' r m a _ false
    c w r' hc ⟨rfl, hlc⟩ hr (List.nodup_cons.2 ⟨har, hdr⟩) hpop
  simp only [Bool.false_eq_true, if_false] at hca1
  have hl1 : Repr m1 (some a) l := by
    refine Repr_congr l _ ?_ hl
    intro x hx
    exact hfr1 x (by
      simp only [List.mem_cons, not_or]
      exact ⟨fun e => hal (e ▸ hx), fun hxr => hdis hx hxr⟩)
  have hout1 : ∀ x, x ∉ a :: (l.addrs ++ r.addrs) → m1.cell x = m.cell x := by
    intro x hx
    simp only [List.mem_cons, List.mem_append, not_or] at hx
    exact hfr1 x (by simp [hx.1, hx.2.2])
  let m4 : Memory (K × V) := m1.put c (some ⟨w, par, l.ptr, r'.ptr⟩)
  have hca4 : m4.cell a = some ⟨kv, par, l.ptr, r'.ptr⟩ := by
    simp [m4, hac, hca1]
  have hcc4 : m4.cell c = some ⟨w, par, l.ptr, r'.ptr⟩ := by simp [m4]
  have hl4 : Repr m4 (some a) l := Repr_put hcl hl1
  have hr4 : Repr m4 (some a) r' := Repr_put hcr' hr1
  obtain ⟨m5, e5, hl5, hbrk5, hfr5⟩ := set_parent_top (some c) l (some a) hl4 hdl
  have hr5 : Repr m5 (some a) r' := by
    refine Repr_congr r' _ ?_ hr4
    intro x hx
    refine hfr5 x ?_
    cases l with
    | nil => simp
    | node lb lv ll lr =>
      simp only [ptr_node, ne_eq, Option.some.injEq]
      intro e
      exact hdis (by simp [e]) (hsub x hx)
  have hla : l.ptr ≠ some a := by
    cases l with
    | nil => simp
    | node lb lv ll lr =>
      simp only [ptr_node, ne_eq, Option.some.injEq]
      intro e
      exact hal (by simp [e])
  obtain ⟨m6, e6, hr6, hbrk6, hfr6⟩ := set_parent_top (some c) r' (some a) hr5 hdr'
  have hra : r'.ptr ≠ some a := by
    cases r' with
    | nil => simp
    | node rb rv rl rr =>
      simp only [ptr_node, ne_eq, Option.some.injEq]
      intro e
      exact har' (by simp [e])
  have hrc : r'.ptr ≠ some c := by
    cases r' with
    | nil => simp
    | node rb rv rl rr =>
      simp only [ptr_node, ne_eq, Option.some.injEq]
      intro e
      exact hcr' (by simp [e])
  have hl6 : Repr m6 (some c) l := by
    refine Repr_congr l _ ?_ hl5
    intro x hx
    refine hfr6 x ?_
    cases r' with
    | nil => simp
    | node rb rv rl rr =>
      simp only [ptr_node, ne_eq, Option.some.injEq]
      intro e
      exact hdis hx (hsub x (by simp [e]))
  have hca5 : m5.cell a = some ⟨kv, par, l.ptr, r'.ptr⟩ := by rw [hfr5 a hla, hca4]
  have hca6 : m6.cell a = some ⟨kv, par, l.ptr, r'.ptr⟩ := by rw [hfr6 a hra, hca5]
  have hcc6 : m6.cell c = some ⟨w, par, l.ptr, r'.ptr⟩ := by
    rw [hfr6 c hrc, hfr5 c hlc, hcc4]
  have hout6 : ∀ x, x ∉ a :: (l.addrs ++ r.addrs) → m6.cell x = m.cell x := by
    intro x hx
    have hx' := hx
    simp only [List.mem_cons, List.mem_append, not_or] at hx'
    have h1 : r'.ptr ≠ some x := by
      cases r' with
      | nil => simp
      | node rb rv rl rr =>
        simp only [ptr_node, ne_eq, Option.some.injEq]
        intro e
        exact hx'.2.2 (hsub x (by simp [e]))
    have h2 : l.ptr ≠ some x := by
      cases l with
      | nil => simp
      | node lb lv ll lr =>
        simp only [ptr_node, ne_eq, Option.some.injEq]
        intro e
        exact hx'.2.1 (by simp [e])
    have h3 : x ≠ c := fun e => hx'.2.2 (e ▸ hcr)
    rw [hfr6 x h1, hfr5 x h2]
    simp only [m4, put_cell, h3, if_false]
    exact hout1 x hx
  have hh6 : Hang m6 b a par left := by
    cases par with
    | none => exact hh
    | some p =>
      obtain ⟨np, hnp, hside⟩ := hh
      exact ⟨np, by rw [hout6 p (hp p rfl), hnp], hside⟩
  obtain ⟨m7, b7, e7, hb7, hbrk7, hfr7, hpc7⟩ :=
    replace_in_parent_spec m6 b a _ left (some c) hca6 hh6
  simp only at hb7 hfr7 hpc7
  have hpin : ∀ x, x ∈ a :: (l.addrs ++ r.addrs) → par ≠ some x := fun x hx e => hp x e hx
  refine ⟨m7, b7, ?_, ⟨?_, ?_, ?_⟩, hb7, ?_, ⟨_, (hfr7 a (hpin a (by simp))).trans hca6⟩, ?_, ?_⟩
  · have hdeg : node_degree m (some a) = Except.ok 2 := by
      have h1 : l.ptr.isSome = true := by
        cases l with
        | nil => exact absurd rfl hln
        | node lb lv ll lr => rfl
      have h2 : r.ptr.isSome = true := by
        cases r with
        | nil => exact absurd rfl hrne
        | node rb rv rl rr => rfl
      simp [node_degree, deref_some hc, h1, h2]
    have hs2 : m1.set_parent (some c) par
        = Except.ok (m1.put c (some { nc with parent_ := par })) := modify_some hcc1 _
    have hcell2 : (m1.put c (some { nc with parent_ := par })).cell c
        = some { nc with parent_ := par } := by simp
    have hs3 : (m1.put c (some { nc with parent_ := par })).set_left (some c) l.ptr
        = Except.ok ((m1.put c (some { nc with parent_ := par })).put c
          (some ⟨nc.data_, par, l.ptr, nc.right_⟩)) := by
      unfold Memory.set_left
      exact modify_some hcell2 _
    have hcell3 : ((m1.put c (some { nc with parent_ := par })).put c
          (some ⟨nc.data_, par, l.ptr, nc.right_⟩)).cell c
        = some ⟨nc.data_, par, l.ptr, nc.right_⟩ := by simp
    have hs4 : ((m1.put c (some { nc with parent_ := par })).put c
          (some ⟨nc.data_, par, l.ptr, nc.right_⟩)).set_right (some c) r'.ptr
        = Except.ok m4 := by
      unfold Memory.set_right
      rw [modify_some hcell3]
      simp only [m4, put_put_same, hncd]
    have hd2 : (m1.put c (some { nc with parent_ := par })).deref (some a)
        = Except.ok ⟨kv, par, l.ptr, r'.ptr⟩ := deref_some (by simp [hac, hca1])
    have hd3 : ((m1.put c (some { nc with parent_ := par })).put c
          (some ⟨nc.data_, par, l.ptr, nc.right_⟩)).deref (some a)
        = Except.ok ⟨kv, par, l.ptr, r'.ptr⟩ := deref_some (by simp [hac, hca1])
    rw [Bst.extract_node]
    simp only [hdeg, bind_ok, deref_some hc, hlm, e1, deref_some hca1, hs2,
      hd2, hs3, hd3, hs4, deref_some hca4, e5, deref_some hca5, e6, e7]
  · rw [hfr7 c (hpin c (by simp [hcr])), hcc6]
  · refine Repr_congr l _ ?_ hl6
    intro x hx
    exact hfr7 x (hpin x (by simp [hx]))
  · refine Repr_congr r' _ ?_ hr6
    intro x hx
    exact hfr7 x (hpin x (by simp [hsub x hx]))
  · rw [hbrk7, hbrk6, hbrk5]
    simp [m4, hbrk1]
  · intro p np e hnp
    refine hpc7 p np e ?_
    rw [hout6 p (hp p e), hnp]
  · intro x hx hpx
    rw [hfr7 x hpx, hout6 x hx]

theorem extract_local (fuel : Nat) (m : Memory (K × V)) (b : Bst) (a : Nat) (kv : K × V)
    (par : Ptr) (left : Bool) (l r : Tree (K × V))
    (hc : m.cell a = some ⟨kv, par, l.ptr, r.ptr⟩) (hl : Repr m (some a) l)
    (hr : Repr m (some a) r) (hd : (a :: (l.addrs ++ r.addrs)).Nodup)
    (hh : Hang m b a par left) (hp : ∀ p, par = some p → p ∉ a :: (l.addrs ++ r.addrs))
    (hf : r.addrs.length ≤ fuel) :
    ∃ m' b', Bst.extract_node (fuel + 1) m b (some a) = Except.ok (m', b') ∧
      Repr m' par (Tree.join l r) ∧
      b' = (if par = none then ⟨(Tree.join l r).ptr, b.size_⟩ else b) ∧
      m'.brk = m.brk ∧ (∃ na, m'.cell a = some na) ∧
      (∀ p np, par = some p → m.cell p = some np →
        m'.cell p = some (if left then { np with left_ := (Tree.join l r).ptr }
          else { np with right_ := (Tree.join l r).ptr })) ∧
      ∀ c, c ∉ a :: (l.addrs ++ r.addrs) → par ≠ some c → m'.cell c = m.cell c := by
  by_cases hlow : l.ptr = none ∨ r.ptr = none
  · obtain ⟨m', b', h1, h2, h3, h4, h5, h6, h7⟩ :=
      extract_low fuel m b a kv par left l r hc hl hr hd hh hp hlow
    exact ⟨m', b', h1, h2, h3, h4, ⟨_, h5.trans hc⟩, h6, h7⟩
  · simp only [not_or] at hlow
    cases hpop : r.pop_left with
    | none =>
      rw [pop_left_none r hpop] at hlow
      exact absurd rfl hlow.2
    | some p =>
      obtain ⟨c, w, r'⟩ := p
      have hj : Tree.join l r = Tree.node c w l r' := by
        cases l with
        | nil => exact absurd rfl hlow.1
        | node lb lv ll lr => simp [Tree.join, hpop]
      rw [hj]
      exact extract_two fuel m b a kv par left l r c w r' hc hl hr hd hh hp hlow.1 hpop hf

theorem remove_ptr_of_ne (a : Nat) (b0 : Nat) (v0 : T) (l0 r0 : Tree T) (h : b0 ≠ a) :
    ((Tree.node b0 v0 l0 r0).remove a).ptr = some b0 := by
  simp [Tree.remove, h]

theorem extract_in_tree (b : Bst) (a : Nat) (fuel : Nat) : ∀ (t : Tree (K × V))
    (m : Memory (K × V)) (q : Nat) (nq : BstNode K V) (left : Bool),
    m.cell q = some nq →
    (if left then nq.left_ = t.ptr else nq.right_ = t.ptr ∧ nq.left_ ≠ some a) →
    Repr m (some q) t → (q :: t.addrs).Nodup → a ∈ t.addrs → t.addrs.length ≤ fuel →
    ∃ m', Bst.extract_node (fuel + 1) m b (some a) = Except.ok (m', b) ∧
      Repr m' (some q) (t.remove a) ∧
      m'.cell q = some (if left then { nq with left_ := (t.remove a).ptr }
        else { nq with right_ := (t.remove a).ptr }) ∧
      (∃ na, m'.cell a = some na) ∧ m'.brk = m.brk ∧
      ∀ x, x ∉ q :: t.addrs → m'.cell x = m.cell x
  | Tree.nil, _, _, _, _, _, _, _, _, ha, _ => by simp at ha
  | Tree.node b0 v0 l0 r0, m, q, nq, left, hq, hlink, ⟨hc, hl, hr⟩, hd, ha, hf => by
    have hd' := hd
    simp only [addrs_node, List.nodup_cons, List.mem_cons, List.mem_append, not_or,
      List.nodup_append] at hd'
    simp only [addrs_node, List.length_cons, List.length_append] at hf
    simp only [addrs_node, List.mem_cons, List.mem_append] at ha
    by_cases hb : b0 = a
    · subst hb
      have hh : Hang m b b0 (some q) left := by
        refine ⟨nq, hq, ?_⟩
        cases left with
        | true => simpa using hlink
        | false => simpa using hlink
      obtain ⟨m', b', e, hrep, hb', hbrk, hna, hpc, hfr⟩ := extract_local fuel m b b0 v0
        (some q) left l0 r0 hc hl hr
        (List.nodup_cons.2 ⟨by simp [hd'.2.1.1, hd'.2.1.2],
          List.nodup_append.2 ⟨hd'.2.2.1, hd'.2.2.2.1, hd'.2.2.2.2⟩⟩) hh
        (by
          intro p hp
          cases hp
          simp only [List.mem_cons, List.mem_append, not_or]
          exact ⟨hd'.1.1, hd'.1.2.1, hd'.1.2.2⟩) (by omega)
      simp only [reduceCtorEq, if_false] at hb'
      subst hb'
      have hrm : (Tree.node b0 v0 l0 r0).remove b0 = Tree.join l0 r0 := by simp [Tree.remove]
      rw [hrm]
      refine ⟨m', e, hrep, hpc q nq rfl hq, hna, hbrk, ?_⟩
      intro x hx
      simp only [List.mem_cons, addrs_node, List.mem_append, not_or] at hx
      exact hfr x (by simp [hx.2.1, hx.2.2.1, hx.2.2.2]) (by
        intro e'
        cases e'
        exact hx.1 rfl)
    · have hrm : (Tree.node b0 v0 l0 r0).remove a
          = Tree.node b0 v0 (l0.remove a) (r0.remove a) := by simp [Tree.remove, hb]
      have hqsame : ∀ m' : Memory (K × V), m'.cell q = m.cell q →
          m'.cell q = some (if left then { nq with left_ := some b0 }
            else { nq with right_ := some b0 }) := by
        intro m' h
        rw [h, hq]
        cases left with
        | true =>
          simp only [if_true, ptr_node] at hlink ⊢
          rw [relink_eq.1 hlink]
        | false =>
          simp only [Bool.false_eq_true, if_false, ptr_node] at hlink ⊢
          rw [relink_eq.2 hlink.1]
      rcases ha with ha | ha | ha
      · exact absurd ha.symm hb
      · have har : a ∉ r0.addrs := fun h => hd'.2.2.2.2 ha h
        obtain ⟨m', e, hrep, hc0, hna, hbrk, hfr⟩ := extract_in_tree b a fuel l0 m b0 _ true hc
          (by simp) hl (List.nodup_cons.2 ⟨hd'.2.1.1, hd'.2.2.1⟩) ha (by omega)
        simp only [if_true] at hc0
        rw [hrm, remove_of_not_mem a r0 har]
        refine ⟨m', e, ⟨hc0, hrep, ?_⟩, ?_, hna, hbrk, ?_⟩
        · refine Repr_congr r0 _ ?_ hr
          intro x hx
          exact hfr x (by
            simp only [List.mem_cons, not_or]
            exact ⟨fun e => hd'.2.1.2 (e ▸ hx), fun hx0 => hd'.2.2.2.2 hx0 hx⟩)
        · simp only [ptr_node]
          exact hqsame m' (hfr q (by
            simp only [List.mem_cons, not_or]
            exact ⟨hd'.1.1, hd'.1.2.1⟩))
        · intro x hx
          exact hfr x (by
            simp only [List.mem_cons, addrs_node, List.mem_append, not_or] at hx ⊢
            exact ⟨hx.2.1, hx.2.2.1⟩)
      · have hal : a ∉ l0.addrs := fun h => hd'.2.2.2.2 h ha
        have hla : l0.ptr ≠ some a := by
          cases l0 with
          | nil => simp
          | node lb lv ll lr =>
            simp only [ptr_node, ne_eq, Option.some.injEq]
            intro e
            exact hal (by simp [e])
        obtain ⟨m', e, hrep, hc0, hna, hbrk, hfr⟩ := extract_in_tree b a fuel r0 m b0 _ false hc
          ⟨rfl, hla⟩ hr (List.nodup_cons.2 ⟨hd'.2.1.2, hd'.2.2.2.1⟩) ha (by omega)
        simp only [Bool.false_eq_true, if_false] at hc0
        rw [hrm, remove_of_not_mem a l0 hal]
        refine ⟨m', e, ⟨hc0, ?_, hrep⟩, ?_, hna, hbrk, ?_⟩
        · refine Repr_congr l0 _ ?_ hl
          intro x hx
          exact hfr x (by
            simp only [List.mem_cons, not_or]
            exact ⟨fun e => hd'.2.1.1 (e ▸ hx), fun hx0 => hd'.2.2.2.2 hx hx0⟩)
        · simp only [ptr_node]
          exact hqsame m' (hfr q (by
            simp only [List.mem_cons, not_or]
            exact ⟨hd'.1.1, hd'.1.2.2⟩))
        · intro x hx
          exact hfr x (by
            simp only [List.mem_cons, addrs_node, List.mem_append, not_or] at hx ⊢
            exact ⟨hx.2.1, hx.2.2.2⟩)

theorem leftmost_eq (m : Memory (K × V)) : ∀ (fuel : Nat) (p : Ptr),
    Bst.leftmost fuel m p = descend_left fuel m p
  | 0, _ => rfl
  | fuel + 1, p => by
    simp only [Bst.leftmost, descend_left, has_left_son]
    cases hd : m.deref p with
    | error e => rfl
    | ok n =>
      simp only [bind_ok, pure_eq_ok]
      cases hl : n.left_ with
      | none => simp
      | some l => simpa using leftmost_eq m fuel (some l)

theorem climb_eq (m : Memory (K × V)) : ∀ (fuel : Nat) (p : Ptr),
    climb_while_right fuel m p = climb_right fuel m p
  | 0, _ => rfl
  | fuel + 1, p => by
    simp only [climb_while_right, climb_right, is_right_son]
    cases hd : m.deref p with
    | error e => rfl
    | ok n =>
      simp only [bind_ok, pure_eq_ok]
      cases hp : n.parent_ with
      | none => simp
      | some q =>
        simp only
        cases hq : m.deref (some q) with
        | error e => rfl
        | ok pn =>
          simp only [bind_ok, pure_eq_ok, decide_eq_true_eq]
          by_cases h : pn.right_ = p
          · simp only [h, if_true]
            exact climb_eq m fuel (some q)
          · have h' : ¬ p = pn.right_ := fun e => h e.symm
            simp only [h, h', if_false]

theorem next_in_order_eq (fuel : Nat) (m : Memory (K × V)) (a : Nat) :
    Bst.next_in_order fuel m (some a) = next_pos fuel m a := by
  simp only [Bst.next_in_order, next_pos, PairingTreeIterator.increment, has_right_son]
  cases hd : m.deref (some a) with
  | error e => rfl
  | ok n =>
    simp only [bind_ok, pure_eq_ok]
    cases hr : n.right_ with
    | none =>
      simp only [Option.isSome_none, Bool.false_eq_true, if_false, climb_eq]
      cases hc : climb_right fuel m (some a) with
      | error e => rfl
      | ok c =>
        simp only [bind_ok]
        cases hd2 : m.deref c with
        | error e => rfl
        | ok cn => rfl
    | some r =>
      simp only [Option.isSome_some, if_true, leftmost_eq]
      cases hc : descend_left fuel m (some r) with
      | error e => rfl
      | ok c => rfl

theorem Linked_returns {nx : Nat → Except Fault Ptr} : ∀ (L : List Nat) (e : Ptr),
    Linked nx L (Except.ok e) → ∀ a ∈ L, ∃ p, nx a = Except.ok p
  | [], _, _, a, ha => by simp at ha
  | [c], e, h, a, ha => by
    simp only [List.mem_singleton] at ha
    subst ha
    exact ⟨e, h⟩
  | c :: d :: rest, e, ⟨h1, h2⟩, a, ha => by
    simp only [List.mem_cons] at ha
    rcases ha with rfl | ha
    · exact ⟨some d, h1⟩
    · exact Linked_returns (d :: rest) e h2 a (by simpa using ha)

theorem bst_linked {m : Memory (K × V)} {b : Bst} {t : Tree (K × V)} (hi : BInv m b t)
    (fuel : Nat) (hf : t.addrs.length ≤ fuel) :
    Linked (next_pos fuel m) t.inorder (Except.ok none) := by
  obtain ⟨-, -, hrep, hd, -⟩ := hi
  have h := inorder_linked fuel t none hrep hd hf
  cases t with
  | nil => trivial
  | node a v l r =>
    have hr := rlen_le (Tree.node a v l r)
    have hk : fuel - ((Tree.node a v l r).rlen - 1) = (fuel - (Tree.node a v l r).rlen) + 1 := by
      have : 1 ≤ (Tree.node a v l r).rlen := by simp [Tree.rlen]
      omega
    rw [hk, ptr_node, climb_out_root _ hrep.1 rfl] at h
    exact h

theorem next_in_order_returns {m : Memory (K × V)} {b : Bst} {t : Tree (K × V)}
    (hi : BInv m b t) (fuel : Nat) (hf : t.addrs.length ≤ fuel) (a : Nat) (ha : a ∈ t.addrs) :
    ∃ p, Bst.next_in_order fuel m (some a) = Except.ok p := by
  rw [next_in_order_eq]
  exact Linked_returns _ _ (bst_linked hi fuel hf) a ((inorder_perm t).mem_iff.2 ha)

theorem remove_addrs (a : Nat) (t : Tree T) (hd : t.addrs.Nodup) (ha : a ∈ t.addrs) :
    (a :: (t.remove a).addrs).Perm t.addrs := by
  obtain ⟨v, hv⟩ := remove_pairs a t hd ha
  have := hv.map Prod.fst
  simpa [pairs_addrs] using this

theorem extract_top (fuel : Nat) (m : Memory (K × V)) (b : Bst) (t : Tree (K × V)) (a : Nat)
    (hi : BInv m b t) (ha : a ∈ t.addrs) (hf : t.addrs.length ≤ fuel) :
    ∃ m', Bst.extract_node (fuel + 1) m b (some a)
        = Except.ok (m', ⟨(t.remove a).ptr, b.size_⟩) ∧
      Repr m' none (t.remove a) ∧ (∃ na, m'.cell a = some na) ∧ m'.brk = m.brk ∧
      ∀ x, x ∉ t.addrs → m'.cell x = m.cell x := by
  obtain ⟨hroot, hsize, hrep, hd, hlt⟩ := hi
  cases t with
  | nil => simp at ha
  | node b0 v0 l0 r0 =>
    obtain ⟨hc, hl, hr⟩ := hrep
    have hd' := hd
    simp only [addrs_node, List.nodup_cons, List.mem_append, not_or, List.nodup_append] at hd'
    simp only [addrs_node, List.length_cons, List.length_append] at hf
    by_cases hb : b0 = a
    · subst hb
      obtain ⟨m', b', e, hrep', hb', hbrk, hna, -, hfr⟩ := extract_local fuel m b b0 v0 none
        true l0 r0 hc hl hr hd hroot (fun p hp => by cases hp) (by omega)
      simp only [if_true] at hb'
      subst hb'
      have hrm : (Tree.node b0 v0 l0 r0).remove b0 = Tree.join l0 r0 := by simp [Tree.remove]
      rw [hrm]
      refine ⟨m', e, hrep', hna, hbrk, ?_⟩
      intro x hx
      exact hfr x hx (by simp)
    · have hrm : (Tree.node b0 v0 l0 r0).remove a
          = Tree.node b0 v0 (l0.remove a) (r0.remove a) := by simp [Tree.remove, hb]
      have hbr : b = ⟨some b0, b.size_⟩ := by
        cases b
        simp only [ptr_node] at hroot
        simp [hroot]
      simp only [addrs_node, List.mem_cons, List.mem_append] at ha
      rcases ha with ha | ha | ha
      · exact absurd ha.symm hb
      · have har : a ∉ r0.addrs := fun h => hd'.2.2.2 ha h
        obtain ⟨m', e, hrep', hc0, hna, hbrk, hfr⟩ := extract_in_tree b a fuel l0 m b0 _ true hc
          (by simp) hl (List.nodup_cons.2 ⟨hd'.1.1, hd'.2.1⟩) ha (by omega)
        simp only [if_true] at hc0
        rw [hrm, remove_of_not_mem a r0 har, ptr_node, ← hbr]
        refine ⟨m', e, ⟨hc0, hrep', ?_⟩, hna, hbrk, ?_⟩
        · refine Repr_congr r0 _ ?_ hr
          intro x hx
          exact hfr x (by
            simp only [List.mem_cons, not_or]
            exact ⟨fun e => hd'.1.2 (e ▸ hx), fun hx0 => hd'.2.2.2 hx0 hx⟩)
        · intro x hx
          exact hfr x (by
            simp only [List.mem_cons, addrs_node, List.mem_append, not_or] at hx ⊢
            exact ⟨hx.1, hx.2.1⟩)
      · have hal : a ∉ l0.addrs := fun h => hd'.2.2.2 h ha
        have hla : l0.ptr ≠ some a := by
          cases l0 with
          | nil => simp
          | node lb lv ll lr =>
            simp only [ptr_node, ne_eq, Option.some.injEq]
            intro e
            exact hal (by simp [e])
        obtain ⟨m', e, hrep', hc0, hna, hbrk, hfr⟩ := extract_in_tree b a fuel r0 m b0 _ false hc
          ⟨rfl, hla⟩ hr (List.nodup_cons.2 ⟨hd'.1.2, hd'.2.2.1⟩) ha (by omega)
        simp only [Bool.false_eq_true, if_false] at hc0
        rw [hrm, remove_of_not_mem a l0 hal, ptr_node, ← hbr]
        refine ⟨m', e, ⟨hc0, ?_, hrep'⟩, hna, hbrk, ?_⟩
        · refine Repr_congr l0 _ ?_ hl
          intro x hx
          exact hfr x (by
            simp only [List.mem_cons, not_or]
            exact ⟨fun e => hd'.1.1 (e ▸ hx), fun hx0 => hd'.2.2.2 hx hx0⟩)
        · intro x hx
          exact hfr x (by
            simp only [List.mem_cons, addrs_node, List.mem_append, not_or] at hx ⊢
            exact ⟨hx.1, hx.2.2⟩)

theorem erase_node_spec (fuel : Nat) (m : Memory (K × V)) (b : Bst) (t : Tree (K × V))
    (a : Nat) (hi : BInv m b t) (ha : a ∈ t.addrs) (hf : t.addrs.length + 1 ≤ fuel) :
    ∃ m' n, Bst.erase_node fuel m b (some a)
        = Except.ok (m', ⟨(t.remove a).ptr, b.size_ - 1⟩, n) ∧
      Bst.next_in_order fuel m (some a) = Except.ok n ∧
      BInv m' ⟨(t.remove a).ptr, b.size_ - 1⟩ (t.remove a) ∧ m'.cell a = none ∧
      m'.brk = m.brk ∧ ∀ x, x ∉ t.addrs → m'.cell x = m.cell x := by
  obtain ⟨n, hn⟩ := next_in_order_returns hi fuel (by omega) a ha
  cases fuel with
  | zero => omega
  | succ fuel =>
    obtain ⟨m', e, hrep, ⟨na, hna⟩, hbrk, hfr⟩ := extract_top fuel m b t a hi ha (by omega)
    obtain ⟨hroot, hsize, hrep0, hd, hlt⟩ := hi
    have hp := remove_addrs a t hd ha
    have hnd : (a :: (t.remove a).addrs).Nodup := hp.nodup_iff.2 hd
    have hlen := hp.length_eq
    simp only [List.length_cons] at hlen
    refine ⟨m'.put a none, n, ?_, hn, ⟨rfl, ?_, ?_, (List.nodup_cons.1 hnd).2, ?_⟩, by simp,
      by simpa using hbrk, ?_⟩
    · simp only [Bst.erase_node, hn, bind_ok, e, Bst.delete_node, deref_some hna, delete_node,
        hna, pure_eq_ok]
    · show b.size_ - 1 = _
      omega
    · refine Repr_congr _ _ ?_ hrep
      intro x hx
      have : x ≠ a := fun e => (List.nodup_cons.1 hnd).1 (e ▸ hx)
      simp [this]
    · intro x hx
      show x < (m'.put a none).brk
      have : x ∈ t.addrs := hp.mem_iff.1 (List.mem_cons_of_mem _ hx)
      simpa [hbrk] using hlt x this
    · intro x hx
      have : x ≠ a := fun e => hx (e ▸ ha)
      simp only [put_cell, this, if_false]
      exact hfr x hx

theorem emplace_spec (cmp : K → K → Bool) (fuel : Nat) (m : Memory (K × V)) (b : Bst)
    (t : Tree (K × V)) (kv : K × V) (hi : BInv m b t) (hf : t.addrs.length + 1 ≤ fuel) :
    (∀ f, t.bfind cmp kv.1 = some f →
      ∃ m' it, Bst.emplace cmp fuel m b kv = Except.ok (m', b, it, false) ∧ BInv m' b t ∧
        m'.brk = m.brk + 1) ∧
    (t.bfind cmp kv.1 = none →
      ∃ m' b' it, Bst.emplace cmp fuel m b kv = Except.ok (m', b', it, true) ∧
        BInv m' b' (t.binsert cmp kv.1 m.brk kv) ∧ b'.size_ = b.size_ + 1 ∧
        m'.brk = m.brk + 1) := by
  cases t with
  | nil =>
    have hsz : b.size_ = 0 := hi.2.1
    have he : b.empty = true := by simp [Bst.empty, Bst.size, hsz]
    obtain ⟨fuel', rfl⟩ : ∃ f, fuel = f + 1 := ⟨fuel - 1, by omega⟩
    obtain ⟨h1, h2⟩ := insert_into_empty fuel' m kv
    refine ⟨fun f h => by simp [Tree.bfind] at h, fun _ => ⟨(new_node m kv).1,
      ⟨some m.brk, b.size_ + 1⟩, ⟨some m.brk⟩, ?_, ?_, rfl, rfl⟩⟩
    · simp only [Bst.emplace, he, if_true]
      show (do
        let it ← BstIterator.ctor (fuel' + 1) (new_node m kv).1 (some m.brk)
        pure ((new_node m kv).1, ({ root_ := some m.brk, size_ := b.size_ + 1 } : Bst), it,
          true)) = _
      rw [h2]
      rfl
    · rw [hsz]
      exact h1
  | node a w l r =>
    have he := hi.nonempty
    have hroot : b.root_ = some a := hi.1
    have hnm : m.brk ∉ (Tree.node a w l r).addrs := fun h => Nat.lt_irrefl _ (hi.2.2.2.2 _ h)
    have hrep0 : Repr (new_node m kv).1 none (Tree.node a w l r) :=
      new_node_frame m kv hi.2.2.1 hi.2.2.2.2
    have hkey : node_key (new_node m kv).1 (some m.brk) = Except.ok kv.1 := by
      simp [node_key, Memory.deref, new_node]
    have hfs : Bst.find_spot cmp fuel (new_node m kv).1 b kv.1
        = Except.ok ((Tree.node a w l r).fspot cmp kv.1) := by
      rw [Bst.find_spot, hroot]
      exact find_spot_loop_spec cmp kv.1 _ none fuel hrep0 (by simp) (by omega)
    obtain ⟨hfound, habsent⟩ := fspot_of_bfind cmp kv.1 (Tree.node a w l r) (by simp)
    have hcell : (new_node m kv).1.cell m.brk = some ⟨kv, none, none, none⟩ := by
      simp [new_node]
    constructor
    · intro f hfd
      have hrep1 : Repr ((new_node m kv).1.put m.brk none) none (Tree.node a w l r) := by
        refine Repr_congr _ _ ?_ hrep0
        intro c hc
        have : c ≠ m.brk := fun e => hnm (e ▸ hc)
        simp [this]
      obtain ⟨it, hit⟩ := iterator_ctor_returns hrep1 f
        (bfind_mem cmp kv.1 _ f hfd) fuel (by omega)
      refine ⟨(new_node m kv).1.put m.brk none, it, ?_, ⟨hi.1, hi.2.1, hrep1, hi.2.2.2.1, ?_⟩,
        rfl⟩
      · simp only [Bst.emplace, he, Bool.false_eq_true, if_false]
        show (do
          let key ← node_key (new_node m kv).1 (some m.brk)
          let r ← Bst.find_spot cmp fuel (new_node m kv).1 b key
          match r.son_ with
          | none => do
            let m1 ← Bst.delete_node (new_node m kv).1 (some m.brk)
            let it ← BstIterator.ctor fuel m1 r.parent_
            pure (m1, b, it, false)
          | some sonp => do
            let m1 ← (new_node m kv).1.set_parent (some m.brk) r.parent_
            let m2 ← sonp.write m1 (some m.brk)
            let it ← BstIterator.ctor fuel m2 (some m.brk)
            pure (m2, ({ root_ := b.root_, size_ := b.size_ + 1 } : Bst), it, true)) = _
        rw [hkey, bind_ok, hfs, bind_ok, hfound f hfd]
        simp only [Bst.delete_node, deref_some hcell, bind_ok, delete_node, hcell, hit,
          pure_eq_ok]
      · intro x hx
        exact Nat.lt_succ_of_lt (hi.2.2.2.2 x hx)
    · intro hnone
      obtain ⟨p, s, hps⟩ := habsent hnone
      obtain ⟨m1, m2, it, e1, e2, hit, hinv, hbrk⟩ := insert_linked cmp fuel m (new_node m kv).1
        b _ kv p s hi (by simp) hnone hps hf hcell rfl
        (fun c hc => by simp [new_node, hc])
      refine ⟨m2, _, it, ?_, hinv, rfl, hbrk⟩
      simp only [Bst.emplace, he, Bool.false_eq_true, if_false]
      show (do
        let key ← node_key (new_node m kv).1 (some m.brk)
        let r ← Bst.find_spot cmp fuel (new_node m kv).1 b key
        match r.son_ with
        | none => do
          let m1 ← Bst.delete_node (new_node m kv).1 (some m.brk)
          let it ← BstIterator.ctor fuel m1 r.parent_
          pure (m1, b, it, false)
        | some sonp => do
          let m1 ← (new_node m kv).1.set_parent (some m.brk) r.parent_
          let m2 ← sonp.write m1 (some m.brk)
          let it ← BstIterator.ctor fuel m2 (some m.brk)
          pure (m2, ({ root_ := b.root_, size_ := b.size_ + 1 } : Bst), it, true)) = _
      rw [hkey, bind_ok, hfs, bind_ok, hps]
      show (do
        let m1 ← (new_node m kv).1.set_parent (some m.brk) p
        let m2 ← s.write m1 (some m.brk)
        let it ← BstIterator.ctor fuel m2 (some m.brk)
        pure (m2, ({ root_ := b.root_, size_ := b.size_ + 1 } : Bst), it, true)) = _
      rw [e1, bind_ok, e2, bind_ok, hit]
      rfl

theorem erase_spec (cmp : K → K → Bool) (fuel : Nat) (m : Memory (K × V)) (b : Bst)
    (t : Tree (K × V)) (k : K) (hi : BInv m b t) (hf : t.addrs.length + 1 ≤ fuel) :
    (t.bfind cmp k = none → Bst.erase cmp fuel m b k = Except.ok (m, b, 0)) ∧
    (∀ f, t.bfind cmp k = some f →
      ∃ m', Bst.erase cmp fuel m b k
          = Except.ok (m', ⟨(t.remove f).ptr, b.size_ - 1⟩, 1) ∧
        BInv m' ⟨(t.remove f).ptr, b.size_ - 1⟩ (t.remove f) ∧ m'.cell f = none ∧
        m'.brk = m.brk ∧ ∀ x, x ∉ t.addrs → m'.cell x = m.cell x) := by
  have hfn := find_node_spec cmp hi k (show t.addrs.length < fuel by omega)
  constructor
  · intro h
    simp only [Bst.erase, hfn, bind_ok, h, pure_eq_ok]
  · intro f h
    obtain ⟨m', n, e, -, hinv, hc, hbrk, hfr⟩ :=
      erase_node_spec fuel m b t f hi (bfind_mem cmp k t f h) hf
    refine ⟨m', ?_, hinv, hc, hbrk, hfr⟩
    simp only [Bst.erase, hfn, bind_ok, h, e, pure_eq_ok]

theorem erase_at_spec (fuel : Nat) (m : Memory (K × V)) (b : Bst) (t : Tree (K × V)) (a : Nat)
    (hi : BInv m b t) (ha : a ∈ t.addrs) (hf : t.addrs.length + 1 ≤ fuel)
    (m' : Memory (K × V)) (b' : Bst) (it : BstIterator)
    (e : Bst.erase_at fuel m b ⟨some a⟩ = Except.ok (m', b', it)) :
    BInv m' b' (t.remove a) ∧ m'.brk = m.brk := by
  obtain ⟨m1, n, e1, -, hinv, -, hbrk, -⟩ := erase_node_spec fuel m b t a hi ha hf
  simp only [Bst.erase_at, e1, bind_ok] at e
  cases hc : BstIterator.ctor fuel m1 n with
  | error x =>
    rw [hc] at e
    cases e
  | ok it' =>
    rw [hc] at e
    simp only [bind_ok, pure_eq_ok, Except.ok.injEq, Prod.mk.injEq] at e
    obtain ⟨rfl, rfl, -⟩ := e
    exact ⟨hinv, hbrk⟩

theorem BInv_length_le {m : Memory (K × V)} {b : Bst} {t : Tree (K × V)} (hi : BInv m b t) :
    t.addrs.length ≤ m.brk :=
  nodup_length_le hi.2.2.2.1 hi.2.2.2.2

theorem BInv_init : BInv (Memory.init : Memory (K × V)) Bst.mk_empty Tree.nil :=
  ⟨rfl, rfl, trivial, List.nodup_nil, fun a h => by simp at h⟩

theorem step_wf {cmp : K → K → Bool} (hcmp : StrictWeakOrder cmp) {m : Memory (K × V)}
    {b : Bst} (hw : BstWF cmp m b) (c : BstCall K V) (hal : c.allowed m b) (fuel : Nat)
    (hf : m.brk < fuel) {m' : Memory (K × V)} {b' : Bst}
    (e : Bst.step cmp fuel m b c = Except.ok (m', b')) : BstWF cmp m' b' := by
  obtain ⟨t, hi, ho⟩ := hw
  have hlen := BInv_length_le hi
  have key : ∀ (k : K) (kv : K × V), kv.1 = k → ∀ x,
      Bst.try_insert cmp fuel m b k kv = Except.ok x → BstWF cmp x.1 x.2.1 := by
    intro k kv hk x hx
    subst hk
    obtain ⟨h1, h2⟩ := try_insert_spec cmp fuel m b t kv hi (by omega)
    cases hb : t.bfind cmp kv.1 with
    | some f =>
      obtain ⟨it, e1⟩ := h1 f hb
      rw [e1] at hx
      cases hx
      exact ⟨t, hi, ho⟩
    | none =>
      obtain ⟨m1, b1, it, e1, hi1, -, -⟩ := h2 hb
      rw [e1] at hx
      cases hx
      exact ⟨_, hi1, binsert_ordered cmp m.brk kv t ho⟩
  cases c with
  | insert v =>
    simp only [Bst.step, Bst.insert] at e
    cases hx : Bst.try_insert cmp fuel m b v.1 v with
    | error err =>
      rw [hx] at e
      cases e
    | ok x =>
      rw [hx] at e
      obtain ⟨x1, x2, x3, x4⟩ := x
      cases e
      exact key v.1 v rfl _ hx
  | try_emplace k v =>
    simp only [Bst.step, Bst.try_emplace] at e
    cases hx : Bst.try_insert cmp fuel m b k (k, v) with
    | error err =>
      rw [hx] at e
      cases e
    | ok x =>
      rw [hx] at e
      obtain ⟨x1, x2, x3, x4⟩ := x
      cases e
      exact key k (k, v) rfl _ hx
  | emplace kv =>
    simp only [Bst.step] at e
    obtain ⟨h1, h2⟩ := emplace_spec cmp fuel m b t kv hi (by omega)
    cases hb : t.bfind cmp kv.1 with
    | some f =>
      obtain ⟨m1, it, e1, hi1, -⟩ := h1 f hb
      rw [e1] at e
      cases e
      exact ⟨t, hi1, ho⟩
    | none =>
      obtain ⟨m1, b1, it, e1, hi1, -, -⟩ := h2 hb
      rw [e1] at e
      cases e
      exact ⟨_, hi1, binsert_ordered cmp m.brk kv t ho⟩
  | erase k =>
    simp only [Bst.step] at e
    obtain ⟨h1, h2⟩ := erase_spec cmp fuel m b t k hi (by omega)
    cases hb : t.bfind cmp k with
    | none =>
      rw [h1 hb] at e
      cases e
      exact ⟨t, hi, ho⟩
    | some f =>
      obtain ⟨m1, e1, hi1, -⟩ := h2 f hb
      rw [e1] at e
      cases e
      exact ⟨_, hi1, remove_ordered hcmp f t hi.2.2.2.1 ho⟩
  | erase_at a =>
    simp only [Bst.step] at e
    have ha : a ∈ t.addrs := by
      have hr : Reaches m b.root_ a := hal
      rw [hi.1] at hr
      exact Repr.reaches_mem t none a hi.2.2.1 hr
    cases hx : Bst.erase_at fuel m b ⟨some a⟩ with
    | error err =>
      rw [hx] at e
      cases e
    | ok x =>
      rw [hx] at e
      obtain ⟨x1, x2, x3⟩ := x
      cases e
      obtain ⟨hi1, -⟩ := erase_at_spec fuel m b t a hi ha (by omega) _ _ _ hx
      exact ⟨_, hi1, remove_ordered hcmp a t hi.2.2.2.1 ho⟩

theorem BstReachable_wf {cmp : K → K → Bool} (hcmp : StrictWeakOrder cmp)
    {m : Memory (K × V)} {b : Bst} (hr : BstReachable cmp m b) : BstWF cmp m b := by
  induction hr with
  | init => exact ⟨Tree.nil, BInv_init, trivial⟩
  | step m m' b b' c fuel _ hal hf e ih => exact step_wf hcmp ih c hal fuel hf e

theorem mem_addrs_pair : ∀ (t : Tree T) (a : Nat), a ∈ t.addrs → ∃ v, (a, v) ∈ t.pairs := by
  intro t a h
  rw [← pairs_addrs t] at h
  obtain ⟨p, hp, rfl⟩ := List.mem_map.1 h
  exact ⟨p.2, hp⟩

theorem mem_pairs_addr {t : Tree T} {a : Nat} {v : T} (h : (a, v) ∈ t.pairs) :
    a ∈ t.addrs := by
  rw [← pairs_addrs t]
  exact List.mem_map.2 ⟨_, h, rfl⟩

theorem Repr_cell_pair {m : Memory T} {t : Tree T} {par : Ptr} (hr : Repr m par t) {a : Nat}
    {n : PairingNode T} (ha : a ∈ t.addrs) (hc : m.cell a = some n) :
    (a, n.data_) ∈ t.pairs := by
  obtain ⟨v, hv⟩ := mem_addrs_pair t a ha
  obtain ⟨n', hn', hd⟩ := Repr_pair_cell t par a v hr hv
  rw [hc] at hn'
  cases hn'
  rw [hd]
  exact hv

theorem stores_iff {cmp : K → K → Bool} (hcmp : StrictWeakOrder cmp) {m : Memory (K × V)}
    {b : Bst} {t : Tree (K × V)} (hi : BInv m b t) (ho : BstOrdered cmp t) (k : K) :
    Bst.stores cmp m b k ↔ ∃ f, t.bfind cmp k = some f := by
  constructor
  · rintro ⟨a, n, hr, hc, he⟩
    rw [hi.1] at hr
    have ha := Repr.reaches_mem t none a hi.2.2.1 hr
    exact ⟨a, (bfind_iff hcmp k t ho a).2 ⟨n.data_, Repr_cell_pair hi.2.2.1 ha hc, he⟩⟩
  · rintro ⟨f, hf⟩
    obtain ⟨kv, hp, he⟩ := (bfind_iff hcmp k t ho f).1 hf
    obtain ⟨n, hn, hd⟩ := Repr_pair_cell t none f kv hi.2.2.1 hp
    refine ⟨f, n, ?_, hn, by rw [hd]; exact he⟩
    rw [hi.1]
    exact Repr.mem_reaches t none f hi.2.2.1 (mem_pairs_addr hp)

theorem one_bst_reachable : BstReachable less one_bst.1 one_bst.2 :=
  BstReachable.step _ _ _ _ (BstCall.insert (2, 20)) 1 BstReachable.init trivial
    (by decide) rfl

theorem two_bst_reachable : BstReachable less two_bst.1 two_bst.2 :=
  BstReachable.step _ _ _ _ (BstCall.insert (1, 10)) 2 one_bst_reachable trivial
    (by decide) rfl

theorem sample_bst_reachable : BstReachable less sample_bst.1 sample_bst.2 :=
  BstReachable.step _ _ _ _ (BstCall.insert (3, 30)) 3 two_bst_reachable trivial
    (by decide) rfl

/-- C34: on a map built from the empty map, `insert((k, v))` returns. When no key
equivalent to `k` is stored it reports true, the size grows by one and `lookup(k)` then
yields the node holding `v`; when one is stored it reports false and changes neither the
memory nor the map. In both cases `lookup` of a key not equivalent to `k` yields the same
node as before, holding the same entry. -/
theorem bst_insert_lookup {cmp : K → K → Bool} (hcmp : StrictWeakOrder cmp)
    {m : Memory (K × V)} {b : Bst} (hr : BstReachable cmp m b) (k : K) (v : V) (fuel : Nat)
    (hf : m.brk + 1 < fuel) :
    ∃ (m' : Memory (K × V)) (b' : Bst) (it : BstIterator) (res : Bool),
      Bst.insert cmp fuel m b (k, v) = Except.ok (m', b', it, res) ∧
      (¬ Bst.stores cmp m b k → res = true ∧ b'.size = b.size + 1 ∧
        ∃ a n, Bst.lookup cmp fuel m' b' k = Except.ok (some a) ∧ m'.cell a = some n ∧
          n.data_.2 = v) ∧
      (Bst.stores cmp m b k → res = false ∧ m' = m ∧ b' = b) ∧
      ∀ k', ¬ KeyEquiv cmp k' k →
        ∃ r, Bst.lookup cmp fuel m b k' = Except.ok r ∧
          Bst.lookup cmp fuel m' b' k' = Except.ok r ∧
          ∀ a n, r = some a → m.cell a = some n →
            ∃ n', m'.cell a = some n' ∧ n'.data_ = n.data_ := by
  obtain ⟨t, hi, ho⟩ := BstReachable_wf hcmp hr
  have hlen := BInv_length_le hi
  obtain ⟨h1, h2⟩ := try_insert_spec cmp fuel m b t (k, v) hi (by omega)
  have hst := stores_iff hcmp hi ho k
  cases hb : t.bfind cmp k with
  | some f =>
    obtain ⟨it, e1⟩ := h1 f hb
    have hs : Bst.stores cmp m b k := hst.2 ⟨f, hb⟩
    refine ⟨m, b, it, false, e1, fun h => absurd hs h, fun _ => ⟨rfl, rfl, rfl⟩, ?_⟩
    intro k' _
    have hl := lookup_spec cmp hi k' (show t.addrs.length < fuel by omega)
    exact ⟨_, hl, hl, fun a n _ hc => ⟨n, hc, rfl⟩⟩
  | none =>
    obtain ⟨m', b', it, e1, hi', hsz, hbrk⟩ := h2 hb
    have hs : ¬ Bst.stores cmp m b k := by
      rw [hst, hb]
      simp
    have hlen' := BInv_length_le hi'
    have hperm := binsert_pairs cmp k m.brk (k, v) t hb
    refine ⟨m', b', it, true, e1, fun _ => ⟨rfl, hsz, m.brk, ?_⟩, fun h => absurd h hs, ?_⟩
    · obtain ⟨n, hn, hd⟩ := Repr_pair_cell _ none m.brk (k, v) hi'.2.2.1
        (hperm.mem_iff.2 (List.mem_cons_self _ _))
      refine ⟨n, ?_, hn, by rw [hd]⟩
      rw [lookup_spec cmp hi' k (show _ < fuel by omega)]
      exact congrArg Except.ok (bfind_binsert_self cmp hcmp.irrefl m.brk (k, v) t hb)
    · intro k' hne
      refine ⟨t.bfind cmp k', lookup_spec cmp hi k' (show t.addrs.length < fuel by omega), ?_,
        ?_⟩
      · rw [lookup_spec cmp hi' k' (show _ < fuel by omega)]
        exact congrArg Except.ok (bfind_binsert_other cmp m.brk (k, v) k' hne t)
      · intro a n ha hc
        have hmem := bfind_mem cmp k' t a ha
        have hp := Repr_cell_pair hi.2.2.1 hmem hc
        exact Repr_pair_cell _ none a n.data_ hi'.2.2.1
          (hperm.mem_iff.2 (List.mem_cons_of_mem _ hp))

theorem bst_insert_lookup_witness :
    ∃ (m' : Memory (Nat × Nat)) (b' : Bst) (it : BstIterator) (res : Bool),
      Bst.insert less 5 sample_bst.1 sample_bst.2 (4, 40) = Except.ok (m', b', it, res) ∧
      (¬ Bst.stores less sample_bst.1 sample_bst.2 4 → res = true ∧
        b'.size = sample_bst.2.size + 1 ∧
        ∃ a n, Bst.lookup less 5 m' b' 4 = Except.ok (some a) ∧ m'.cell a = some n ∧
          n.data_.2 = 40) ∧
      (Bst.stores less sample_bst.1 sample_bst.2 4 →
        res = false ∧ m' = sample_bst.1 ∧ b' = sample_bst.2) ∧
      ∀ k', ¬ KeyEquiv less k' 4 →
        ∃ r, Bst.lookup less 5 sample_bst.1 sample_bst.2 k' = Except.ok r ∧
          Bst.lookup less 5 m' b' k' = Except.ok r ∧
          ∀ a n, r = some a → sample_bst.1.cell a = some n →
            ∃ n', m'.cell a = some n' ∧ n'.data_ = n.data_ :=
  bst_insert_lookup less_strict_weak_order sample_bst_reachable 4 40 5 (by decide)

/-- C36: on a map built from the empty map, `erase(k)` returns. When a key equivalent to
`k` is stored it returns 1, the size drops by one, `lookup(k)` then finds nothing and
`lookup` of the key of every other node still yields that node, holding its previous
entry; otherwise it returns 0 and changes neither the memory nor the map. -/
theorem bst_erase_key {cmp : K → K → Bool} (hcmp : StrictWeakOrder cmp)
    {m : Memory (K × V)} {b : Bst} (hr : BstReachable cmp m b) (k : K) (fuel : Nat)
    (hf : m.brk < fuel) :
    ∃ (m' : Memory (K × V)) (b' : Bst) (cnt : Nat),
      Bst.erase cmp fuel m b k = Except.ok (m', b', cnt) ∧
      (Bst.stores cmp m b k → cnt = 1 ∧ b'.size + 1 = b.size ∧
        Bst.lookup cmp fuel m' b' k = Except.ok none ∧
        ∀ a n, Reaches m b.root_ a → m.cell a = some n → ¬ KeyEquiv cmp n.data_.1 k →
          Bst.lookup cmp fuel m' b' n.data_.1 = Except.ok (some a) ∧
          ∃ n', m'.cell a = some n' ∧ n'.data_ = n.data_) ∧
      (¬ Bst.stores cmp m b k → cnt = 0 ∧ m' = m ∧ b' = b) := by
  obtain ⟨t, hi, ho⟩ := BstReachable_wf hcmp hr
  have hlen := BInv_length_le hi
  obtain ⟨h1, h2⟩ := erase_spec cmp fuel m b t k hi (by omega)
  have hst := stores_iff hcmp hi ho k
  cases hb : t.bfind cmp k with
  | none =>
    have hs : ¬ Bst.stores cmp m b k := by
      rw [hst, hb]
      simp
    exact ⟨m, b, 0, h1 hb, fun h => absurd h hs, fun _ => ⟨rfl, rfl, rfl⟩⟩
  | some f =>
    obtain ⟨m', e1, hi', hcf, hbrk, -⟩ := h2 f hb
    have hs : Bst.stores cmp m b k := hst.2 ⟨f, hb⟩
    have hfm := bfind_mem cmp k t f hb
    have hd := hi.2.2.2.1
    obtain ⟨vf, hperm⟩ := remove_pairs f t hd hfm
    have hpa := remove_addrs f t hd hfm
    have hnd : (f :: (t.remove f).addrs).Nodup := hpa.nodup_iff.2 hd
    have ho' := remove_ordered hcmp f t hd ho
    have hlen' := BInv_length_le hi'
    have hl : ∀ k', Bst.lookup cmp fuel m' ⟨(t.remove f).ptr, b.size_ - 1⟩ k'
        = Except.ok ((t.remove f).bfind cmp k') := fun k' =>
      lookup_spec cmp hi' k' (show _ < fuel by omega)
    refine ⟨m', _, 1, e1, fun _ => ⟨rfl, ?_, ?_, ?_⟩, fun h => absurd hs h⟩
    · show b.size_ - 1 + 1 = b.size_
      have h0 : 0 < t.addrs.length := List.length_pos_of_mem hfm
      have := hi.2.1
      omega
    · rw [hl k]
      cases hc : (t.remove f).bfind cmp k with
      | none => rfl
      | some c =>
        exfalso
        obtain ⟨kv, hp, he⟩ := (bfind_iff hcmp k _ ho' c).1 hc
        have hp' : (c, kv) ∈ t.pairs := hperm.mem_iff.1 (List.mem_cons_of_mem _ hp)
        have hcf' : t.bfind cmp k = some c := (bfind_iff hcmp k t ho c).2 ⟨kv, hp', he⟩
        rw [hb] at hcf'
        cases hcf'
        exact (List.nodup_cons.1 hnd).1 (mem_pairs_addr hp)
    · intro a n hra hc hne
      rw [hi.1] at hra
      have ha := Repr.reaches_mem t none a hi.2.2.1 hra
      have hp := Repr_cell_pair hi.2.2.1 ha hc
      obtain ⟨kvf, hpf, hef⟩ := (bfind_iff hcmp k t ho f).1 hb
      have haf : a ≠ f := by
        intro e
        subst e
        obtain ⟨nf, hnf, hdf⟩ := Repr_pair_cell t none a kvf hi.2.2.1 hpf
        rw [hc] at hnf
        cases hnf
        rw [hdf] at hne
        exact hne hef
      have hp' : (a, n.data_) ∈ (t.remove f).pairs := by
        rcases List.mem_cons.1 (hperm.mem_iff.2 hp) with h | h
        · simp only [Prod.mk.injEq] at h
          exact absurd h.1 haf
        · exact h
      refine ⟨?_, Repr_pair_cell _ none a n.data_ hi'.2.2.1 hp'⟩
      rw [hl]
      exact congrArg Except.ok ((bfind_iff hcmp n.data_.1 _ ho' a).2
        ⟨n.data_, hp', hcmp.irrefl _, hcmp.irrefl _⟩)

theorem bst_erase_key_witness :
    ∃ (m' : Memory (Nat × Nat)) (b' : Bst) (cnt : Nat),
      Bst.erase less 4 sample_bst.1 sample_bst.2 2 = Except.ok (m', b', cnt) ∧
      (Bst.stores less sample_bst.1 sample_bst.2 2 → cnt = 1 ∧
        b'.size + 1 = sample_bst.2.size ∧
        Bst.lookup less 4 m' b' 2 = Except.ok none ∧
        ∀ a n, Reaches sample_bst.1 sample_bst.2.root_ a → sample_bst.1.cell a = some n →
          ¬ KeyEquiv less n.data_.1 2 →
          Bst.lookup less 4 m' b' n.data_.1 = Except.ok (some a) ∧
          ∃ n', m'.cell a = some n' ∧ n'.data_ = n.data_) ∧
      (¬ Bst.stores less sample_bst.1 sample_bst.2 2 →
        cnt = 0 ∧ m' = sample_bst.1 ∧ b' = sample_bst.2) :=
  bst_erase_key less_strict_weak_order sample_bst_reachable 2 4 (by decide)

theorem inpairs_fst : ∀ t : Tree T, t.inpairs.map Prod.fst = t.inorder
  | Tree.nil => rfl
  | Tree.node a v l r => by
    simp [Tree.inpairs, Tree.inorder, inpairs_fst l, inpairs_fst r]

theorem inpairs_keys : ∀ t : Tree (K × V), t.inpairs.map (fun p => p.2.1) = t.inkeys
  | Tree.nil => rfl
  | Tree.node a v l r => by
    simp [Tree.inpairs, Tree.inkeys, inpairs_keys l, inpairs_keys r]

theorem inpairs_perm : ∀ t : Tree T, t.inpairs.Perm t.pairs
  | Tree.nil => List.Perm.refl _
  | Tree.node a v l r => by
    simp only [Tree.inpairs, Tree.pairs]
    exact List.perm_middle.trans (List.Perm.cons _ ((inpairs_perm l).append (inpairs_perm r)))

theorem inpairs_length (t : Tree T) : t.inpairs.length = t.addrs.length := by
  have h := congrArg List.length (inpairs_fst t)
  rw [List.length_map] at h
  rw [h, (inorder_perm t).length_eq]

theorem pop_left_inpairs : ∀ (t : Tree T) (c : Nat) (w : T) (t' : Tree T),
    t.pop_left = some (c, w, t') → t.inpairs = (c, w) :: t'.inpairs
  | Tree.nil, _, _, _, h => by simp [Tree.pop_left] at h
  | Tree.node a v l r, c, w, t', h => by
    simp only [Tree.pop_left] at h
    cases hl : l.pop_left with
    | none =>
      simp only [hl, Option.some.injEq, Prod.mk.injEq] at h
      obtain ⟨rfl, rfl, rfl⟩ := h
      rw [pop_left_none l hl]
      simp [Tree.inpairs]
    | some p =>
      obtain ⟨c1, w1, l'⟩ := p
      simp only [hl, Option.some.injEq, Prod.mk.injEq] at h
      obtain ⟨rfl, rfl, rfl⟩ := h
      simp [Tree.inpairs, pop_left_inpairs l c1 w1 l' hl]

theorem inkeys_sorted {cmp : K → K → Bool} (hcmp : StrictWeakOrder cmp) :
    ∀ t : Tree (K × V), BstOrdered cmp t → t.inkeys.Pairwise (fun x y => cmp x y = true)
  | Tree.nil, _ => List.Pairwise.nil
  | Tree.node a kv l r, ⟨hl, hr, ol, or_⟩ => by
    simp only [Tree.inkeys]
    refine List.pairwise_append.2 ⟨inkeys_sorted hcmp l ol,
      List.pairwise_cons.2 ⟨?_, inkeys_sorted hcmp r or_⟩, ?_⟩
    · intro y hy
      exact hr y ((inkeys_perm r).mem_iff.1 hy)
    · intro x hx y hy
      have hxk := hl x ((inkeys_perm l).mem_iff.1 hx)
      rcases List.mem_cons.1 hy with rfl | hy
      · exact hxk
      · exact hcmp.trans _ _ _ hxk (hr y ((inkeys_perm r).mem_iff.1 hy))

theorem bst_walk_linked {m : Memory (K × V)} (fuel : Nat) :
    ∀ (P : List (Nat × (K × V))) (c : Nat × (K × V)),
    Linked (next_pos fuel m) (c.1 :: P.map Prod.fst) (Except.ok none) →
    (∀ p ∈ c :: P, ∃ n, m.cell p.1 = some n ∧ n.data_ = p.2) →
    Bst.walk fuel m (P.length + 1) (some c.1)
      = Except.ok ((c :: P).map (fun p => (some p.1, p.2.1)), none)
  | [], c, h, hc => by
    obtain ⟨n, hn, hd⟩ := hc c (List.mem_cons_self _ _)
    have h' : next_pos fuel m c.1 = Except.ok none := h
    simp [Bst.walk, node_key, deref_some hn, next_in_order_eq, h', hd]
  | d :: P, c, h, hc => by
    obtain ⟨n, hn, hd⟩ := hc c (List.mem_cons_self _ _)
    have h' : next_pos fuel m c.1 = Except.ok (some d.1) ∧
        Linked (next_pos fuel m) (d.1 :: P.map Prod.fst) (Except.ok none) := h
    have ih := bst_walk_linked fuel P d h'.2 (fun p hp => hc p (List.mem_cons_of_mem _ hp))
    show Bst.walk fuel m ((P.length + 1) + 1) (some c.1) = _
    rw [Bst.walk]
    simp only [node_key, deref_some hn, bind_ok, pure_eq_ok, next_in_order_eq, h'.1, ih, hd,
      List.map_cons]

theorem ordered_subtree {cmp : K → K → Bool} {m : Memory (K × V)} :
    ∀ (t : Tree (K × V)) (par : Ptr), Repr m par t → BstOrdered cmp t →
    ∀ n ∈ t.addrs, ∃ (kv : K × V) (p : Ptr) (l r : Tree (K × V)),
      m.cell n = some ⟨kv, p, l.ptr, r.ptr⟩ ∧ Repr m (some n) l ∧ Repr m (some n) r ∧
      (∀ x ∈ l.keys, cmp x kv.1 = true) ∧ (∀ x ∈ r.keys, cmp kv.1 x = true)
  | Tree.nil, _, _, _, n, hn => by simp at hn
  | Tree.node a v l r, par, ⟨hc, hl, hr⟩, ⟨kl, kr, ol, or_⟩, n, hn => by
    simp only [addrs_node, List.mem_cons, List.mem_append] at hn
    rcases hn with rfl | hn | hn
    · exact ⟨v, par, l, r, hc, hl, hr, kl, kr⟩
    · exact ordered_subtree l _ hl ol n hn
    · exact ordered_subtree r _ hr or_ n hn

theorem key_of_reached {m : Memory (K × V)} {t : Tree (K × V)} {par : Ptr} (hr : Repr m par t)
    {d : Nat} {dn : BstNode K V} (hd : Reaches m t.ptr d) (hc : m.cell d = some dn) :
    dn.data_.1 ∈ t.keys :=
  mem_keys.2 ⟨d, dn.data_, Repr_cell_pair hr (Repr.reaches_mem t par d hr hd) hc, rfl⟩

/-- C33: in a map built from the empty map by `insert`, `try_emplace`, `emplace` and
`erase` calls with a strict weak order, the nodes reached through the `left_` member of a
node hold keys that compare less than the node's key and the nodes reached through its
`right_` member keys that compare greater; and when the map is not empty, `leftmost(root_)`
returns a node from which `size()` steps of `next_in_order` visit every node of the map
once, with strictly increasing keys, and end at null. -/
theorem bst_ordering {cmp : K → K → Bool} (hcmp : StrictWeakOrder cmp) {m : Memory (K × V)}
    {b : Bst} (hr : BstReachable cmp m b) (fuel : Nat) (hf : b.size ≤ fuel) :
    (∀ n nn d dn, Reaches m b.root_ n → m.cell n = some nn → m.cell d = some dn →
      (Reaches m nn.left_ d → cmp dn.data_.1 nn.data_.1 = true) ∧
      (Reaches m nn.right_ d → cmp nn.data_.1 dn.data_.1 = true)) ∧
    (b.size ≠ 0 → ∃ (c : Nat) (vs : List (Nat × K)),
      Bst.leftmost fuel m b.root_ = Except.ok (some c) ∧
      Bst.walk fuel m b.size (some c)
        = Except.ok (vs.map (fun p => (some p.1, p.2)), none) ∧
      vs.length = b.size ∧ (vs.map Prod.fst).Nodup ∧
      (∀ a, a ∈ vs.map Prod.fst ↔ Reaches m b.root_ a) ∧
      (vs.map Prod.snd).Pairwise (fun x y => cmp x y = true)) := by
  obtain ⟨t, hi, ho⟩ := BstReachable_wf hcmp hr
  obtain ⟨hroot, hsize, hrep, hd, hlt⟩ := hi
  have hsz : b.size = t.addrs.length := hsize
  constructor
  · intro n nn d dn hn hc hdc
    rw [hroot] at hn
    obtain ⟨kv, p, l, r, hcell, hl, hr', kl, kr⟩ :=
      ordered_subtree t none hrep ho n (Repr.reaches_mem t none n hrep hn)
    rw [hc] at hcell
    cases hcell
    exact ⟨fun h => kl _ (key_of_reached hl h hdc), fun h => kr _ (key_of_reached hr' h hdc)⟩
  · intro hne
    have hlink := bst_linked ⟨hroot, hsize, hrep, hd, hlt⟩ fuel (by omega)
    have hne' : t.ptr ≠ none := by
      cases t with
      | nil => exact absurd hsz hne
      | node a v l r => simp
    obtain ⟨c, w, t', hpop, hlm⟩ := bst_leftmost_spec t none fuel hrep hne' (by omega)
    have hin := pop_left_inpairs t c w t' hpop
    have hlen : t.addrs.length = t'.inpairs.length + 1 := by
      rw [← inpairs_length t, hin]
      rfl
    have hwalk := bst_walk_linked fuel t'.inpairs (c, w)
      (by
        have := inpairs_fst t
        rw [hin] at this
        simp only [List.map_cons] at this
        rw [this]
        exact hlink)
      (by
        intro p hp
        rw [← hin] at hp
        exact Repr_pair_cell t none p.1 p.2 hrep ((inpairs_perm t).mem_iff.1 hp))
    rw [← hin] at hwalk
    refine ⟨c, t.inpairs.map (fun p => (p.1, p.2.1)), ?_, ?_, ?_, ?_, ?_, ?_⟩
    · rw [hroot]
      exact hlm
    · rw [hsz, hlen, hwalk, List.map_map]
      rfl
    · rw [List.length_map, inpairs_length, hsz]
    · rw [List.map_map]
      show (t.inpairs.map Prod.fst).Nodup
      rw [inpairs_fst]
      exact (inorder_perm t).nodup_iff.2 hd
    · intro a
      rw [List.map_map]
      show a ∈ t.inpairs.map Prod.fst ↔ _
      rw [inpairs_fst, hroot, Repr_reaches_iff hrep, (inorder_perm t).mem_iff]
    · rw [List.map_map]
      show (t.inpairs.map (fun p => p.2.1)).Pairwise _
      rw [inpairs_keys]
      exact inkeys_sorted hcmp t ho

theorem bst_ordering_witness :
    (∀ n nn d dn, Reaches sample_bst.1 sample_bst.2.root_ n → sample_bst.1.cell n = some nn →
      sample_bst.1.cell d = some dn →
      (Reaches sample_bst.1 nn.left_ d → less dn.data_.1 nn.data_.1 = true) ∧
      (Reaches sample_bst.1 nn.right_ d → less nn.data_.1 dn.data_.1 = true)) ∧
    (sample_bst.2.size ≠ 0 → ∃ (c : Nat) (vs : List (Nat × Nat)),
      Bst.leftmost 3 sample_bst.1 sample_bst.2.root_ = Except.ok (some c) ∧
      Bst.walk 3 sample_bst.1 sample_bst.2.size (some c)
        = Except.ok (vs.map (fun p => (some p.1, p.2)), none) ∧
      vs.length = sample_bst.2.size ∧ (vs.map Prod.fst).Nodup ∧
      (∀ a, a ∈ vs.map Prod.fst ↔ Reaches sample_bst.1 sample_bst.2.root_ a) ∧
      (vs.map Prod.snd).Pairwise (fun x y => less x y = true)) :=
  bst_ordering less_strict_weak_order sample_bst_reachable 3 (by decide)

theorem sample_bst_inv : BInv sample_bst.1 sample_bst.2
    (Tree.node 0 (2, 20) (Tree.node 1 (1, 10) Tree.nil Tree.nil)
      (Tree.node 2 (3, 30) Tree.nil Tree.nil)) :=
  ⟨rfl, rfl, ⟨rfl, ⟨rfl, trivial, trivial⟩, ⟨rfl, trivial, trivial⟩⟩, by decide, by decide⟩

theorem sample_bst_ordered : BstOrdered less
    (Tree.node 0 ((2, 20) : Nat × Nat) (Tree.node 1 (1, 10) Tree.nil Tree.nil)
      (Tree.node 2 (3, 30) Tree.nil Tree.nil)) := by
  simp [BstOrdered, Tree.keys, Tree.pairs, less]

theorem sample_find_stored : ∀ fuel it,
    Bst.find less fuel sample_bst.1 sample_bst.2 2 = Except.ok it → it = ⟨some 1⟩
  | 0, it, e => by
    have h : Bst.find less 0 sample_bst.1 sample_bst.2 2 = Except.error Fault.out_of_fuel := rfl
    rw [h] at e
    cases e
  | 1, it, e => by
    have h : Bst.find less 1 sample_bst.1 sample_bst.2 2 = Except.error Fault.out_of_fuel := rfl
    rw [h] at e
    cases e
  | k + 2, it, e => by
    have h : Bst.find less (k + 2) sample_bst.1 sample_bst.2 2 = Except.ok ⟨some 1⟩ := rfl
    rw [h] at e
    cases e
    rfl

theorem sample_find_absent : ∀ fuel it,
    Bst.find less fuel sample_bst.1 sample_bst.2 4 ≠ Except.ok it
  | 0, it, e => by
    have h : Bst.find less 0 sample_bst.1 sample_bst.2 4 = Except.error Fault.out_of_fuel := rfl
    rw [h] at e
    cases e
  | 1, it, e => by
    have h : Bst.find less 1 sample_bst.1 sample_bst.2 4 = Except.error Fault.out_of_fuel := rfl
    rw [h] at e
    cases e
  | 2, it, e => by
    have h : Bst.find less 2 sample_bst.1 sample_bst.2 4 = Except.error Fault.out_of_fuel := rfl
    rw [h] at e
    cases e
  | k + 3, it, e => by
    have h : Bst.find less (k + 3) sample_bst.1 sample_bst.2 4
        = Except.error Fault.bad_access := rfl
    rw [h] at e
    cases e

/-- C35 fails on the map built by `insert((2, 20)); insert((1, 10)); insert((3, 30))`.
The key 2 is stored, in the root, but `find(2)` returns an iterator positioned on the
leftmost node below the root, whose entry is `(1, 10)`, and 1 is not equivalent to 2: the
constructor `BstIterator(BstNode*)` descends to `leftmost` of the node it is given. The
key 4 is not stored, and `find(4)` does not return `end()`: the constructor is called with
null, which `leftmost` dereferences, so with enough fuel for the search `find(4)` ends in
`Fault.bad_access`, and it returns for no fuel. -/
theorem find_not_at_key :
    BstReachable less sample_bst.1 sample_bst.2 ∧
    Bst.stores less sample_bst.1 sample_bst.2 2 ∧
    Bst.find less 3 sample_bst.1 sample_bst.2 2 = Except.ok ⟨some 1⟩ ∧
    (∀ fuel it, Bst.find less fuel sample_bst.1 sample_bst.2 2 = Except.ok it →
      it.star sample_bst.1 = Except.ok (1, 10)) ∧
    ¬ KeyEquiv less 1 2 ∧
    ¬ Bst.stores less sample_bst.1 sample_bst.2 4 ∧
    Bst.find_node less 3 sample_bst.1 sample_bst.2 4 = Except.ok none ∧
    Bst.find less 3 sample_bst.1 sample_bst.2 4 = Except.error Fault.bad_access ∧
    ∀ fuel it, Bst.find less fuel sample_bst.1 sample_bst.2 4 ≠ Except.ok it := by
  have hst := stores_iff less_strict_weak_order sample_bst_inv sample_bst_ordered
  refine ⟨sample_bst_reachable, (hst 2).2 ⟨0, rfl⟩, rfl, ?_, by simp [KeyEquiv, less], ?_, rfl,
    rfl, sample_find_absent⟩
  · intro fuel it e
    rw [sample_find_stored fuel it e]
    rfl
  · rw [hst 4]
    rintro ⟨f, hf⟩
    have h : Tree.bfind less 4 (Tree.node 0 ((2, 20) : Nat × Nat)
        (Tree.node 1 (1, 10) Tree.nil Tree.nil) (Tree.node 2 (3, 30) Tree.nil Tree.nil))
        = none := rfl
    rw [h] at hf
    cases hf

end idril
